import Mathlib

/-!
# nctl::HashSet: open addressing with leapfrog probing

A shallow embedding of `include/nctl/HashSet.h`.

* The four parallel arrays `delta1_`, `delta2_`, `hashes_`, `keys_` are lists; the
  constructor allocates `capacity_` elements for each of them.
* `unsigned int`, `uint8_t` and `hash_t` values are natural numbers.  Every index the
  code computes is at most `capacity_ + 255`, so no `unsigned int` operation of the code
  wraps around for capacities below `2 ^ 32 - 256`; the only narrowing store, the one of a
  delta into a `uint8_t`, is guarded by `FATAL_ASSERT(delta < 256)`.
* The hash functor `hashFunc_` and the constant `NullHash` (declared in
  `HashFunctions.h`) are parameters of every definition.
* A call either returns a value or stops: at one of the `FATAL_ASSERT`s, at an array
  access outside the allocated elements (undefined behaviour in C++), or because a loop
  never exits.  A stopped call reports the reason and the contents of the set at that
  moment.
* `while` loops are recursive functions with a step budget.  The chain walks never modify
  the set, so a walk that has not ended after `capacity_` hops has visited a bucket twice
  and never ends.  The outer loop of `remove` clears one non-zero delta per round trip,
  so it cannot run for more than `2 * capacity_` rounds.
-/

namespace nctl

/-- Reasons for which a call does not return. -/
inductive Fault
  /-- The check `FATAL_ASSERT_MSG(capacity > 0, ...)` of the constructor. -/
  | assertCapacity
  /-- The check `FATAL_ASSERT(delta < 256)` of `calcNewDelta`. -/
  | assertDelta
  /-- The check `FATAL_ASSERT(size_ < capacity_)` of `insertKey`. -/
  | assertSize
  /-- The check `FATAL_ASSERT(hashes_[index] == NullHash)` of `insertKey`. -/
  | assertEmpty
  /-- An array element outside the allocated ones is read or written. -/
  | outOfBounds
  /-- A loop never exits. -/
  | nonTermination
  deriving DecidableEq, Repr

/-- The data members of `HashSet<K, HashFunc>`. -/
structure HashSet (K : Type) where
  size_ : Nat
  capacity_ : Nat
  delta1_ : List Nat
  delta2_ : List Nat
  hashes_ : List Nat
  keys_ : List K
  deriving DecidableEq, Repr

deriving instance DecidableEq for Except

/-- The outcome of a call: its value, or the fault that stopped it and the set as it was
when the call stopped. -/
abbrev Run (K : Type) (α : Type) : Type := Except (Fault × HashSet K) α

/-- The faults that are a `FATAL_ASSERT` of the source; the other two are behaviour the
source has no check for. -/
def Fault.isAssert : Fault → Bool
  | Fault.assertCapacity => true
  | Fault.assertDelta => true
  | Fault.assertSize => true
  | Fault.assertEmpty => true
  | Fault.outOfBounds => false
  | Fault.nonTermination => false

/-- A call that returns, or that one of the `FATAL_ASSERT`s stops: it stays inside its
arrays and its loops exit. -/
def AssertOnly {K α : Type} (x : Run K α) : Prop :=
  ∀ f u, x = Except.error (f, u) → Fault.isAssert f = true

/-- A call that reads and writes only allocated elements of its arrays: it returns, or one
of the `FATAL_ASSERT`s stops it, or a loop of it never exits. -/
def InBounds {K α : Type} (x : Run K α) : Prop :=
  ∀ f u, x = Except.error (f, u) → f ≠ Fault.outOfBounds

section Code

variable {K : Type} [DecidableEq K]

/-- The read `xs[i]` of an array of the set `s`. -/
def rd {α : Type} (s : HashSet K) (xs : List α) (i : Nat) : Run K α :=
  match xs[i]? with
  | some v => pure v
  | none => throw (Fault.outOfBounds, s)

/-- The store `xs[i] = v` into an array of the set `s`. -/
def wr {α : Type} (s : HashSet K) (xs : List α) (i : Nat) (v : α) : Run K (List α) :=
  if i < xs.length then pure (xs.set i v) else throw (Fault.outOfBounds, s)

variable (hashFunc_ : K → Nat) (NullHash : Nat)

/-- The function `HashSet::clear`: every delta becomes 0, every hash `NullHash`. -/
def HashSet.clear (s : HashSet K) : HashSet K :=
  { s with
    delta1_ := List.replicate s.capacity_ 0
    delta2_ := List.replicate s.capacity_ 0
    hashes_ := List.replicate s.capacity_ NullHash
    size_ := 0 }

/-- One loop `for (unsigned int i = 0; i < capacity_; i++) xs[i] = v;` of `clear`: `n`
rounds, from the index `i` on. -/
def fillLoop {α : Type} (s : HashSet K) (v : α) : Nat → Nat → List α → Run K (List α)
  | 0, _, xs => pure xs
  | n + 1, i, xs => do
    let xs ← wr s xs i v
    fillLoop s v n (i + 1) xs

/-- The function `HashSet::clear` store by store: its three loops over the indices
`0 .. capacity_ - 1`, then `size_ = 0`.  On arrays of `capacity_` elements the result is
`HashSet.clear`. -/
def HashSet.clearLoops (s : HashSet K) : Run K (HashSet K) := do
  let delta1 ← fillLoop s 0 s.capacity_ 0 s.delta1_
  let delta2 ← fillLoop s 0 s.capacity_ 0 s.delta2_
  let hashes ← fillLoop s NullHash s.capacity_ 0 s.hashes_
  pure { s with delta1_ := delta1, delta2_ := delta2, hashes_ := hashes, size_ := 0 }

/-- The constructor `HashSet::HashSet(unsigned int capacity)`: the arrays are allocated
with `capacity` elements, the keys are default constructed, and `clear` is called. -/
def HashSet.construct [Inhabited K] (capacity : Nat) : Run K (HashSet K) :=
  let s : HashSet K :=
    { size_ := 0
      capacity_ := capacity
      delta1_ := List.replicate capacity 0
      delta2_ := List.replicate capacity 0
      hashes_ := List.replicate capacity 0
      keys_ := List.replicate capacity default }
  if capacity > 0 then pure (HashSet.clear NullHash s)
  else throw (Fault.assertCapacity, s)

/-- The function `HashSet::bucketFoundOrEmpty`. -/
def HashSet.bucketFoundOrEmpty (s : HashSet K) (index hash : Nat) (key : K) : Run K Bool := do
  let h ← rd s s.hashes_ index
  if h = NullHash then pure true
  else if h = hash then
    let k ← rd s s.keys_ index
    pure (decide (k = key))
  else pure false

/-- The function `HashSet::bucketFound`. -/
def HashSet.bucketFound (s : HashSet K) (index hash : Nat) (key : K) : Run K Bool := do
  let h ← rd s s.hashes_ index
  if h = hash then
    let k ← rd s s.keys_ index
    pure (decide (k = key))
  else pure false

/-- The function `HashSet::addDelta1`. -/
def HashSet.addDelta1 (s : HashSet K) (bucketIndex : Nat) : Run K Nat := do
  let d ← rd s s.delta1_ bucketIndex
  let newIndex := bucketIndex + d
  if newIndex > s.capacity_ - 1 then pure (newIndex - s.capacity_) else pure newIndex

/-- The function `HashSet::addDelta2`. -/
def HashSet.addDelta2 (s : HashSet K) (bucketIndex : Nat) : Run K Nat := do
  let d ← rd s s.delta2_ bucketIndex
  let newIndex := bucketIndex + d
  if newIndex > s.capacity_ - 1 then pure (newIndex - s.capacity_) else pure newIndex

/-- The function `HashSet::calcNewDelta`. -/
def HashSet.calcNewDelta (s : HashSet K) (bucketIndex newIndex : Nat) : Run K Nat :=
  let delta :=
    if newIndex ≥ bucketIndex then newIndex - bucketIndex
    else s.capacity_ - bucketIndex + newIndex
  if delta < 256 then pure delta else throw (Fault.assertDelta, s)

/-- One `for` loop of `linearSearch`: buckets `i`, `i + 1`, ... are tried, `n` of them;
the result is the first one that is empty or holds the key, if there is one. -/
def HashSet.linearSearchLoop (s : HashSet K) (hash : Nat) (key : K) :
    Nat → Nat → Run K (Option Nat)
  | 0, _ => pure none
  | n + 1, i => do
    if (← HashSet.bucketFoundOrEmpty NullHash s i hash key) then pure (some i)
    else HashSet.linearSearchLoop s hash key n (i + 1)

/-- The function `HashSet::linearSearch`: the first loop runs over `index .. capacity_ - 1`,
the second one over `0 .. index - 1`, and `index` is returned when both find nothing. -/
def HashSet.linearSearch (s : HashSet K) (index hash : Nat) (key : K) : Run K Nat := do
  match ← HashSet.linearSearchLoop NullHash s hash key (s.capacity_ - index) index with
  | some i => pure i
  | none =>
    match ← HashSet.linearSearchLoop NullHash s hash key index 0 with
    | some i => pure i
    | none => pure index

/-- The function `HashSet::insertKey`. -/
def HashSet.insertKey (s : HashSet K) (index hash : Nat) (key : K) : Run K (HashSet K) :=
  if s.size_ < s.capacity_ then do
    let h ← rd s s.hashes_ index
    if h = NullHash then do
      let hashes ← wr s s.hashes_ index hash
      let keys ← wr s s.keys_ index key
      pure { s with size_ := s.size_ + 1, hashes_ := hashes, keys_ := keys }
    else throw (Fault.assertEmpty, s)
  else throw (Fault.assertSize, s)

/-- The `while (delta2_[bucketIndex] != 0)` loop of `insert`: `none` when the key is found
on the way, else the bucket at which the chain ends. -/
def HashSet.insertLoop (s : HashSet K) (hash : Nat) (key : K) :
    Nat → Nat → Run K (Option Nat)
  | 0, _ => throw (Fault.nonTermination, s)
  | fuel + 1, bucketIndex => do
    if (← rd s s.delta2_ bucketIndex) ≠ 0 then
      let bucketIndex ← HashSet.addDelta2 s bucketIndex
      if (← HashSet.bucketFound s bucketIndex hash key) then pure none
      else HashSet.insertLoop s hash key fuel bucketIndex
    else pure (some bucketIndex)

/-- The function `HashSet::insert`: the returned flag and the set after the call. -/
def HashSet.insert (s : HashSet K) (key : K) : Run K (Bool × HashSet K) := do
  let hash := hashFunc_ key
  let bucketIndex := hash % s.capacity_
  if (← HashSet.bucketFoundOrEmpty NullHash s bucketIndex hash key) = false then
    if (← rd s s.delta1_ bucketIndex) ≠ 0 then
      let bucketIndex ← HashSet.addDelta1 s bucketIndex
      if (← HashSet.bucketFound s bucketIndex hash key) = false then
        match ← HashSet.insertLoop s hash key s.capacity_ bucketIndex with
        | none => pure (false, s)
        | some bucketIndex =>
          let newIndex ← HashSet.linearSearch NullHash s (bucketIndex + 1) hash key
          let delta ← HashSet.calcNewDelta s bucketIndex newIndex
          let delta2 ← wr s s.delta2_ bucketIndex delta
          let s' ← HashSet.insertKey NullHash { s with delta2_ := delta2 } newIndex hash key
          pure (true, s')
      else pure (false, s)
    else
      let newIndex ← HashSet.linearSearch NullHash s (bucketIndex + 1) hash key
      let delta ← HashSet.calcNewDelta s bucketIndex newIndex
      let delta1 ← wr s s.delta1_ bucketIndex delta
      let s' ← HashSet.insertKey NullHash { s with delta1_ := delta1 } newIndex hash key
      pure (true, s')
  else
    if (← rd s s.hashes_ bucketIndex) = NullHash then
      let s' ← HashSet.insertKey NullHash s bucketIndex hash key
      pure (true, s')
    else pure (false, s)

/-- The `while (delta2_[foundIndex] != 0)` loop of `findBucketIndex`; the result is
`(found, foundIndex, prevFoundIndex)`. -/
def HashSet.findBucketIndexLoop (s : HashSet K) (hash : Nat) (key : K) :
    Nat → Nat → Nat → Run K (Bool × Nat × Nat)
  | 0, _, _ => throw (Fault.nonTermination, s)
  | fuel + 1, foundIndex, prevFoundIndex => do
    if (← rd s s.delta2_ foundIndex) ≠ 0 then
      let next ← HashSet.addDelta2 s foundIndex
      if (← HashSet.bucketFound s next hash key) then pure (true, next, foundIndex)
      else HashSet.findBucketIndexLoop s hash key fuel next foundIndex
    else pure (false, foundIndex, prevFoundIndex)

/-- The function `HashSet::findBucketIndex`; the result is
`(found, foundIndex, prevFoundIndex)`.  Every caller passes variables initialised to 0,
which is what they still hold when the set is empty. -/
def HashSet.findBucketIndex (s : HashSet K) (key : K) : Run K (Bool × Nat × Nat) := do
  if s.size_ = 0 then pure (false, 0, 0)
  else
    let hash := hashFunc_ key
    let foundIndex := hash % s.capacity_
    if (← HashSet.bucketFoundOrEmpty NullHash s foundIndex hash key) = false then
      if (← rd s s.delta1_ foundIndex) ≠ 0 then
        let prevFoundIndex := foundIndex
        let foundIndex ← HashSet.addDelta1 s foundIndex
        if (← HashSet.bucketFound s foundIndex hash key) = false then
          HashSet.findBucketIndexLoop s hash key s.capacity_ foundIndex prevFoundIndex
        else pure (true, foundIndex, prevFoundIndex)
      else pure (false, foundIndex, foundIndex)
    else
      if (← rd s s.hashes_ foundIndex) ≠ NullHash then pure (true, foundIndex, foundIndex)
      else pure (false, foundIndex, foundIndex)

/-- The function `HashSet::contains`. -/
def HashSet.contains (s : HashSet K) (key : K) : Run K Bool := do
  let (found, _, _) ← HashSet.findBucketIndex hashFunc_ NullHash s key
  pure found

/-- The function `HashSet::find`: `none` for the null pointer, `some i` for `&keys_[i]`. -/
def HashSet.find (s : HashSet K) (key : K) : Run K (Option Nat) := do
  let (found, bucketIndex, _) ← HashSet.findBucketIndex hashFunc_ NullHash s key
  if found then pure (some bucketIndex) else pure none

/-- The buckets that a walk `while (delta2_[bucketIndex] != 0) bucketIndex =
addDelta2(bucketIndex)` visits from `bucketIndex` on, when no key stops it: this is the
walk of `insert` and of `findBucketIndex` for a key that is not found, and the walk of the
inner loop of `remove`. -/
def HashSet.chainLoop (s : HashSet K) : Nat → Nat → Run K (List Nat)
  | 0, _ => throw (Fault.nonTermination, s)
  | fuel + 1, bucketIndex => do
    if (← rd s s.delta2_ bucketIndex) ≠ 0 then
      let next ← HashSet.addDelta2 s bucketIndex
      let rest ← HashSet.chainLoop s fuel next
      pure (bucketIndex :: rest)
    else pure [bucketIndex]

/-- The buckets that a chain walk visits from the bucket `start`: `start` itself, the
bucket `delta1_[start]` leads to when it is not 0, and the buckets `delta2_` leads to from
there until it is 0. -/
def HashSet.chain (s : HashSet K) (start : Nat) : Run K (List Nat) := do
  if (← rd s s.delta1_ start) ≠ 0 then
    let first ← HashSet.addDelta1 s start
    let rest ← HashSet.chainLoop s s.capacity_ first
    pure (start :: rest)
  else pure [start]

/-- The inner `while (delta2_[lastBucketIndex] != 0)` loop of `remove`; the result is
`(secondLastBucketIndex, lastBucketIndex)`. -/
def HashSet.removeLastLoop (s : HashSet K) : Nat → Nat → Nat → Run K (Nat × Nat)
  | 0, _, _ => throw (Fault.nonTermination, s)
  | fuel + 1, secondLastBucketIndex, lastBucketIndex => do
    if (← rd s s.delta2_ lastBucketIndex) ≠ 0 then
      let next ← HashSet.addDelta2 s lastBucketIndex
      HashSet.removeLastLoop s fuel lastBucketIndex next
    else pure (secondLastBucketIndex, lastBucketIndex)

/-- The `while (delta1_[bucketIndex] != 0 || delta2_[bucketIndex] != 0)` loop of `remove`;
the result is the set and `bucketIndex` after the loop. -/
def HashSet.removeLoop : Nat → HashSet K → Nat → Run K (HashSet K × Nat)
  | 0, s, _ => throw (Fault.nonTermination, s)
  | fuel + 1, s, bucketIndex => do
    let d1 ← rd s s.delta1_ bucketIndex
    let more ← (if d1 ≠ 0 then pure true else do
      let d2 ← rd s s.delta2_ bucketIndex
      pure (decide (d2 ≠ 0)))
    if more then
      let first ← (if d1 ≠ 0 then HashSet.addDelta1 s bucketIndex else pure bucketIndex)
      let (s1, lastBucketIndex) ← (do
        let d2 ← rd s s.delta2_ first
        if d2 ≠ 0 then
          let (secondLastBucketIndex, lastBucketIndex) ←
            HashSet.removeLastLoop s s.capacity_ first first
          let delta2 ← wr s s.delta2_ secondLastBucketIndex 0
          pure ({ s with delta2_ := delta2 }, lastBucketIndex)
        else
          let delta1 ← wr s s.delta1_ bucketIndex 0
          pure ({ s with delta1_ := delta1 }, first))
      let s2 ← (if bucketIndex ≠ lastBucketIndex then do
          let k ← rd s1 s1.keys_ lastBucketIndex
          let keys ← wr s1 s1.keys_ bucketIndex k
          let h ← rd s1 s1.hashes_ lastBucketIndex
          let hashes ← wr s1 s1.hashes_ bucketIndex h
          pure { s1 with keys_ := keys, hashes_ := hashes }
        else pure s1)
      HashSet.removeLoop fuel s2 lastBucketIndex
    else pure (s, bucketIndex)

/-- The function `HashSet::remove`: the returned flag and the set after the call. -/
def HashSet.remove (s : HashSet K) (key : K) : Run K (Bool × HashSet K) := do
  let (found, foundBucketIndex, prevFoundBucketIndex) ←
    HashSet.findBucketIndex hashFunc_ NullHash s key
  if found then
    let h ← rd s s.hashes_ foundBucketIndex
    let last ← (if foundBucketIndex ≠ h % s.capacity_ then do
        let d2 ← rd s s.delta2_ foundBucketIndex
        pure (decide (d2 = 0))
      else pure false)
    let s1 ← (if last then do
        let first ← HashSet.addDelta1 s prevFoundBucketIndex
        if first = foundBucketIndex then
          let delta1 ← wr s s.delta1_ prevFoundBucketIndex 0
          pure { s with delta1_ := delta1 }
        else
          let second ← HashSet.addDelta2 s prevFoundBucketIndex
          if second = foundBucketIndex then
            let delta2 ← wr s s.delta2_ prevFoundBucketIndex 0
            pure { s with delta2_ := delta2 }
          else pure s
      else pure s)
    let (s2, bucketIndex) ← HashSet.removeLoop (2 * s.capacity_ + 1) s1 foundBucketIndex
    let hashes ← wr s2 s2.hashes_ bucketIndex NullHash
    pure (true, { s2 with hashes_ := hashes, size_ := s2.size_ - 1 })
  else pure (false, s)

/-- The `for` loop of `rehash` over the buckets `is` of the old set `s`: `hashSet` is the
new set, `rehashedKeys` the counter of the keys handed over so far. -/
def HashSet.rehashLoop (s : HashSet K) :
    List Nat → Nat → HashSet K → Run K (HashSet K)
  | [], _, hashSet => pure hashSet
  | i :: is, rehashedKeys, hashSet => do
    if (← rd s s.hashes_ i) ≠ NullHash then
      let k ← rd s s.keys_ i
      let (_, hashSet) ← HashSet.insert hashFunc_ NullHash hashSet k
      if rehashedKeys + 1 = s.size_ then pure hashSet
      else HashSet.rehashLoop s is (rehashedKeys + 1) hashSet
    else HashSet.rehashLoop s is rehashedKeys hashSet

/-- The function `HashSet::rehash`: the set after the call. -/
def HashSet.rehash [Inhabited K] (s : HashSet K) (count : Nat) : Run K (HashSet K) := do
  if s.size_ = 0 ∨ count < s.size_ then pure s
  else
    let hashSet ← HashSet.construct NullHash count
    HashSet.rehashLoop hashFunc_ NullHash s (List.range s.capacity_) 0 hashSet

/-- A call of the public interface that can change the set. -/
inductive Call (K : Type) where
  | insert (key : K)
  | remove (key : K)
  | clear
  | rehash (count : Nat)
  deriving DecidableEq, Repr

/-- The set after one call. -/
def HashSet.call [Inhabited K] (s : HashSet K) : Call K → Run K (HashSet K)
  | Call.insert key => do
    let (_, s') ← HashSet.insert hashFunc_ NullHash s key
    pure s'
  | Call.remove key => do
    let (_, s') ← HashSet.remove hashFunc_ NullHash s key
    pure s'
  | Call.clear => pure (HashSet.clear NullHash s)
  | Call.rehash count => HashSet.rehash hashFunc_ NullHash s count

/-- The set after a sequence of calls, made one after the other. -/
def HashSet.calls [Inhabited K] (s : HashSet K) : List (Call K) → Run K (HashSet K)
  | [] => pure s
  | c :: cs => do
    let s' ← HashSet.call hashFunc_ NullHash s c
    HashSet.calls s' cs

/-- The set that a sequence of calls leaves when it is made on a freshly constructed set
of the given capacity. -/
def HashSet.fromFresh [Inhabited K] (capacity : Nat) (cs : List (Call K)) : Run K (HashSet K) := do
  let s ← HashSet.construct NullHash capacity
  HashSet.calls hashFunc_ NullHash s cs

/-- The number of occupied buckets of a hash array: those whose hash is not `NullHash`. -/
def occupied (hashes : List Nat) : Nat :=
  hashes.countP (fun h => decide (h ≠ NullHash))

/-- The arrays of the set have `capacity_` elements each. -/
def HashSet.WF (s : HashSet K) : Prop :=
  s.delta1_.length = s.capacity_ ∧ s.delta2_.length = s.capacity_ ∧
    s.hashes_.length = s.capacity_ ∧ s.keys_.length = s.capacity_

/-- The shape of the chains of a set that only `insert` has changed, for a numbering
`rank` of the buckets: a delta that is not 0 leads to an occupied bucket numbered below
`size_`, a `delta2_` that is not 0 leads to a higher number, and an empty bucket has both
deltas 0. -/
def HashSet.Chained (s : HashSet K) (rank : Nat → Nat) : Prop :=
  (∀ (c d : Nat), s.delta1_[c]? = some d → d ≠ 0 →
    ∃ nx hv, HashSet.addDelta1 s c = Except.ok nx ∧ rank nx < s.size_ ∧
      s.hashes_[nx]? = some hv ∧ hv ≠ NullHash) ∧
  (∀ (c d : Nat), s.delta2_[c]? = some d → d ≠ 0 →
    ∃ nx hv, HashSet.addDelta2 s c = Except.ok nx ∧ rank c < rank nx ∧ rank nx < s.size_ ∧
      s.hashes_[nx]? = some hv ∧ hv ≠ NullHash) ∧
  (∀ (c : Nat), s.hashes_[c]? = some NullHash →
    s.delta1_[c]? = some 0 ∧ s.delta2_[c]? = some 0)

/-- More of the shape of a set that only `insert` has changed, for the same numbering: an
occupied bucket is numbered below `size_`; a `delta1_` that is not 0 leads to a higher
number, to a key whose ideal bucket is the bucket the delta belongs to; and every stored
hash is the hash of the key stored with it. -/
def HashSet.Owned (s : HashSet K) (rank : Nat → Nat) : Prop :=
  (∀ (c hv : Nat), s.hashes_[c]? = some hv → hv ≠ NullHash → rank c < s.size_) ∧
  (∀ (c d : Nat), s.delta1_[c]? = some d → d ≠ 0 →
    ∃ nx hv, HashSet.addDelta1 s c = Except.ok nx ∧ rank c < rank nx ∧
      s.hashes_[nx]? = some hv ∧ hv % s.capacity_ = c) ∧
  (∀ (c hv : Nat) (kv : K), s.hashes_[c]? = some hv → hv ≠ NullHash →
    s.keys_[c]? = some kv → hv = hashFunc_ kv)

/-- What is left of the shape of the chains while `remove` clears deltas and moves keys:
every delta that is not 0 leads to a bucket inside the table with a higher number, and
the numbers along `delta2_` stay below `capacity_`. -/
def HashSet.Ranked (s : HashSet K) (rank : Nat → Nat) : Prop :=
  (∀ (c d : Nat), s.delta1_[c]? = some d → d ≠ 0 →
    ∃ nx, HashSet.addDelta1 s c = Except.ok nx ∧ nx < s.capacity_ ∧ rank c < rank nx) ∧
  (∀ (c d : Nat), s.delta2_[c]? = some d → d ≠ 0 →
    ∃ nx, HashSet.addDelta2 s c = Except.ok nx ∧ nx < s.capacity_ ∧ rank c < rank nx ∧
      rank nx < s.capacity_)

/-- The sets that `insert` calls alone make from a freshly constructed set. -/
def HashSet.InsertOnly [Inhabited K] (s : HashSet K) : Prop :=
  ∃ (capacity : Nat) (keys : List K),
    HashSet.fromFresh hashFunc_ NullHash capacity (keys.map Call.insert) = Except.ok s

/-- The chain of every bucket `i`, without `i` itself, consists of the buckets other than
`i` that hold a key whose ideal bucket `hash % capacity_` is `i`. -/
def HashSet.Listed (s : HashSet K) : Prop :=
  ∀ (i : Nat), i < s.capacity_ →
    ∃ w, HashSet.chain s i = Except.ok (i :: w) ∧
      ∀ (c : Nat), c ∈ w ↔
        (c ≠ i ∧ ∃ hv, s.hashes_[c]? = some hv ∧ hv ≠ NullHash ∧ hv % s.capacity_ = i)

/-- The calls `insert` and `remove`. -/
def Call.isInsertOrRemove : Call K → Bool
  | Call.insert _ => true
  | Call.remove _ => true
  | _ => false

/-- The calls `insert`, `remove` and `clear`, which keep the capacity of the set. -/
def Call.keepsCapacity : Call K → Bool
  | Call.rehash _ => false
  | _ => true

/-- The sets that `insert` and `remove` calls make from a freshly constructed set. -/
def HashSet.Reachable [Inhabited K] (s : HashSet K) : Prop :=
  ∃ (capacity : Nat) (cs : List (Call K)),
    (∀ c ∈ cs, Call.isInsertOrRemove c = true) ∧
      HashSet.fromFresh hashFunc_ NullHash capacity cs = Except.ok s

/-- A set of non-zero capacity whose arrays have `capacity_` elements and whose delta
bytes are all smaller than `capacity_`. -/
def HashSet.InRange (s : HashSet K) : Prop :=
  s.WF ∧ 0 < s.capacity_ ∧
    (∀ (i d : Nat), s.delta1_[i]? = some d → d < s.capacity_) ∧
    (∀ (i d : Nat), s.delta2_[i]? = some d → d < s.capacity_)

/-- The buckets that the `delta2_` links lead to from the bucket `a`: `a` itself, and the
buckets that they lead to from the bucket `delta2_[a]`, when it is not 0, leads to. -/
inductive HashSet.Walk (s : HashSet K) : Nat → Nat → Prop
  | here (a : Nat) : HashSet.Walk s a a
  | next (a nx c d : Nat) : s.delta2_[a]? = some d → d ≠ 0 →
      HashSet.addDelta2 s a = Except.ok nx → HashSet.Walk s nx c → HashSet.Walk s a c

/-- The buckets that a lookup started at the bucket `i` can visit: `i` itself, the bucket
`delta1_[i]`, when it is not 0, leads to, and the buckets the `delta2_` links lead to from
there. -/
def HashSet.OnChain (s : HashSet K) (i c : Nat) : Prop :=
  c = i ∨ ∃ d f, s.delta1_[i]? = some d ∧ d ≠ 0 ∧
    HashSet.addDelta1 s i = Except.ok f ∧ HashSet.Walk s f c

/-- The set `t` in the compaction loop of a `remove` that found its key in the bucket `b0`
of the set `s`, when the loop is about to vacate the bucket `v`.  The buckets numbered
above `v` are what they were in `s`; every bucket other than `v` that is occupied is on
the chain of the ideal bucket of its key, and that ideal bucket is occupied; and the
buckets other than `v` hold the hashes and keys that the buckets other than `b0` held in
`s`. -/
structure HashSet.Compacting (s : HashSet K) (b0 : Nat) (rank : Nat → Nat) (t : HashSet K)
    (v : Nat) : Prop where
  wf : t.WF
  cap : t.capacity_ = s.capacity_
  size : t.size_ = s.size_
  ranked : HashSet.Ranked t rank
  vlt : v < t.capacity_
  rk : rank b0 ≤ rank v
  above : ∀ (c : Nat), rank v < rank c →
    t.hashes_[c]? = s.hashes_[c]? ∧ t.keys_[c]? = s.keys_[c]? ∧
    t.delta1_[c]? = s.delta1_[c]? ∧ t.delta2_[c]? = s.delta2_[c]?
  d1 : t.delta1_[v]? = s.delta1_[v]?
  full : ∃ hv, t.hashes_[v]? = some hv ∧ hv ≠ NullHash
  findable : ∀ (c hv : Nat), c ≠ v → t.hashes_[c]? = some hv → hv ≠ NullHash →
    HashSet.OnChain t (hv % t.capacity_) c ∧
    (c ≠ hv % t.capacity_ →
      ∃ hi, t.hashes_[hv % t.capacity_]? = some hi ∧ hi ≠ NullHash)
  fromOld : ∀ (c hv : Nat), c ≠ v → t.hashes_[c]? = some hv → hv ≠ NullHash →
    ∃ c', c' ≠ b0 ∧ s.hashes_[c']? = some hv ∧ s.keys_[c']? = t.keys_[c]?
  toNew : ∀ (c' hv : Nat), c' ≠ b0 → s.hashes_[c']? = some hv → hv ≠ NullHash →
    ∃ c, c ≠ v ∧ t.hashes_[c]? = some hv ∧ t.keys_[c]? = s.keys_[c']?

/-- The set of capacity 8 the constructor makes. -/
def collisionZero [Inhabited K] : HashSet K :=
  { size_ := 0, capacity_ := 8,
    delta1_ := [0, 0, 0, 0, 0, 0, 0, 0], delta2_ := [0, 0, 0, 0, 0, 0, 0, 0],
    hashes_ := [NullHash, NullHash, NullHash, NullHash, NullHash, NullHash, NullHash,
      NullHash],
    keys_ := [default, default, default, default, default, default, default, default] }

/-- The set `collisionZero` with a key `a` of hash 3 in bucket 3. -/
def collisionOne [Inhabited K] (a : K) : HashSet K :=
  { size_ := 1, capacity_ := 8,
    delta1_ := [0, 0, 0, 0, 0, 0, 0, 0], delta2_ := [0, 0, 0, 0, 0, 0, 0, 0],
    hashes_ := [NullHash, NullHash, NullHash, 3, NullHash, NullHash, NullHash, NullHash],
    keys_ := [default, default, default, a, default, default, default, default] }

/-- The set `collisionOne` with a key `b` of hash 11 in bucket 4, behind `delta1_[3]`. -/
def collisionTwo [Inhabited K] (a b : K) : HashSet K :=
  { size_ := 2, capacity_ := 8,
    delta1_ := [0, 0, 0, 1, 0, 0, 0, 0], delta2_ := [0, 0, 0, 0, 0, 0, 0, 0],
    hashes_ := [NullHash, NullHash, NullHash, 3, 11, NullHash, NullHash, NullHash],
    keys_ := [default, default, default, a, b, default, default, default] }

/-- The set `collisionTwo` with a key `c` of hash 19 in bucket 5, behind `delta2_[4]`. -/
def collisionThree [Inhabited K] (a b c : K) : HashSet K :=
  { size_ := 3, capacity_ := 8,
    delta1_ := [0, 0, 0, 1, 0, 0, 0, 0], delta2_ := [0, 0, 0, 0, 1, 0, 0, 0],
    hashes_ := [NullHash, NullHash, NullHash, 3, 11, 19, NullHash, NullHash],
    keys_ := [default, default, default, a, b, c, default, default] }

end Code

section Examples

/-- An example of a hash functor, on natural numbers.  It never returns 0, the value taken
for `NullHash` in the examples. -/
def exampleHash (k : Nat) : Nat := k + 1

/-- The set `HashSet<unsigned>(4)` after `insert(0)`: the key is in its ideal bucket 1. -/
def exampleOne : HashSet Nat :=
  { size_ := 1, capacity_ := 4, delta1_ := [0, 0, 0, 0], delta2_ := [0, 0, 0, 0],
    hashes_ := [0, 1, 0, 0], keys_ := [0, 0, 0, 0] }

/-- The set `exampleOne` after `insert(4)`: the ideal bucket 1 is taken, the key is in
bucket 2 and `delta1_[1]` leads there. -/
def exampleTwo : HashSet Nat :=
  { size_ := 2, capacity_ := 4, delta1_ := [0, 1, 0, 0], delta2_ := [0, 0, 0, 0],
    hashes_ := [0, 1, 5, 0], keys_ := [0, 0, 4, 0] }

/-- Seven calls on a set of capacity 4 that leave the key 1, ideal bucket 2, in bucket 1. -/
def lostKeyCalls : List (Call Nat) :=
  [Call.insert 0, Call.insert 4, Call.insert 1, Call.insert 8,
   Call.remove 4, Call.remove 0, Call.remove 8]

/-- The set that `lostKeyCalls` make. -/
def lostKeySet : HashSet Nat :=
  { size_ := 1, capacity_ := 4, delta1_ := [0, 0, 0, 0], delta2_ := [0, 0, 0, 0],
    hashes_ := [0, 2, 0, 0], keys_ := [8, 1, 1, 1] }

/-- The set that `lostKeyCalls` and one more `insert(1)` make: the key 1 is stored twice. -/
def twiceStoredSet : HashSet Nat :=
  { size_ := 2, capacity_ := 4, delta1_ := [0, 0, 0, 0], delta2_ := [0, 0, 0, 0],
    hashes_ := [0, 2, 2, 0], keys_ := [8, 1, 1, 1] }

/-- Twelve calls on a set of capacity 5 that store the key 10 twice. -/
def twiceTenCalls : List (Call Nat) :=
  [Call.insert 0, Call.insert 5, Call.insert 1, Call.insert 2, Call.insert 6,
   Call.remove 1, Call.remove 6, Call.remove 2, Call.insert 10,
   Call.remove 5, Call.remove 0, Call.insert 10]

/-- The set that `twiceTenCalls` make. -/
def twiceTenSet : HashSet Nat :=
  { size_ := 2, capacity_ := 5, delta1_ := [0, 1, 0, 0, 0], delta2_ := [0, 0, 0, 0, 0],
    hashes_ := [0, 11, 11, 0, 0], keys_ := [6, 10, 10, 10, 2] }

/-- The set `twiceTenSet` after `remove(10)`. -/
def onceTenSet : HashSet Nat :=
  { size_ := 1, capacity_ := 5, delta1_ := [0, 0, 0, 0, 0], delta2_ := [0, 0, 0, 0, 0],
    hashes_ := [0, 11, 0, 0, 0], keys_ := [6, 10, 10, 10, 2] }

/-- Nine calls on a set of capacity 4 that leave the key 1, ideal bucket 2, in bucket 1 of
a set that is not full. -/
def misplacedKeyCalls : List (Call Nat) :=
  [Call.insert 0, Call.insert 4, Call.insert 8, Call.insert 1, Call.remove 4,
   Call.insert 5, Call.remove 0, Call.insert 9, Call.remove 8]

/-- The set that `misplacedKeyCalls` make. -/
def misplacedKeySet : HashSet Nat :=
  { size_ := 3, capacity_ := 4, delta1_ := [0, 0, 2, 0], delta2_ := [0, 0, 0, 0],
    hashes_ := [6, 2, 10, 0], keys_ := [5, 1, 9, 9] }

/-- Nine calls on a set of capacity 257: the first seven leave the key 1 in bucket 1, which
is not on the chain of its ideal bucket 2; then 258 goes to bucket 2 and 256 to bucket 0. -/
def strandedKeyCalls : List (Call Nat) :=
  [Call.insert 0, Call.insert 257, Call.insert 1, Call.insert 514,
   Call.remove 257, Call.remove 0, Call.remove 514, Call.insert 258, Call.insert 256]

/-- Calls that fill a set of capacity 257: `strandedKeyCalls`, and then the keys 2 .. 255,
which go to their ideal buckets 3 .. 256. -/
def fullSetCalls : List (Call Nat) :=
  strandedKeyCalls ++ (List.range' 2 254).map Call.insert

/-- The set that `strandedKeyCalls` and, after them, `insert` of the keys `2 .. m + 1`
make. -/
def fillSet (m : Nat) : HashSet Nat :=
  { size_ := 3 + m, capacity_ := 257,
    delta1_ := List.replicate 257 0, delta2_ := List.replicate 257 0,
    hashes_ := [257, 2, 259] ++ List.range' 3 m ++ List.replicate (254 - m) 0,
    keys_ := [256, 1, 258] ++ List.range' 2 m ++
      List.drop m ([1, 514] ++ List.replicate 252 0) }

/-- Ten calls on a set of capacity 4 after which the `delta2_` links of the buckets 0 and
2 lead to each other. -/
def cycleCalls : List (Call Nat) :=
  [Call.insert 0, Call.insert 4, Call.insert 1, Call.insert 8, Call.remove 4,
   Call.insert 2, Call.remove 0, Call.remove 1, Call.insert 0, Call.insert 4]

/-- The set that `cycleCalls` make: `delta1_[1]` leads to bucket 2, `delta2_[2]` to
bucket 0 and `delta2_[0]` back to bucket 2. -/
def cycleSet : HashSet Nat :=
  { size_ := 4, capacity_ := 4, delta1_ := [0, 1, 0, 0], delta2_ := [2, 0, 2, 0],
    hashes_ := [1, 9, 5, 3], keys_ := [0, 8, 4, 2] }

/-- Seven calls on a set of capacity 4 after which `delta1_[1]` leads to an empty
bucket. -/
def holeCalls : List (Call Nat) :=
  [Call.insert 0, Call.insert 4, Call.insert 1, Call.insert 8,
   Call.remove 4, Call.remove 0, Call.remove 1]

/-- The set that `holeCalls` make: the key 8 in bucket 1, and `delta1_[1]` leads to the
empty bucket 2. -/
def holeSet : HashSet Nat :=
  { size_ := 1, capacity_ := 4, delta1_ := [0, 1, 0, 0], delta2_ := [0, 0, 0, 0],
    hashes_ := [0, 9, 0, 0], keys_ := [8, 8, 1, 1] }

/-- The calls `holeCalls` and two more that fill the buckets 3 and 0: bucket 2, the only
empty one, is where the chain of bucket 1 ends. -/
def zeroDeltaCalls : List (Call Nat) :=
  holeCalls ++ [Call.insert 2, Call.insert 3]

/-- The set that `zeroDeltaCalls` make. -/
def zeroDeltaSet : HashSet Nat :=
  { size_ := 3, capacity_ := 4, delta1_ := [0, 1, 0, 0], delta2_ := [0, 0, 0, 0],
    hashes_ := [4, 9, 0, 3], keys_ := [3, 8, 1, 2] }

/-- The set `zeroDeltaSet` after `insert(0)`: the key is in bucket 2 and no delta has
changed. -/
def zeroDeltaAfter : HashSet Nat :=
  { size_ := 4, capacity_ := 4, delta1_ := [0, 1, 0, 0], delta2_ := [0, 0, 0, 0],
    hashes_ := [4, 9, 1, 3], keys_ := [3, 8, 0, 2] }

/-- The set `HashSet<unsigned>(4)` after `insert(0)`, `insert(4)`, `insert(1)`: the keys 0
and 4 have the ideal bucket 1 and fill the buckets 1 and 2; the key 1, whose ideal bucket
2 is taken by the key 4, is in bucket 3 behind `delta1_[2]`. -/
def foreignSet : HashSet Nat :=
  { size_ := 3, capacity_ := 4, delta1_ := [0, 1, 1, 0], delta2_ := [0, 0, 0, 0],
    hashes_ := [0, 1, 5, 2], keys_ := [0, 0, 4, 1] }

/-- The set `HashSet<unsigned>(4)` after `insert(0)`, `insert(4)`, `insert(8)`: three keys
of ideal bucket 1, in the buckets 1, 2 and 3, linked by `delta1_[1]` and `delta2_[2]`. -/
def chainSet : HashSet Nat :=
  { size_ := 3, capacity_ := 4, delta1_ := [0, 1, 0, 0], delta2_ := [0, 0, 1, 0],
    hashes_ := [0, 1, 5, 9], keys_ := [0, 0, 4, 8] }

/-- The set `chainSet` after `remove(0)`: the key 8 of the last bucket of the chain is in
bucket 1, the key 4 is still in bucket 2 behind `delta1_[1]`. -/
def chainAfter : HashSet Nat :=
  { size_ := 2, capacity_ := 4, delta1_ := [0, 1, 0, 0], delta2_ := [0, 0, 0, 0],
    hashes_ := [0, 9, 5, 0], keys_ := [0, 8, 4, 8] }

/-- The set `HashSet<unsigned>(4)` after `insert(0)`, `insert(4)`, `insert(1)`,
`insert(8)`: bucket 2 holds the key 4 of ideal bucket 1; `delta1_[2]` leads to bucket 3,
which holds the key 1 of ideal bucket 2, and `delta2_[2]` leads to bucket 0, which holds
the key 8, the last one of the chain of bucket 1. -/
def tieSet : HashSet Nat :=
  { size_ := 4, capacity_ := 4, delta1_ := [0, 1, 1, 0], delta2_ := [0, 0, 2, 0],
    hashes_ := [9, 1, 5, 2], keys_ := [8, 0, 4, 1] }

/-- The set `tieSet` after `remove(4)`: bucket 2 holds the key 1 that was in bucket 3,
`delta1_[2]` is 0, and `delta2_[2]` still leads to bucket 0 with the key 8. -/
def tieAfter : HashSet Nat :=
  { size_ := 3, capacity_ := 4, delta1_ := [0, 1, 0, 0], delta2_ := [0, 0, 2, 0],
    hashes_ := [9, 1, 2, 0], keys_ := [8, 0, 1, 1] }

end Examples

end nctl

namespace nctl

set_option linter.unusedSectionVars false
set_option linter.unusedVariables false

section Proofs




theorem bind_ok {ε α β : Type} (x : Except ε α) (f : α → Except ε β) (b : β) :
    (x >>= f) = Except.ok b ↔ ∃ a, x = Except.ok a ∧ f a = Except.ok b := by
  cases x <;> simp [bind, Except.bind]

theorem map_ok {ε α β : Type} (x : Except ε α) (f : α → β) (b : β) :
    (f <$> x) = Except.ok b ↔ ∃ a, x = Except.ok a ∧ f a = b := by
  cases x <;> simp [Functor.map, Except.map]

theorem ok_bind {ε α β : Type} (a : α) (f : α → Except ε β) :
    (Except.ok a >>= f) = f a := rfl

theorem error_bind {ε α β : Type} (e : ε) (f : α → Except ε β) :
    ((Except.error e : Except ε α) >>= f) = Except.error e := rfl

theorem pure_ok {ε α : Type} (a b : α) : (pure a : Except ε α) = Except.ok b ↔ a = b := by
  simp [pure, Except.pure]

theorem throw_ok {ε α : Type} (e : ε) (b : α) : (throw e : Except ε α) = Except.ok b ↔ False := by
  simp [throw, throwThe, MonadExceptOf.throw]

variable {K : Type}

theorem rd_ok {α : Type} (s : HashSet K) (xs : List α) (i : Nat) (v : α) :
    rd s xs i = Except.ok v ↔ xs[i]? = some v := by
  unfold rd
  cases h : xs[i]? <;> simp [pure_ok, throw_ok]

theorem wr_ok {α : Type} (s : HashSet K) (xs : List α) (i : Nat) (v : α) (ys : List α) :
    wr s xs i v = Except.ok ys ↔ i < xs.length ∧ ys = xs.set i v := by
  unfold wr
  by_cases h : i < xs.length
  · simp only [h, if_true, pure_ok, true_and]
    exact eq_comm
  · simp [h, throw_ok]

variable [DecidableEq K] (hashFunc_ : K → Nat) (NullHash : Nat)

theorem bucketFound_true (s : HashSet K) (i h : Nat) (k : K) :
    HashSet.bucketFound s i h k = Except.ok true ↔ s.hashes_[i]? = some h ∧ s.keys_[i]? = some k := by
  unfold HashSet.bucketFound
  simp only [bind_ok, rd_ok]
  constructor
  · rintro ⟨hv, h1, h2⟩
    by_cases e : hv = h
    · subst e
      simp only [if_true, bind_ok, rd_ok, pure_ok, decide_eq_true_eq] at h2
      obtain ⟨kv, h3, rfl⟩ := h2
      exact ⟨h1, h3⟩
    · simp [e, pure_ok] at h2
  · rintro ⟨h1, h2⟩
    exact ⟨h, h1, by simp [map_ok, rd_ok, h2]⟩

theorem bucketFound_false (s : HashSet K) (i h : Nat) (k : K) :
    HashSet.bucketFound s i h k = Except.ok false ↔
      ∃ hv, s.hashes_[i]? = some hv ∧ (hv = h → ∃ kv, s.keys_[i]? = some kv ∧ kv ≠ k) := by
  unfold HashSet.bucketFound
  simp only [bind_ok, rd_ok]
  constructor
  · rintro ⟨hv, h1, h2⟩
    refine ⟨hv, h1, fun e => ?_⟩
    simpa [e, map_ok, bind_ok, pure_ok, rd_ok] using h2
  · rintro ⟨hv, h1, h2⟩
    refine ⟨hv, h1, ?_⟩
    by_cases e : hv = h
    · obtain ⟨kv, h3, h4⟩ := h2 e
      simp [e, map_ok, rd_ok, h3, h4]
    · simp [e, pure_ok]

theorem bucketFoundOrEmpty_false (s : HashSet K) (i h : Nat) (k : K) :
    HashSet.bucketFoundOrEmpty NullHash s i h k = Except.ok false ↔
      ∃ hv, s.hashes_[i]? = some hv ∧ hv ≠ NullHash ∧
        (hv = h → ∃ kv, s.keys_[i]? = some kv ∧ kv ≠ k) := by
  unfold HashSet.bucketFoundOrEmpty
  simp only [bind_ok, rd_ok]
  constructor
  · rintro ⟨hv, h1, h2⟩
    by_cases n : hv = NullHash
    · simp [n, pure_ok] at h2
    · refine ⟨hv, h1, n, fun e => ?_⟩
      subst e
      simpa [n, map_ok, bind_ok, pure_ok, rd_ok] using h2
  · rintro ⟨hv, h1, n, h2⟩
    refine ⟨hv, h1, ?_⟩
    by_cases e : hv = h
    · obtain ⟨kv, h3, h4⟩ := h2 e
      subst e
      simp [n, map_ok, rd_ok, h3, h4]
    · simp [n, e, pure_ok]

theorem bucketFoundOrEmpty_true (s : HashSet K) (i h : Nat) (k : K) :
    HashSet.bucketFoundOrEmpty NullHash s i h k = Except.ok true ↔
      s.hashes_[i]? = some NullHash ∨
        (h ≠ NullHash ∧ s.hashes_[i]? = some h ∧ s.keys_[i]? = some k) := by
  unfold HashSet.bucketFoundOrEmpty
  simp only [bind_ok, rd_ok]
  constructor
  · rintro ⟨hv, h1, h2⟩
    by_cases n : hv = NullHash
    · left; rw [h1, n]
    · right
      by_cases e : hv = h
      · subst e
        simp only [n, if_false, if_true, map_ok, bind_ok, rd_ok, pure_ok, decide_eq_true_eq] at h2
        obtain ⟨kv, h3, rfl⟩ := h2
        exact ⟨n, h1, h3⟩
      · simp [n, e, pure_ok] at h2
  · rintro (h1 | ⟨n, h1, h2⟩)
    · exact ⟨NullHash, h1, by simp [pure_ok]⟩
    · exact ⟨h, h1, by simp [n, map_ok, rd_ok, h2]⟩



theorem addDelta1_ok (s : HashSet K) (b n : Nat) :
    HashSet.addDelta1 s b = Except.ok n ↔
      ∃ d, s.delta1_[b]? = some d ∧
        n = if b + d > s.capacity_ - 1 then b + d - s.capacity_ else b + d := by
  unfold HashSet.addDelta1
  simp only [bind_ok, rd_ok]
  constructor
  · rintro ⟨d, h1, h2⟩
    refine ⟨d, h1, ?_⟩
    by_cases c : b + d > s.capacity_ - 1 <;>
      simp only [c, if_true, if_false, pure_ok] at h2 ⊢ <;> exact h2.symm
  · rintro ⟨d, h1, h2⟩
    refine ⟨d, h1, ?_⟩
    by_cases c : b + d > s.capacity_ - 1 <;>
      simp only [c, if_true, if_false, pure_ok] at h2 ⊢ <;> exact h2.symm

theorem addDelta2_ok (s : HashSet K) (b n : Nat) :
    HashSet.addDelta2 s b = Except.ok n ↔
      ∃ d, s.delta2_[b]? = some d ∧
        n = if b + d > s.capacity_ - 1 then b + d - s.capacity_ else b + d := by
  unfold HashSet.addDelta2
  simp only [bind_ok, rd_ok]
  constructor
  · rintro ⟨d, h1, h2⟩
    refine ⟨d, h1, ?_⟩
    by_cases c : b + d > s.capacity_ - 1 <;>
      simp only [c, if_true, if_false, pure_ok] at h2 ⊢ <;> exact h2.symm
  · rintro ⟨d, h1, h2⟩
    refine ⟨d, h1, ?_⟩
    by_cases c : b + d > s.capacity_ - 1 <;>
      simp only [c, if_true, if_false, pure_ok] at h2 ⊢ <;> exact h2.symm

theorem calcNewDelta_ok (s : HashSet K) (b n d : Nat) :
    HashSet.calcNewDelta s b n = Except.ok d ↔
      d < 256 ∧ d = if n ≥ b then n - b else s.capacity_ - b + n := by
  unfold HashSet.calcNewDelta
  by_cases c : (if n ≥ b then n - b else s.capacity_ - b + n) < 256
  · simp only [c, if_true, pure_ok]
    constructor
    · intro h; subst h; exact ⟨c, rfl⟩
    · intro h; exact h.2.symm
  · simp only [c, if_false, throw_ok, false_iff]
    rintro ⟨h1, h2⟩
    exact c (h2 ▸ h1)

theorem insertKey_ok (s s' : HashSet K) (i h : Nat) (k : K) :
    HashSet.insertKey NullHash s i h k = Except.ok s' ↔
      s.size_ < s.capacity_ ∧ s.hashes_[i]? = some NullHash ∧ i < s.keys_.length ∧
        s' = { s with size_ := s.size_ + 1, hashes_ := s.hashes_.set i h,
                      keys_ := s.keys_.set i k } := by
  unfold HashSet.insertKey
  by_cases c : s.size_ < s.capacity_
  · simp only [c, if_true, bind_ok, rd_ok, true_and]
    constructor
    · rintro ⟨hv, h1, h2⟩
      by_cases e : hv = NullHash
      · subst e
        simp only [if_true, bind_ok, wr_ok, pure_ok] at h2
        obtain ⟨hs, ⟨_, rfl⟩, ks, ⟨h4, rfl⟩, rfl⟩ := h2
        exact ⟨h1, h4, rfl⟩
      · simp [e, throw_ok] at h2
    · rintro ⟨h1, h2, rfl⟩
      refine ⟨NullHash, h1, ?_⟩
      have hl : i < s.hashes_.length := by
        rcases List.getElem?_eq_some.1 h1 with ⟨hl, -⟩
        exact hl
      simp [bind_ok, map_ok, wr_ok, pure_ok, hl, h2]
  · simp [c, throw_ok]



/-- The loop of `insert` and the loop of `findBucketIndex` make the same walk. -/
theorem insertLoop_eq (s : HashSet K) (h : Nat) (k : K) (fuel : Nat) :
    ∀ b p, HashSet.insertLoop s h k fuel b =
      (fun r : Bool × Nat × Nat => if r.1 then none else some r.2.1) <$>
        HashSet.findBucketIndexLoop s h k fuel b p := by
  induction fuel with
  | zero => intro b p; rfl
  | succ fuel ih =>
    intro b p
    unfold HashSet.insertLoop HashSet.findBucketIndexLoop
    cases h1 : rd s s.delta2_ b with
    | error e => rfl
    | ok d =>
      by_cases hd : d = 0
      · subst hd; rfl
      · cases h2 : HashSet.addDelta2 s b with
        | error e => simp [hd, h2, bind, Except.bind, Functor.map, Except.map]
        | ok n =>
          cases h3 : HashSet.bucketFound s n h k with
          | error e => simp [hd, h2, h3, bind, Except.bind, Functor.map, Except.map]
          | ok r =>
            cases r
            · have := ih n b
              simp [hd, h2, h3, bind, Except.bind, Functor.map, Except.map] at this ⊢
              exact this
            · simp [hd, h2, h3, bind, Except.bind, Functor.map, Except.map, pure, Except.pure]


/-- A successful lookup makes `insert` return false and leave the set as it is. -/
theorem insert_of_found (s : HashSet K) (k : K) (f p : Nat)
    (h : HashSet.findBucketIndex hashFunc_ NullHash s k = Except.ok (true, f, p)) :
    HashSet.insert hashFunc_ NullHash s k = Except.ok (false, s) := by
  unfold HashSet.findBucketIndex at h
  unfold HashSet.insert
  by_cases hz : s.size_ = 0
  · simp [hz, pure_ok] at h
  · simp only [hz, if_false, bind_ok] at h
    obtain ⟨b, hb, h⟩ := h
    simp only [hb, ok_bind]
    cases b
    · simp only [if_true, bind_ok] at h
      obtain ⟨d, hd, h⟩ := h
      simp only [hd, ok_bind, if_true]
      by_cases hd0 : d = 0
      · simp [hd0, pure_ok] at h
      · simp only [hd0, ne_eq, not_false_eq_true, if_true, bind_ok] at h
        obtain ⟨c0, hc0, b1, hb1, h⟩ := h
        simp only [hd0, ne_eq, not_false_eq_true, if_true, hc0, hb1, ok_bind]
        cases b1
        · simp only [if_true] at h ⊢
          rw [insertLoop_eq s (hashFunc_ k) k s.capacity_ c0 (hashFunc_ k % s.capacity_), h]
          rfl
        · rfl
    · simp only [Bool.true_eq_false, if_false, bind_ok] at h
      obtain ⟨hv, hhv, h⟩ := h
      simp only [Bool.true_eq_false, if_false, hhv, ok_bind]
      by_cases e : hv = NullHash
      · simp [e, pure_ok] at h
      · simp only [e, if_false]
        rfl


/-- What a returning `insert` has done.  Either the key was found (at its ideal bucket,
at the bucket `delta1_` leads to, or on the `delta2_` walk) and nothing changed, or the key
was stored by `insertKey`: in the empty ideal bucket, or in a bucket `n` linked by
`delta1_` from the ideal bucket, or in a bucket `n` linked by `delta2_` from the end `t`
of the walk. -/
theorem insert_ok_inv (s s' : HashSet K) (k : K) (r : Bool)
    (h : HashSet.insert hashFunc_ NullHash s k = Except.ok (r, s')) :
    (r = false ∧ s' = s ∧
      ((HashSet.bucketFoundOrEmpty NullHash s (hashFunc_ k % s.capacity_) (hashFunc_ k) k
            = Except.ok true ∧
          ∃ hv, s.hashes_[hashFunc_ k % s.capacity_]? = some hv ∧ hv ≠ NullHash) ∨
        (HashSet.bucketFoundOrEmpty NullHash s (hashFunc_ k % s.capacity_) (hashFunc_ k) k
            = Except.ok false ∧
          ∃ d c0, s.delta1_[hashFunc_ k % s.capacity_]? = some d ∧ d ≠ 0 ∧
            HashSet.addDelta1 s (hashFunc_ k % s.capacity_) = Except.ok c0 ∧
            (HashSet.bucketFound s c0 (hashFunc_ k) k = Except.ok true ∨
              (HashSet.bucketFound s c0 (hashFunc_ k) k = Except.ok false ∧
                HashSet.insertLoop s (hashFunc_ k) k s.capacity_ c0 = Except.ok none))))) ∨
    (r = true ∧
      ((s.hashes_[hashFunc_ k % s.capacity_]? = some NullHash ∧
          HashSet.insertKey NullHash s (hashFunc_ k % s.capacity_) (hashFunc_ k) k
            = Except.ok s') ∨
        (HashSet.bucketFoundOrEmpty NullHash s (hashFunc_ k % s.capacity_) (hashFunc_ k) k
            = Except.ok false ∧
          s.delta1_[hashFunc_ k % s.capacity_]? = some 0 ∧
          ∃ n d, HashSet.calcNewDelta s (hashFunc_ k % s.capacity_) n = Except.ok d ∧
            HashSet.insertKey NullHash
              { s with delta1_ := s.delta1_.set (hashFunc_ k % s.capacity_) d }
              n (hashFunc_ k) k = Except.ok s') ∨
        (HashSet.bucketFoundOrEmpty NullHash s (hashFunc_ k % s.capacity_) (hashFunc_ k) k
            = Except.ok false ∧
          ∃ d1 c0 t n d, s.delta1_[hashFunc_ k % s.capacity_]? = some d1 ∧ d1 ≠ 0 ∧
            HashSet.addDelta1 s (hashFunc_ k % s.capacity_) = Except.ok c0 ∧
            HashSet.bucketFound s c0 (hashFunc_ k) k = Except.ok false ∧
            HashSet.insertLoop s (hashFunc_ k) k s.capacity_ c0 = Except.ok (some t) ∧
            t < s.delta2_.length ∧
            HashSet.calcNewDelta s t n = Except.ok d ∧
            HashSet.insertKey NullHash { s with delta2_ := s.delta2_.set t d }
              n (hashFunc_ k) k = Except.ok s'))) := by
  unfold HashSet.insert at h
  simp only [bind_ok] at h
  obtain ⟨b, hb, h⟩ := h
  cases b
  · simp only [if_true, bind_ok, rd_ok] at h
    obtain ⟨d, hd, h⟩ := h
    by_cases hd0 : d = 0
    · subst hd0
      simp only [ne_eq, not_true_eq_false, if_false, bind_ok, wr_ok, pure_ok,
        Prod.mk.injEq] at h
      obtain ⟨n, -, d, hcalc, _, ⟨-, rfl⟩, s2, hkey, rfl, rfl⟩ := h
      exact Or.inr ⟨rfl, Or.inr (Or.inl ⟨hb, hd, n, d, hcalc, hkey⟩)⟩
    · simp only [hd0, ne_eq, not_false_eq_true, if_true, bind_ok] at h
      obtain ⟨c0, hc0, b1, hb1, h⟩ := h
      cases b1
      · simp only [if_true, bind_ok] at h
        obtain ⟨o, ho, h⟩ := h
        cases o with
        | none =>
          simp only [pure_ok, Prod.mk.injEq] at h
          obtain ⟨rfl, rfl⟩ := h
          exact Or.inl ⟨rfl, rfl, Or.inr ⟨hb, d, c0, hd, hd0, hc0, Or.inr ⟨hb1, ho⟩⟩⟩
        | some t =>
          simp only [bind_ok, wr_ok, pure_ok, Prod.mk.injEq] at h
          obtain ⟨n, -, d2, hcalc, _, ⟨ht, rfl⟩, s2, hkey, rfl, rfl⟩ := h
          exact Or.inr ⟨rfl, Or.inr (Or.inr
            ⟨hb, d, c0, t, n, d2, hd, hd0, hc0, hb1, ho, ht, hcalc, hkey⟩)⟩
      · simp only [Bool.true_eq_false, if_false, pure_ok, Prod.mk.injEq] at h
        obtain ⟨rfl, rfl⟩ := h
        exact Or.inl ⟨rfl, rfl, Or.inr ⟨hb, d, c0, hd, hd0, hc0, Or.inl hb1⟩⟩
  · simp only [Bool.true_eq_false, if_false, bind_ok, rd_ok] at h
    obtain ⟨hv, hhv, h⟩ := h
    by_cases e : hv = NullHash
    · subst e
      simp only [if_true, bind_ok, pure_ok, Prod.mk.injEq] at h
      obtain ⟨s2, hkey, rfl, rfl⟩ := h
      exact Or.inr ⟨rfl, Or.inl ⟨hhv, hkey⟩⟩
    · simp only [e, if_false, pure_ok, Prod.mk.injEq] at h
      obtain ⟨rfl, rfl⟩ := h
      exact Or.inl ⟨rfl, rfl, Or.inl ⟨hb, hv, hhv, e⟩⟩


/-- The walk of `insert` ends at a bucket whose `delta2_` is 0. -/
theorem insertLoop_some (s : HashSet K) (h : Nat) (k : K) (fuel : Nat) :
    ∀ b t, HashSet.insertLoop s h k fuel b = Except.ok (some t) →
      s.delta2_[t]? = some 0 := by
  induction fuel with
  | zero =>
    intro b t ht
    simp [HashSet.insertLoop, throw_ok] at ht
  | succ fuel ih =>
    intro b t ht
    unfold HashSet.insertLoop at ht
    simp only [bind_ok, rd_ok] at ht
    obtain ⟨d, hd, ht⟩ := ht
    by_cases hd0 : d = 0
    · subst hd0
      simp only [ne_eq, not_true_eq_false, if_false, pure_ok, Option.some.injEq] at ht
      subst ht
      exact hd
    · simp only [hd0, ne_eq, not_false_eq_true, if_true, bind_ok] at ht
      obtain ⟨n, -, b1, -, ht⟩ := ht
      cases b1
      · exact ih n t (by simpa using ht)
      · simp [pure_ok] at ht

theorem insert_frame_aux (s s' : HashSet K) (key : K) (r : Bool)
    (h : HashSet.insert hashFunc_ NullHash s key = Except.ok (r, s')) :
    (r = false → s' = s) ∧
    (r = true →
      s.size_ < s.capacity_ ∧ s'.size_ = s.size_ + 1 ∧ s'.capacity_ = s.capacity_ ∧
      (∃ n, n < s.hashes_.length ∧ n < s.keys_.length ∧ s.hashes_[n]? = some NullHash ∧
        s'.hashes_ = s.hashes_.set n (hashFunc_ key) ∧ s'.keys_ = s.keys_.set n key) ∧
      ((s'.delta1_ = s.delta1_ ∧ s'.delta2_ = s.delta2_) ∨
        (∃ b d, s.delta1_[b]? = some 0 ∧ s'.delta1_ = s.delta1_.set b d ∧
          s'.delta2_ = s.delta2_) ∨
        (∃ b d, s.delta2_[b]? = some 0 ∧ s'.delta2_ = s.delta2_.set b d ∧
          s'.delta1_ = s.delta1_))) := by
  have hlen : ∀ (xs : List Nat) (n : Nat) (v : Nat), xs[n]? = some v → n < xs.length := by
    intro xs n v hv
    rcases List.getElem?_eq_some.1 hv with ⟨hl, -⟩
    exact hl
  rcases insert_ok_inv hashFunc_ NullHash s s' key r h with
    ⟨rfl, rfl, -⟩ | ⟨rfl, hA | hB | hC⟩
  · exact ⟨fun _ => rfl, fun c => by cases c⟩
  · refine ⟨fun c => (by cases c), fun _ => ?_⟩
    obtain ⟨hn, hkey⟩ := hA
    rw [insertKey_ok] at hkey
    obtain ⟨hsz, he, hk, rfl⟩ := hkey
    exact ⟨hsz, rfl, rfl, ⟨_, hlen _ _ _ he, hk, he, rfl, rfl⟩, Or.inl ⟨rfl, rfl⟩⟩
  · refine ⟨fun c => (by cases c), fun _ => ?_⟩
    obtain ⟨-, hd, n, d, -, hkey⟩ := hB
    rw [insertKey_ok] at hkey
    obtain ⟨hsz, he, hk, rfl⟩ := hkey
    exact ⟨hsz, rfl, rfl, ⟨n, hlen _ _ _ he, hk, he, rfl, rfl⟩,
      Or.inr (Or.inl ⟨_, d, hd, rfl, rfl⟩)⟩
  · refine ⟨fun c => (by cases c), fun _ => ?_⟩
    obtain ⟨-, d1, c0, t, n, d, -, -, -, -, hloop, -, -, hkey⟩ := hC
    rw [insertKey_ok] at hkey
    obtain ⟨hsz, he, hk, rfl⟩ := hkey
    exact ⟨hsz, rfl, rfl, ⟨n, hlen _ _ _ he, hk, he, rfl, rfl⟩,
      Or.inr (Or.inr ⟨t, d, insertLoop_some s _ key _ c0 t hloop, rfl, rfl⟩)⟩


theorem occupied_set (hs : List Nat) :
    ∀ (i v : Nat) (hi : i < hs.length),
      occupied NullHash (hs.set i v) + (if hs[i] = NullHash then 0 else 1) =
        occupied NullHash hs + (if v = NullHash then 0 else 1) := by
  induction hs with
  | nil => intro i v hi; simp at hi
  | cons a as ih =>
    intro i v hi
    cases i with
    | zero =>
      simp only [List.set_cons_zero, occupied, List.countP_cons, List.getElem_cons_zero,
        decide_eq_true_eq, ne_eq, ite_not]
      omega
    | succ i =>
      have hi2 : i < as.length := by simpa using hi
      have := ih i v hi2
      simp only [occupied, ne_eq] at this
      simp only [List.set_cons_succ, occupied, List.countP_cons, List.getElem_cons_succ,
        decide_eq_true_eq, ne_eq, ite_not]
      omega

theorem occupied_set_null (hs : List Nat) (i hv : Nat) (hi : hs[i]? = some hv)
    (hne : hv ≠ NullHash) :
    occupied NullHash (hs.set i NullHash) + 1 = occupied NullHash hs := by
  rcases List.getElem?_eq_some.1 hi with ⟨hl, he⟩
  have := occupied_set NullHash hs i NullHash hl
  simp only [he, hne, if_true, if_false] at this
  omega

theorem occupied_set_fill (hs : List Nat) (i v : Nat) (hi : hs[i]? = some NullHash)
    (hne : v ≠ NullHash) :
    occupied NullHash (hs.set i v) = occupied NullHash hs + 1 := by
  rcases List.getElem?_eq_some.1 hi with ⟨hl, he⟩
  have := occupied_set NullHash hs i v hl
  simp only [he, hne, if_true, if_false] at this
  omega

/-- Moving the hash of bucket `l` into bucket `b` and emptying `l` leaves as many occupied
buckets as emptying `b`. -/
theorem occupied_move (hs : List Nat) (b l hl : Nat) (hb : b < hs.length)
    (hlv : hs[l]? = some hl) :
    occupied NullHash ((hs.set b hl).set l NullHash) = occupied NullHash (hs.set b NullHash) := by
  rcases List.getElem?_eq_some.1 hlv with ⟨hll, he⟩
  by_cases e : b = l
  · subst e
    simp
  · have h1 := occupied_set NullHash hs b hl hb
    have h2 := occupied_set NullHash hs b NullHash hb
    have hll' : l < (hs.set b hl).length := by simpa using hll
    have h3 := occupied_set NullHash (hs.set b hl) l NullHash hll'
    have h4 : (hs.set b hl)[l] = hl := by
      rw [List.getElem_set_ne e]
      exact he
    rw [h4] at h3
    simp only [if_true] at h2 h3
    omega


/-- One round of the outer loop of `remove` changes deltas, and copies the hash and the key
of one bucket into the bucket being vacated. -/
theorem removeLoop_inv (fuel : Nat) :
    ∀ (s : HashSet K) (b : Nat) (s2 : HashSet K) (b2 : Nat),
      HashSet.removeLoop fuel s b = Except.ok (s2, b2) → b < s.hashes_.length →
      s2.size_ = s.size_ ∧ s2.capacity_ = s.capacity_ ∧
      s2.delta1_.length = s.delta1_.length ∧ s2.delta2_.length = s.delta2_.length ∧
      s2.hashes_.length = s.hashes_.length ∧ s2.keys_.length = s.keys_.length ∧
      b2 < s2.hashes_.length ∧
      occupied NullHash (s2.hashes_.set b2 NullHash) =
        occupied NullHash (s.hashes_.set b NullHash) := by
  induction fuel with
  | zero =>
    intro s b s2 b2 h
    simp [HashSet.removeLoop, throw_ok] at h
  | succ fuel ih =>
    intro s b s2 b2 h hb
    unfold HashSet.removeLoop at h
    simp only [bind_ok, rd_ok] at h
    obtain ⟨d1, hd1, more, hmore, h⟩ := h
    cases more
    · simp only [Bool.false_eq_true, if_false, pure_ok, Prod.mk.injEq] at h
      obtain ⟨rfl, rfl⟩ := h
      exact ⟨rfl, rfl, rfl, rfl, rfl, rfl, hb, rfl⟩
    · simp only [if_true, bind_ok] at h
      obtain ⟨first, hfirst, ⟨s1, last⟩, hs1, s3, hs3, h⟩ := h
      -- the link that is cleared
      have h1 : s1.size_ = s.size_ ∧ s1.capacity_ = s.capacity_ ∧
          s1.delta1_.length = s.delta1_.length ∧ s1.delta2_.length = s.delta2_.length ∧
          s1.hashes_ = s.hashes_ ∧ s1.keys_ = s.keys_ := by
        simp only [bind_ok, rd_ok] at hs1
        obtain ⟨d2, hd2, hs1⟩ := hs1
        by_cases c : d2 = 0
        · simp only [c, ne_eq, not_true_eq_false, if_false, bind_ok, wr_ok, pure_ok,
            Prod.mk.injEq] at hs1
          obtain ⟨_, ⟨-, rfl⟩, rfl, -⟩ := hs1
          simp
        · simp only [c, ne_eq, not_false_eq_true, if_true, bind_ok, wr_ok, pure_ok,
            Prod.mk.injEq] at hs1
          obtain ⟨⟨sl, l⟩, -, _, ⟨-, rfl⟩, rfl, -⟩ := hs1
          simp
      obtain ⟨e1, e2, e3, e4, e5, e6⟩ := h1
      -- the copy
      have h3 : s3.size_ = s1.size_ ∧ s3.capacity_ = s1.capacity_ ∧
          s3.delta1_ = s1.delta1_ ∧ s3.delta2_ = s1.delta2_ ∧
          s3.keys_.length = s1.keys_.length ∧
          ((b = last ∧ s3.hashes_ = s1.hashes_) ∨
            ∃ hl, s1.hashes_[last]? = some hl ∧ s3.hashes_ = s1.hashes_.set b hl) := by
        by_cases c : b = last
        · simp only [c, ne_eq, not_true_eq_false, if_false, pure_ok] at hs3
          subst hs3
          exact ⟨rfl, rfl, rfl, rfl, rfl, Or.inl ⟨c, rfl⟩⟩
        · simp only [c, ne_eq, not_false_eq_true, if_true, bind_ok, rd_ok, wr_ok,
            pure_ok] at hs3
          obtain ⟨kl, -, _, ⟨-, rfl⟩, hl, hhl, _, ⟨-, rfl⟩, rfl⟩ := hs3
          exact ⟨rfl, rfl, rfl, rfl, by simp, Or.inr ⟨hl, hhl, rfl⟩⟩
      obtain ⟨g1, g2, g3, g4, g5, g6⟩ := h3
      have hlast : last < s3.hashes_.length := by
        rcases g6 with ⟨c, g⟩ | ⟨hl, hhl, g⟩
        · rw [g, e5, ← c]; exact hb
        · rcases List.getElem?_eq_some.1 hhl with ⟨w, -⟩
          rw [g, List.length_set]; exact w
      obtain ⟨i1, i2, i3, i4, i5, i6, i7, i8⟩ := ih s3 last s2 b2 h hlast
      refine ⟨by rw [i1, g1, e1], by rw [i2, g2, e2], by rw [i3, g3, e3], by rw [i4, g4, e4],
        ?_, by rw [i6, g5, e6], i7, ?_⟩
      · rcases g6 with ⟨c, g⟩ | ⟨hl, hhl, g⟩
        · rw [i5, g, e5]
        · rw [i5, g, List.length_set, e5]
      · rw [i8]
        rcases g6 with ⟨c, g⟩ | ⟨hl, hhl, g⟩
        · rw [g, e5, c]
        · rw [g, e5]
          rw [e5] at hhl
          exact occupied_move NullHash s.hashes_ b last hl hb hhl


/-- The loop of `findBucketIndex` reports a bucket only when it holds the key. -/
theorem findBucketIndexLoop_found (s : HashSet K) (h : Nat) (k : K) (fuel : Nat) :
    ∀ c p0 f p, HashSet.findBucketIndexLoop s h k fuel c p0 = Except.ok (true, f, p) →
      s.hashes_[f]? = some h ∧ s.keys_[f]? = some k := by
  induction fuel with
  | zero =>
    intro c p0 f p hf
    simp [HashSet.findBucketIndexLoop, throw_ok] at hf
  | succ fuel ih =>
    intro c p0 f p hf
    unfold HashSet.findBucketIndexLoop at hf
    simp only [bind_ok, rd_ok] at hf
    obtain ⟨d, hd, hf⟩ := hf
    by_cases hd0 : d = 0
    · simp [hd0, pure_ok] at hf
    · simp only [hd0, ne_eq, not_false_eq_true, if_true, bind_ok] at hf
      obtain ⟨n, -, b1, hb1, hf⟩ := hf
      cases b1
      · exact ih n c f p (by simpa using hf)
      · simp only [if_true, pure_ok, Prod.mk.injEq, true_and] at hf
        obtain ⟨rfl, -⟩ := hf
        exact (bucketFound_true s n h k).1 hb1

/-- A successful lookup reports a bucket that holds the key, in a set that is not empty. -/
theorem findBucketIndex_found (s : HashSet K) (k : K) (f p : Nat)
    (h : HashSet.findBucketIndex hashFunc_ NullHash s k = Except.ok (true, f, p)) :
    s.size_ ≠ 0 ∧ s.hashes_[f]? = some (hashFunc_ k) ∧ s.keys_[f]? = some k := by
  unfold HashSet.findBucketIndex at h
  by_cases hz : s.size_ = 0
  · simp [hz, pure_ok] at h
  · refine ⟨hz, ?_⟩
    simp only [hz, if_false, bind_ok] at h
    obtain ⟨b, hb, h⟩ := h
    cases b
    · simp only [if_true, bind_ok] at h
      obtain ⟨d, hd, h⟩ := h
      by_cases hd0 : d = 0
      · simp [hd0, pure_ok] at h
      · simp only [hd0, ne_eq, not_false_eq_true, if_true, bind_ok] at h
        obtain ⟨c0, hc0, b1, hb1, h⟩ := h
        cases b1
        · simp only [if_true] at h
          exact findBucketIndexLoop_found s _ k _ _ _ f p h
        · simp only [Bool.true_eq_false, if_false, pure_ok, Prod.mk.injEq, true_and] at h
          obtain ⟨rfl, -⟩ := h
          exact (bucketFound_true s c0 _ k).1 hb1
    · simp only [Bool.true_eq_false, if_false, bind_ok, rd_ok] at h
      obtain ⟨hv, hhv, h⟩ := h
      by_cases e : hv = NullHash
      · simp [e, pure_ok] at h
      · simp only [e, ne_eq, not_false_eq_true, if_true, pure_ok, Prod.mk.injEq,
          true_and] at h
        obtain ⟨rfl, -⟩ := h
        rcases (bucketFoundOrEmpty_true NullHash s _ _ k).1 hb with h1 | ⟨-, h1, h2⟩
        · rw [hhv] at h1
          exact absurd (Option.some.inj h1) e
        · exact ⟨h1, h2⟩

/-- What a returning `remove` has done. -/
theorem remove_ok_inv (s s' : HashSet K) (k : K) (r : Bool)
    (h : HashSet.remove hashFunc_ NullHash s k = Except.ok (r, s')) :
    (r = false ∧ s' = s ∧
      ∃ f p, HashSet.findBucketIndex hashFunc_ NullHash s k = Except.ok (false, f, p)) ∨
    (r = true ∧
      ∃ f p, HashSet.findBucketIndex hashFunc_ NullHash s k = Except.ok (true, f, p) ∧
        s'.size_ = s.size_ - 1 ∧ s'.capacity_ = s.capacity_ ∧
        s'.delta1_.length = s.delta1_.length ∧ s'.delta2_.length = s.delta2_.length ∧
        s'.hashes_.length = s.hashes_.length ∧ s'.keys_.length = s.keys_.length ∧
        occupied NullHash s'.hashes_ = occupied NullHash (s.hashes_.set f NullHash)) := by
  unfold HashSet.remove at h
  simp only [bind_ok] at h
  obtain ⟨⟨found, f, p⟩, hfind, h⟩ := h
  cases found
  · simp only [Bool.false_eq_true, if_false, pure_ok, Prod.mk.injEq] at h
    obtain ⟨rfl, rfl⟩ := h
    exact Or.inl ⟨rfl, rfl, f, p, hfind⟩
  · right
    simp only [if_true, bind_ok, rd_ok, wr_ok, pure_ok, Prod.mk.injEq] at h
    obtain ⟨hv, hhv, last, -, s1, hs1, ⟨s2, b2⟩, hloop, _, ⟨hb2, rfl⟩, rfl, rfl⟩ := h
    have h1 : s1.size_ = s.size_ ∧ s1.capacity_ = s.capacity_ ∧
        s1.delta1_.length = s.delta1_.length ∧ s1.delta2_.length = s.delta2_.length ∧
        s1.hashes_ = s.hashes_ ∧ s1.keys_ = s.keys_ := by
      cases last
      · simp only [Bool.false_eq_true, if_false, pure_ok] at hs1
        subst hs1
        exact ⟨rfl, rfl, rfl, rfl, rfl, rfl⟩
      · simp only [if_true, bind_ok] at hs1
        obtain ⟨first, -, hs1⟩ := hs1
        by_cases c : first = f
        · simp only [c, if_true, bind_ok, wr_ok, pure_ok] at hs1
          obtain ⟨_, ⟨-, rfl⟩, rfl⟩ := hs1
          simp
        · simp only [c, if_false, bind_ok] at hs1
          obtain ⟨second, -, hs1⟩ := hs1
          by_cases c2 : second = f
          · simp only [c2, if_true, bind_ok, wr_ok, pure_ok] at hs1
            obtain ⟨_, ⟨-, rfl⟩, rfl⟩ := hs1
            simp
          · simp only [c2, if_false, pure_ok] at hs1
            subst hs1
            exact ⟨rfl, rfl, rfl, rfl, rfl, rfl⟩
    obtain ⟨e1, e2, e3, e4, e5, e6⟩ := h1
    have hf : f < s1.hashes_.length := by
      rw [e5]
      rcases List.getElem?_eq_some.1 hhv with ⟨w, -⟩
      exact w
    obtain ⟨i1, i2, i3, i4, i5, i6, i7, i8⟩ :=
      removeLoop_inv NullHash _ s1 f s2 b2 hloop hf
    refine ⟨rfl, f, p, hfind, ?_, ?_, ?_, ?_, ?_, ?_, ?_⟩
    · simp [i1, e1]
    · simp [i2, e2]
    · simp [i3, e3]
    · simp [i4, e4]
    · simp [i5, e5]
    · simp [i6, e6]
    · simp only [i8, e5]


theorem contains_eq (s : HashSet K) (k : K) (b : Bool) :
    HashSet.contains hashFunc_ NullHash s k = Except.ok b ↔
      ∃ f p, HashSet.findBucketIndex hashFunc_ NullHash s k = Except.ok (b, f, p) := by
  unfold HashSet.contains
  simp only [bind_ok, pure_ok]
  constructor
  · rintro ⟨⟨b', f, p⟩, h1, rfl⟩
    exact ⟨f, p, h1⟩
  · rintro ⟨f, p, h1⟩
    exact ⟨(b, f, p), h1, rfl⟩

theorem remove_of_not_found (s : HashSet K) (k : K) (f p : Nat)
    (h : HashSet.findBucketIndex hashFunc_ NullHash s k = Except.ok (false, f, p)) :
    HashSet.remove hashFunc_ NullHash s k = Except.ok (false, s) := by
  unfold HashSet.remove
  rw [h]
  rfl

theorem construct_ok [Inhabited K] (capacity : Nat) (s : HashSet K)
    (h : HashSet.construct NullHash capacity = Except.ok s) :
    0 < capacity ∧
      s = { size_ := 0, capacity_ := capacity,
            delta1_ := List.replicate capacity 0, delta2_ := List.replicate capacity 0,
            hashes_ := List.replicate capacity NullHash,
            keys_ := List.replicate capacity default } := by
  unfold HashSet.construct at h
  by_cases c : capacity > 0
  · simp only [c, if_true, pure_ok] at h
    exact ⟨c, h.symm⟩
  · simp [c, throw_ok] at h

theorem rehashLoop_size (s : HashSet K) (is : List Nat) :
    ∀ (n : Nat) (t t' : HashSet K),
      HashSet.rehashLoop hashFunc_ NullHash s is n t = Except.ok t' →
      t.size_ ≤ t.capacity_ → t'.size_ ≤ t'.capacity_ := by
  induction is with
  | nil =>
    intro n t t' h ht
    simp only [HashSet.rehashLoop, pure_ok] at h
    subst h
    exact ht
  | cons i is ih =>
    intro n t t' h ht
    unfold HashSet.rehashLoop at h
    simp only [bind_ok, rd_ok] at h
    obtain ⟨hv, -, h⟩ := h
    by_cases e : hv = NullHash
    · simp only [e, ne_eq, not_true_eq_false, if_false] at h
      exact ih n t t' h ht
    · simp only [e, ne_eq, not_false_eq_true, if_true, bind_ok, rd_ok] at h
      obtain ⟨k, -, ⟨r, t1⟩, hins, h⟩ := h
      have h1 : t1.size_ ≤ t1.capacity_ := by
        have := insert_frame_aux hashFunc_ NullHash t t1 k r hins
        cases r
        · rw [this.1 rfl]; exact ht
        · obtain ⟨a1, a2, a3, -⟩ := this.2 rfl
          omega
      by_cases c : n + 1 = s.size_
      · simp only [c, if_true, pure_ok] at h
        subst h
        exact h1
      · simp only [c, if_false] at h
        exact ih (n + 1) t1 t' h h1

theorem call_size [Inhabited K] (s s' : HashSet K) (c : Call K)
    (hs : s.size_ ≤ s.capacity_)
    (h : HashSet.call hashFunc_ NullHash s c = Except.ok s') : s'.size_ ≤ s'.capacity_ := by
  cases c with
  | insert key =>
    simp only [HashSet.call, bind_ok, pure_ok] at h
    obtain ⟨⟨r, t⟩, hins, rfl⟩ := h
    have := insert_frame_aux hashFunc_ NullHash s t key r hins
    cases r
    · rw [this.1 rfl]; exact hs
    · obtain ⟨a1, a2, a3, -⟩ := this.2 rfl
      simp only
      omega
  | remove key =>
    simp only [HashSet.call, bind_ok, pure_ok] at h
    obtain ⟨⟨r, t⟩, hrem, rfl⟩ := h
    rcases remove_ok_inv hashFunc_ NullHash s t key r hrem with
      ⟨-, rfl, -⟩ | ⟨-, f, p, -, a1, a2, -⟩
    · exact hs
    · simp only
      omega
  | clear =>
    simp only [HashSet.call, pure_ok] at h
    subst h
    simp [HashSet.clear]
  | rehash count =>
    simp only [HashSet.call] at h
    unfold HashSet.rehash at h
    by_cases c : s.size_ = 0 ∨ count < s.size_
    · simp only [c, if_true, pure_ok] at h
      subst h
      exact hs
    · simp only [c, if_false, bind_ok] at h
      obtain ⟨t, ht, h⟩ := h
      obtain ⟨-, rfl⟩ := construct_ok NullHash count t ht
      exact rehashLoop_size hashFunc_ NullHash s _ 0 _ s' h (Nat.zero_le _)


theorem bucketFound_congr (s s' : HashSet K) (c h : Nat) (k : K) (b : Bool)
    (hh : s'.hashes_[c]? = s.hashes_[c]?) (hk : s'.keys_[c]? = s.keys_[c]?) :
    HashSet.bucketFound s' c h k = Except.ok b ↔ HashSet.bucketFound s c h k = Except.ok b := by
  cases b
  · simp only [bucketFound_false, hh, hk]
  · simp only [bucketFound_true, hh, hk]

theorem bucketFoundOrEmpty_congr (s s' : HashSet K) (c h : Nat) (k : K) (b : Bool)
    (hh : s'.hashes_[c]? = s.hashes_[c]?) (hk : s'.keys_[c]? = s.keys_[c]?) :
    HashSet.bucketFoundOrEmpty NullHash s' c h k = Except.ok b ↔
      HashSet.bucketFoundOrEmpty NullHash s c h k = Except.ok b := by
  cases b
  · simp only [bucketFoundOrEmpty_false, hh, hk]
  · simp only [bucketFoundOrEmpty_true, hh, hk]

theorem addDelta1_congr (s s' : HashSet K) (c n : Nat)
    (hc : s'.capacity_ = s.capacity_) (hd : s'.delta1_[c]? = s.delta1_[c]?) :
    HashSet.addDelta1 s' c = Except.ok n ↔ HashSet.addDelta1 s c = Except.ok n := by
  simp only [addDelta1_ok, hc, hd]

theorem addDelta2_congr (s s' : HashSet K) (c n : Nat)
    (hc : s'.capacity_ = s.capacity_) (hd : s'.delta2_[c]? = s.delta2_[c]?) :
    HashSet.addDelta2 s' c = Except.ok n ↔ HashSet.addDelta2 s c = Except.ok n := by
  simp only [addDelta2_ok, hc, hd]

/-- Storing another key in an empty bucket does not change what `bucketFound` answers for
the key `k`. -/
theorem bucketFound_fill (s s' : HashSet K) (n : Nat) (k k' : K) (h' : Nat)
    (hne : k ≠ k') (hn : s.hashes_[n]? = some NullHash) (hnk : n < s.keys_.length)
    (hk : hashFunc_ k ≠ NullHash)
    (hh : s'.hashes_ = s.hashes_.set n h') (hkeys : s'.keys_ = s.keys_.set n k')
    (c : Nat) (b : Bool)
    (h : HashSet.bucketFound s c (hashFunc_ k) k = Except.ok b) :
    HashSet.bucketFound s' c (hashFunc_ k) k = Except.ok b := by
  by_cases e : n = c
  · subst e
    have hnl : n < s.hashes_.length := by
      rcases List.getElem?_eq_some.1 hn with ⟨w, -⟩
      exact w
    cases b
    · rw [bucketFound_false]
      refine ⟨h', by rw [hh]; simp [hnl], fun _ => ⟨k', by rw [hkeys]; simp [hnk], Ne.symm hne⟩⟩
    · rw [bucketFound_true, hn] at h
      exact absurd (Option.some.inj h.1).symm hk
  · rw [bucketFound_congr s s' c _ k b (by rw [hh, List.getElem?_set_ne e])
      (by rw [hkeys, List.getElem?_set_ne e])]
    exact h

/-- The walk of `findBucketIndex` that finds `k` is not disturbed by storing another key
in an empty bucket or by setting deltas that were 0. -/
theorem findBucketIndexLoop_frame (s s' : HashSet K) (n : Nat) (k k' : K) (h' : Nat)
    (hne : k ≠ k') (hn : s.hashes_[n]? = some NullHash) (hnk : n < s.keys_.length)
    (hk : hashFunc_ k ≠ NullHash)
    (hh : s'.hashes_ = s.hashes_.set n h') (hkeys : s'.keys_ = s.keys_.set n k')
    (hc : s'.capacity_ = s.capacity_)
    (hd2 : ∀ (c d : Nat), s.delta2_[c]? = some d → d ≠ 0 → s'.delta2_[c]? = some d)
    (fuel : Nat) :
    ∀ c p0 f p,
      HashSet.findBucketIndexLoop s (hashFunc_ k) k fuel c p0 = Except.ok (true, f, p) →
      HashSet.findBucketIndexLoop s' (hashFunc_ k) k fuel c p0 = Except.ok (true, f, p) := by
  induction fuel with
  | zero =>
    intro c p0 f p hf
    simp [HashSet.findBucketIndexLoop, throw_ok] at hf
  | succ fuel ih =>
    intro c p0 f p hf
    unfold HashSet.findBucketIndexLoop at hf ⊢
    simp only [bind_ok, rd_ok] at hf
    obtain ⟨d, hd, hf⟩ := hf
    by_cases hd0 : d = 0
    · simp [hd0, pure_ok] at hf
    · simp only [hd0, ne_eq, not_false_eq_true, if_true, bind_ok] at hf
      obtain ⟨nx, hnx, b1, hb1, hf⟩ := hf
      have hd' := hd2 c d hd hd0
      have e1 : rd s' s'.delta2_ c = Except.ok d := (rd_ok s' _ _ _).2 hd'
      have e2 : HashSet.addDelta2 s' c = Except.ok nx :=
        (addDelta2_congr s s' c nx hc (by rw [hd', hd])).2 hnx
      have e3 := bucketFound_fill hashFunc_ NullHash s s' n k k' h' hne hn hnk hk hh hkeys
        nx b1 hb1
      simp only [e1, e2, e3, ok_bind, hd0, ne_eq, not_false_eq_true, if_true]
      cases b1
      · simp only [Bool.false_eq_true, if_false] at hf ⊢
        exact ih nx c f p hf
      · simpa using hf


/-- A lookup that finds `k` is not disturbed by storing another key in an empty bucket or
by setting deltas that were 0. -/
theorem findBucketIndex_frame (s s' : HashSet K) (n : Nat) (k k' : K) (h' : Nat)
    (hne : k ≠ k') (hn : s.hashes_[n]? = some NullHash) (hnk : n < s.keys_.length)
    (hk : hashFunc_ k ≠ NullHash)
    (hh : s'.hashes_ = s.hashes_.set n h') (hkeys : s'.keys_ = s.keys_.set n k')
    (hc : s'.capacity_ = s.capacity_) (hsz : s'.size_ ≠ 0)
    (hd1 : ∀ (c d : Nat), s.delta1_[c]? = some d → d ≠ 0 → s'.delta1_[c]? = some d)
    (hd2 : ∀ (c d : Nat), s.delta2_[c]? = some d → d ≠ 0 → s'.delta2_[c]? = some d)
    (f p : Nat)
    (hf : HashSet.findBucketIndex hashFunc_ NullHash s k = Except.ok (true, f, p)) :
    HashSet.findBucketIndex hashFunc_ NullHash s' k = Except.ok (true, f, p) := by
  have hocc : ∀ (c hv : Nat), s.hashes_[c]? = some hv → hv ≠ NullHash → n ≠ c := by
    intro c hv h1 h2 e
    subst e
    rw [hn] at h1
    exact h2 (Option.some.inj h1).symm
  have hsame : ∀ (c hv : Nat), s.hashes_[c]? = some hv → hv ≠ NullHash →
      s'.hashes_[c]? = s.hashes_[c]? ∧ s'.keys_[c]? = s.keys_[c]? := by
    intro c hv h1 h2
    have e := hocc c hv h1 h2
    exact ⟨by rw [hh, List.getElem?_set_ne e], by rw [hkeys, List.getElem?_set_ne e]⟩
  unfold HashSet.findBucketIndex at hf ⊢
  by_cases hz : s.size_ = 0
  · simp [hz, pure_ok] at hf
  · simp only [hz, if_false, bind_ok] at hf
    simp only [hsz, if_false, hc]
    obtain ⟨b, hb, hf⟩ := hf
    cases b
    · obtain ⟨hv, h1, h2, -⟩ := (bucketFoundOrEmpty_false NullHash s _ _ k).1 hb
      obtain ⟨g1, g2⟩ := hsame _ hv h1 h2
      have e0 := (bucketFoundOrEmpty_congr NullHash s s' _ (hashFunc_ k) k false g1 g2).2 hb
      simp only [if_true, bind_ok, rd_ok] at hf
      obtain ⟨d, hd, hf⟩ := hf
      by_cases hd0 : d = 0
      · simp [hd0, pure_ok] at hf
      · simp only [hd0, ne_eq, not_false_eq_true, if_true, bind_ok] at hf
        obtain ⟨c0, hc0, b1, hb1, hf⟩ := hf
        have hd' := hd1 _ d hd hd0
        have e1 : rd s' s'.delta1_ (hashFunc_ k % s.capacity_) = Except.ok d :=
          (rd_ok s' _ _ _).2 hd'
        have e2 : HashSet.addDelta1 s' (hashFunc_ k % s.capacity_) = Except.ok c0 :=
          (addDelta1_congr s s' _ c0 hc (by rw [hd', hd])).2 hc0
        have e3 := bucketFound_fill hashFunc_ NullHash s s' n k k' h' hne hn hnk hk hh hkeys
          c0 b1 hb1
        simp only [e0, e1, e2, e3, ok_bind, hd0, ne_eq, not_false_eq_true, if_true]
        cases b1
        · simp only [if_true] at hf ⊢
          exact findBucketIndexLoop_frame hashFunc_ NullHash s s' n k k' h' hne hn hnk hk hh
            hkeys hc hd2 _ c0 _ f p hf
        · simpa using hf
    · simp only [Bool.true_eq_false, if_false, bind_ok, rd_ok] at hf
      obtain ⟨hv, hhv, hf⟩ := hf
      by_cases e : hv = NullHash
      · simp [e, pure_ok] at hf
      · obtain ⟨g1, g2⟩ := hsame _ hv hhv e
        have e0 := (bucketFoundOrEmpty_congr NullHash s s' _ (hashFunc_ k) k true g1 g2).2 hb
        have e1 : rd s' s'.hashes_ (hashFunc_ k % s.capacity_) = Except.ok hv :=
          (rd_ok s' _ _ _).2 (by rw [g1, hhv])
        simp only [e0, e1, ok_bind, Bool.true_eq_false, if_false]
        exact hf


/-- The delta that `calcNewDelta` computes leads from `t` to `n` in `addDelta1` and
`addDelta2`, and is 0 only when `n` is `t`. -/
theorem calcNewDelta_spec (s : HashSet K) (t n d : Nat)
    (h : HashSet.calcNewDelta s t n = Except.ok d) (ht : t < s.capacity_)
    (hn : n < s.capacity_) :
    (n = if t + d > s.capacity_ - 1 then t + d - s.capacity_ else t + d) ∧
      (t ≠ n → d ≠ 0) := by
  rw [calcNewDelta_ok] at h
  obtain ⟨-, rfl⟩ := h
  by_cases c : n ≥ t
  · simp only [c, if_true]
    have : ¬ (t + (n - t) > s.capacity_ - 1) := by omega
    simp only [this, if_false]
    omega
  · simp only [c, if_false]
    have : t + (s.capacity_ - t + n) > s.capacity_ - 1 := by omega
    simp only [this, if_true]
    omega

/-- After `insert` has linked the bucket `n` to the end `t` of the walk and stored the key
there, the walk of `findBucketIndex` finds the key. -/
theorem findBucketIndexLoop_new (s s' : HashSet K) (n t d h : Nat) (k : K)
    (hn : s.hashes_[n]? = some NullHash) (hnk : n < s.keys_.length)
    (hh : s'.hashes_ = s.hashes_.set n h) (hkeys : s'.keys_ = s.keys_.set n k)
    (hc : s'.capacity_ = s.capacity_) (hd2 : s'.delta2_ = s.delta2_.set t d)
    (ht : t < s.delta2_.length)
    (hstep : n = if t + d > s.capacity_ - 1 then t + d - s.capacity_ else t + d)
    (hd0 : t ≠ n → d ≠ 0) (fuel : Nat) :
    ∀ c p0, HashSet.insertLoop s h k fuel c = Except.ok (some t) → c ≠ n →
      ∃ f p, HashSet.findBucketIndexLoop s' h k fuel c p0 = Except.ok (true, f, p) := by
  have hnl : n < s.hashes_.length := by
    rcases List.getElem?_eq_some.1 hn with ⟨w, -⟩
    exact w
  have hfound : HashSet.bucketFound s' n h k = Except.ok true := by
    rw [bucketFound_true, hh, hkeys]
    simp [hnl, hnk]
  induction fuel with
  | zero =>
    intro c p0 hl
    simp [HashSet.insertLoop, throw_ok] at hl
  | succ fuel ih =>
    intro c p0 hl hcn
    unfold HashSet.insertLoop at hl
    unfold HashSet.findBucketIndexLoop
    simp only [bind_ok, rd_ok] at hl
    obtain ⟨dd, hdd, hl⟩ := hl
    by_cases hdd0 : dd = 0
    · subst hdd0
      simp only [ne_eq, not_true_eq_false, if_false, pure_ok, Option.some.injEq] at hl
      subst hl
      have e1 : rd s' s'.delta2_ c = Except.ok d := by
        rw [rd_ok, hd2]
        simp [ht]
      have e2 : HashSet.addDelta2 s' c = Except.ok n := by
        rw [addDelta2_ok]
        refine ⟨d, by rw [hd2]; simp [ht], ?_⟩
        rw [hc]
        exact hstep
      have hd := hd0 hcn
      simp only [e1, e2, hfound, ok_bind, hd, ne_eq, not_false_eq_true, if_true]
      exact ⟨n, c, rfl⟩
    · simp only [hdd0, ne_eq, not_false_eq_true, if_true, bind_ok] at hl
      obtain ⟨nx, hnx, b1, hb1, hl⟩ := hl
      cases b1
      · simp only [Bool.false_eq_true, if_false] at hl
        have hct : t ≠ c := by
          intro e
          subst e
          have := insertLoop_some s h k fuel nx t hl
          rw [hdd] at this
          exact hdd0 (Option.some.inj this)
        have hdc : s'.delta2_[c]? = s.delta2_[c]? := by
          rw [hd2, List.getElem?_set_ne hct]
        have e1 : rd s' s'.delta2_ c = Except.ok dd := by
          rw [rd_ok, hdc]
          exact hdd
        have e2 : HashSet.addDelta2 s' c = Except.ok nx :=
          (addDelta2_congr s s' c nx hc hdc).2 hnx
        simp only [e1, e2, ok_bind, hdd0, ne_eq, not_false_eq_true, if_true]
        by_cases e : nx = n
        · subst e
          simp only [hfound, ok_bind, if_true]
          exact ⟨nx, c, rfl⟩
        · have e3 : HashSet.bucketFound s' nx h k = Except.ok false := by
            rw [bucketFound_congr s s' nx h k false
              (by rw [hh, List.getElem?_set_ne (Ne.symm e)])
              (by rw [hkeys, List.getElem?_set_ne (Ne.symm e)])]
            exact hb1
          simp only [e3, ok_bind, Bool.false_eq_true, if_false]
          exact ih nx c hl e
      · simp [pure_ok] at hl


/-- After an `insert` that returns true the lookup finds the key. -/
theorem findBucketIndex_new (s s' : HashSet K) (k : K) (hwf : s.WF)
    (hk : hashFunc_ k ≠ NullHash)
    (h : HashSet.insert hashFunc_ NullHash s k = Except.ok (true, s')) :
    ∃ f p, HashSet.findBucketIndex hashFunc_ NullHash s' k = Except.ok (true, f, p) := by
  obtain ⟨w1, w2, w3, w4⟩ := hwf
  have hlen : ∀ (xs : List Nat) (n : Nat) (v : Nat), xs[n]? = some v → n < xs.length := by
    intro xs n v hv
    rcases List.getElem?_eq_some.1 hv with ⟨hl, -⟩
    exact hl
  rcases insert_ok_inv hashFunc_ NullHash s s' k true h with
    ⟨c, -⟩ | ⟨-, hA | hB | hC⟩
  · cases c
  · -- the key is in its ideal bucket
    obtain ⟨hn, hkey⟩ := hA
    rw [insertKey_ok] at hkey
    obtain ⟨hsz, he, hkl, hs'⟩ := hkey
    have hh : s'.hashes_ = s.hashes_.set (hashFunc_ k % s.capacity_) (hashFunc_ k) := by
      rw [hs']
    have hkeys : s'.keys_ = s.keys_.set (hashFunc_ k % s.capacity_) k := by rw [hs']
    have hc : s'.capacity_ = s.capacity_ := by rw [hs']
    have hsize : s'.size_ ≠ 0 := by rw [hs']; simp
    have hil := hlen _ _ _ he
    have e0 : HashSet.bucketFoundOrEmpty NullHash s' (hashFunc_ k % s.capacity_)
        (hashFunc_ k) k = Except.ok true := by
      rw [bucketFoundOrEmpty_true]
      right
      refine ⟨hk, ?_, ?_⟩
      · rw [hh]; simp [hil]
      · rw [hkeys]; simp [hkl]
    have e1 : rd s' s'.hashes_ (hashFunc_ k % s.capacity_) = Except.ok (hashFunc_ k) := by
      rw [rd_ok, hh]; simp [hil]
    unfold HashSet.findBucketIndex
    simp only [hsize, if_false, hc, e0, e1, ok_bind, Bool.true_eq_false, hk, ne_eq,
      not_false_eq_true, if_true]
    exact ⟨_, _, rfl⟩
  · -- the key is in a bucket that `delta1_` of the ideal bucket leads to
    obtain ⟨hb, hd, n, d, hcalc, hkey⟩ := hB
    rw [insertKey_ok] at hkey
    obtain ⟨hsz, he, hkl, hs'⟩ := hkey
    simp only at he hkl
    have hh : s'.hashes_ = s.hashes_.set n (hashFunc_ k) := by rw [hs']
    have hkeys : s'.keys_ = s.keys_.set n k := by rw [hs']
    have hc : s'.capacity_ = s.capacity_ := by rw [hs']
    have hd1 : s'.delta1_ = s.delta1_.set (hashFunc_ k % s.capacity_) d := by rw [hs']
    have hsize : s'.size_ ≠ 0 := by rw [hs']; simp
    have hnl := hlen _ _ _ he
    have hil := hlen _ _ _ hd
    obtain ⟨hv, h1, h2, -⟩ := (bucketFoundOrEmpty_false NullHash s _ _ k).1 hb
    have hin : n ≠ hashFunc_ k % s.capacity_ := by
      intro e
      rw [e, h1] at he
      exact h2 (Option.some.inj he)
    have e0 := (bucketFoundOrEmpty_congr NullHash s s' _ (hashFunc_ k) k false
      (by rw [hh, List.getElem?_set_ne hin]) (by rw [hkeys, List.getElem?_set_ne hin])).2 hb
    obtain ⟨hstep, hd0⟩ := calcNewDelta_spec s _ n d hcalc (by omega) (by omega)
    have hdne := hd0 (Ne.symm hin)
    have e1 : rd s' s'.delta1_ (hashFunc_ k % s.capacity_) = Except.ok d := by
      rw [rd_ok, hd1]; simp [hil]
    have e2 : HashSet.addDelta1 s' (hashFunc_ k % s.capacity_) = Except.ok n := by
      rw [addDelta1_ok]
      refine ⟨d, by rw [hd1]; simp [hil], ?_⟩
      rw [hc]
      exact hstep
    have e3 : HashSet.bucketFound s' n (hashFunc_ k) k = Except.ok true := by
      rw [bucketFound_true, hh, hkeys]
      simp [hnl, hkl]
    unfold HashSet.findBucketIndex
    simp only [hsize, if_false, hc, e0, e1, e2, e3, ok_bind, hdne, ne_eq,
      not_false_eq_true, if_true, Bool.true_eq_false]
    exact ⟨_, _, rfl⟩
  · -- the key is in a bucket linked to the end of the walk
    obtain ⟨hb, d1, c0, t, n, d, hd, hd1ne, hc0, hb1, hloop, ht, hcalc, hkey⟩ := hC
    rw [insertKey_ok] at hkey
    obtain ⟨hsz, he, hkl, hs'⟩ := hkey
    simp only at he hkl
    have hh : s'.hashes_ = s.hashes_.set n (hashFunc_ k) := by rw [hs']
    have hkeys : s'.keys_ = s.keys_.set n k := by rw [hs']
    have hc : s'.capacity_ = s.capacity_ := by rw [hs']
    have hd1 : s'.delta1_ = s.delta1_ := by rw [hs']
    have hd2 : s'.delta2_ = s.delta2_.set t d := by rw [hs']
    have hsize : s'.size_ ≠ 0 := by rw [hs']; simp
    have hnl := hlen _ _ _ he
    obtain ⟨hv, h1, h2, -⟩ := (bucketFoundOrEmpty_false NullHash s _ _ k).1 hb
    have hin : n ≠ hashFunc_ k % s.capacity_ := by
      intro e
      rw [e, h1] at he
      exact h2 (Option.some.inj he)
    have e0 := (bucketFoundOrEmpty_congr NullHash s s' _ (hashFunc_ k) k false
      (by rw [hh, List.getElem?_set_ne hin]) (by rw [hkeys, List.getElem?_set_ne hin])).2 hb
    obtain ⟨hstep, hd0⟩ := calcNewDelta_spec s t n d hcalc (by omega) (by omega)
    have e1 : rd s' s'.delta1_ (hashFunc_ k % s.capacity_) = Except.ok d1 := by
      rw [rd_ok, hd1]; exact hd
    have e2 : HashSet.addDelta1 s' (hashFunc_ k % s.capacity_) = Except.ok c0 :=
      (addDelta1_congr s s' _ c0 hc (by rw [hd1])).2 hc0
    have hfound : HashSet.bucketFound s' n (hashFunc_ k) k = Except.ok true := by
      rw [bucketFound_true, hh, hkeys]
      simp [hnl, hkl]
    unfold HashSet.findBucketIndex
    simp only [hsize, if_false, hc, e0, e1, e2, ok_bind, hd1ne, ne_eq,
      not_false_eq_true, if_true]
    by_cases e : c0 = n
    · subst e
      simp only [hfound, ok_bind, Bool.true_eq_false, if_false]
      exact ⟨_, _, rfl⟩
    · have e3 : HashSet.bucketFound s' c0 (hashFunc_ k) k = Except.ok false := by
        rw [bucketFound_congr s s' c0 _ k false
          (by rw [hh, List.getElem?_set_ne (Ne.symm e)])
          (by rw [hkeys, List.getElem?_set_ne (Ne.symm e)])]
        exact hb1
      simp only [e3, ok_bind, if_true]
      exact findBucketIndexLoop_new NullHash s s' n t d _ k he hkl hh hkeys hc hd2 ht hstep
        hd0 _ c0 _ hloop e


/-- An `insert` that returns false has seen the key in a bucket. -/
theorem bucket_of_insert_false (s s' : HashSet K) (k : K)
    (h : HashSet.insert hashFunc_ NullHash s k = Except.ok (false, s')) :
    ∃ c : Nat, s.hashes_[c]? = some (hashFunc_ k) ∧ s.keys_[c]? = some k := by
  rcases insert_ok_inv hashFunc_ NullHash s s' k false h with
    ⟨-, -, hF1 | hF2⟩ | ⟨c, -⟩
  · obtain ⟨hb, hv, hhv, hne⟩ := hF1
    rcases (bucketFoundOrEmpty_true NullHash s _ _ k).1 hb with h1 | ⟨h0, h1, h2⟩
    · rw [hhv] at h1
      exact absurd (Option.some.inj h1) hne
    · exact ⟨_, h1, h2⟩
  · obtain ⟨-, d, c0, -, -, -, hb1 | ⟨-, hloop⟩⟩ := hF2
    · exact ⟨c0, (bucketFound_true s c0 _ k).1 hb1⟩
    · rw [insertLoop_eq s _ k _ c0 0, map_ok] at hloop
      obtain ⟨⟨r, f, p⟩, hr, hnone⟩ := hloop
      cases r
      · simp at hnone
      · exact ⟨f, findBucketIndexLoop_found s _ k _ c0 0 f p hr⟩
  · cases c

/-- An `insert` that returns false on a set that is not empty has made the walk of a
successful lookup. -/
theorem found_of_insert_false (s s' : HashSet K) (k : K) (hz : s.size_ ≠ 0)
    (h : HashSet.insert hashFunc_ NullHash s k = Except.ok (false, s')) :
    ∃ f p, HashSet.findBucketIndex hashFunc_ NullHash s k = Except.ok (true, f, p) := by
  unfold HashSet.findBucketIndex
  simp only [hz, if_false]
  rcases insert_ok_inv hashFunc_ NullHash s s' k false h with
    ⟨-, -, hF1 | hF2⟩ | ⟨c, -⟩
  · obtain ⟨hb, hv, hhv, hne⟩ := hF1
    have e1 := (rd_ok s s.hashes_ _ hv).2 hhv
    simp only [hb, e1, ok_bind, Bool.true_eq_false, if_false, hne, ne_eq, not_false_eq_true,
      if_true]
    exact ⟨_, _, rfl⟩
  · obtain ⟨hb, d, c0, hd, hdne, hc0, hb1 | ⟨hb1, hloop⟩⟩ := hF2
    · have e1 := (rd_ok s s.delta1_ _ d).2 hd
      simp only [hb, e1, hc0, hb1, ok_bind, if_true, hdne, ne_eq, not_false_eq_true,
        Bool.true_eq_false, if_false]
      exact ⟨_, _, rfl⟩
    · have e1 := (rd_ok s s.delta1_ _ d).2 hd
      simp only [hb, e1, hc0, hb1, ok_bind, if_true, hdne, ne_eq, not_false_eq_true]
      rw [insertLoop_eq s _ k _ c0 (hashFunc_ k % s.capacity_), map_ok] at hloop
      obtain ⟨⟨r, f, p⟩, hr, hnone⟩ := hloop
      cases r
      · simp at hnone
      · exact ⟨f, p, hr⟩
  · cases c

/-- A lookup that finds `k` still finds it, in the same bucket, after the `insert` of
another key. -/
theorem findBucketIndex_insert (s s' : HashSet K) (k k' : K) (r : Bool) (f p : Nat)
    (hne : k ≠ k') (hk : hashFunc_ k ≠ NullHash)
    (h : HashSet.insert hashFunc_ NullHash s k' = Except.ok (r, s'))
    (hf : HashSet.findBucketIndex hashFunc_ NullHash s k = Except.ok (true, f, p)) :
    HashSet.findBucketIndex hashFunc_ NullHash s' k = Except.ok (true, f, p) := by
  have := insert_frame_aux hashFunc_ NullHash s s' k' r h
  cases r
  · rw [this.1 rfl]
    exact hf
  · obtain ⟨-, hsz, hc, ⟨n, -, hnk, hn, hh, hkeys⟩, hdel⟩ := this.2 rfl
    have hd1 : ∀ (c d : Nat), s.delta1_[c]? = some d → d ≠ 0 → s'.delta1_[c]? = some d := by
      intro c d h1 h2
      rcases hdel with ⟨e, -⟩ | ⟨b, d', hb, e, -⟩ | ⟨b, d', hb, -, e⟩
      · rw [e]; exact h1
      · have : b ≠ c := by
          intro ebc
          rw [ebc, h1] at hb
          exact h2 (Option.some.inj hb)
        rw [e, List.getElem?_set_ne this]
        exact h1
      · rw [e]; exact h1
    have hd2 : ∀ (c d : Nat), s.delta2_[c]? = some d → d ≠ 0 → s'.delta2_[c]? = some d := by
      intro c d h1 h2
      rcases hdel with ⟨-, e⟩ | ⟨b, d', hb, -, e⟩ | ⟨b, d', hb, e, -⟩
      · rw [e]; exact h1
      · rw [e]; exact h1
      · have : b ≠ c := by
          intro ebc
          rw [ebc, h1] at hb
          exact h2 (Option.some.inj hb)
        rw [e, List.getElem?_set_ne this]
        exact h1
    exact findBucketIndex_frame hashFunc_ NullHash s s' n k k' _ hne hn hnk hk hh hkeys hc
      (by omega) hd1 hd2 f p hf


theorem occupied_replicate (n : Nat) : occupied NullHash (List.replicate n NullHash) = 0 := by
  induction n with
  | zero => rfl
  | succ n ih =>
    simp only [occupied] at ih
    simp [occupied, List.replicate_succ, List.countP_cons, ih]

/-- A fresh set has arrays of `capacity_` elements and counts its occupied buckets. -/
theorem construct_counted [Inhabited K] (capacity : Nat) (s : HashSet K)
    (h : HashSet.construct NullHash capacity = Except.ok s) :
    s.WF ∧ s.size_ = occupied NullHash s.hashes_ := by
  obtain ⟨-, rfl⟩ := construct_ok NullHash capacity s h
  refine ⟨⟨?_, ?_, ?_, ?_⟩, ?_⟩ <;> simp [occupied_replicate]

/-- The call `insert` keeps the arrays at `capacity_` elements and `size_` equal to the
number of occupied buckets. -/
theorem insert_counted (hH : ∀ k, hashFunc_ k ≠ NullHash) (s s' : HashSet K) (k : K)
    (r : Bool) (h : HashSet.insert hashFunc_ NullHash s k = Except.ok (r, s'))
    (hs : s.WF ∧ s.size_ = occupied NullHash s.hashes_) :
    s'.WF ∧ s'.size_ = occupied NullHash s'.hashes_ := by
  have := insert_frame_aux hashFunc_ NullHash s s' k r h
  cases r
  · rw [this.1 rfl]
    exact hs
  · obtain ⟨-, hsz, hc, ⟨n, -, -, hn, hh, hkeys⟩, hdel⟩ := this.2 rfl
    obtain ⟨⟨w1, w2, w3, w4⟩, hocc⟩ := hs
    refine ⟨⟨?_, ?_, ?_, ?_⟩, ?_⟩
    · rcases hdel with ⟨e, -⟩ | ⟨b, d', hb, e, -⟩ | ⟨b, d', hb, -, e⟩ <;>
        simp [e, hc, w1]
    · rcases hdel with ⟨-, e⟩ | ⟨b, d', hb, -, e⟩ | ⟨b, d', hb, e, -⟩ <;>
        simp [e, hc, w2]
    · simp [hh, hc, w3]
    · simp [hkeys, hc, w4]
    · rw [hsz, hh, occupied_set_fill NullHash s.hashes_ n _ hn (hH k), hocc]

/-- The call `remove` keeps the arrays at `capacity_` elements and `size_` equal to the
number of occupied buckets. -/
theorem remove_counted (hH : ∀ k, hashFunc_ k ≠ NullHash) (s s' : HashSet K) (k : K)
    (r : Bool) (h : HashSet.remove hashFunc_ NullHash s k = Except.ok (r, s'))
    (hs : s.WF ∧ s.size_ = occupied NullHash s.hashes_) :
    s'.WF ∧ s'.size_ = occupied NullHash s'.hashes_ := by
  rcases remove_ok_inv hashFunc_ NullHash s s' k r h with
    ⟨-, rfl, -⟩ | ⟨-, f, p, hf, a1, a2, a3, a4, a5, a6, a7⟩
  · exact hs
  · obtain ⟨⟨w1, w2, w3, w4⟩, hocc⟩ := hs
    obtain ⟨hz, hfh, -⟩ := findBucketIndex_found hashFunc_ NullHash s k f p hf
    have := occupied_set_null NullHash s.hashes_ f _ hfh (hH k)
    refine ⟨⟨by omega, by omega, by omega, by omega⟩, ?_⟩
    omega

/-- Every set made by `insert` and `remove` calls from a set whose `size_` is the number
of its occupied buckets has this property too. -/
theorem calls_counted [Inhabited K] (hH : ∀ k, hashFunc_ k ≠ NullHash)
    (cs : List (Call K)) :
    ∀ (s s' : HashSet K), (∀ c ∈ cs, Call.isInsertOrRemove c = true) →
      HashSet.calls hashFunc_ NullHash s cs = Except.ok s' →
      s.WF ∧ s.size_ = occupied NullHash s.hashes_ →
      s'.WF ∧ s'.size_ = occupied NullHash s'.hashes_ := by
  induction cs with
  | nil =>
    intro s s' _ h hs
    simp only [HashSet.calls, pure_ok] at h
    subst h
    exact hs
  | cons c cs ih =>
    intro s s' hcs h hs
    simp only [HashSet.calls, bind_ok] at h
    obtain ⟨t, ht, h⟩ := h
    have hc := hcs c (List.mem_cons_self _ _)
    have ht' : t.WF ∧ t.size_ = occupied NullHash t.hashes_ := by
      cases c with
      | insert key =>
        simp only [HashSet.call, bind_ok, pure_ok] at ht
        obtain ⟨⟨r, t1⟩, hins, rfl⟩ := ht
        exact insert_counted hashFunc_ NullHash hH s t1 key r hins hs
      | remove key =>
        simp only [HashSet.call, bind_ok, pure_ok] at ht
        obtain ⟨⟨r, t1⟩, hrem, rfl⟩ := ht
        exact remove_counted hashFunc_ NullHash hH s t1 key r hrem hs
      | clear => simp [Call.isInsertOrRemove] at hc
      | rehash count => simp [Call.isInsertOrRemove] at hc
    exact ih t s' (fun c' hc' => hcs c' (List.mem_cons_of_mem _ hc')) h ht'

theorem reachable_counted [Inhabited K] (hH : ∀ k, hashFunc_ k ≠ NullHash)
    (s : HashSet K) (hs : HashSet.Reachable hashFunc_ NullHash s) :
    s.WF ∧ s.size_ = occupied NullHash s.hashes_ := by
  obtain ⟨capacity, cs, hcs, h⟩ := hs
  simp only [HashSet.fromFresh, bind_ok] at h
  obtain ⟨s0, h0, h⟩ := h
  exact calls_counted hashFunc_ NullHash hH cs s0 s hcs h
    (construct_counted NullHash capacity s0 h0)

theorem occupied_pos (hs : List Nat) (c hv : Nat) (h : hs[c]? = some hv)
    (hne : hv ≠ NullHash) : 0 < occupied NullHash hs := by
  have := occupied_set_null NullHash hs c hv h hne
  omega


/-- An `insert` that returns true has made the walk of an unsuccessful lookup. -/
theorem not_found_of_insert_true (s s' : HashSet K) (k : K)
    (h : HashSet.insert hashFunc_ NullHash s k = Except.ok (true, s')) :
    ∃ f p, HashSet.findBucketIndex hashFunc_ NullHash s k = Except.ok (false, f, p) := by
  unfold HashSet.findBucketIndex
  by_cases hz : s.size_ = 0
  · simp only [hz, if_true]
    exact ⟨_, _, rfl⟩
  · simp only [hz, if_false]
    rcases insert_ok_inv hashFunc_ NullHash s s' k true h with
      ⟨c, -⟩ | ⟨-, hA | hB | hC⟩
    · cases c
    · obtain ⟨hn, -⟩ := hA
      have e0 := (bucketFoundOrEmpty_true NullHash s _ (hashFunc_ k) k).2 (Or.inl hn)
      have e1 := (rd_ok s s.hashes_ _ _).2 hn
      simp only [e0, e1, ok_bind, Bool.true_eq_false, if_false, ne_eq, not_true_eq_false]
      exact ⟨_, _, rfl⟩
    · obtain ⟨hb, hd, -⟩ := hB
      have e1 := (rd_ok s s.delta1_ _ _).2 hd
      simp only [hb, e1, ok_bind, if_true, ne_eq, not_true_eq_false, if_false]
      exact ⟨_, _, rfl⟩
    · obtain ⟨hb, d1, c0, t, n, d, hd, hd1ne, hc0, hb1, hloop, -⟩ := hC
      have e1 := (rd_ok s s.delta1_ _ _).2 hd
      simp only [hb, e1, hc0, hb1, ok_bind, if_true, ne_eq, hd1ne, not_false_eq_true]
      rw [insertLoop_eq s _ k _ c0 (hashFunc_ k % s.capacity_), map_ok] at hloop
      obtain ⟨⟨r, f, p⟩, hr, hsome⟩ := hloop
      cases r
      · exact ⟨f, p, hr⟩
      · simp at hsome

/-- The invariant of a set made by `insert` calls only, `done` being the keys inserted:
the arrays have `capacity_` elements, `size_` is the number of distinct keys, every key
is found by the lookup, and the occupied buckets hold inserted keys only. -/
theorem insertAll_inv [Inhabited K] (hH : ∀ k, hashFunc_ k ≠ NullHash) (ks : List K) :
    ∀ (done : List K) (s s' : HashSet K),
      HashSet.calls hashFunc_ NullHash s (ks.map Call.insert) = Except.ok s' →
      (s.WF ∧ s.size_ = done.toFinset.card ∧
        (∀ k ∈ done, ∃ f p,
          HashSet.findBucketIndex hashFunc_ NullHash s k = Except.ok (true, f, p)) ∧
        (∀ (c : Nat) (k : K), s.hashes_[c]? = some (hashFunc_ k) → s.keys_[c]? = some k →
          k ∈ done)) →
      (s'.WF ∧ s'.size_ = (ks.reverse ++ done).toFinset.card ∧
        (∀ k ∈ ks.reverse ++ done, ∃ f p,
          HashSet.findBucketIndex hashFunc_ NullHash s' k = Except.ok (true, f, p)) ∧
        (∀ (c : Nat) (k : K), s'.hashes_[c]? = some (hashFunc_ k) → s'.keys_[c]? = some k →
          k ∈ ks.reverse ++ done)) := by
  induction ks with
  | nil =>
    intro done s s' h hs
    simp only [List.map_nil, HashSet.calls, pure_ok] at h
    subst h
    simpa using hs
  | cons k ks ih =>
    intro done s s' h hs
    simp only [List.map_cons, HashSet.calls, HashSet.call, bind_ok, pure_ok] at h
    obtain ⟨t, ⟨⟨r, t1⟩, hins, rfl⟩, h⟩ := h
    have e : (k :: ks).reverse ++ done = ks.reverse ++ (k :: done) := by simp
    rw [e]
    refine ih (k :: done) _ s' h ?_
    obtain ⟨hwf, hsz, hfind, hkeys⟩ := hs
    by_cases hk : k ∈ done
    · obtain ⟨f, p, hf⟩ := hfind k hk
      have := insert_of_found hashFunc_ NullHash s k f p hf
      rw [this] at hins
      obtain ⟨-, rfl⟩ := Prod.mk.inj (Except.ok.inj hins)
      refine ⟨hwf, ?_, ?_, ?_⟩
      · rw [hsz, List.toFinset_cons, Finset.insert_eq_of_mem (List.mem_toFinset.2 hk)]
      · intro k2 hk2
        rcases List.mem_cons.1 hk2 with rfl | hk2
        · exact ⟨f, p, hf⟩
        · exact hfind k2 hk2
      · intro c k2 h1 h2
        exact List.mem_cons_of_mem _ (hkeys c k2 h1 h2)
    · cases r
      · obtain ⟨c, h1, h2⟩ := bucket_of_insert_false hashFunc_ NullHash s t1 k hins
        exact absurd (hkeys c k h1 h2) hk
      · obtain ⟨-, hsz', hc, ⟨n, hnl, hnk, hn, hh, hkk⟩, hdel⟩ :=
          (insert_frame_aux hashFunc_ NullHash s t1 k true hins).2 rfl
        have hwf' : t1.WF := by
          obtain ⟨w1, w2, w3, w4⟩ := hwf
          refine ⟨?_, ?_, ?_, ?_⟩
          · rcases hdel with ⟨e, -⟩ | ⟨b, d', hb, e, -⟩ | ⟨b, d', hb, -, e⟩ <;>
              simp [e, hc, w1]
          · rcases hdel with ⟨-, e⟩ | ⟨b, d', hb, -, e⟩ | ⟨b, d', hb, e, -⟩ <;>
              simp [e, hc, w2]
          · simp [hh, hc, w3]
          · simp [hkk, hc, w4]
        refine ⟨hwf', ?_, ?_, ?_⟩
        · rw [hsz', hsz, List.toFinset_cons,
            Finset.card_insert_of_not_mem (fun hm => hk (List.mem_toFinset.1 hm))]
        · intro k2 hk2
          rcases List.mem_cons.1 hk2 with rfl | hk2
          · exact findBucketIndex_new hashFunc_ NullHash s t1 k2 hwf (hH k2) hins
          · obtain ⟨f, p, hf⟩ := hfind k2 hk2
            have hne : k2 ≠ k := fun e => hk (e ▸ hk2)
            exact ⟨f, p, findBucketIndex_insert hashFunc_ NullHash s t1 k2 k true f p hne
              (hH k2) hins hf⟩
        · intro c k2 h1 h2
          by_cases ecn : n = c
          · subst ecn
            rw [hkk, List.getElem?_set_self hnk] at h2
            rw [← Option.some.inj h2]
            exact List.mem_cons_self _ _
          · rw [hh, List.getElem?_set_ne ecn] at h1
            rw [hkk, List.getElem?_set_ne ecn] at h2
            exact List.mem_cons_of_mem _ (hkeys c k2 h1 h2)


theorem calls_append [Inhabited K] (xs ys : List (Call K)) :
    ∀ (s s' : HashSet K),
      HashSet.calls hashFunc_ NullHash s (xs ++ ys) = Except.ok s' ↔
        ∃ t, HashSet.calls hashFunc_ NullHash s xs = Except.ok t ∧
          HashSet.calls hashFunc_ NullHash t ys = Except.ok s' := by
  induction xs with
  | nil =>
    intro s s'
    simp [HashSet.calls, pure_ok]
  | cons c xs ih =>
    intro s s'
    rw [List.cons_append]
    simp only [HashSet.calls, bind_ok]
    constructor
    · rintro ⟨u, hu, h⟩
      obtain ⟨t, ht, h⟩ := (ih u s').1 h
      exact ⟨t, ⟨u, hu, ht⟩, h⟩
    · rintro ⟨t, ⟨u, hu, ht⟩, h⟩
      exact ⟨u, hu, (ih u s').2 ⟨t, ht, h⟩⟩

/-- The state of a set made from a fresh one by `insert` calls only. -/
theorem fromFresh_insertAll [Inhabited K] (hH : ∀ k, hashFunc_ k ≠ NullHash)
    (capacity : Nat) (ks : List K) (s : HashSet K)
    (h : HashSet.fromFresh hashFunc_ NullHash capacity (ks.map Call.insert) = Except.ok s) :
    s.size_ = ks.dedup.length ∧
      ∀ k ∈ ks, ∃ f p,
        HashSet.findBucketIndex hashFunc_ NullHash s k = Except.ok (true, f, p) := by
  simp only [HashSet.fromFresh, bind_ok] at h
  obtain ⟨s0, h0, h⟩ := h
  obtain ⟨hwf, -⟩ := construct_counted NullHash capacity s0 h0
  obtain ⟨-, rfl⟩ := construct_ok NullHash capacity s0 h0
  have := insertAll_inv hashFunc_ NullHash hH ks [] _ s h
    ⟨hwf, by simp, by simp, by
      intro c k h1 h2
      simp only [List.getElem?_replicate] at h1
      split at h1
      · exact absurd (Option.some.inj h1).symm (hH k)
      · cases h1⟩
  obtain ⟨-, hsz, hfind, -⟩ := this
  simp only [List.append_nil, List.toFinset_reverse] at hsz hfind
  refine ⟨by rw [hsz, List.card_toFinset], ?_⟩
  intro k hk
  exact hfind k (List.mem_reverse.2 hk)

/-- When a sequence of `insert` calls on a freshly constructed set returns, `size_` is the
number of distinct keys of the sequence, and every `insert` of a key that occurs earlier in
the sequence returns false and leaves the set as it is. -/
theorem insertAll_spec [Inhabited K] (hH : ∀ k, hashFunc_ k ≠ NullHash)
    (capacity : Nat) (keys : List K) (s : HashSet K)
    (h : HashSet.fromFresh hashFunc_ NullHash capacity (keys.map Call.insert)
      = Except.ok s) :
    s.size_ = keys.dedup.length ∧
      ∀ (pre post : List K) (k : K), keys = pre ++ k :: post → k ∈ pre →
        ∃ t, HashSet.fromFresh hashFunc_ NullHash capacity (pre.map Call.insert)
              = Except.ok t ∧
          HashSet.insert hashFunc_ NullHash t k = Except.ok (false, t) := by
  refine ⟨(fromFresh_insertAll hashFunc_ NullHash hH capacity keys s h).1, ?_⟩
  intro pre post k hkeys hk
  subst hkeys
  simp only [HashSet.fromFresh, bind_ok, List.map_append, calls_append] at h
  obtain ⟨s0, h0, t, ht, -⟩ := h
  have ht' : HashSet.fromFresh hashFunc_ NullHash capacity (pre.map Call.insert)
      = Except.ok t := by
    simp only [HashSet.fromFresh, bind_ok]
    exact ⟨s0, h0, ht⟩
  obtain ⟨f, p, hf⟩ := (fromFresh_insertAll hashFunc_ NullHash hH capacity pre t ht').2 k hk
  exact ⟨t, ht', insert_of_found hashFunc_ NullHash t k f p hf⟩

/-- In a set that counts its occupied buckets, an `insert` that returns gives false exactly
when `contains` gave true before the call and true exactly when `contains` gave false, and
after an `insert` that returned true `contains` gives true. -/
theorem insert_result_spec (hH : ∀ k, hashFunc_ k ≠ NullHash)
    (s s' : HashSet K) (key : K) (r : Bool)
    (hs : s.WF ∧ s.size_ = occupied NullHash s.hashes_)
    (h : HashSet.insert hashFunc_ NullHash s key = Except.ok (r, s')) :
    (r = false ↔ HashSet.contains hashFunc_ NullHash s key = Except.ok true) ∧
    (r = true ↔ HashSet.contains hashFunc_ NullHash s key = Except.ok false) ∧
    (r = true → HashSet.contains hashFunc_ NullHash s' key = Except.ok true) := by
  obtain ⟨hwf, hocc⟩ := hs
  have hfalse : r = false → HashSet.contains hashFunc_ NullHash s key = Except.ok true := by
    intro hr
    subst hr
    obtain ⟨c, h1, -⟩ := bucket_of_insert_false hashFunc_ NullHash s s' key h
    have hz : s.size_ ≠ 0 := by
      have := occupied_pos NullHash s.hashes_ c _ h1 (hH key)
      omega
    exact (contains_eq hashFunc_ NullHash s key true).2
      (found_of_insert_false hashFunc_ NullHash s s' key hz h)
  have htrue : r = true → HashSet.contains hashFunc_ NullHash s key = Except.ok false := by
    intro hr
    subst hr
    exact (contains_eq hashFunc_ NullHash s key false).2
      (not_found_of_insert_true hashFunc_ NullHash s s' key h)
  refine ⟨⟨hfalse, ?_⟩, ⟨htrue, ?_⟩, ?_⟩
  · intro hc
    cases r
    · rfl
    · rw [htrue rfl] at hc
      cases hc
  · intro hc
    cases r
    · rw [hfalse rfl] at hc
      cases hc
    · rfl
  · intro hr
    subst hr
    exact (contains_eq hashFunc_ NullHash s' key true).2
      (findBucketIndex_new hashFunc_ NullHash s s' key hwf (hH key) h)


/-- C4.  The call `remove` returns false exactly when `contains` gives false before the
call, and it then leaves the whole set (`size_`, `capacity_`, `delta1_`, `delta2_`,
`hashes_`, `keys_`) as it is. -/
theorem remove_false_iff (s s' : HashSet K) (key : K) :
    HashSet.remove hashFunc_ NullHash s key = Except.ok (false, s') ↔
      HashSet.contains hashFunc_ NullHash s key = Except.ok false ∧ s' = s := by
  constructor
  · intro h
    rcases remove_ok_inv hashFunc_ NullHash s s' key false h with
      ⟨-, rfl, f, p, hf⟩ | ⟨c, -⟩
    · exact ⟨(contains_eq hashFunc_ NullHash _ key false).2 ⟨f, p, hf⟩, rfl⟩
    · cases c
  · rintro ⟨h, rfl⟩
    obtain ⟨f, p, hf⟩ := (contains_eq hashFunc_ NullHash _ key false).1 h
    exact remove_of_not_found hashFunc_ NullHash _ key f p hf

/-- C6.  An `insert` that returns false leaves the set as it is.  An `insert` that returns
true increases `size_` by one, keeps the hash and the key of every occupied bucket, stores
the hash and the key in one bucket `n` that was empty and nowhere else, and changes at most
one delta, which was 0. -/
theorem insert_overwrites_nothing (s s' : HashSet K) (key : K) (r : Bool)
    (h : HashSet.insert hashFunc_ NullHash s key = Except.ok (r, s')) :
    (r = false → s' = s) ∧
    (r = true →
      s'.size_ = s.size_ + 1 ∧ s'.capacity_ = s.capacity_ ∧
      (∀ (i hv : Nat), s.hashes_[i]? = some hv → hv ≠ NullHash →
        s'.hashes_[i]? = some hv ∧ s'.keys_[i]? = s.keys_[i]?) ∧
      (∃ n, n < s.hashes_.length ∧ n < s.keys_.length ∧ s.hashes_[n]? = some NullHash ∧
        s'.hashes_ = s.hashes_.set n (hashFunc_ key) ∧ s'.keys_ = s.keys_.set n key) ∧
      ((s'.delta1_ = s.delta1_ ∧ s'.delta2_ = s.delta2_) ∨
        (∃ b d, s.delta1_[b]? = some 0 ∧ s'.delta1_ = s.delta1_.set b d ∧
          s'.delta2_ = s.delta2_) ∨
        (∃ b d, s.delta2_[b]? = some 0 ∧ s'.delta2_ = s.delta2_.set b d ∧
          s'.delta1_ = s.delta1_))) := by
  have haux := insert_frame_aux hashFunc_ NullHash s s' key r h
  refine ⟨haux.1, fun hr => ?_⟩
  obtain ⟨-, hsz, hc, ⟨n, hnl, hnk, hn, hh, hkeys⟩, hdel⟩ := haux.2 hr
  refine ⟨hsz, hc, ?_, ⟨n, hnl, hnk, hn, hh, hkeys⟩, hdel⟩
  intro i hv h1 h2
  have e : n ≠ i := by
    intro e
    subst e
    rw [hn] at h1
    exact h2 (Option.some.inj h1).symm
  exact ⟨by rw [hh, List.getElem?_set_ne e]; exact h1, by rw [hkeys, List.getElem?_set_ne e]⟩

/-- C7 (capacity invariant).  A freshly constructed set has `size_ ≤ capacity_`, and every
`insert`, `remove`, `clear` and `rehash` call that returns keeps `size_ ≤ capacity_`. -/
theorem size_le_capacity [Inhabited K] :
    (∀ (capacity : Nat) (s : HashSet K),
      HashSet.construct NullHash capacity = Except.ok s → s.size_ ≤ s.capacity_) ∧
    (∀ (s s' : HashSet K) (c : Call K), s.size_ ≤ s.capacity_ →
      HashSet.call hashFunc_ NullHash s c = Except.ok s' → s'.size_ ≤ s'.capacity_) := by
  refine ⟨?_, fun s s' c hs h => call_size hashFunc_ NullHash s s' c hs h⟩
  intro capacity s h
  obtain ⟨-, rfl⟩ := construct_ok NullHash capacity s h
  exact Nat.zero_le _

/-- C10.  The call `rehash(count)` leaves the whole set as it is, its capacity included,
when the set is empty or `count` is less than `size_`. -/
theorem rehash_noop [Inhabited K] (s : HashSet K) (count : Nat)
    (h : s.size_ = 0 ∨ count < s.size_) :
    HashSet.rehash hashFunc_ NullHash s count = Except.ok s := by
  unfold HashSet.rehash
  simp only [h, if_true]
  rfl


/-- An `insert` of a key whose ideal bucket is empty stores the key there. -/
theorem insert_empty_ideal (s : HashSet K) (k : K) (hsz : s.size_ < s.capacity_)
    (he : s.hashes_[hashFunc_ k % s.capacity_]? = some NullHash)
    (hk : hashFunc_ k % s.capacity_ < s.keys_.length) :
    HashSet.insert hashFunc_ NullHash s k =
      Except.ok (true, { s with
        size_ := s.size_ + 1
        hashes_ := s.hashes_.set (hashFunc_ k % s.capacity_) (hashFunc_ k)
        keys_ := s.keys_.set (hashFunc_ k % s.capacity_) k }) := by
  have e0 := (bucketFoundOrEmpty_true NullHash s _ (hashFunc_ k) k).2 (Or.inl he)
  have e1 := (rd_ok s s.hashes_ _ _).2 he
  have e2 := (insertKey_ok NullHash s _ (hashFunc_ k % s.capacity_) (hashFunc_ k) k).2
    ⟨hsz, he, hk, rfl⟩
  unfold HashSet.insert
  simp only [e0, e1, e2, ok_bind, Bool.true_eq_false, if_false, if_true]
  rfl


theorem bind_error {ε α β : Type} (x : Except ε α) (f : α → Except ε β) (e : ε) :
    (x >>= f) = Except.error e ↔
      x = Except.error e ∨ ∃ a, x = Except.ok a ∧ f a = Except.error e := by
  cases x <;> simp [bind, Except.bind]

theorem pure_error {ε α : Type} (a : α) (e : ε) :
    (pure a : Except ε α) = Except.error e ↔ False := by
  simp [pure, Except.pure]

theorem throw_error {ε α : Type} (e e' : ε) :
    (throw e : Except ε α) = Except.error e' ↔ e = e' := by
  simp [throw, throwThe, MonadExceptOf.throw]

theorem rd_error {α : Type} (s : HashSet K) (xs : List α) (i : Nat) (e : Fault × HashSet K)
    (h : rd s xs i = Except.error e) : e.2 = s := by
  unfold rd at h
  cases hx : xs[i]? with
  | none =>
    simp only [hx, throw_error] at h
    rw [← h]
  | some v => simp [hx, pure_error] at h

theorem wr_error {α : Type} (s : HashSet K) (xs : List α) (i : Nat) (v : α)
    (e : Fault × HashSet K) (h : wr s xs i v = Except.error e) : e.2 = s := by
  unfold wr at h
  by_cases c : i < xs.length
  · simp [c, pure_error] at h
  · simp only [c, if_false, throw_error] at h
    rw [← h]

theorem bucketFoundOrEmpty_error (s : HashSet K) (i h : Nat) (k : K) (e : Fault × HashSet K)
    (he : HashSet.bucketFoundOrEmpty NullHash s i h k = Except.error e) : e.2 = s := by
  unfold HashSet.bucketFoundOrEmpty at he
  rw [bind_error] at he
  rcases he with he | ⟨hv, -, he⟩
  · exact rd_error s _ _ e he
  · by_cases c : hv = NullHash
    · simp [c, pure_error] at he
    · by_cases c2 : hv = h
      · subst c2
        simp only [c, if_false, if_true, bind_error, pure_error, and_false,
          exists_false, or_false] at he
        exact rd_error s _ _ e he
      · simp [c, c2, pure_error] at he

theorem bucketFound_error (s : HashSet K) (i h : Nat) (k : K) (e : Fault × HashSet K)
    (he : HashSet.bucketFound s i h k = Except.error e) : e.2 = s := by
  unfold HashSet.bucketFound at he
  rw [bind_error] at he
  rcases he with he | ⟨hv, -, he⟩
  · exact rd_error s _ _ e he
  · by_cases c2 : hv = h
    · subst c2
      simp only [if_true, bind_error, pure_error, and_false, exists_false,
        or_false] at he
      exact rd_error s _ _ e he
    · simp [c2, pure_error] at he

theorem addDelta1_error (s : HashSet K) (b : Nat) (e : Fault × HashSet K)
    (he : HashSet.addDelta1 s b = Except.error e) : e.2 = s := by
  unfold HashSet.addDelta1 at he
  rw [bind_error] at he
  rcases he with he | ⟨d, -, he⟩
  · exact rd_error s _ _ e he
  · by_cases c : b + d > s.capacity_ - 1 <;> simp [c, pure_error] at he

theorem addDelta2_error (s : HashSet K) (b : Nat) (e : Fault × HashSet K)
    (he : HashSet.addDelta2 s b = Except.error e) : e.2 = s := by
  unfold HashSet.addDelta2 at he
  rw [bind_error] at he
  rcases he with he | ⟨d, -, he⟩
  · exact rd_error s _ _ e he
  · by_cases c : b + d > s.capacity_ - 1 <;> simp [c, pure_error] at he

theorem calcNewDelta_error (s : HashSet K) (b n : Nat) (e : Fault × HashSet K)
    (he : HashSet.calcNewDelta s b n = Except.error e) : e = (Fault.assertDelta, s) := by
  unfold HashSet.calcNewDelta at he
  by_cases c : (if n ≥ b then n - b else s.capacity_ - b + n) < 256
  · simp [c, pure_error] at he
  · simp only [c, if_false, throw_error] at he
    exact he.symm

theorem linearSearchLoop_error (s : HashSet K) (h : Nat) (k : K) (n : Nat) :
    ∀ (i : Nat) (e : Fault × HashSet K),
      HashSet.linearSearchLoop NullHash s h k n i = Except.error e → e.2 = s := by
  induction n with
  | zero =>
    intro i e he
    simp [HashSet.linearSearchLoop, pure_error] at he
  | succ n ih =>
    intro i e he
    unfold HashSet.linearSearchLoop at he
    rw [bind_error] at he
    rcases he with he | ⟨b, -, he⟩
    · exact bucketFoundOrEmpty_error NullHash s _ _ k e he
    · cases b
      · exact ih (i + 1) e (by simpa using he)
      · simp [pure_error] at he

theorem linearSearch_error (s : HashSet K) (i h : Nat) (k : K) (e : Fault × HashSet K)
    (he : HashSet.linearSearch NullHash s i h k = Except.error e) : e.2 = s := by
  unfold HashSet.linearSearch at he
  rw [bind_error] at he
  rcases he with he | ⟨o, -, he⟩
  · exact linearSearchLoop_error NullHash s h k _ _ e he
  · cases o with
    | some j => simp [pure_error] at he
    | none =>
      simp only [bind_error] at he
      rcases he with he | ⟨o2, -, he⟩
      · exact linearSearchLoop_error NullHash s h k _ _ e he
      · cases o2 <;> simp [pure_error] at he

theorem insertLoop_error (s : HashSet K) (h : Nat) (k : K) (fuel : Nat) :
    ∀ (b : Nat) (e : Fault × HashSet K),
      HashSet.insertLoop s h k fuel b = Except.error e → e.2 = s := by
  induction fuel with
  | zero =>
    intro b e he
    simp only [HashSet.insertLoop, throw_error] at he
    rw [← he]
  | succ fuel ih =>
    intro b e he
    unfold HashSet.insertLoop at he
    rw [bind_error] at he
    rcases he with he | ⟨d, -, he⟩
    · exact rd_error s _ _ e he
    · by_cases c : d = 0
      · simp [c, pure_error] at he
      · simp only [c, ne_eq, not_false_eq_true, if_true, bind_error] at he
        rcases he with he | ⟨n, -, he | ⟨b1, -, he⟩⟩
        · exact addDelta2_error s _ e he
        · exact bucketFound_error s _ _ k e he
        · cases b1
          · exact ih n e (by simpa using he)
          · simp [pure_error] at he

theorem insertKey_error (s : HashSet K) (i h : Nat) (k : K) (e : Fault × HashSet K)
    (he : HashSet.insertKey NullHash s i h k = Except.error e) : e.2 = s := by
  unfold HashSet.insertKey at he
  by_cases c : s.size_ < s.capacity_
  · simp only [c, if_true, bind_error] at he
    rcases he with he | ⟨hv, -, he⟩
    · exact rd_error s _ _ e he
    · by_cases c2 : hv = NullHash
      · simp only [c2, if_true, bind_error, pure_error, and_false, exists_false,
          or_false] at he
        rcases he with he | ⟨hs, -, he⟩
        · exact wr_error s _ _ _ e he
        · exact wr_error s _ _ _ e he
      · simp only [c2, if_false, throw_error] at he
        rw [← he]
  · simp only [c, if_false, throw_error] at he
    rw [← he]

/-- Whenever `insert` stops, the stored hashes and keys and `size_` are those of before
the call: the only array it may have written by then is a delta. -/
theorem insert_error (s : HashSet K) (k : K) (e : Fault × HashSet K)
    (he : HashSet.insert hashFunc_ NullHash s k = Except.error e) :
    e.2.hashes_ = s.hashes_ ∧ e.2.keys_ = s.keys_ ∧ e.2.size_ = s.size_ ∧
      e.2.capacity_ = s.capacity_ := by
  have hs : ∀ e : Fault × HashSet K, e.2 = s →
      e.2.hashes_ = s.hashes_ ∧ e.2.keys_ = s.keys_ ∧ e.2.size_ = s.size_ ∧
        e.2.capacity_ = s.capacity_ := by
    intro e h
    rw [h]
    exact ⟨rfl, rfl, rfl, rfl⟩
  have hs2 : ∀ (e : Fault × HashSet K) (t : HashSet K), e.2 = t →
      t.hashes_ = s.hashes_ → t.keys_ = s.keys_ → t.size_ = s.size_ →
      t.capacity_ = s.capacity_ →
      e.2.hashes_ = s.hashes_ ∧ e.2.keys_ = s.keys_ ∧ e.2.size_ = s.size_ ∧
        e.2.capacity_ = s.capacity_ := by
    intro e t h h1 h2 h3 h4
    rw [h]
    exact ⟨h1, h2, h3, h4⟩
  unfold HashSet.insert at he
  rw [bind_error] at he
  rcases he with he | ⟨b, -, he⟩
  · exact hs e (bucketFoundOrEmpty_error NullHash s _ _ k e he)
  · cases b
    · simp only [if_true, bind_error] at he
      rcases he with he | ⟨d, -, he⟩
      · exact hs e (rd_error s _ _ e he)
      · by_cases c : d = 0
        · simp only [c, ne_eq, not_true_eq_false, if_false, bind_error, pure_error,
            and_false, exists_false, or_false] at he
          rcases he with he | ⟨n, -, he | ⟨dl, -, he | ⟨d1', hw, he⟩⟩⟩
          · exact hs e (linearSearch_error NullHash s _ _ k e he)
          · rw [calcNewDelta_error s _ _ e he]
            exact ⟨rfl, rfl, rfl, rfl⟩
          · exact hs e (wr_error s _ _ _ e he)
          · exact hs2 e _ (insertKey_error NullHash _ _ _ k e he) rfl rfl rfl rfl
        · simp only [c, ne_eq, not_false_eq_true, if_true, bind_error] at he
          rcases he with he | ⟨c0, -, he | ⟨b1, -, he⟩⟩
          · exact hs e (addDelta1_error s _ e he)
          · exact hs e (bucketFound_error s _ _ k e he)
          · cases b1
            · simp only [if_true, bind_error] at he
              rcases he with he | ⟨o, -, he⟩
              · exact hs e (insertLoop_error s _ k _ _ e he)
              · cases o with
                | none => simp [pure_error] at he
                | some t =>
                  simp only [bind_error, pure_error, and_false, exists_false,
                    or_false] at he
                  rcases he with he | ⟨n, -, he | ⟨dl, -, he | ⟨d2', hw, he⟩⟩⟩
                  · exact hs e (linearSearch_error NullHash s _ _ k e he)
                  · rw [calcNewDelta_error s _ _ e he]
                    exact ⟨rfl, rfl, rfl, rfl⟩
                  · exact hs e (wr_error s _ _ _ e he)
                  · exact hs2 e _ (insertKey_error NullHash _ _ _ k e he) rfl rfl rfl rfl
            · simp [pure_error] at he
    · simp only [Bool.true_eq_false, if_false, bind_error] at he
      rcases he with he | ⟨hv, -, he⟩
      · exact hs e (rd_error s _ _ e he)
      · by_cases c : hv = NullHash
        · simp only [c, if_true, bind_error, pure_error, and_false, exists_false,
            or_false] at he
          exact hs e (insertKey_error NullHash s _ _ k e he)
        · simp [c, pure_error] at he

/-- An `insert` into a set with `size_ = capacity_` (or more) does not return true. -/
theorem insert_full (s s' : HashSet K) (k : K) (hfull : s.capacity_ ≤ s.size_) :
    HashSet.insert hashFunc_ NullHash s k ≠ Except.ok (true, s') := by
  intro h
  obtain ⟨hsz, -⟩ := (insert_frame_aux hashFunc_ NullHash s s' k true h).2 rfl
  omega


/-- In a set whose arrays have `capacity_` elements every bucket below `capacity_` can be
read, so `bucketFoundOrEmpty` returns. -/
theorem bucketFoundOrEmpty_total (s : HashSet K) (hwf : s.WF) (i h : Nat) (k : K)
    (hi : i < s.capacity_) :
    ∃ b, HashSet.bucketFoundOrEmpty NullHash s i h k = Except.ok b := by
  obtain ⟨-, -, w3, w4⟩ := hwf
  have h1 : s.hashes_[i]? = some s.hashes_[i] := List.getElem?_eq_getElem (by omega)
  have h2 : s.keys_[i]? = some s.keys_[i] := List.getElem?_eq_getElem (by omega)
  by_cases c : s.hashes_[i] = NullHash
  · exact ⟨true, (bucketFoundOrEmpty_true NullHash s i h k).2 (Or.inl (by rw [h1, c]))⟩
  · by_cases c2 : s.hashes_[i] = h ∧ s.keys_[i] = k
    · refine ⟨true, (bucketFoundOrEmpty_true NullHash s i h k).2 (Or.inr ⟨?_, ?_, ?_⟩)⟩
      · rw [← c2.1]; exact c
      · rw [h1, c2.1]
      · rw [h2, c2.2]
    · refine ⟨false, (bucketFoundOrEmpty_false NullHash s i h k).2
        ⟨_, h1, c, fun e => ⟨_, h2, fun e2 => c2 ⟨e, e2⟩⟩⟩⟩

/-- In a set whose arrays have `capacity_` elements every bucket below `capacity_` can be
read, so `bucketFound` returns. -/
theorem bucketFound_total (s : HashSet K) (hwf : s.WF) (i h : Nat) (k : K)
    (hi : i < s.capacity_) :
    ∃ b, HashSet.bucketFound s i h k = Except.ok b := by
  obtain ⟨-, -, w3, w4⟩ := hwf
  have h1 : s.hashes_[i]? = some s.hashes_[i] := List.getElem?_eq_getElem (by omega)
  have h2 : s.keys_[i]? = some s.keys_[i] := List.getElem?_eq_getElem (by omega)
  by_cases c2 : s.hashes_[i] = h ∧ s.keys_[i] = k
  · refine ⟨true, (bucketFound_true s i h k).2 ⟨?_, ?_⟩⟩
    · rw [h1, c2.1]
    · rw [h2, c2.2]
  · exact ⟨false, (bucketFound_false s i h k).2
      ⟨_, h1, fun e => ⟨_, h2, fun e2 => c2 ⟨e, e2⟩⟩⟩⟩

/-- One loop of `linearSearch` over buckets below `capacity_` returns: the first bucket of
its range that is empty or holds the key, or nothing when there is no such bucket. -/
theorem linearSearchLoop_total (s : HashSet K) (hwf : s.WF) (h : Nat) (k : K) (n : Nat) :
    ∀ i, i + n ≤ s.capacity_ →
      (∃ j, i ≤ j ∧ j < i + n ∧
        HashSet.linearSearchLoop NullHash s h k n i = Except.ok (some j) ∧
        HashSet.bucketFoundOrEmpty NullHash s j h k = Except.ok true) ∨
      (HashSet.linearSearchLoop NullHash s h k n i = Except.ok none ∧
        ∀ j, i ≤ j → j < i + n →
          HashSet.bucketFoundOrEmpty NullHash s j h k = Except.ok false) := by
  induction n with
  | zero =>
    intro i _
    right
    refine ⟨rfl, ?_⟩
    intro j h1 h2
    omega
  | succ n ih =>
    intro i hi
    obtain ⟨b, hb⟩ := bucketFoundOrEmpty_total NullHash s hwf i h k (by omega)
    unfold HashSet.linearSearchLoop
    simp only [hb, ok_bind]
    cases b
    · simp only [Bool.false_eq_true, if_false]
      rcases ih (i + 1) (by omega) with ⟨j, h1, h2, h3, h4⟩ | ⟨h3, h4⟩
      · exact Or.inl ⟨j, by omega, by omega, h3, h4⟩
      · right
        refine ⟨h3, ?_⟩
        intro j h1 h2
        by_cases e : j = i
        · rw [e]; exact hb
        · exact h4 j (by omega) (by omega)
    · simp only [if_true]
      exact Or.inl ⟨i, Nat.le_refl _, by omega, rfl, hb⟩

/-- The function `linearSearch`, started at an index not above `capacity_`, returns: a
bucket that is empty or holds the key, or its start index when no bucket is such. -/
theorem linearSearch_total (s : HashSet K) (hwf : s.WF) (index h : Nat) (k : K)
    (hi : index ≤ s.capacity_) :
    ∃ n, HashSet.linearSearch NullHash s index h k = Except.ok n ∧
      ((n < s.capacity_ ∧ HashSet.bucketFoundOrEmpty NullHash s n h k = Except.ok true) ∨
        (n = index ∧ ∀ j, j < s.capacity_ →
          HashSet.bucketFoundOrEmpty NullHash s j h k = Except.ok false)) := by
  unfold HashSet.linearSearch
  rcases linearSearchLoop_total NullHash s hwf h k (s.capacity_ - index) index (by omega) with
    ⟨j, h1, h2, h3, h4⟩ | ⟨h3, h4⟩
  · simp only [h3, ok_bind]
    exact ⟨j, rfl, Or.inl ⟨by omega, h4⟩⟩
  · simp only [h3, ok_bind]
    rcases linearSearchLoop_total NullHash s hwf h k index 0 (by omega) with
      ⟨j, g1, g2, g3, g4⟩ | ⟨g3, g4⟩
    · simp only [g3, ok_bind]
      exact ⟨j, rfl, Or.inl ⟨by omega, g4⟩⟩
    · simp only [g3, ok_bind]
      refine ⟨index, rfl, Or.inr ⟨rfl, ?_⟩⟩
      intro j hj
      by_cases c : j < index
      · exact g4 j (Nat.zero_le _) (by omega)
      · exact h4 j (by omega) (by omega)

/-- A hash array without an empty bucket has as many occupied buckets as elements. -/
theorem occupied_full (hs : List Nat)
    (h : ∀ (j : Nat) (hj : j < hs.length), hs[j] ≠ NullHash) :
    occupied NullHash hs = hs.length := by
  induction hs with
  | nil => rfl
  | cons a as ih =>
    have h0 := h 0 (by simp)
    have hrest : ∀ (j : Nat) (hj : j < as.length), as[j] ≠ NullHash := by
      intro j hj
      have := h (j + 1) (by simpa using hj)
      simpa using this
    have := ih hrest
    simp only [List.getElem_cons_zero] at h0
    simp only [occupied] at this ⊢
    rw [List.countP_cons_of_pos _ _ (by simpa using h0), this]
    rfl


theorem assertOnly_ok {α : Type} (x : Run K α) (a : α) (h : x = Except.ok a) :
    AssertOnly x := by
  intro f u e
  rw [h] at e
  cases e

theorem assertOnly_bind {α β : Type} (x : Run K α) (g : α → Run K β)
    (hx : AssertOnly x) (hg : ∀ a, x = Except.ok a → AssertOnly (g a)) :
    AssertOnly (x >>= g) := by
  cases x with
  | error e =>
    intro f u h
    rw [error_bind] at h
    cases h
    exact hx f u rfl
  | ok a => exact hg a rfl

theorem calcNewDelta_assertOnly (s : HashSet K) (t n : Nat) :
    AssertOnly (HashSet.calcNewDelta s t n) := by
  intro f u h
  unfold HashSet.calcNewDelta at h
  by_cases c : (if n ≥ t then n - t else s.capacity_ - t + n) < 256
  · simp only [c, if_true, pure_error] at h
  · simp only [c, if_false, throw_error, Prod.mk.injEq] at h
    rw [← h.1]
    rfl

/-- The function `insertKey` returns or stops at one of its two assertions when its
bucket is inside the arrays, which it has to be only if the set is not full. -/
theorem insertKey_assertOnly (s : HashSet K) (n h : Nat) (k : K)
    (h3 : s.hashes_.length = s.capacity_) (h4 : s.keys_.length = s.capacity_)
    (hn : s.size_ < s.capacity_ → n < s.capacity_) :
    AssertOnly (HashSet.insertKey NullHash s n h k) := by
  unfold HashSet.insertKey
  by_cases c : s.size_ < s.capacity_
  · have hlt := hn c
    have h1 : s.hashes_[n]? = some s.hashes_[n] := List.getElem?_eq_getElem (by omega)
    simp only [c, if_true, rd, h1, pure_bind]
    by_cases e : s.hashes_[n] = NullHash
    · have w1 : n < s.hashes_.length := by omega
      have w2 : n < s.keys_.length := by omega
      simp only [e, if_true, wr, w1, w2, pure_bind]
      exact assertOnly_ok _ _ rfl
    · simp only [e, if_false]
      intro f u hh
      have := (throw_error _ _).1 hh
      simp only [Prod.mk.injEq] at this
      rw [← this.1]
      rfl
  · simp only [c, if_false]
    intro f u hh
    have := (throw_error _ _).1 hh
    simp only [Prod.mk.injEq] at this
    rw [← this.1]
    rfl

/-- The end of `insert` for a key that the walk has not found: the linear search, the new
delta stored at `t` in the array `arr`, and `insertKey`.  In a set that counts its occupied
buckets it returns or stops at an assertion. -/
theorem store_assertOnly (s : HashSet K) (hwf : s.WF)
    (hocc : s.size_ = occupied NullHash s.hashes_) (t h : Nat) (k : K)
    (ht : t < s.capacity_) (arr : List Nat) (harr : arr.length = s.capacity_)
    (upd : List Nat → HashSet K)
    (hupd : ∀ ds, (upd ds).size_ = s.size_ ∧ (upd ds).capacity_ = s.capacity_ ∧
      (upd ds).hashes_ = s.hashes_ ∧ (upd ds).keys_ = s.keys_) :
    AssertOnly (do
      let newIndex ← HashSet.linearSearch NullHash s (t + 1) h k
      let delta ← HashSet.calcNewDelta s t newIndex
      let ds ← wr s arr t delta
      let s' ← HashSet.insertKey NullHash (upd ds) newIndex h k
      pure (true, s')) := by
  obtain ⟨w1, w2, w3, w4⟩ := hwf
  obtain ⟨n, hn, hcase⟩ := linearSearch_total NullHash s ⟨w1, w2, w3, w4⟩ (t + 1) h k (by omega)
  simp only [hn, ok_bind]
  refine assertOnly_bind _ _ (calcNewDelta_assertOnly s t n) ?_
  intro delta _
  have wt : t < arr.length := by omega
  simp only [wr, wt, if_true, pure_bind]
  refine assertOnly_bind _ _ ?_ ?_
  · obtain ⟨u1, u2, u3, u4⟩ := hupd (arr.set t delta)
    refine insertKey_assertOnly NullHash _ n h k (by rw [u3, u2]; exact w3)
      (by rw [u4, u2]; exact w4) ?_
    rw [u1, u2]
    intro hlt
    rcases hcase with ⟨g, -⟩ | ⟨-, hall⟩
    · exact g
    · exfalso
      have hfull : occupied NullHash s.hashes_ = s.hashes_.length := by
        apply occupied_full
        intro j hj
        obtain ⟨hv, e1, e2, -⟩ :=
          (bucketFoundOrEmpty_false NullHash s j h k).1 (hall j (by omega))
        rw [List.getElem?_eq_getElem hj] at e1
        rw [Option.some.inj e1]
        exact e2
      omega
  · intro s' _
    exact assertOnly_ok _ _ rfl

theorem occupied_zero (hs : List Nat) (h : occupied NullHash hs = 0) (j : Nat)
    (hj : j < hs.length) : hs[j]? = some NullHash := by
  rw [List.getElem?_eq_getElem hj]
  by_cases e : hs[j] = NullHash
  · rw [e]
  · have := occupied_pos NullHash hs j hs[j] (List.getElem?_eq_getElem hj) e
    omega

/-- Whenever the lookup of a key returns, `insert` of that key returns or stops at an
assertion: it reads and writes inside the arrays and its walk ends. -/
theorem insert_assertOnly_of_lookup (s : HashSet K) (key : K) (hwf : s.WF)
    (hocc : s.size_ = occupied NullHash s.hashes_) (hcap : 0 < s.capacity_)
    (b : Bool) (hc : HashSet.contains hashFunc_ NullHash s key = Except.ok b) :
    AssertOnly (HashSet.insert hashFunc_ NullHash s key) := by
  obtain ⟨f, p, hf⟩ := (contains_eq hashFunc_ NullHash s key b).1 hc
  have hi : hashFunc_ key % s.capacity_ < s.capacity_ := Nat.mod_lt _ hcap
  have w := hwf
  obtain ⟨w1, w2, w3, w4⟩ := w
  cases b
  · unfold HashSet.findBucketIndex at hf
    by_cases hz : s.size_ = 0
    · have hnull := occupied_zero NullHash s.hashes_ (by omega) _ (by omega : hashFunc_ key % s.capacity_ < s.hashes_.length)
      have hb := (bucketFoundOrEmpty_true NullHash s _ (hashFunc_ key) key).2 (Or.inl hnull)
      unfold HashSet.insert
      simp only [hb, ok_bind, Bool.true_eq_false, if_false, rd, hnull, if_true, pure_bind]
      refine assertOnly_bind _ _ ?_ ?_
      · exact insertKey_assertOnly NullHash s _ _ key w3 w4 (fun _ => hi)
      · intro s' _
        exact assertOnly_ok _ _ rfl
    · simp only [hz, if_false, bind_ok] at hf
      obtain ⟨b0, hb0, hf⟩ := hf
      unfold HashSet.insert
      simp only [hb0, ok_bind]
      cases b0
      · simp only [if_true, bind_ok] at hf ⊢
        obtain ⟨d, hd, hf⟩ := hf
        simp only [hd, ok_bind]
        by_cases hd0 : d = 0
        · simp only [hd0, ne_eq, not_true_eq_false, if_false]
          exact store_assertOnly NullHash s hwf hocc _ _ key hi s.delta1_ w1
            (fun ds => { s with delta1_ := ds }) (fun ds => ⟨rfl, rfl, rfl, rfl⟩)
        · simp only [hd0, ne_eq, not_false_eq_true, if_true, bind_ok] at hf ⊢
          obtain ⟨c0, hc0, b1, hb1, hf⟩ := hf
          simp only [hc0, hb1, ok_bind]
          cases b1
          · simp only [if_true] at hf ⊢
            rw [insertLoop_eq s (hashFunc_ key) key s.capacity_ c0
              (hashFunc_ key % s.capacity_), hf]
            have hloop : HashSet.insertLoop s (hashFunc_ key) key s.capacity_ c0
                = Except.ok (some f) := by
              rw [insertLoop_eq s (hashFunc_ key) key s.capacity_ c0
                (hashFunc_ key % s.capacity_), hf]
              rfl
            have hz2 := insertLoop_some s _ key _ c0 f hloop
            have hft : f < s.capacity_ := by
              rcases List.getElem?_eq_some.1 hz2 with ⟨hl, -⟩
              omega
            exact store_assertOnly NullHash s hwf hocc f _ key hft s.delta2_ w2
              (fun ds => { s with delta2_ := ds }) (fun ds => ⟨rfl, rfl, rfl, rfl⟩)
          · exact assertOnly_ok _ _ rfl
      · simp only [Bool.true_eq_false, if_false, bind_ok, rd_ok] at hf ⊢
        obtain ⟨hv, hhv, hf⟩ := hf
        simp only [rd, hhv, pure_bind]
        by_cases e : hv = NullHash
        · simp only [e, if_true]
          refine assertOnly_bind _ _ ?_ ?_
          · exact insertKey_assertOnly NullHash s _ _ key w3 w4 (fun _ => hi)
          · intro s' _
            exact assertOnly_ok _ _ rfl
        · simp only [e, if_false]
          exact assertOnly_ok _ _ rfl
  · exact assertOnly_ok _ _ (insert_of_found hashFunc_ NullHash s key f p hf)


/-- The calls `insert` and `remove` keep `capacity_`. -/
theorem calls_capacity [Inhabited K] (cs : List (Call K)) :
    ∀ (s s' : HashSet K), (∀ c ∈ cs, Call.isInsertOrRemove c = true) →
      HashSet.calls hashFunc_ NullHash s cs = Except.ok s' →
      s'.capacity_ = s.capacity_ := by
  induction cs with
  | nil =>
    intro s s' _ h
    simp only [HashSet.calls, pure_ok] at h
    subst h
    rfl
  | cons c cs ih =>
    intro s s' hcs h
    simp only [HashSet.calls, bind_ok] at h
    obtain ⟨t, ht, h⟩ := h
    have hc := hcs c (List.mem_cons_self _ _)
    have ht' : t.capacity_ = s.capacity_ := by
      cases c with
      | insert key =>
        simp only [HashSet.call, bind_ok, pure_ok] at ht
        obtain ⟨⟨r, t1⟩, hins, rfl⟩ := ht
        have := insert_frame_aux hashFunc_ NullHash s t1 key r hins
        cases r
        · rw [this.1 rfl]
        · exact (this.2 rfl).2.2.1
      | remove key =>
        simp only [HashSet.call, bind_ok, pure_ok] at ht
        obtain ⟨⟨r, t1⟩, hrem, rfl⟩ := ht
        rcases remove_ok_inv hashFunc_ NullHash s t1 key r hrem with
          ⟨-, rfl, -⟩ | ⟨-, f, p, -, -, a2, -⟩
        · rfl
        · exact a2
      | clear => simp [Call.isInsertOrRemove] at hc
      | rehash count => simp [Call.isInsertOrRemove] at hc
    rw [ih t s' (fun c' hc' => hcs c' (List.mem_cons_of_mem _ hc')) h, ht']

theorem reachable_capacity_pos [Inhabited K] (s : HashSet K)
    (hs : HashSet.Reachable hashFunc_ NullHash s) : 0 < s.capacity_ := by
  obtain ⟨capacity, cs, hcs, h⟩ := hs
  simp only [HashSet.fromFresh, bind_ok] at h
  obtain ⟨s0, h0, h⟩ := h
  rw [calls_capacity hashFunc_ NullHash cs s0 s hcs h]
  obtain ⟨hpos, rfl⟩ := construct_ok NullHash capacity s0 h0
  exact hpos

/-- C5.  For a hash function that never returns `NullHash` and a set made from a fresh one
by `insert` and `remove` calls.  When `contains` gives true, `insert` returns false and
leaves the set as it is.  When `contains` gives false, `insert` returns true and `contains`
gives true afterwards, or `insert` stops at a `FATAL_ASSERT`.  And an `insert` that returns
gives false exactly when `contains` gave true before the call and true exactly when
`contains` gave false, and after it returned true `contains` gives true. -/
theorem insert_false_iff_contains [Inhabited K] (hH : ∀ k, hashFunc_ k ≠ NullHash)
    (s : HashSet K) (key : K) (hs : HashSet.Reachable hashFunc_ NullHash s) :
    (HashSet.contains hashFunc_ NullHash s key = Except.ok true →
      HashSet.insert hashFunc_ NullHash s key = Except.ok (false, s)) ∧
    (HashSet.contains hashFunc_ NullHash s key = Except.ok false →
      (∃ s', HashSet.insert hashFunc_ NullHash s key = Except.ok (true, s') ∧
        HashSet.contains hashFunc_ NullHash s' key = Except.ok true) ∨
      (∃ f u, HashSet.insert hashFunc_ NullHash s key = Except.error (f, u) ∧
        Fault.isAssert f = true)) ∧
    (∀ (r : Bool) (s' : HashSet K),
      HashSet.insert hashFunc_ NullHash s key = Except.ok (r, s') →
      (r = false ↔ HashSet.contains hashFunc_ NullHash s key = Except.ok true) ∧
      (r = true ↔ HashSet.contains hashFunc_ NullHash s key = Except.ok false) ∧
      (r = true → HashSet.contains hashFunc_ NullHash s' key = Except.ok true)) := by
  have hc := reachable_counted hashFunc_ NullHash hH s hs
  have hpos := reachable_capacity_pos hashFunc_ NullHash s hs
  refine ⟨?_, ?_, ?_⟩
  · intro h
    obtain ⟨f, p, hf⟩ := (contains_eq hashFunc_ NullHash s key true).1 h
    exact insert_of_found hashFunc_ NullHash s key f p hf
  · intro h
    have hsafe := insert_assertOnly_of_lookup hashFunc_ NullHash s key hc.1 hc.2 hpos false h
    cases hins : HashSet.insert hashFunc_ NullHash s key with
    | error e =>
      obtain ⟨f, u⟩ := e
      exact Or.inr ⟨f, u, rfl, hsafe f u hins⟩
    | ok v =>
      obtain ⟨r, s'⟩ := v
      have hspec := insert_result_spec hashFunc_ NullHash hH s s' key r hc hins
      have hr : r = true := hspec.2.1.2 h
      subst hr
      exact Or.inl ⟨s', rfl, hspec.2.2 rfl⟩
  · intro r s' h
    exact insert_result_spec hashFunc_ NullHash hH s s' key r hc h


/-- Storing a key in the empty bucket `n`, which gets the number `size_`, keeps the shape
of the chains, when every delta that has changed belongs to an occupied bucket and leads
to `n`. -/
theorem chained_store (s s' : HashSet K) (rank : Nat → Nat) (n h : Nat)
    (hch : HashSet.Chained NullHash s rank)
    (hn : s.hashes_[n]? = some NullHash) (hne : h ≠ NullHash)
    (hh : s'.hashes_ = s.hashes_.set n h)
    (hsz : s'.size_ = s.size_ + 1) (hc : s'.capacity_ = s.capacity_)
    (hd1 : ∀ (c : Nat), s'.delta1_[c]? = s.delta1_[c]? ∨
      ((∃ hv, s.hashes_[c]? = some hv ∧ hv ≠ NullHash) ∧
        HashSet.addDelta1 s' c = Except.ok n))
    (hd2 : ∀ (c : Nat), s'.delta2_[c]? = s.delta2_[c]? ∨
      ((∃ hv, s.hashes_[c]? = some hv ∧ hv ≠ NullHash) ∧ rank c < s.size_ ∧
        HashSet.addDelta2 s' c = Except.ok n)) :
    HashSet.Chained NullHash s' (fun c => if c = n then s.size_ else rank c) := by
  obtain ⟨l1, l2, l3⟩ := hch
  have hnl : n < s.hashes_.length := by
    rcases List.getElem?_eq_some.1 hn with ⟨w, -⟩
    exact w
  have hnew : s'.hashes_[n]? = some h := by
    rw [hh]
    exact List.getElem?_set_self hnl
  have hocc : ∀ (c hv : Nat), s.hashes_[c]? = some hv → hv ≠ NullHash →
      c ≠ n ∧ s'.hashes_[c]? = some hv := by
    intro c hv e1 e2
    have e : n ≠ c := by
      intro e
      subst e
      rw [hn] at e1
      exact e2 (Option.some.inj e1).symm
    exact ⟨fun e' => e e'.symm, by rw [hh, List.getElem?_set_ne e]; exact e1⟩
  refine ⟨?_, ?_, ?_⟩
  · intro c d hd hd0
    rcases hd1 c with e | ⟨-, e⟩
    · rw [e] at hd
      obtain ⟨nx, hv, a1, a2, a3, a4⟩ := l1 c d hd hd0
      obtain ⟨b1, b2⟩ := hocc nx hv a3 a4
      refine ⟨nx, hv, (addDelta1_congr s s' c nx hc e).2 a1, ?_, b2, a4⟩
      simp only [b1, if_false, hsz]
      omega
    · refine ⟨n, h, e, ?_, hnew, hne⟩
      simp only [if_true, hsz]
      omega
  · intro c d hd hd0
    rcases hd2 c with e | ⟨⟨hv, o1, o2⟩, hr, e⟩
    · rw [e] at hd
      obtain ⟨nx, hv, a1, a2, a3, a4, a5⟩ := l2 c d hd hd0
      obtain ⟨b1, b2⟩ := hocc nx hv a4 a5
      have hcn : c ≠ n := by
        intro hcn
        subst hcn
        rw [(l3 c hn).2] at hd
        exact hd0 (Option.some.inj hd).symm
      refine ⟨nx, hv, (addDelta2_congr s s' c nx hc e).2 a1, ?_, ?_, b2, a5⟩
      · simp only [b1, hcn, if_false]
        exact a2
      · simp only [b1, if_false, hsz]
        omega
    · obtain ⟨b1, -⟩ := hocc c hv o1 o2
      refine ⟨n, h, e, ?_, ?_, hnew, hne⟩
      · simp only [b1, if_false, if_true]
        exact hr
      · simp only [if_true, hsz]
        omega
  · intro c hcnull
    have hcn : c ≠ n := by
      intro e
      subst e
      rw [hnew] at hcnull
      exact hne (Option.some.inj hcnull)
    have hold : s.hashes_[c]? = some NullHash := by
      rw [hh, List.getElem?_set_ne (fun e => hcn e.symm)] at hcnull
      exact hcnull
    obtain ⟨z1, z2⟩ := l3 c hold
    constructor
    · rcases hd1 c with e | ⟨⟨hv, o1, o2⟩, -⟩
      · rw [e]; exact z1
      · rw [hold] at o1
        exact absurd (Option.some.inj o1).symm o2
    · rcases hd2 c with e | ⟨⟨hv, o1, o2⟩, -⟩
      · rw [e]; exact z2
      · rw [hold] at o1
        exact absurd (Option.some.inj o1).symm o2

/-- The walk of `insert` along the chain ends at an occupied bucket numbered below
`size_` when it starts at one. -/
theorem insertLoop_end (s : HashSet K) (rank : Nat → Nat)
    (hch : HashSet.Chained NullHash s rank) (h : Nat) (k : K) (fuel : Nat) :
    ∀ c t, HashSet.insertLoop s h k fuel c = Except.ok (some t) →
      (rank c < s.size_ ∧ ∃ hv, s.hashes_[c]? = some hv ∧ hv ≠ NullHash) →
      (rank t < s.size_ ∧ ∃ hv, s.hashes_[t]? = some hv ∧ hv ≠ NullHash) := by
  induction fuel with
  | zero =>
    intro c t ht
    simp [HashSet.insertLoop, throw_ok] at ht
  | succ fuel ih =>
    intro c t ht hc
    unfold HashSet.insertLoop at ht
    simp only [bind_ok, rd_ok] at ht
    obtain ⟨d, hd, ht⟩ := ht
    by_cases hd0 : d = 0
    · subst hd0
      simp only [ne_eq, not_true_eq_false, if_false, pure_ok, Option.some.injEq] at ht
      subst ht
      exact hc
    · simp only [hd0, ne_eq, not_false_eq_true, if_true, bind_ok] at ht
      obtain ⟨nx, hnx, b1, -, ht⟩ := ht
      obtain ⟨nx', hv, a1, a2, a3, a4, a5⟩ := hch.2.1 c d hd hd0
      rw [hnx] at a1
      obtain rfl := Except.ok.inj a1
      cases b1
      · exact ih nx t (by simpa using ht) ⟨a3, hv, a4, a5⟩
      · simp [pure_ok] at ht

/-- An `insert` that returns keeps the shape of the chains. -/
theorem insert_chained (hH : ∀ k, hashFunc_ k ≠ NullHash) (s s' : HashSet K) (k : K)
    (r : Bool) (rank : Nat → Nat) (hwf : s.WF) (hcap : 0 < s.capacity_)
    (hch : HashSet.Chained NullHash s rank)
    (h : HashSet.insert hashFunc_ NullHash s k = Except.ok (r, s')) :
    ∃ rank', HashSet.Chained NullHash s' rank' := by
  obtain ⟨w1, w2, w3, w4⟩ := hwf
  have hi : hashFunc_ k % s.capacity_ < s.capacity_ := Nat.mod_lt _ hcap
  have hlen : ∀ (xs : List Nat) (n : Nat) (v : Nat), xs[n]? = some v → n < xs.length := by
    intro xs n v hv
    rcases List.getElem?_eq_some.1 hv with ⟨hl, -⟩
    exact hl
  rcases insert_ok_inv hashFunc_ NullHash s s' k r h with
    ⟨-, rfl, -⟩ | ⟨-, hA | hB | hC⟩
  · exact ⟨rank, hch⟩
  · obtain ⟨hn, hkey⟩ := hA
    rw [insertKey_ok] at hkey
    obtain ⟨-, -, -, rfl⟩ := hkey
    exact ⟨_, chained_store NullHash s _ rank _ _ hch hn (hH k) rfl rfl rfl
      (fun c => Or.inl rfl) (fun c => Or.inl rfl)⟩
  · obtain ⟨hb, hd, n, d, hcalc, hkey⟩ := hB
    rw [insertKey_ok] at hkey
    obtain ⟨-, hn, -, rfl⟩ := hkey
    simp only at hn
    have hnc : n < s.capacity_ := by
      have := hlen _ _ _ hn
      omega
    obtain ⟨hstep, -⟩ := calcNewDelta_spec s _ n d hcalc hi hnc
    obtain ⟨hv, e1, e2, -⟩ := (bucketFoundOrEmpty_false NullHash s _ _ k).1 hb
    refine ⟨_, chained_store NullHash s _ rank n _ hch hn (hH k) rfl rfl rfl ?_
      (fun c => Or.inl rfl)⟩
    intro c
    by_cases e : hashFunc_ k % s.capacity_ = c
    · subst e
      refine Or.inr ⟨⟨hv, e1, e2⟩, ?_⟩
      rw [addDelta1_ok]
      exact ⟨d, List.getElem?_set_self (by omega), hstep⟩
    · exact Or.inl (List.getElem?_set_ne e)
  · obtain ⟨hb, d1, c0, t, n, d, hd, hd1ne, hc0, hb1, hloop, ht, hcalc, hkey⟩ := hC
    rw [insertKey_ok] at hkey
    obtain ⟨-, hn, -, rfl⟩ := hkey
    simp only at hn
    have hnc : n < s.capacity_ := by
      have := hlen _ _ _ hn
      omega
    obtain ⟨hstep, -⟩ := calcNewDelta_spec s t n d hcalc (by omega) hnc
    obtain ⟨nx, hv, a1, a2, a3, a4⟩ := hch.1 _ d1 hd hd1ne
    rw [hc0] at a1
    obtain rfl := Except.ok.inj a1
    obtain ⟨hrt, hv2, e1, e2⟩ :=
      insertLoop_end NullHash s rank hch _ k _ c0 t hloop ⟨a2, hv, a3, a4⟩
    refine ⟨_, chained_store NullHash s _ rank n _ hch hn (hH k) rfl rfl rfl
      (fun c => Or.inl rfl) ?_⟩
    intro c
    by_cases e : t = c
    · subst e
      refine Or.inr ⟨⟨hv2, e1, e2⟩, hrt, ?_⟩
      rw [addDelta2_ok]
      exact ⟨d, List.getElem?_set_self ht, hstep⟩
    · exact Or.inl (List.getElem?_set_ne e)

/-- In a set with chains of this shape the loop of `findBucketIndex` returns: the bucket
numbers go up along `delta2_` and stay below `size_`. -/
theorem findBucketIndexLoop_total (s : HashSet K) (hwf : s.WF) (rank : Nat → Nat)
    (hch : HashSet.Chained NullHash s rank) (h : Nat) (k : K) (fuel : Nat) :
    ∀ c p, c < s.capacity_ → rank c < s.size_ → s.size_ - rank c ≤ fuel →
      ∃ r, HashSet.findBucketIndexLoop s h k fuel c p = Except.ok r := by
  have hlen : ∀ (xs : List Nat) (n : Nat) (v : Nat), xs[n]? = some v → n < xs.length := by
    intro xs n v hv
    rcases List.getElem?_eq_some.1 hv with ⟨hl, -⟩
    exact hl
  induction fuel with
  | zero =>
    intro c p _ h1 h2
    omega
  | succ fuel ih =>
    intro c p hc h1 h2
    have hcl : c < s.delta2_.length := by rw [hwf.2.1]; exact hc
    have hd : s.delta2_[c]? = some s.delta2_[c] := List.getElem?_eq_getElem hcl
    unfold HashSet.findBucketIndexLoop
    simp only [rd, hd, pure_bind]
    by_cases hd0 : s.delta2_[c] = 0
    · simp only [hd0, ne_eq, not_true_eq_false, if_false]
      exact ⟨_, rfl⟩
    · obtain ⟨nx, hv, a1, a2, a3, a4, a5⟩ := hch.2.1 c _ hd hd0
      have hnx : nx < s.capacity_ := by
        have := hlen _ _ _ a4
        rw [hwf.2.2.1] at this
        exact this
      obtain ⟨b1, hb1⟩ := bucketFound_total s hwf nx h k hnx
      simp only [hd0, ne_eq, not_false_eq_true, if_true, a1, hb1, ok_bind]
      cases b1
      · simp only [Bool.false_eq_true, if_false]
        exact ih nx c hnx a3 (by omega)
      · exact ⟨_, rfl⟩

theorem occupied_le (hs : List Nat) : occupied NullHash hs ≤ hs.length :=
  List.countP_le_length _

/-- In a set with chains of this shape the lookup returns for every key. -/
theorem findBucketIndex_total (s : HashSet K) (hwf : s.WF)
    (hocc : s.size_ = occupied NullHash s.hashes_) (hcap : 0 < s.capacity_)
    (rank : Nat → Nat) (hch : HashSet.Chained NullHash s rank) (k : K) :
    ∃ r, HashSet.findBucketIndex hashFunc_ NullHash s k = Except.ok r := by
  have hlen : ∀ (xs : List Nat) (n : Nat) (v : Nat), xs[n]? = some v → n < xs.length := by
    intro xs n v hv
    rcases List.getElem?_eq_some.1 hv with ⟨hl, -⟩
    exact hl
  have hi : hashFunc_ k % s.capacity_ < s.capacity_ := Nat.mod_lt _ hcap
  have w := hwf
  obtain ⟨w1, w2, w3, w4⟩ := w
  unfold HashSet.findBucketIndex
  by_cases hz : s.size_ = 0
  · simp only [hz, if_true]
    exact ⟨_, rfl⟩
  · obtain ⟨b0, hb0⟩ := bucketFoundOrEmpty_total NullHash s hwf _ (hashFunc_ k) k hi
    simp only [hz, if_false, hb0, ok_bind]
    cases b0
    · have hil : hashFunc_ k % s.capacity_ < s.delta1_.length := by rw [w1]; exact hi
      have hd : s.delta1_[hashFunc_ k % s.capacity_]? =
          some s.delta1_[hashFunc_ k % s.capacity_] := List.getElem?_eq_getElem hil
      simp only [if_true, rd, hd, pure_bind]
      by_cases hd0 : s.delta1_[hashFunc_ k % s.capacity_] = 0
      · simp only [hd0, ne_eq, not_true_eq_false, if_false]
        exact ⟨_, rfl⟩
      · obtain ⟨nx, hv, a1, a2, a3, a4⟩ := hch.1 _ _ hd hd0
        have hnx : nx < s.capacity_ := by
          have := hlen _ _ _ a3
          omega
        obtain ⟨b1, hb1⟩ := bucketFound_total s hwf nx (hashFunc_ k) k hnx
        simp only [hd0, ne_eq, not_false_eq_true, if_true, a1, hb1, ok_bind]
        cases b1
        · simp only [if_true]
          have := occupied_le NullHash s.hashes_
          exact findBucketIndexLoop_total NullHash s hwf rank hch _ k _ nx _ hnx a2
            (by omega)
        · exact ⟨_, rfl⟩
    · have hil : hashFunc_ k % s.capacity_ < s.hashes_.length := by rw [w3]; exact hi
      have hd : s.hashes_[hashFunc_ k % s.capacity_]? =
          some s.hashes_[hashFunc_ k % s.capacity_] := List.getElem?_eq_getElem hil
      simp only [Bool.true_eq_false, if_false, rd, hd, pure_bind]
      by_cases e : s.hashes_[hashFunc_ k % s.capacity_] = NullHash
      · simp only [e, ne_eq, not_true_eq_false, if_false]
        exact ⟨_, rfl⟩
      · simp only [e, ne_eq, not_false_eq_true, if_true]
        exact ⟨_, rfl⟩

/-- A sequence of `insert` calls on a set with chains of this shape returns or stops at a
`FATAL_ASSERT`. -/
theorem insertAll_assertOnly [Inhabited K] (hH : ∀ k, hashFunc_ k ≠ NullHash)
    (ks : List K) :
    ∀ (s : HashSet K) (rank : Nat → Nat), s.WF → s.size_ = occupied NullHash s.hashes_ →
      0 < s.capacity_ → HashSet.Chained NullHash s rank →
      AssertOnly (HashSet.calls hashFunc_ NullHash s (ks.map Call.insert)) := by
  induction ks with
  | nil =>
    intro s rank _ _ _ _
    exact assertOnly_ok _ _ rfl
  | cons k ks ih =>
    intro s rank hwf hocc hcap hch
    simp only [List.map_cons, HashSet.calls, HashSet.call]
    obtain ⟨⟨b, f, p⟩, hr⟩ := findBucketIndex_total hashFunc_ NullHash s hwf hocc hcap rank hch k
    have hsafe := insert_assertOnly_of_lookup hashFunc_ NullHash s k hwf hocc hcap b
      ((contains_eq hashFunc_ NullHash s k b).2 ⟨f, p, hr⟩)
    refine assertOnly_bind _ _ (assertOnly_bind _ _ hsafe ?_) ?_
    · intro a _
      exact assertOnly_ok _ _ rfl
    · intro t ht
      simp only [bind_ok, pure_ok] at ht
      obtain ⟨⟨r, t1⟩, hins, rfl⟩ := ht
      obtain ⟨hwf', hocc'⟩ := insert_counted hashFunc_ NullHash hH s t1 k r hins ⟨hwf, hocc⟩
      obtain ⟨rank', hch'⟩ := insert_chained hashFunc_ NullHash hH s t1 k r rank hwf hcap hch hins
      have hc' : t1.capacity_ = s.capacity_ := by
        have := insert_frame_aux hashFunc_ NullHash s t1 k r hins
        cases r
        · rw [this.1 rfl]
        · exact (this.2 rfl).2.2.1
      exact ih t1 rank' hwf' hocc' (by omega) hch'

/-- A sequence of `insert` calls on a freshly constructed set returns or stops at a
`FATAL_ASSERT`. -/
theorem fromFresh_insertAll_assertOnly [Inhabited K] (hH : ∀ k, hashFunc_ k ≠ NullHash)
    (capacity : Nat) (ks : List K) :
    AssertOnly (HashSet.fromFresh hashFunc_ NullHash capacity (ks.map Call.insert)) := by
  unfold HashSet.fromFresh
  refine assertOnly_bind _ _ ?_ ?_
  · intro f u h
    unfold HashSet.construct at h
    by_cases c : capacity > 0
    · simp only [c, if_true, pure_error] at h
    · simp only [c, if_false, throw_error, Prod.mk.injEq] at h
      rw [← h.1]
      rfl
  · intro s0 h0
    obtain ⟨hwf, hocc⟩ := construct_counted NullHash capacity s0 h0
    obtain ⟨hpos, rfl⟩ := construct_ok NullHash capacity s0 h0
    refine insertAll_assertOnly hashFunc_ NullHash hH ks _ (fun _ => 0) hwf hocc hpos ?_
    refine ⟨?_, ?_, ?_⟩
    · intro c d hd hd0
      simp only [List.getElem?_replicate] at hd
      split at hd
      · exact absurd (Option.some.inj hd).symm hd0
      · cases hd
    · intro c d hd hd0
      simp only [List.getElem?_replicate] at hd
      split at hd
      · exact absurd (Option.some.inj hd).symm hd0
      · cases hd
    · intro c hc
      have hl : c < capacity := by
        rcases List.getElem?_eq_some.1 hc with ⟨w, -⟩
        simpa using w
      simp [List.getElem?_replicate, hl]


/-- C2 (uniqueness).  For a hash function that never returns `NullHash`: a sequence of
`insert` calls on a freshly constructed set returns or stops at a `FATAL_ASSERT`; when it
returns, `size_` afterwards is the number of distinct keys of the sequence, and every
`insert` of a key that occurs earlier in the sequence returns false and leaves the set, so
also `size_`, as it is. -/
theorem insert_uniqueness [Inhabited K] (hH : ∀ k, hashFunc_ k ≠ NullHash)
    (capacity : Nat) (keys : List K) :
    AssertOnly (HashSet.fromFresh hashFunc_ NullHash capacity (keys.map Call.insert)) ∧
    ∀ (s : HashSet K),
      HashSet.fromFresh hashFunc_ NullHash capacity (keys.map Call.insert) = Except.ok s →
      s.size_ = keys.dedup.length ∧
        ∀ (pre post : List K) (k : K), keys = pre ++ k :: post → k ∈ pre →
          ∃ t, HashSet.fromFresh hashFunc_ NullHash capacity (pre.map Call.insert)
                = Except.ok t ∧
            HashSet.insert hashFunc_ NullHash t k = Except.ok (false, t) :=
  ⟨fromFresh_insertAll_assertOnly hashFunc_ NullHash hH capacity keys,
    fun s h => insertAll_spec hashFunc_ NullHash hH capacity keys s h⟩


/-- In a hash array whose buckets are all occupied no bucket holds `NullHash`. -/
theorem occupied_all (hs : List Nat) (h : occupied NullHash hs = hs.length) (j : Nat)
    (hj : j < hs.length) : hs[j] ≠ NullHash := by
  have := (List.countP_eq_length (p := fun h => decide (h ≠ NullHash)) (l := hs)).1 h
    hs[j] (List.getElem_mem hj)
  simpa using this

/-- The end of `insert` in a set in which no bucket is empty or holds the key: the linear
search finds nothing, the delta 1 is stored at `t`, and `insertKey` stops at
`FATAL_ASSERT(size_ < capacity_)`. -/
theorem store_full (s : HashSet K) (hwf : s.WF) (t h : Nat) (k : K)
    (ht : t < s.capacity_)
    (hall : ∀ j, j < s.capacity_ →
      HashSet.bucketFoundOrEmpty NullHash s j h k = Except.ok false)
    (arr : List Nat) (harr : arr.length = s.capacity_)
    (upd : List Nat → HashSet K)
    (hupd : ∀ ds, ¬ (upd ds).size_ < (upd ds).capacity_) :
    (do
      let newIndex ← HashSet.linearSearch NullHash s (t + 1) h k
      let delta ← HashSet.calcNewDelta s t newIndex
      let ds ← wr s arr t delta
      let s' ← HashSet.insertKey NullHash (upd ds) newIndex h k
      pure (true, s')) = Except.error (Fault.assertSize, upd (arr.set t 1)) := by
  obtain ⟨n, hn, hcase⟩ := linearSearch_total NullHash s hwf (t + 1) h k (by omega)
  have hn1 : n = t + 1 := by
    rcases hcase with ⟨g, hg⟩ | ⟨g, -⟩
    · rw [hall n g] at hg
      cases hg
    · exact g
  subst hn1
  have hcalc : HashSet.calcNewDelta s t (t + 1) = Except.ok 1 := by
    rw [calcNewDelta_ok]
    simp
  have wt : t < arr.length := by omega
  simp only [hn, hcalc, ok_bind, wr, wt, if_true, pure_bind]
  unfold HashSet.insertKey
  simp only [hupd _, if_false]
  rfl

/-- What the code does on a full set that holds no stray copy of the key.  When
`size_ = capacity_`, `size_` counts the occupied buckets, the lookup of the key gives false
and no bucket holds the key, `insert` stops at `FATAL_ASSERT(size_ < capacity_)`, with the
hashes and the keys as they were. -/
theorem insert_full_assertSize (s : HashSet K) (key : K) (hwf : s.WF)
    (hcap : 0 < s.capacity_) (hfull : s.size_ = s.capacity_)
    (hocc : s.size_ = occupied NullHash s.hashes_)
    (hc : HashSet.contains hashFunc_ NullHash s key = Except.ok false)
    (habsent : ∀ (c : Nat),
      ¬ (s.hashes_[c]? = some (hashFunc_ key) ∧ s.keys_[c]? = some key)) :
    ∃ u, HashSet.insert hashFunc_ NullHash s key = Except.error (Fault.assertSize, u) ∧
      u.hashes_ = s.hashes_ ∧ u.keys_ = s.keys_ := by
  obtain ⟨f, p, hf⟩ := (contains_eq hashFunc_ NullHash s key false).1 hc
  have hi : hashFunc_ key % s.capacity_ < s.capacity_ := Nat.mod_lt _ hcap
  have w := hwf
  obtain ⟨w1, w2, w3, w4⟩ := w
  have hall : ∀ j, j < s.capacity_ →
      HashSet.bucketFoundOrEmpty NullHash s j (hashFunc_ key) key = Except.ok false := by
    intro j hj
    have hjl : j < s.hashes_.length := by omega
    have hjk : j < s.keys_.length := by omega
    have hnn := occupied_all NullHash s.hashes_ (by omega) j hjl
    rw [bucketFoundOrEmpty_false]
    refine ⟨s.hashes_[j], List.getElem?_eq_getElem hjl, hnn, fun e => ?_⟩
    refine ⟨s.keys_[j], List.getElem?_eq_getElem hjk, fun e2 => ?_⟩
    exact habsent j ⟨by rw [List.getElem?_eq_getElem hjl, e],
      by rw [List.getElem?_eq_getElem hjk, e2]⟩
  have hz : s.size_ ≠ 0 := by omega
  have hb0 := hall _ hi
  unfold HashSet.findBucketIndex at hf
  simp only [hz, if_false, hb0, ok_bind, if_true, bind_ok] at hf
  obtain ⟨d, hd, hf⟩ := hf
  unfold HashSet.insert
  simp only [hb0, ok_bind, if_true, hd]
  by_cases hd0 : d = 0
  · simp only [hd0, ne_eq, not_true_eq_false, if_false]
    refine ⟨_, store_full NullHash s hwf _ _ key hi hall s.delta1_ w1
      (fun ds => { s with delta1_ := ds }) (fun ds => by simp only; omega), rfl, rfl⟩
  · simp only [hd0, ne_eq, not_false_eq_true, if_true, bind_ok] at hf ⊢
    obtain ⟨c0, hc0, b1, hb1, hf⟩ := hf
    simp only [hc0, hb1, ok_bind]
    cases b1
    · simp only [if_true] at hf ⊢
      have hloop : HashSet.insertLoop s (hashFunc_ key) key s.capacity_ c0
          = Except.ok (some f) := by
        rw [insertLoop_eq s (hashFunc_ key) key s.capacity_ c0
          (hashFunc_ key % s.capacity_), hf]
        rfl
      have hz2 := insertLoop_some s _ key _ c0 f hloop
      have hft : f < s.capacity_ := by
        rcases List.getElem?_eq_some.1 hz2 with ⟨hl, -⟩
        omega
      rw [hloop]
      refine ⟨_, store_full NullHash s hwf f _ key hft hall s.delta2_ w2
        (fun ds => { s with delta2_ := ds }) (fun ds => by simp only; omega), rfl, rfl⟩
    · simp [pure_ok] at hf


/-- A loop of `clear` over the last `n` elements of an array overwrites them all. -/
theorem fillLoop_eq {α : Type} (s : HashSet K) (v : α) (n : Nat) :
    ∀ (i : Nat) (xs : List α), xs.length = i + n →
      fillLoop s v n i xs = Except.ok (xs.take i ++ List.replicate n v) := by
  induction n with
  | zero =>
    intro i xs h
    simp only [fillLoop, List.replicate_zero, List.append_nil]
    rw [List.take_of_length_le (by omega)]
    rfl
  | succ n ih =>
    intro i xs h
    have hi : i < xs.length := by omega
    simp only [fillLoop, wr, hi, if_true, pure_bind]
    rw [ih (i + 1) (xs.set i v) (by rw [List.length_set]; omega)]
    congr 1
    rw [List.replicate_succ, List.take_succ, List.getElem?_set_self hi, List.set_take,
      List.set_eq_of_length_le (by rw [List.length_take]; omega)]
    simp

/-- On arrays of `capacity_` elements the three loops of `clear` return the set
`HashSet.clear`. -/
theorem clearLoops_eq (s : HashSet K) (hwf : s.WF) :
    HashSet.clearLoops NullHash s = Except.ok (HashSet.clear NullHash s) := by
  obtain ⟨w1, w2, w3, -⟩ := hwf
  unfold HashSet.clearLoops
  rw [fillLoop_eq s 0 s.capacity_ 0 s.delta1_ (by omega),
    fillLoop_eq s 0 s.capacity_ 0 s.delta2_ (by omega),
    fillLoop_eq s NullHash s.capacity_ 0 s.hashes_ (by omega)]
  simp only [ok_bind, List.take_zero, List.nil_append]
  rfl

/-- C11.  For every set `s`: `clear` gives `size_ = 0`, the capacity of `s`, `capacity_`
deltas 0 in `delta1_` and in `delta2_` and `capacity_` hashes `NullHash`; these five fields
are those of the set the constructor makes for the same capacity, and the constructor
returns for every capacity that is not 0; `contains` gives false for every key; a second
`clear` changes nothing; and on arrays of `capacity_` elements the three loops of the
source, store by store, return this set. -/
theorem clear_resets [Inhabited K] (s : HashSet K) :
    (HashSet.clear NullHash s).size_ = 0 ∧
    (HashSet.clear NullHash s).capacity_ = s.capacity_ ∧
    (HashSet.clear NullHash s).delta1_ = List.replicate s.capacity_ 0 ∧
    (HashSet.clear NullHash s).delta2_ = List.replicate s.capacity_ 0 ∧
    (HashSet.clear NullHash s).hashes_ = List.replicate s.capacity_ NullHash ∧
    (∀ f : HashSet K, HashSet.construct NullHash s.capacity_ = Except.ok f →
      f.size_ = (HashSet.clear NullHash s).size_ ∧
      f.capacity_ = (HashSet.clear NullHash s).capacity_ ∧
      f.delta1_ = (HashSet.clear NullHash s).delta1_ ∧
      f.delta2_ = (HashSet.clear NullHash s).delta2_ ∧
      f.hashes_ = (HashSet.clear NullHash s).hashes_) ∧
    (0 < s.capacity_ →
      ∃ f : HashSet K, HashSet.construct NullHash s.capacity_ = Except.ok f) ∧
    (∀ k : K,
      HashSet.contains hashFunc_ NullHash (HashSet.clear NullHash s) k = Except.ok false) ∧
    HashSet.clear NullHash (HashSet.clear NullHash s) = HashSet.clear NullHash s ∧
    (s.WF → HashSet.clearLoops NullHash s = Except.ok (HashSet.clear NullHash s)) := by
  refine ⟨rfl, rfl, rfl, rfl, rfl, ?_, ?_, ?_, rfl, clearLoops_eq NullHash s⟩
  · intro f hf
    obtain ⟨-, rfl⟩ := construct_ok NullHash s.capacity_ f hf
    exact ⟨rfl, rfl, rfl, rfl, rfl⟩
  · intro hpos
    unfold HashSet.construct
    simp only [gt_iff_lt, hpos, if_true]
    exact ⟨_, rfl⟩
  · intro k
    rfl

theorem clear_counted (s : HashSet K) (hwf : s.WF) :
    (HashSet.clear NullHash s).WF ∧
      (HashSet.clear NullHash s).size_ = occupied NullHash (HashSet.clear NullHash s).hashes_ := by
  obtain ⟨-, -, -, w4⟩ := hwf
  refine ⟨⟨?_, ?_, ?_, ?_⟩, ?_⟩
  · simp [HashSet.clear]
  · simp [HashSet.clear]
  · simp [HashSet.clear]
  · simpa [HashSet.clear] using w4
  · simp [HashSet.clear, occupied_replicate]

theorem rehashLoop_counted (hH : ∀ k, hashFunc_ k ≠ NullHash) (s : HashSet K)
    (is : List Nat) :
    ∀ (n : Nat) (t t' : HashSet K),
      HashSet.rehashLoop hashFunc_ NullHash s is n t = Except.ok t' →
      t.WF ∧ t.size_ = occupied NullHash t.hashes_ →
      t'.WF ∧ t'.size_ = occupied NullHash t'.hashes_ := by
  induction is with
  | nil =>
    intro n t t' h ht
    simp only [HashSet.rehashLoop, pure_ok] at h
    subst h
    exact ht
  | cons i is ih =>
    intro n t t' h ht
    unfold HashSet.rehashLoop at h
    simp only [bind_ok, rd_ok] at h
    obtain ⟨hv, -, h⟩ := h
    by_cases e : hv = NullHash
    · simp only [e, ne_eq, not_true_eq_false, if_false] at h
      exact ih n t t' h ht
    · simp only [e, ne_eq, not_false_eq_true, if_true, bind_ok, rd_ok] at h
      obtain ⟨k, -, ⟨r, t1⟩, hins, h⟩ := h
      have h1 := insert_counted hashFunc_ NullHash hH t t1 k r hins ht
      by_cases c : n + 1 = s.size_
      · simp only [c, if_true, pure_ok] at h
        subst h
        exact h1
      · simp only [c, if_false] at h
        exact ih (n + 1) t1 t' h h1

/-- Every call keeps the arrays at `capacity_` elements and `size_` equal to the number of
occupied buckets. -/
theorem call_counted [Inhabited K] (hH : ∀ k, hashFunc_ k ≠ NullHash)
    (s s' : HashSet K) (c : Call K)
    (hs : s.WF ∧ s.size_ = occupied NullHash s.hashes_)
    (h : HashSet.call hashFunc_ NullHash s c = Except.ok s') :
    s'.WF ∧ s'.size_ = occupied NullHash s'.hashes_ := by
  cases c with
  | insert key =>
    simp only [HashSet.call, bind_ok, pure_ok] at h
    obtain ⟨⟨r, t⟩, hins, rfl⟩ := h
    exact insert_counted hashFunc_ NullHash hH s t key r hins hs
  | remove key =>
    simp only [HashSet.call, bind_ok, pure_ok] at h
    obtain ⟨⟨r, t⟩, hrem, rfl⟩ := h
    exact remove_counted hashFunc_ NullHash hH s t key r hrem hs
  | clear =>
    simp only [HashSet.call, pure_ok] at h
    subst h
    exact clear_counted NullHash s hs.1
  | rehash count =>
    simp only [HashSet.call] at h
    unfold HashSet.rehash at h
    by_cases c : s.size_ = 0 ∨ count < s.size_
    · simp only [c, if_true, pure_ok] at h
      subst h
      exact hs
    · simp only [c, if_false, bind_ok] at h
      obtain ⟨t0, h0, h⟩ := h
      exact rehashLoop_counted hashFunc_ NullHash hH s _ 0 t0 s' h
        (construct_counted NullHash count t0 h0)

/-- C15.  For a hash function that never returns `NullHash`: in a freshly constructed set
the arrays have `capacity_` elements and `size_` is the number of buckets whose hash is not
`NullHash`, and every `insert`, `remove`, `clear` and `rehash` call that returns keeps
both. -/
theorem size_counts_occupied [Inhabited K] (hH : ∀ k, hashFunc_ k ≠ NullHash) :
    (∀ (capacity : Nat) (s : HashSet K),
      HashSet.construct NullHash capacity = Except.ok s →
      s.WF ∧ s.size_ = occupied NullHash s.hashes_) ∧
    (∀ (s s' : HashSet K) (c : Call K),
      s.WF → s.size_ = occupied NullHash s.hashes_ →
      HashSet.call hashFunc_ NullHash s c = Except.ok s' →
      s'.WF ∧ s'.size_ = occupied NullHash s'.hashes_) :=
  ⟨fun capacity s h => construct_counted NullHash capacity s h,
    fun s s' c h1 h2 h => call_counted hashFunc_ NullHash hH s s' c ⟨h1, h2⟩ h⟩

/-- The forward distance from `b` to `n` around a table of `c` buckets, the way
`calcNewDelta` computes it. -/
theorem forward_distance (c b n : Nat) (hb : b < c) (hn : n < c) :
    (n + c - b) % c = if n ≥ b then n - b else c - b + n := by
  by_cases h : n ≥ b
  · simp only [h, if_true]
    have : n + c - b = n - b + c := by omega
    rw [this, Nat.add_mod_right, Nat.mod_eq_of_lt (by omega)]
  · simp only [h, if_false]
    rw [Nat.mod_eq_of_lt (by omega)]
    omega

/-- C18.  For bucket indices `b` and `n` below the capacity: `calcNewDelta(b, n)` is the
forward distance `(n - b) mod capacity_` when that is below 256 and stops at the assertion
otherwise, and with the forward distance stored in `delta1_[b]` (in `delta2_[b]`)
`addDelta1(b)` (`addDelta2(b)`) returns `n`. -/
theorem delta_round_trip (s : HashSet K) (b n : Nat) (hb : b < s.capacity_)
    (hn : n < s.capacity_) :
    HashSet.calcNewDelta s b n =
      (if (n + s.capacity_ - b) % s.capacity_ < 256
        then Except.ok ((n + s.capacity_ - b) % s.capacity_)
        else Except.error (Fault.assertDelta, s)) ∧
    (s.delta1_[b]? = some ((n + s.capacity_ - b) % s.capacity_) →
      HashSet.addDelta1 s b = Except.ok n) ∧
    (s.delta2_[b]? = some ((n + s.capacity_ - b) % s.capacity_) →
      HashSet.addDelta2 s b = Except.ok n) := by
  have hd := forward_distance s.capacity_ b n hb hn
  have hstep : n = if b + (n + s.capacity_ - b) % s.capacity_ > s.capacity_ - 1
      then b + (n + s.capacity_ - b) % s.capacity_ - s.capacity_
      else b + (n + s.capacity_ - b) % s.capacity_ := by
    rw [hd]
    by_cases h : n ≥ b
    · simp only [h, if_true]
      have : ¬ (b + (n - b) > s.capacity_ - 1) := by omega
      simp only [this, if_false]
      omega
    · simp only [h, if_false]
      have : b + (s.capacity_ - b + n) > s.capacity_ - 1 := by omega
      simp only [this, if_true]
      omega
  refine ⟨?_, ?_, ?_⟩
  · unfold HashSet.calcNewDelta
    rw [← hd]
    rfl
  · intro h1
    rw [addDelta1_ok]
    exact ⟨_, h1, hstep⟩
  · intro h2
    rw [addDelta2_ok]
    exact ⟨_, h2, hstep⟩

/-- C12.  The collision scenario for every key type, every hash function and every
`NullHash` other than 3, 11 and 19.  On a fresh set of capacity 8, `insert` of a key `a`
of hash 3, of `a` again, of a key `b` of hash 11 and of a key `c` of hash 19 returns true,
false, true, true.  Afterwards `size_` is 3, bucket 3 holds `a`, `delta1_[3]` is 1,
bucket 4 holds `b`, `delta2_[4]` is 1, bucket 5 holds `c`, and every other delta is 0. -/
theorem collision_scenario [Inhabited K] (a b c : K) (ha : hashFunc_ a = 3)
    (hb : hashFunc_ b = 11) (hc : hashFunc_ c = 19)
    (hN : NullHash ≠ 3 ∧ NullHash ≠ 11 ∧ NullHash ≠ 19) :
    HashSet.construct NullHash 8 = Except.ok (collisionZero NullHash : HashSet K) ∧
    HashSet.insert hashFunc_ NullHash (collisionZero NullHash) a
      = Except.ok (true, collisionOne NullHash a) ∧
    HashSet.insert hashFunc_ NullHash (collisionOne NullHash a) a
      = Except.ok (false, collisionOne NullHash a) ∧
    HashSet.insert hashFunc_ NullHash (collisionOne NullHash a) b
      = Except.ok (true, collisionTwo NullHash a b) ∧
    HashSet.insert hashFunc_ NullHash (collisionTwo NullHash a b) c
      = Except.ok (true, collisionThree NullHash a b c) ∧
    HashSet.fromFresh hashFunc_ NullHash 8
        [Call.insert a, Call.insert a, Call.insert b, Call.insert c]
      = Except.ok (collisionThree NullHash a b c) := by
  obtain ⟨n1, n2, n3⟩ := hN
  have m1 : (3 : Nat) ≠ NullHash := fun e => n1 e.symm
  have m2 : (11 : Nat) ≠ NullHash := fun e => n2 e.symm
  have m3 : (19 : Nat) ≠ NullHash := fun e => n3 e.symm
  have h0 : HashSet.construct NullHash 8 = Except.ok (collisionZero NullHash : HashSet K) := by
    rfl
  have h1 : HashSet.insert hashFunc_ NullHash (collisionZero NullHash) a
      = Except.ok (true, collisionOne NullHash a) := by
    simp [HashSet.insert, HashSet.bucketFoundOrEmpty, HashSet.insertKey, rd, wr, ha,
      collisionZero, collisionOne]
    rfl
  have h2 : HashSet.insert hashFunc_ NullHash (collisionOne NullHash a) a
      = Except.ok (false, collisionOne NullHash a) := by
    simp [HashSet.insert, HashSet.bucketFoundOrEmpty, HashSet.insertKey, rd, wr, ha,
      collisionOne, m1]
    rfl
  have h3 : HashSet.insert hashFunc_ NullHash (collisionOne NullHash a) b
      = Except.ok (true, collisionTwo NullHash a b) := by
    simp [HashSet.insert, HashSet.bucketFoundOrEmpty, HashSet.insertKey, rd, wr, hb,
      HashSet.linearSearch, HashSet.linearSearchLoop, HashSet.calcNewDelta,
      collisionOne, collisionTwo, m1]
    rfl
  have h4 : HashSet.insert hashFunc_ NullHash (collisionTwo NullHash a b) c
      = Except.ok (true, collisionThree NullHash a b c) := by
    simp [HashSet.insert, HashSet.bucketFoundOrEmpty, HashSet.bucketFound,
      HashSet.insertKey, rd, wr, hc, HashSet.addDelta1, HashSet.insertLoop,
      HashSet.linearSearch, HashSet.linearSearchLoop, HashSet.calcNewDelta,
      collisionTwo, collisionThree, m1, m2]
    rfl
  refine ⟨h0, h1, h2, h3, h4, ?_⟩
  simp only [HashSet.fromFresh, HashSet.calls, HashSet.call, h0, h1, h2, h3, h4, ok_bind,
    pure_bind]
  rfl

/-- The end of `insert` when the linear search stops at a bucket `n` that holds the hash
of the key: `calcNewDelta` stops at its assertion, or the delta is stored and `insertKey`
stops at one of its two assertions. -/
theorem store_duplicate (s : HashSet K) (t n h : Nat) (k : K)
    (hls : HashSet.linearSearch NullHash s (t + 1) h k = Except.ok n)
    (arr : List Nat) (ht : t < arr.length)
    (upd : List Nat → HashSet K)
    (hupd : ∀ ds, (upd ds).size_ = s.size_ ∧ (upd ds).capacity_ = s.capacity_ ∧
      (upd ds).hashes_ = s.hashes_)
    (hn : s.hashes_[n]? = some h) (hne : h ≠ NullHash) :
    ∃ f u, (do
        let newIndex ← HashSet.linearSearch NullHash s (t + 1) h k
        let delta ← HashSet.calcNewDelta s t newIndex
        let ds ← wr s arr t delta
        let s' ← HashSet.insertKey NullHash (upd ds) newIndex h k
        pure (true, s')) = Except.error (f, u) ∧
      ((f = Fault.assertDelta ∧ u = s) ∨
        ∃ d, HashSet.calcNewDelta s t n = Except.ok d ∧ u = upd (arr.set t d) ∧
          ((f = Fault.assertSize ∧ s.capacity_ ≤ s.size_) ∨
            (f = Fault.assertEmpty ∧ s.size_ < s.capacity_))) := by
  simp only [hls, ok_bind]
  cases hc : HashSet.calcNewDelta s t n with
  | error e =>
    have := calcNewDelta_error s t n e hc
    subst this
    exact ⟨_, _, rfl, Or.inl ⟨rfl, rfl⟩⟩
  | ok d =>
    obtain ⟨u1, u2, u3⟩ := hupd (arr.set t d)
    simp only [ok_bind, wr, ht, if_true, pure_bind]
    unfold HashSet.insertKey
    by_cases c : s.size_ < s.capacity_
    · have c' : (upd (arr.set t d)).size_ < (upd (arr.set t d)).capacity_ := by
        rw [u1, u2]; exact c
      simp only [c', if_true, rd, u3, hn, pure_bind, hne, if_false]
      exact ⟨_, _, rfl, Or.inr ⟨d, rfl, rfl, Or.inr ⟨rfl, c⟩⟩⟩
    · have c' : ¬ (upd (arr.set t d)).size_ < (upd (arr.set t d)).capacity_ := by
        rw [u1, u2]; exact c
      simp only [c', if_false]
      exact ⟨_, _, rfl, Or.inr ⟨d, rfl, rfl, Or.inl ⟨rfl, by omega⟩⟩⟩

/-- How far the defect of `insert` reaches: the call never tests why the linear search
stopped.  For a key whose hash is not `NullHash`, when the linear search of `insert` stops
at a bucket `n` that holds the hash of the key (so also when it holds the key), `insert`
returns neither false nor true.  It stops at `FATAL_ASSERT(delta < 256)` with the set as
it was, or it stores the delta, in `delta1_` of the ideal bucket when that delta was 0 and
in `delta2_` of the bucket `t` the walk ended at otherwise, and stops in `insertKey`: at
`FATAL_ASSERT(size_ < capacity_)` when the set is full and at
`FATAL_ASSERT(hashes_[index] == NullHash)` when it is not.  In all three cases `size_`,
`hashes_` and `keys_` are as before the call. -/
theorem duplicate_scan_stops (s : HashSet K) (key : K) (n : Nat)
    (hn : s.hashes_[n]? = some (hashFunc_ key)) (hne : hashFunc_ key ≠ NullHash) :
    (HashSet.bucketFoundOrEmpty NullHash s (hashFunc_ key % s.capacity_) (hashFunc_ key) key
        = Except.ok false →
      s.delta1_[hashFunc_ key % s.capacity_]? = some 0 →
      HashSet.linearSearch NullHash s (hashFunc_ key % s.capacity_ + 1) (hashFunc_ key) key
        = Except.ok n →
      ∃ f u, HashSet.insert hashFunc_ NullHash s key = Except.error (f, u) ∧
        u.size_ = s.size_ ∧ u.hashes_ = s.hashes_ ∧ u.keys_ = s.keys_ ∧
        ((f = Fault.assertDelta ∧ u = s) ∨
          ∃ d, HashSet.calcNewDelta s (hashFunc_ key % s.capacity_) n = Except.ok d ∧
            u = { s with delta1_ := s.delta1_.set (hashFunc_ key % s.capacity_) d } ∧
            ((f = Fault.assertSize ∧ s.capacity_ ≤ s.size_) ∨
              (f = Fault.assertEmpty ∧ s.size_ < s.capacity_)))) ∧
    (∀ (d1 c0 t : Nat),
      HashSet.bucketFoundOrEmpty NullHash s (hashFunc_ key % s.capacity_) (hashFunc_ key) key
        = Except.ok false →
      s.delta1_[hashFunc_ key % s.capacity_]? = some d1 → d1 ≠ 0 →
      HashSet.addDelta1 s (hashFunc_ key % s.capacity_) = Except.ok c0 →
      HashSet.bucketFound s c0 (hashFunc_ key) key = Except.ok false →
      HashSet.insertLoop s (hashFunc_ key) key s.capacity_ c0 = Except.ok (some t) →
      HashSet.linearSearch NullHash s (t + 1) (hashFunc_ key) key = Except.ok n →
      ∃ f u, HashSet.insert hashFunc_ NullHash s key = Except.error (f, u) ∧
        u.size_ = s.size_ ∧ u.hashes_ = s.hashes_ ∧ u.keys_ = s.keys_ ∧
        ((f = Fault.assertDelta ∧ u = s) ∨
          ∃ d, HashSet.calcNewDelta s t n = Except.ok d ∧
            u = { s with delta2_ := s.delta2_.set t d } ∧
            ((f = Fault.assertSize ∧ s.capacity_ ≤ s.size_) ∨
              (f = Fault.assertEmpty ∧ s.size_ < s.capacity_)))) := by
  constructor
  · intro hb hd hls
    have hi : hashFunc_ key % s.capacity_ < s.delta1_.length := by
      rcases List.getElem?_eq_some.1 hd with ⟨w, -⟩
      exact w
    obtain ⟨f, u, h1, h2⟩ := store_duplicate NullHash s _ n _ key hls s.delta1_ hi
      (fun ds => { s with delta1_ := ds }) (fun ds => ⟨rfl, rfl, rfl⟩) hn hne
    have hins : HashSet.insert hashFunc_ NullHash s key = Except.error (f, u) := by
      unfold HashSet.insert
      simp only [hb, ok_bind, if_true, rd, hd, pure_bind, ne_eq, not_true_eq_false, if_false]
      exact h1
    obtain ⟨a1, a2, a3, -⟩ := insert_error hashFunc_ NullHash s key (f, u) hins
    exact ⟨f, u, hins, a3, a1, a2, h2⟩
  · intro d1 c0 t hb hd hd0 hc0 hb1 hloop hls
    have ht : t < s.delta2_.length := by
      have := insertLoop_some s _ key _ c0 t hloop
      rcases List.getElem?_eq_some.1 this with ⟨w, -⟩
      exact w
    obtain ⟨f, u, h1, h2⟩ := store_duplicate NullHash s t n _ key hls s.delta2_ ht
      (fun ds => { s with delta2_ := ds }) (fun ds => ⟨rfl, rfl, rfl⟩) hn hne
    have hins : HashSet.insert hashFunc_ NullHash s key = Except.error (f, u) := by
      unfold HashSet.insert
      simp only [hb, ok_bind, if_true, rd, hd, pure_bind, ne_eq, hd0, not_false_eq_true,
        hc0, hb1, hloop]
      exact h1
    obtain ⟨a1, a2, a3, -⟩ := insert_error hashFunc_ NullHash s key (f, u) hins
    exact ⟨f, u, hins, a3, a1, a2, h2⟩

/-- What an `insert` that returns true has done, in a set whose arrays have `capacity_`
elements: the key is stored in a bucket `n` that was empty, and either `n` is the ideal
bucket and no delta has changed, or `delta1_` of the occupied ideal bucket, which was 0,
now leads to `n`, or `delta2_` of the bucket `t` at which the walk ended, which was 0, now
leads to `n`. -/
theorem insert_true_inv (s s' : HashSet K) (k : K) (hwf : s.WF) (hcap : 0 < s.capacity_)
    (h : HashSet.insert hashFunc_ NullHash s k = Except.ok (true, s')) :
    ∃ n, n < s.capacity_ ∧ s.hashes_[n]? = some NullHash ∧
      s'.size_ = s.size_ + 1 ∧ s'.capacity_ = s.capacity_ ∧
      s'.hashes_ = s.hashes_.set n (hashFunc_ k) ∧ s'.keys_ = s.keys_.set n k ∧
      ((n = hashFunc_ k % s.capacity_ ∧ s'.delta1_ = s.delta1_ ∧ s'.delta2_ = s.delta2_) ∨
        (∃ d hv, s.hashes_[hashFunc_ k % s.capacity_]? = some hv ∧ hv ≠ NullHash ∧
          s.delta1_[hashFunc_ k % s.capacity_]? = some 0 ∧
          s'.delta1_ = s.delta1_.set (hashFunc_ k % s.capacity_) d ∧
          s'.delta2_ = s.delta2_ ∧
          HashSet.addDelta1 s' (hashFunc_ k % s.capacity_) = Except.ok n ∧ d < 256) ∨
        (∃ d1 c0 t d hv, s.hashes_[hashFunc_ k % s.capacity_]? = some hv ∧ hv ≠ NullHash ∧
          s.delta1_[hashFunc_ k % s.capacity_]? = some d1 ∧ d1 ≠ 0 ∧
          HashSet.addDelta1 s (hashFunc_ k % s.capacity_) = Except.ok c0 ∧
          HashSet.insertLoop s (hashFunc_ k) k s.capacity_ c0 = Except.ok (some t) ∧
          s.delta2_[t]? = some 0 ∧
          s'.delta2_ = s.delta2_.set t d ∧ s'.delta1_ = s.delta1_ ∧
          HashSet.addDelta2 s' t = Except.ok n ∧ d < 256)) := by
  obtain ⟨w1, w2, w3, w4⟩ := hwf
  have hi : hashFunc_ k % s.capacity_ < s.capacity_ := Nat.mod_lt _ hcap
  have hlen : ∀ (xs : List Nat) (n : Nat) (v : Nat), xs[n]? = some v → n < xs.length := by
    intro xs n v hv
    rcases List.getElem?_eq_some.1 hv with ⟨hl, -⟩
    exact hl
  rcases insert_ok_inv hashFunc_ NullHash s s' k true h with
    ⟨c, -⟩ | ⟨-, hA | hB | hC⟩
  · cases c
  · obtain ⟨hn, hkey⟩ := hA
    rw [insertKey_ok] at hkey
    obtain ⟨-, -, -, rfl⟩ := hkey
    exact ⟨_, hi, hn, rfl, rfl, rfl, rfl, Or.inl ⟨rfl, rfl, rfl⟩⟩
  · obtain ⟨hb, hd, n, d, hcalc, hkey⟩ := hB
    rw [insertKey_ok] at hkey
    obtain ⟨-, hn, -, rfl⟩ := hkey
    simp only at hn
    have hnc : n < s.capacity_ := by
      have := hlen _ _ _ hn
      omega
    obtain ⟨hstep, -⟩ := calcNewDelta_spec s _ n d hcalc hi hnc
    obtain ⟨hv, e1, e2, -⟩ := (bucketFoundOrEmpty_false NullHash s _ _ k).1 hb
    refine ⟨n, hnc, hn, rfl, rfl, rfl, rfl, Or.inr (Or.inl ⟨d, hv, e1, e2, hd, rfl, rfl, ?_,
      ((calcNewDelta_ok s _ n d).1 hcalc).1⟩)⟩
    rw [addDelta1_ok]
    exact ⟨d, List.getElem?_set_self (by omega), hstep⟩
  · obtain ⟨hb, d1, c0, t, n, d, hd, hd1ne, hc0, hb1, hloop, ht, hcalc, hkey⟩ := hC
    rw [insertKey_ok] at hkey
    obtain ⟨-, hn, -, rfl⟩ := hkey
    simp only at hn
    have hnc : n < s.capacity_ := by
      have := hlen _ _ _ hn
      omega
    obtain ⟨hstep, -⟩ := calcNewDelta_spec s t n d hcalc (by omega) hnc
    obtain ⟨hv, e1, e2, -⟩ := (bucketFoundOrEmpty_false NullHash s _ _ k).1 hb
    refine ⟨n, hnc, hn, rfl, rfl, rfl, rfl, Or.inr (Or.inr
      ⟨d1, c0, t, d, hv, e1, e2, hd, hd1ne, hc0, hloop, insertLoop_some s _ k _ c0 t hloop,
        rfl, rfl, ?_, ((calcNewDelta_ok s t n d).1 hcalc).1⟩)⟩
    rw [addDelta2_ok]
    exact ⟨d, List.getElem?_set_self ht, hstep⟩

/-- A property of buckets that every `delta2_` hop keeps holds at the end of the walk of
`insert` when it holds at its start. -/
theorem insertLoop_ind (s : HashSet K) (P : Nat → Prop)
    (hstep : ∀ (c d nx : Nat), P c → s.delta2_[c]? = some d → d ≠ 0 →
      HashSet.addDelta2 s c = Except.ok nx → P nx)
    (h : Nat) (k : K) (fuel : Nat) :
    ∀ c t, HashSet.insertLoop s h k fuel c = Except.ok (some t) → P c → P t := by
  induction fuel with
  | zero =>
    intro c t ht
    simp [HashSet.insertLoop, throw_ok] at ht
  | succ fuel ih =>
    intro c t ht hc
    unfold HashSet.insertLoop at ht
    simp only [bind_ok, rd_ok] at ht
    obtain ⟨d, hd, ht⟩ := ht
    by_cases hd0 : d = 0
    · subst hd0
      simp only [ne_eq, not_true_eq_false, if_false, pure_ok, Option.some.injEq] at ht
      subst ht
      exact hc
    · simp only [hd0, ne_eq, not_false_eq_true, if_true, bind_ok] at ht
      obtain ⟨nx, hnx, b1, -, ht⟩ := ht
      cases b1
      · exact ih nx t (by simpa using ht) (hstep c d nx hc hd hd0 hnx)
      · simp [pure_ok] at ht

/-- Storing the key `k` in the empty bucket `n`, which gets the number `size_`, keeps the
second part of the shape of the chains, when every `delta1_` that has changed belongs to
the occupied ideal bucket of `k` and leads to `n`. -/
theorem owned_store (s s' : HashSet K) (rank : Nat → Nat) (n : Nat) (k : K)
    (hch : HashSet.Chained NullHash s rank) (how : HashSet.Owned hashFunc_ NullHash s rank)
    (hn : s.hashes_[n]? = some NullHash) (hnk : n < s.keys_.length)
    (hne : hashFunc_ k ≠ NullHash)
    (hh : s'.hashes_ = s.hashes_.set n (hashFunc_ k)) (hk : s'.keys_ = s.keys_.set n k)
    (hsz : s'.size_ = s.size_ + 1) (hc : s'.capacity_ = s.capacity_)
    (hd1 : ∀ (c : Nat), s'.delta1_[c]? = s.delta1_[c]? ∨
      ((∃ hv, s.hashes_[c]? = some hv ∧ hv ≠ NullHash) ∧
        HashSet.addDelta1 s' c = Except.ok n ∧ hashFunc_ k % s.capacity_ = c)) :
    HashSet.Owned hashFunc_ NullHash s' (fun c => if c = n then s.size_ else rank c) := by
  obtain ⟨l1, l2, l3⟩ := hch
  obtain ⟨o1, o2, o3⟩ := how
  have hnl : n < s.hashes_.length := by
    rcases List.getElem?_eq_some.1 hn with ⟨w, -⟩
    exact w
  have hnew : s'.hashes_[n]? = some (hashFunc_ k) := by
    rw [hh]
    exact List.getElem?_set_self hnl
  have hocc : ∀ (c hv : Nat), s.hashes_[c]? = some hv → hv ≠ NullHash →
      c ≠ n ∧ s'.hashes_[c]? = some hv := by
    intro c hv e1 e2
    have e : n ≠ c := by
      intro e
      subst e
      rw [hn] at e1
      exact e2 (Option.some.inj e1).symm
    exact ⟨fun e' => e e'.symm, by rw [hh, List.getElem?_set_ne e]; exact e1⟩
  refine ⟨?_, ?_, ?_⟩
  · intro c hv e1 e2
    by_cases e : c = n
    · simp only [e, if_true, hsz]
      omega
    · rw [hh, List.getElem?_set_ne (fun e' => e e'.symm)] at e1
      have := o1 c hv e1 e2
      simp only [e, if_false, hsz]
      omega
  · intro c d hd hd0
    rcases hd1 c with e | ⟨⟨hv, q1, q2⟩, e, e'⟩
    · rw [e] at hd
      obtain ⟨nx, hv, a1, a2, a3, a4⟩ := o2 c d hd hd0
      obtain ⟨nx', hv', b1, -, b3, b4⟩ := l1 c d hd hd0
      rw [a1] at b1
      obtain rfl := Except.ok.inj b1
      obtain ⟨c1, c2⟩ := hocc nx hv' b3 b4
      rw [a3] at b3
      obtain rfl := Option.some.inj b3
      have hcn : c ≠ n := by
        intro hcn
        subst hcn
        rw [(l3 c hn).1] at hd
        exact hd0 (Option.some.inj hd).symm
      refine ⟨nx, hv, (addDelta1_congr s s' c nx hc e).2 a1, ?_, c2, by rw [hc]; exact a4⟩
      simp only [c1, hcn, if_false]
      exact a2
    · obtain ⟨c1, -⟩ := hocc c hv q1 q2
      refine ⟨n, hashFunc_ k, e, ?_, hnew, by rw [hc]; exact e'⟩
      simp only [c1, if_false, if_true]
      exact o1 c hv q1 q2
  · intro c hv kv e1 e2 e3
    by_cases e : c = n
    · subst e
      rw [hnew] at e1
      rw [hk, List.getElem?_set_self hnk] at e3
      rw [← Option.some.inj e1, ← Option.some.inj e3]
    · rw [hh, List.getElem?_set_ne (fun e' => e e'.symm)] at e1
      rw [hk, List.getElem?_set_ne (fun e' => e e'.symm)] at e3
      exact o3 c hv kv e1 e2 e3

/-- An `insert` that returns true keeps both parts of the shape of the chains, for one
numbering of the buckets. -/
theorem insert_grown (hH : ∀ k, hashFunc_ k ≠ NullHash) (s s' : HashSet K) (k : K)
    (rank : Nat → Nat) (hwf : s.WF) (hcap : 0 < s.capacity_)
    (hch : HashSet.Chained NullHash s rank) (how : HashSet.Owned hashFunc_ NullHash s rank)
    (h : HashSet.insert hashFunc_ NullHash s k = Except.ok (true, s')) :
    ∃ rank', HashSet.Chained NullHash s' rank' ∧
      HashSet.Owned hashFunc_ NullHash s' rank' := by
  obtain ⟨n, hnc, hn, hsz, hc, hh, hk, hdel⟩ :=
    insert_true_inv hashFunc_ NullHash s s' k hwf hcap h
  have hnk : n < s.keys_.length := by rw [hwf.2.2.2]; exact hnc
  refine ⟨fun c => if c = n then s.size_ else rank c, ?_, ?_⟩
  · rcases hdel with ⟨-, e1, e2⟩ | ⟨d, hv, q1, q2, hd, e1, e2, hadd, hlt⟩ |
      ⟨d1, c0, t, d, hv, q1, q2, hd, hd1ne, hc0, hloop, ht0, e2, e1, hadd, hlt⟩
    · exact chained_store NullHash s s' rank n _ hch hn (hH k) hh hsz hc
        (fun c => Or.inl (by rw [e1])) (fun c => Or.inl (by rw [e2]))
    · refine chained_store NullHash s s' rank n _ hch hn (hH k) hh hsz hc ?_
        (fun c => Or.inl (by rw [e2]))
      intro c
      by_cases e : hashFunc_ k % s.capacity_ = c
      · subst e
        exact Or.inr ⟨⟨hv, q1, q2⟩, hadd⟩
      · exact Or.inl (by rw [e1, List.getElem?_set_ne e])
    · obtain ⟨nx, hv1, a1, a2, a3, a4⟩ := hch.1 _ d1 hd hd1ne
      rw [hc0] at a1
      obtain rfl := Except.ok.inj a1
      obtain ⟨hrt, hv2, g1, g2⟩ :=
        insertLoop_end NullHash s rank hch _ k _ c0 t hloop ⟨a2, hv1, a3, a4⟩
      refine chained_store NullHash s s' rank n _ hch hn (hH k) hh hsz hc
        (fun c => Or.inl (by rw [e1])) ?_
      intro c
      by_cases e : t = c
      · subst e
        exact Or.inr ⟨⟨hv2, g1, g2⟩, hrt, hadd⟩
      · exact Or.inl (by rw [e2, List.getElem?_set_ne e])
  · refine owned_store hashFunc_ NullHash s s' rank n k hch how hn hnk (hH k) hh hk hsz hc ?_
    rcases hdel with ⟨-, e1, e2⟩ | ⟨d, hv, q1, q2, hd, e1, e2, hadd, hlt⟩ |
      ⟨d1, c0, t, d, hv, q1, q2, hd, hd1ne, hc0, hloop, ht0, e2, e1, hadd, hlt⟩
    · exact fun c => Or.inl (by rw [e1])
    · intro c
      by_cases e : hashFunc_ k % s.capacity_ = c
      · subst e
        exact Or.inr ⟨⟨hv, q1, q2⟩, hadd, rfl⟩
      · exact Or.inl (by rw [e1, List.getElem?_set_ne e])
    · exact fun c => Or.inl (by rw [e1])

/-- Every set that `insert` calls alone make from a fresh set has arrays of `capacity_`
elements, counts its occupied buckets, and has chains of the shape described by
`Chained` and `Owned`. -/
theorem insertOnly_grown [Inhabited K] (hH : ∀ k, hashFunc_ k ≠ NullHash) (ks : List K) :
    ∀ (s s' : HashSet K) (rank : Nat → Nat),
      HashSet.calls hashFunc_ NullHash s (ks.map Call.insert) = Except.ok s' →
      s.WF → s.size_ = occupied NullHash s.hashes_ → 0 < s.capacity_ →
      HashSet.Chained NullHash s rank → HashSet.Owned hashFunc_ NullHash s rank →
      s'.WF ∧ s'.size_ = occupied NullHash s'.hashes_ ∧ 0 < s'.capacity_ ∧
        ∃ rank', HashSet.Chained NullHash s' rank' ∧
          HashSet.Owned hashFunc_ NullHash s' rank' := by
  induction ks with
  | nil =>
    intro s s' rank h hwf hocc hcap hch how
    simp only [List.map_nil, HashSet.calls, pure_ok] at h
    subst h
    exact ⟨hwf, hocc, hcap, rank, hch, how⟩
  | cons k ks ih =>
    intro s s' rank h hwf hocc hcap hch how
    simp only [List.map_cons, HashSet.calls, HashSet.call, bind_ok, pure_ok] at h
    obtain ⟨t, ⟨⟨r, t1⟩, hins, rfl⟩, h⟩ := h
    cases r
    · have := (insert_frame_aux hashFunc_ NullHash s t1 k false hins).1 rfl
      subst this
      exact ih _ s' rank h hwf hocc hcap hch how
    · obtain ⟨hwf', hocc'⟩ :=
        insert_counted hashFunc_ NullHash hH s t1 k true hins ⟨hwf, hocc⟩
      obtain ⟨rank', hch', how'⟩ :=
        insert_grown hashFunc_ NullHash hH s t1 k rank hwf hcap hch how hins
      have hc' : t1.capacity_ = s.capacity_ :=
        ((insert_frame_aux hashFunc_ NullHash s t1 k true hins).2 rfl).2.2.1
      exact ih t1 s' rank' h hwf' hocc' (by omega) hch' how'

theorem insertOnly_inv [Inhabited K] (hH : ∀ k, hashFunc_ k ≠ NullHash) (s : HashSet K)
    (hs : HashSet.InsertOnly hashFunc_ NullHash s) :
    s.WF ∧ s.size_ = occupied NullHash s.hashes_ ∧ 0 < s.capacity_ ∧
      ∃ rank, HashSet.Chained NullHash s rank ∧ HashSet.Owned hashFunc_ NullHash s rank := by
  obtain ⟨capacity, ks, h⟩ := hs
  simp only [HashSet.fromFresh, bind_ok] at h
  obtain ⟨s0, h0, h⟩ := h
  obtain ⟨hwf, hocc⟩ := construct_counted NullHash capacity s0 h0
  obtain ⟨hpos, rfl⟩ := construct_ok NullHash capacity s0 h0
  refine insertOnly_grown hashFunc_ NullHash hH ks _ s (fun _ => 0) h hwf hocc hpos ?_ ?_
  · refine ⟨?_, ?_, ?_⟩
    · intro c d hd hd0
      simp only [List.getElem?_replicate] at hd
      split at hd
      · exact absurd (Option.some.inj hd).symm hd0
      · cases hd
    · intro c d hd hd0
      simp only [List.getElem?_replicate] at hd
      split at hd
      · exact absurd (Option.some.inj hd).symm hd0
      · cases hd
    · intro c hc
      have hl : c < capacity := by
        rcases List.getElem?_eq_some.1 hc with ⟨w, -⟩
        simpa using w
      simp [List.getElem?_replicate, hl]
  · refine ⟨?_, ?_, ?_⟩
    · intro c hv e1 e2
      simp only [List.getElem?_replicate] at e1
      split at e1
      · exact absurd (Option.some.inj e1).symm e2
      · cases e1
    · intro c d hd hd0
      simp only [List.getElem?_replicate] at hd
      split at hd
      · exact absurd (Option.some.inj hd).symm hd0
      · cases hd
    · intro c hv kv e1 e2 e3
      simp only [List.getElem?_replicate] at e1
      split at e1
      · exact absurd (Option.some.inj e1).symm e2
      · cases e1

/-- The shape of the chains of a set made by `insert` gives the numbering that `remove`
relies on. -/
theorem ranked_of_grown (s : HashSet K) (rank : Nat → Nat) (hwf : s.WF)
    (hocc : s.size_ = occupied NullHash s.hashes_)
    (hch : HashSet.Chained NullHash s rank) (how : HashSet.Owned hashFunc_ NullHash s rank) :
    HashSet.Ranked s rank := by
  have hle : s.size_ ≤ s.capacity_ := by
    have := occupied_le NullHash s.hashes_
    rw [hwf.2.2.1] at this
    omega
  have hlen : ∀ (n : Nat) (v : Nat), s.hashes_[n]? = some v → n < s.capacity_ := by
    intro n v hv
    rcases List.getElem?_eq_some.1 hv with ⟨hl, -⟩
    rw [hwf.2.2.1] at hl
    exact hl
  refine ⟨?_, ?_⟩
  · intro c d hd hd0
    obtain ⟨nx, hv, a1, a2, a3, -⟩ := how.2.1 c d hd hd0
    exact ⟨nx, a1, hlen nx hv a3, a2⟩
  · intro c d hd hd0
    obtain ⟨nx, hv, a1, a2, a3, a4, -⟩ := hch.2.1 c d hd hd0
    exact ⟨nx, a1, hlen nx hv a4, a2, by omega⟩

/-- Clearing deltas keeps the numbering. -/
theorem ranked_congr (s s' : HashSet K) (rank : Nat → Nat) (hr : HashSet.Ranked s rank)
    (hc : s'.capacity_ = s.capacity_)
    (h1 : ∀ (c d : Nat), s'.delta1_[c]? = some d → d ≠ 0 → s.delta1_[c]? = some d)
    (h2 : ∀ (c d : Nat), s'.delta2_[c]? = some d → d ≠ 0 → s.delta2_[c]? = some d) :
    HashSet.Ranked s' rank := by
  refine ⟨?_, ?_⟩
  · intro c d hd hd0
    have hd' := h1 c d hd hd0
    obtain ⟨nx, a1, a2, a3⟩ := hr.1 c d hd' hd0
    exact ⟨nx, (addDelta1_congr s s' c nx hc (by rw [hd, hd'])).2 a1, by rw [hc]; exact a2, a3⟩
  · intro c d hd hd0
    have hd' := h2 c d hd hd0
    obtain ⟨nx, a1, a2, a3, a4⟩ := hr.2 c d hd' hd0
    exact ⟨nx, (addDelta2_congr s s' c nx hc (by rw [hd, hd'])).2 a1, by rw [hc]; exact a2, a3,
      by rw [hc]; exact a4⟩

/-- An element of an array after one element has been set to 0 is 0 or what it was. -/
theorem getElem?_set_zero (xs : List Nat) (i c d : Nat) (h : (xs.set i 0)[c]? = some d)
    (hd : d ≠ 0) : xs[c]? = some d ∧ c ≠ i := by
  by_cases e : i = c
  · subst e
    have hl : i < xs.length := by
      rcases List.getElem?_eq_some.1 h with ⟨w, -⟩
      simpa using w
    rw [List.getElem?_set_self hl] at h
    exact absurd (Option.some.inj h).symm hd
  · rw [List.getElem?_set_ne e] at h
    exact ⟨h, fun e' => e e'.symm⟩

/-- With numbers that rise along `delta2_` and stay below `capacity_`, the inner loop of
`remove` returns: the bucket `l` at which the chain ends, and the bucket `sl` before it
when the chain has more than one bucket. -/
theorem removeLastLoop_total (s : HashSet K) (rank : Nat → Nat)
    (hlen : s.delta2_.length = s.capacity_) (hr : HashSet.Ranked s rank) (fuel : Nat) :
    ∀ (p c : Nat), c < s.capacity_ → 1 ≤ fuel → s.capacity_ - rank c ≤ fuel →
      ∃ sl l, HashSet.removeLastLoop s fuel p c = Except.ok (sl, l) ∧ l < s.capacity_ ∧
        s.delta2_[l]? = some 0 ∧
        ((s.delta2_[c]? = some 0 ∧ sl = p ∧ l = c) ∨
          ((∃ e, s.delta2_[c]? = some e ∧ e ≠ 0) ∧
            sl < s.capacity_ ∧ rank c ≤ rank sl ∧ rank c < rank l ∧
            ∃ d, s.delta2_[sl]? = some d ∧ d ≠ 0 ∧
              HashSet.addDelta2 s sl = Except.ok l)) := by
  induction fuel with
  | zero =>
    intro p c _ h1 _
    omega
  | succ fuel ih =>
    intro p c hc _ h2
    have hcl : c < s.delta2_.length := by rw [hlen]; exact hc
    have hd : s.delta2_[c]? = some s.delta2_[c] := List.getElem?_eq_getElem hcl
    by_cases hd0 : s.delta2_[c] = 0
    · have hz : s.delta2_[c]? = some 0 := by rw [hd, hd0]
      have e : HashSet.removeLastLoop s (fuel + 1) p c = Except.ok (p, c) := by
        unfold HashSet.removeLastLoop
        simp only [rd, hz, pure_bind, ne_eq, not_true_eq_false, if_false]
        rfl
      exact ⟨p, c, e, hc, hz, Or.inl ⟨hz, rfl, rfl⟩⟩
    · obtain ⟨nx, a1, a2, a3, a4⟩ := hr.2 c _ hd hd0
      have e : HashSet.removeLastLoop s (fuel + 1) p c
          = HashSet.removeLastLoop s fuel c nx := by
        conv => lhs; unfold HashSet.removeLastLoop
        simp only [rd, hd, pure_bind, hd0, ne_eq, not_false_eq_true, if_true, a1, ok_bind]
      obtain ⟨sl, l, e1, e2, e3, e4⟩ := ih c nx a2 (by omega) (by omega)
      refine ⟨sl, l, by rw [e, e1], e2, e3, Or.inr ?_⟩
      rcases e4 with ⟨-, g2, g3⟩ | ⟨-, g1, g2, g3, g4⟩
      · subst g2 g3
        exact ⟨⟨_, hd, hd0⟩, hc, Nat.le_refl _, a3, _, hd, hd0, a1⟩
      · exact ⟨⟨_, hd, hd0⟩, g1, by omega, by omega, g4⟩

/-- The outer loop of `remove` exits at a bucket with both deltas 0. -/
theorem removeLoop_exit (s : HashSet K) (b fuel : Nat)
    (h1 : s.delta1_[b]? = some 0) (h2 : s.delta2_[b]? = some 0) :
    HashSet.removeLoop (fuel + 1) s b = Except.ok (s, b) := by
  unfold HashSet.removeLoop
  simp only [rd, h1, h2, pure_bind, ne_eq, not_true_eq_false, if_false, decide_False,
    Bool.false_eq_true]
  rfl

/-- One round of the outer loop of `remove` at a bucket `b` whose `delta1_` leads to a
bucket `f` with `delta2_[f] = 0`: `delta1_[b]` is cleared, the key and the hash of `f` move
to `b`, and the loop goes on at `f`. -/
theorem removeLoop_round1 (s : HashSet K) (b fuel d f hf : Nat) (kf : K)
    (h1 : s.delta1_[b]? = some d) (hd : d ≠ 0)
    (hadd : HashSet.addDelta1 s b = Except.ok f) (h2 : s.delta2_[f]? = some 0)
    (hbf : b ≠ f) (hk : s.keys_[f]? = some kf) (hh : s.hashes_[f]? = some hf)
    (hbk : b < s.keys_.length) (hbh : b < s.hashes_.length) :
    HashSet.removeLoop (fuel + 1) s b =
      HashSet.removeLoop fuel
        { s with delta1_ := s.delta1_.set b 0, keys_ := s.keys_.set b kf,
                 hashes_ := s.hashes_.set b hf } f := by
  have hbl : b < s.delta1_.length := by
    rcases List.getElem?_eq_some.1 h1 with ⟨w, -⟩
    exact w
  conv => lhs; unfold HashSet.removeLoop
  simp only [rd, wr, h1, h2, hadd, hk, hh, hbl, hbk, hbh, hd, hbf, pure_bind, ok_bind, ne_eq,
    not_false_eq_true, not_true_eq_false, if_true, if_false]

/-- One round of the outer loop of `remove` at a bucket `b` whose chain, entered at
`first`, has more than one bucket: `delta2_` of the bucket `sl` before the last one is
cleared, the key and the hash of the last bucket `l` move to `b`, and the loop goes on at
`l`. -/
theorem removeLoop_round2 (s : HashSet K) (b fuel d first e sl l hl : Nat) (kl : K)
    (h1 : s.delta1_[b]? = some d)
    (hfirst : (d ≠ 0 ∧ HashSet.addDelta1 s b = Except.ok first) ∨ (d = 0 ∧ first = b))
    (h2 : s.delta2_[first]? = some e) (he : e ≠ 0)
    (hlast : HashSet.removeLastLoop s s.capacity_ first first = Except.ok (sl, l))
    (hsl : sl < s.delta2_.length)
    (hbl : b ≠ l) (hk : s.keys_[l]? = some kl) (hh : s.hashes_[l]? = some hl)
    (hbk : b < s.keys_.length) (hbh : b < s.hashes_.length) :
    HashSet.removeLoop (fuel + 1) s b =
      HashSet.removeLoop fuel
        { s with delta2_ := s.delta2_.set sl 0, keys_ := s.keys_.set b kl,
                 hashes_ := s.hashes_.set b hl } l := by
  conv => lhs; unfold HashSet.removeLoop
  rcases hfirst with ⟨hd, hadd⟩ | ⟨hd, rfl⟩
  · simp only [rd, wr, h1, h2, hadd, hk, hh, hsl, hbk, hbh, hd, he, hbl, hlast, pure_bind,
      ok_bind, ne_eq, not_false_eq_true, not_true_eq_false, if_true, if_false]
  · subst hd
    simp only [rd, wr, h1, h2, hk, hh, hsl, hbk, hbh, he, hbl, hlast, pure_bind,
      ok_bind, ne_eq, not_false_eq_true, not_true_eq_false, if_true, if_false,
      decide_True]

/-- In a set with the numbering that `remove` relies on, the outer loop of `remove` returns
from every bucket `b`: every round clears one delta that was not 0.  It goes from bucket
to bucket with rising numbers, so the buckets numbered below `r0`, a number not above the
one of `b`, keep their hash, key and deltas. -/
theorem removeLoop_healthy (rank : Nat → Nat) (r0 : Nat) (fuel : Nat) :
    ∀ (s : HashSet K) (b : Nat), s.WF → HashSet.Ranked s rank → b < s.capacity_ →
      r0 ≤ rank b → occupied 0 s.delta1_ + occupied 0 s.delta2_ < fuel →
      ∃ s2 b2, HashSet.removeLoop fuel s b = Except.ok (s2, b2) ∧ r0 ≤ rank b2 ∧
        ∀ c, rank c < r0 →
          s2.hashes_[c]? = s.hashes_[c]? ∧ s2.keys_[c]? = s.keys_[c]? ∧
          s2.delta1_[c]? = s.delta1_[c]? ∧ s2.delta2_[c]? = s.delta2_[c]? := by
  induction fuel with
  | zero =>
    intro s b _ _ _ _ h
    omega
  | succ fuel ih =>
    intro s b hwf hr hb hr0 hnz
    obtain ⟨w1, w2, w3, w4⟩ := hwf
    have hb1 : b < s.delta1_.length := by omega
    have hb2 : b < s.delta2_.length := by omega
    have hb3 : b < s.hashes_.length := by omega
    have hb4 : b < s.keys_.length := by omega
    have hd1 : s.delta1_[b]? = some s.delta1_[b] := List.getElem?_eq_getElem hb1
    have hd2 : s.delta2_[b]? = some s.delta2_[b] := List.getElem?_eq_getElem hb2
    have hcap : 1 ≤ s.capacity_ := by omega
    -- the rest of the loop, from the set `st` and the bucket `nxt` of the next round
    have key : ∀ (st : HashSet K) (nxt : Nat),
        HashSet.removeLoop (fuel + 1) s b = HashSet.removeLoop fuel st nxt →
        st.WF → HashSet.Ranked st rank → nxt < st.capacity_ → r0 ≤ rank nxt →
        occupied 0 st.delta1_ + occupied 0 st.delta2_ < fuel →
        (∀ c, rank c < r0 →
          st.hashes_[c]? = s.hashes_[c]? ∧ st.keys_[c]? = s.keys_[c]? ∧
          st.delta1_[c]? = s.delta1_[c]? ∧ st.delta2_[c]? = s.delta2_[c]?) →
        ∃ s2 b2, HashSet.removeLoop (fuel + 1) s b = Except.ok (s2, b2) ∧ r0 ≤ rank b2 ∧
          ∀ c, rank c < r0 →
            s2.hashes_[c]? = s.hashes_[c]? ∧ s2.keys_[c]? = s.keys_[c]? ∧
            s2.delta1_[c]? = s.delta1_[c]? ∧ s2.delta2_[c]? = s.delta2_[c]? := by
      intro st nxt e hwf' hr' hn hrn hnz' hfr
      obtain ⟨s2, b2, e2, g1, g2⟩ := ih st nxt hwf' hr' hn hrn hnz'
      refine ⟨s2, b2, by rw [e, e2], g1, ?_⟩
      intro c hc
      obtain ⟨f1, f2, f3, f4⟩ := hfr c hc
      obtain ⟨k1, k2, k3, k4⟩ := g2 c hc
      exact ⟨by rw [k1, f1], by rw [k2, f2], by rw [k3, f3], by rw [k4, f4]⟩
    -- a round that walks from `first` to the last bucket of a chain
    have walk : ∀ (first : Nat),
        ((s.delta1_[b] ≠ 0 ∧ HashSet.addDelta1 s b = Except.ok first) ∨
          (s.delta1_[b] = 0 ∧ first = b)) →
        first < s.capacity_ → rank b ≤ rank first →
        (∃ e, s.delta2_[first]? = some e ∧ e ≠ 0) →
        ∃ s2 b2, HashSet.removeLoop (fuel + 1) s b = Except.ok (s2, b2) ∧ r0 ≤ rank b2 ∧
          ∀ c, rank c < r0 →
            s2.hashes_[c]? = s.hashes_[c]? ∧ s2.keys_[c]? = s.keys_[c]? ∧
            s2.delta1_[c]? = s.delta1_[c]? ∧ s2.delta2_[c]? = s.delta2_[c]? := by
      intro first hfirst hfc hrf ⟨e, he, he0⟩
      obtain ⟨sl, l, q1, q2, q3, q4⟩ :=
        removeLastLoop_total s rank w2 hr s.capacity_ first first hfc hcap (by omega)
      rcases q4 with ⟨z, -, -⟩ | ⟨-, g1, g2, g3, dd, g4, g5, g6⟩
      · rw [he] at z
        exact absurd (Option.some.inj z) he0
      · have hl3 : l < s.hashes_.length := by omega
        have hl4 : l < s.keys_.length := by omega
        have hbl : b ≠ l := by
          intro e'
          subst e'
          omega
        have e := removeLoop_round2 s b fuel _ first e sl l s.hashes_[l] s.keys_[l] hd1 hfirst
          he he0 q1 (by omega) hbl (List.getElem?_eq_getElem hl4)
          (List.getElem?_eq_getElem hl3) hb4 hb3
        refine key _ l e ⟨?_, ?_, ?_, ?_⟩ ?_ q2 (by omega) ?_ ?_
        · simp only [w1]
        · simp only [List.length_set, w2]
        · simp only [List.length_set, w3]
        · simp only [List.length_set, w4]
        · refine ranked_congr s _ rank hr rfl (fun c d h _ => h) ?_
          intro c d h hd0
          exact (getElem?_set_zero s.delta2_ sl c d h hd0).1
        · have := occupied_set_null 0 s.delta2_ sl dd g4 g5
          simp only
          omega
        · intro c hc
          have hcb : b ≠ c := by
            intro e'
            subst e'
            omega
          have hcs : sl ≠ c := by
            intro e'
            subst e'
            omega
          simp only
          exact ⟨List.getElem?_set_ne hcb, List.getElem?_set_ne hcb, trivial,
            List.getElem?_set_ne hcs⟩
    by_cases c1 : s.delta1_[b] = 0
    · by_cases c2 : s.delta2_[b] = 0
      · refine ⟨s, b, removeLoop_exit s b fuel (by rw [hd1, c1]) (by rw [hd2, c2]), hr0, ?_⟩
        intro c _
        exact ⟨rfl, rfl, rfl, rfl⟩
      · exact walk b (Or.inr ⟨c1, rfl⟩) hb (Nat.le_refl _) ⟨_, hd2, c2⟩
    · obtain ⟨f, a1, a2, a3⟩ := hr.1 b _ hd1 c1
      have hf2 : f < s.delta2_.length := by omega
      have hf3 : f < s.hashes_.length := by omega
      have hf4 : f < s.keys_.length := by omega
      by_cases c2 : s.delta2_[f] = 0
      · have hbf : b ≠ f := by
          intro e'
          rw [← e'] at a3
          omega
        have e := removeLoop_round1 s b fuel _ f s.hashes_[f] s.keys_[f] hd1 c1 a1
          (by rw [List.getElem?_eq_getElem hf2, c2]) hbf (List.getElem?_eq_getElem hf4)
          (List.getElem?_eq_getElem hf3) hb4 hb3
        refine key _ f e ⟨?_, ?_, ?_, ?_⟩ ?_ a2 (by omega) ?_ ?_
        · simp only [List.length_set, w1]
        · simp only [w2]
        · simp only [List.length_set, w3]
        · simp only [List.length_set, w4]
        · refine ranked_congr s _ rank hr rfl ?_ (fun c d h _ => h)
          intro c d h hd0
          exact (getElem?_set_zero s.delta1_ b c d h hd0).1
        · have := occupied_set_null 0 s.delta1_ b _ hd1 c1
          simp only
          omega
        · intro c hc
          have hcb : b ≠ c := by
            intro e'
            subst e'
            omega
          simp only
          exact ⟨List.getElem?_set_ne hcb, List.getElem?_set_ne hcb,
            List.getElem?_set_ne hcb, trivial⟩
      · exact walk f (Or.inl ⟨c1, a1⟩) a2 (by omega)
          ⟨_, List.getElem?_eq_getElem hf2, c2⟩

/-- The lookup of a key that sits in its ideal bucket. -/
theorem findBucketIndex_ideal (s : HashSet K) (k : K) (hz : s.size_ ≠ 0)
    (hh : s.hashes_[hashFunc_ k % s.capacity_]? = some (hashFunc_ k))
    (hk : s.keys_[hashFunc_ k % s.capacity_]? = some k) (hne : hashFunc_ k ≠ NullHash) :
    HashSet.findBucketIndex hashFunc_ NullHash s k
      = Except.ok (true, hashFunc_ k % s.capacity_, hashFunc_ k % s.capacity_) := by
  have hb := (bucketFoundOrEmpty_true NullHash s _ (hashFunc_ k) k).2 (Or.inr ⟨hne, hh, hk⟩)
  unfold HashSet.findBucketIndex
  simp only [hz, if_false, hb, ok_bind, Bool.true_eq_false, rd, hh, pure_bind, ne_eq, hne,
    not_false_eq_true, if_true]
  rfl

/-- The lookup of a key that sits in the bucket `delta1_` of its ideal bucket leads to. -/
theorem findBucketIndex_first (s : HashSet K) (k : K) (d f : Nat) (hz : s.size_ ≠ 0)
    (hb : HashSet.bucketFoundOrEmpty NullHash s (hashFunc_ k % s.capacity_) (hashFunc_ k) k
      = Except.ok false)
    (hd : s.delta1_[hashFunc_ k % s.capacity_]? = some d) (hd0 : d ≠ 0)
    (hadd : HashSet.addDelta1 s (hashFunc_ k % s.capacity_) = Except.ok f)
    (hf : HashSet.bucketFound s f (hashFunc_ k) k = Except.ok true) :
    HashSet.findBucketIndex hashFunc_ NullHash s k
      = Except.ok (true, f, hashFunc_ k % s.capacity_) := by
  unfold HashSet.findBucketIndex
  simp only [hz, if_false, hb, ok_bind, if_true, rd, hd, pure_bind, ne_eq, hd0,
    not_false_eq_true, hadd, hf, Bool.true_eq_false]
  rfl

/-- The call `remove` of a key found in its ideal bucket `i`: nothing is unlinked before
the compaction loop, which starts at `i`; the bucket at which the loop exits is emptied
and `size_` goes down by one. -/
theorem remove_at_ideal (s s2 : HashSet K) (k : K) (i hv b2 : Nat)
    (hf : HashSet.findBucketIndex hashFunc_ NullHash s k = Except.ok (true, i, i))
    (hh : s.hashes_[i]? = some hv) (hid : hv % s.capacity_ = i)
    (hloop : HashSet.removeLoop (2 * s.capacity_ + 1) s i = Except.ok (s2, b2))
    (hb2 : b2 < s2.hashes_.length) :
    HashSet.remove hashFunc_ NullHash s k =
      Except.ok (true, { s2 with hashes_ := s2.hashes_.set b2 NullHash,
                                 size_ := s2.size_ - 1 }) := by
  unfold HashSet.remove
  simp only [hf, ok_bind, if_true, rd, hh, pure_bind, hid, ne_eq, not_true_eq_false,
    if_false, Bool.false_eq_true, hloop, wr, hb2]
  rfl

/-- A key that sits in its ideal bucket, or in the bucket `delta1_` of its occupied ideal
bucket leads to, is contained. -/
theorem contains_of_bucket (s : HashSet K) (k : K) (hwf : s.WF) (hcap : 0 < s.capacity_)
    (hz : s.size_ ≠ 0) (hne : hashFunc_ k ≠ NullHash)
    (h : (s.hashes_[hashFunc_ k % s.capacity_]? = some (hashFunc_ k) ∧
          s.keys_[hashFunc_ k % s.capacity_]? = some k) ∨
        (∃ hx d f, s.hashes_[hashFunc_ k % s.capacity_]? = some hx ∧ hx ≠ NullHash ∧
          s.delta1_[hashFunc_ k % s.capacity_]? = some d ∧ d ≠ 0 ∧
          HashSet.addDelta1 s (hashFunc_ k % s.capacity_) = Except.ok f ∧
          s.hashes_[f]? = some (hashFunc_ k) ∧ s.keys_[f]? = some k)) :
    HashSet.contains hashFunc_ NullHash s k = Except.ok true := by
  rw [contains_eq]
  rcases h with ⟨h1, h2⟩ | ⟨hx, d, f, h1, h2, h3, h4, h5, h6, h7⟩
  · exact ⟨_, _, findBucketIndex_ideal hashFunc_ NullHash s k hz h1 h2 hne⟩
  · obtain ⟨b, hb⟩ := bucketFoundOrEmpty_total NullHash s hwf (hashFunc_ k % s.capacity_)
      (hashFunc_ k) k (Nat.mod_lt _ hcap)
    cases b
    · exact ⟨_, _, findBucketIndex_first hashFunc_ NullHash s k d f hz hb h3 h4 h5
        ((bucketFound_true s f _ k).2 ⟨h6, h7⟩)⟩
    · rcases (bucketFoundOrEmpty_true NullHash s _ _ k).1 hb with e | ⟨-, e1, e2⟩
      · rw [h1] at e
        exact absurd (Option.some.inj e) h2
      · exact ⟨_, _, findBucketIndex_ideal hashFunc_ NullHash s k hz e1 e2 hne⟩

/-- The call `remove` of a key found in its ideal bucket `i`, after the first round of the
compaction loop has left the set `st` and goes on at the bucket `nxt`: the call returns
true, and the buckets numbered below `r0`, a number not above the one of `nxt`, are in the
end what they are in `st`. -/
theorem remove_after_round (s st : HashSet K) (k : K) (i hv nxt r0 : Nat)
    (rank : Nat → Nat)
    (hf : HashSet.findBucketIndex hashFunc_ NullHash s k = Except.ok (true, i, i))
    (hh : s.hashes_[i]? = some hv) (hid : hv % s.capacity_ = i)
    (e : HashSet.removeLoop (2 * s.capacity_ + 1) s i
      = HashSet.removeLoop (2 * s.capacity_) st nxt)
    (hwf : st.WF) (hr : HashSet.Ranked st rank) (hn : nxt < st.capacity_)
    (hrn : r0 ≤ rank nxt)
    (hnz : occupied 0 st.delta1_ + occupied 0 st.delta2_ < 2 * s.capacity_) :
    ∃ s', HashSet.remove hashFunc_ NullHash s k = Except.ok (true, s') ∧
      ∀ c, rank c < r0 →
        s'.hashes_[c]? = st.hashes_[c]? ∧ s'.keys_[c]? = st.keys_[c]? ∧
        s'.delta1_[c]? = st.delta1_[c]? ∧ s'.delta2_[c]? = st.delta2_[c]? := by
  obtain ⟨s2, b2, e2, g1, g2⟩ :=
    removeLoop_healthy rank r0 (2 * s.capacity_) st nxt hwf hr hn hrn hnz
  have hloop : HashSet.removeLoop (2 * s.capacity_ + 1) s i = Except.ok (s2, b2) := by
    rw [e, e2]
  have hi : i < s.hashes_.length := by
    rcases List.getElem?_eq_some.1 hh with ⟨w, -⟩
    exact w
  obtain ⟨-, -, -, -, -, -, i7, -⟩ := removeLoop_inv NullHash _ s i s2 b2 hloop hi
  refine ⟨_, remove_at_ideal hashFunc_ NullHash s s2 k i hv b2 hf hh hid hloop i7, ?_⟩
  intro c hc
  obtain ⟨k1, k2, k3, k4⟩ := g2 c hc
  have hcb : b2 ≠ c := by
    intro e'
    subst e'
    omega
  exact ⟨by simp only [List.getElem?_set_ne hcb, k1], k2, k3, k4⟩

/-- C13 (as amended).  For a hash function that never returns `NullHash` and a set made
from a fresh one by `insert` calls only: let bucket `i` hold a key whose ideal bucket is
`i`, let `delta1_[i]` be not 0 and lead to the bucket `f`, and let `l` be the bucket at
which the `delta2_` walk from `f` ends.  Then `remove` of that key returns true and bucket
`i` holds afterwards the hash and the key that were in `l`.  When `delta2_[f]` is 0, `l`
is `f` and `delta1_[i]` is 0 afterwards: the key of the successor is now in bucket `i`.
When `delta2_[f]` is not 0, `l` is another bucket, `delta1_[i]` is as before and bucket `f`
holds what it held.  In both cases the key that was in `f` is contained afterwards. -/
theorem remove_ideal_key [Inhabited K] (hH : ∀ k, hashFunc_ k ≠ NullHash)
    (s : HashSet K) (hs : HashSet.InsertOnly hashFunc_ NullHash s) (i hv d : Nat) (key : K)
    (hk : s.keys_[i]? = some key) (hh : s.hashes_[i]? = some hv) (hne : hv ≠ NullHash)
    (hid : hv % s.capacity_ = i) (hd : s.delta1_[i]? = some d) (hd0 : d ≠ 0) :
    ∃ f sl l s', HashSet.addDelta1 s i = Except.ok f ∧
      HashSet.removeLastLoop s s.capacity_ f f = Except.ok (sl, l) ∧
      HashSet.remove hashFunc_ NullHash s key = Except.ok (true, s') ∧
      s'.hashes_[i]? = s.hashes_[l]? ∧ s'.keys_[i]? = s.keys_[l]? ∧
      (s.delta2_[f]? = some 0 → l = f ∧ s'.delta1_[i]? = some 0) ∧
      (s.delta2_[f]? ≠ some 0 →
        l ≠ f ∧ s'.delta1_[i]? = some d ∧
        s'.hashes_[f]? = s.hashes_[f]? ∧ s'.keys_[f]? = s.keys_[f]?) ∧
      (∀ kf, s.keys_[f]? = some kf →
        HashSet.contains hashFunc_ NullHash s' kf = Except.ok true) := by
  obtain ⟨hwf, hocc, hcap, rank, hch, how⟩ := insertOnly_inv hashFunc_ NullHash hH s hs
  have hr := ranked_of_grown hashFunc_ NullHash s rank hwf hocc hch how
  obtain ⟨w1, w2, w3, w4⟩ := hwf
  have hwf : s.WF := ⟨w1, w2, w3, w4⟩
  -- the key in bucket `i`
  have hvk : hv = hashFunc_ key := how.2.2 i hv key hh hne hk
  subst hvk
  have hi3 : i < s.hashes_.length := by
    rcases List.getElem?_eq_some.1 hh with ⟨w, -⟩
    exact w
  have hi4 : i < s.keys_.length := by omega
  have hz : s.size_ ≠ 0 := by
    have := occupied_pos NullHash s.hashes_ i _ hh hne
    omega
  have hfbi : HashSet.findBucketIndex hashFunc_ NullHash s key = Except.ok (true, i, i) := by
    have := findBucketIndex_ideal hashFunc_ NullHash s key hz (by rw [hid]; exact hh)
      (by rw [hid]; exact hk) hne
    rw [hid] at this
    exact this
  -- the successor `f` and the end `l` of the chain
  obtain ⟨f, a1, a2, a3⟩ := hr.1 i d hd hd0
  obtain ⟨f', hvf, b1, -, b3, b4⟩ := hch.1 i d hd hd0
  rw [a1] at b1
  obtain rfl := Except.ok.inj b1
  obtain ⟨f', hvf', c1, -, c3, c4⟩ := how.2.1 i d hd hd0
  rw [a1] at c1
  obtain rfl := Except.ok.inj c1
  rw [b3] at c3
  obtain rfl := Option.some.inj c3
  have hf2 : f < s.delta2_.length := by omega
  have hf3 : f < s.hashes_.length := by omega
  have hf4 : f < s.keys_.length := by omega
  have hif : i ≠ f := by
    intro e'
    rw [← e'] at a3
    omega
  have hnz : occupied 0 s.delta1_ + occupied 0 s.delta2_ ≤ 2 * s.capacity_ := by
    have h1 := occupied_le 0 s.delta1_
    have h2 := occupied_le 0 s.delta2_
    omega
  obtain ⟨sl, l, q1, q2, q3, q4⟩ :=
    removeLastLoop_total s rank w2 hr s.capacity_ f f a2 hcap (by omega)
  -- containment of the key of `f` in the set after the call
  have hcont : ∀ (s' : HashSet K) (kf : K),
      HashSet.remove hashFunc_ NullHash s key = Except.ok (true, s') →
      s.keys_[f]? = some kf →
      ((s'.hashes_[i]? = some hvf ∧ s'.keys_[i]? = some kf) ∨
        (∃ hx, s'.hashes_[i]? = some hx ∧ hx ≠ NullHash ∧ s'.delta1_[i]? = some d ∧
          s'.hashes_[f]? = some hvf ∧ s'.keys_[f]? = some kf)) →
      HashSet.contains hashFunc_ NullHash s' kf = Except.ok true := by
    intro s' kf hrem hkf hcase
    have hvk : hvf = hashFunc_ kf := how.2.2 f hvf kf b3 b4 hkf
    subst hvk
    obtain ⟨hwf', hocc'⟩ := remove_counted hashFunc_ NullHash hH s s' key true hrem ⟨hwf, hocc⟩
    have hc' : s'.capacity_ = s.capacity_ := by
      rcases remove_ok_inv hashFunc_ NullHash s s' key true hrem with
        ⟨c, -⟩ | ⟨-, _, _, -, -, e2, -⟩
      · cases c
      · exact e2
    have hid' : hashFunc_ kf % s'.capacity_ = i := by rw [hc']; exact c4
    have hz' : s'.size_ ≠ 0 := by
      rcases hcase with ⟨e1, -⟩ | ⟨hx, e1, e2, -⟩
      · have := occupied_pos NullHash s'.hashes_ i _ e1 b4
        omega
      · have := occupied_pos NullHash s'.hashes_ i _ e1 e2
        omega
    refine contains_of_bucket hashFunc_ NullHash s' kf hwf' (by omega) hz' b4 ?_
    rw [hid']
    rcases hcase with ⟨e1, e2⟩ | ⟨hx, e1, e2, e3, e4, e5⟩
    · exact Or.inl ⟨e1, e2⟩
    · exact Or.inr ⟨hx, d, f, e1, e2, e3, hd0,
        (addDelta1_congr s s' i f hc' (by rw [e3, hd])).2 a1, e4, e5⟩
  rcases q4 with ⟨z, rfl, rfl⟩ | ⟨⟨e, he, he0⟩, g1, g2, g3, dd, g4, g5, g6⟩
  · -- the successor is the last bucket of the chain
    have e1 := removeLoop_round1 s i (2 * s.capacity_) d l hvf s.keys_[l] hd hd0 a1 z hif
      (List.getElem?_eq_getElem hf4) b3 hi4 hi3
    obtain ⟨s', hrem, hfr⟩ := remove_after_round hashFunc_ NullHash s _ key i _ l
      (rank l) rank hfbi hh hid e1
      ⟨by simp only [List.length_set, w1], by simp only [w2],
        by simp only [List.length_set, w3], by simp only [List.length_set, w4]⟩
      (ranked_congr s _ rank hr rfl
        (fun c d' h hd' => (getElem?_set_zero s.delta1_ i c d' h hd').1) (fun c d' h _ => h))
      a2 (Nat.le_refl _)
      (by
        have := occupied_set_null 0 s.delta1_ i d hd hd0
        simp only
        omega)
    obtain ⟨k1, k2, k3, -⟩ := hfr i a3
    simp only at k1 k2 k3
    rw [List.getElem?_set_self hi3] at k1
    rw [List.getElem?_set_self hi4] at k2
    rw [List.getElem?_set_self (by omega)] at k3
    refine ⟨l, l, l, s', a1, q1, hrem, by rw [k1, b3], by
      rw [k2, List.getElem?_eq_getElem hf4], fun _ => ⟨rfl, k3⟩, fun hc => absurd z hc, ?_⟩
    intro kf hkf
    refine hcont s' kf hrem hkf (Or.inl ⟨k1, ?_⟩)
    rw [k2, ← hkf, List.getElem?_eq_getElem hf4]
  · -- the chain goes on behind the successor
    have hl3 : l < s.hashes_.length := by omega
    have hl4 : l < s.keys_.length := by omega
    have hil : i ≠ l := by
      intro e'
      subst e'
      omega
    have hfl : l ≠ f := by
      intro e'
      subst e'
      omega
    obtain ⟨l', hvl, m1, -, -, m4, m5⟩ := hch.2.1 sl dd g4 g5
    rw [g6] at m1
    obtain rfl := Except.ok.inj m1
    have e2 := removeLoop_round2 s i (2 * s.capacity_) d f e sl l hvl s.keys_[l] hd
      (Or.inl ⟨hd0, a1⟩) he he0 q1 (by omega) hil (List.getElem?_eq_getElem hl4) m4 hi4 hi3
    obtain ⟨s', hrem, hfr⟩ := remove_after_round hashFunc_ NullHash s _ key i _ l
      (rank l) rank hfbi hh hid e2
      ⟨by simp only [w1], by simp only [List.length_set, w2],
        by simp only [List.length_set, w3], by simp only [List.length_set, w4]⟩
      (ranked_congr s _ rank hr rfl (fun c d' h _ => h)
        (fun c d' h hd' => (getElem?_set_zero s.delta2_ sl c d' h hd').1))
      q2 (Nat.le_refl _)
      (by
        have := occupied_set_null 0 s.delta2_ sl dd g4 g5
        simp only
        omega)
    obtain ⟨k1, k2, k3, -⟩ := hfr i (by omega)
    obtain ⟨n1, n2, -, -⟩ := hfr f g3
    simp only at k1 k2 k3 n1 n2
    rw [List.getElem?_set_self hi3] at k1
    rw [List.getElem?_set_self hi4] at k2
    rw [List.getElem?_set_ne hif] at n1 n2
    have hne0 : s.delta2_[f]? ≠ some 0 := by
      rw [he]
      intro e'
      exact he0 (Option.some.inj e')
    refine ⟨f, sl, l, s', a1, q1, hrem, by rw [k1, m4], by
      rw [k2, List.getElem?_eq_getElem hl4], fun hc => absurd hc hne0,
      fun _ => ⟨hfl, by rw [k3, hd], n1, n2⟩, ?_⟩
    intro kf hkf
    exact hcont s' kf hrem hkf
      (Or.inr ⟨hvl, k1, m5, by rw [k3, hd], by rw [n1, b3], by rw [n2, hkf]⟩)

/-- What a returning walk `chainLoop` has done. -/
theorem chainLoop_ok (s : HashSet K) (fuel c : Nat) (l : List Nat) :
    HashSet.chainLoop s fuel c = Except.ok l ↔
      ∃ f0, fuel = f0 + 1 ∧
        ((s.delta2_[c]? = some 0 ∧ l = [c]) ∨
          (∃ d nx rest, s.delta2_[c]? = some d ∧ d ≠ 0 ∧
            HashSet.addDelta2 s c = Except.ok nx ∧
            HashSet.chainLoop s f0 nx = Except.ok rest ∧ l = c :: rest)) := by
  cases fuel with
  | zero =>
    simp [HashSet.chainLoop, throw_ok]
  | succ f0 =>
    constructor
    · intro h
      unfold HashSet.chainLoop at h
      simp only [bind_ok, rd_ok] at h
      obtain ⟨d, hd, h⟩ := h
      refine ⟨f0, rfl, ?_⟩
      by_cases hd0 : d = 0
      · subst hd0
        simp only [ne_eq, not_true_eq_false, if_false, pure_ok] at h
        exact Or.inl ⟨hd, h.symm⟩
      · simp only [hd0, ne_eq, not_false_eq_true, if_true, bind_ok, pure_ok] at h
        obtain ⟨nx, hnx, rest, hrest, h⟩ := h
        exact Or.inr ⟨d, nx, rest, hd, hd0, hnx, hrest, h.symm⟩
    · rintro ⟨f1, hf, h⟩
      obtain rfl : f0 = f1 := by omega
      unfold HashSet.chainLoop
      rcases h with ⟨hd, rfl⟩ | ⟨d, nx, rest, hd, hd0, hnx, hrest, rfl⟩
      · simp only [rd, hd, pure_bind, ne_eq, not_true_eq_false, if_false]
        rfl
      · simp only [rd, hd, pure_bind, ne_eq, hd0, not_false_eq_true, if_true, hnx, hrest,
          ok_bind]
        rfl

/-- A walk that has returned returns the same buckets when it is given more steps. -/
theorem chainLoop_mono (s : HashSet K) (fuel : Nat) :
    ∀ (c : Nat) (l : List Nat) (extra : Nat), HashSet.chainLoop s fuel c = Except.ok l →
      HashSet.chainLoop s (fuel + extra) c = Except.ok l := by
  induction fuel with
  | zero =>
    intro c l extra h
    simp [HashSet.chainLoop, throw_ok] at h
  | succ fuel ih =>
    intro c l extra h
    rw [chainLoop_ok] at h ⊢
    obtain ⟨f0, hf, h⟩ := h
    obtain rfl : fuel = f0 := by omega
    refine ⟨fuel + extra, by omega, ?_⟩
    rcases h with h | ⟨d, nx, rest, hd, hd0, hnx, hrest, rfl⟩
    · exact Or.inl h
    · exact Or.inr ⟨d, nx, rest, hd, hd0, hnx, ih nx rest extra hrest, rfl⟩

/-- Two returning walks from one bucket visit the same buckets. -/
theorem chainLoop_det (s : HashSet K) (f1 f2 c : Nat) (l1 l2 : List Nat)
    (h1 : HashSet.chainLoop s f1 c = Except.ok l1)
    (h2 : HashSet.chainLoop s f2 c = Except.ok l2) : l1 = l2 := by
  have e1 := chainLoop_mono s f1 c l1 f2 h1
  have e2 := chainLoop_mono s f2 c l2 f1 h2
  rw [Nat.add_comm] at e2
  rw [e1] at e2
  exact Except.ok.inj e2

/-- A walk visits the same buckets in a set with the same capacity and the same `delta2_`
at the buckets it visits. -/
theorem chainLoop_congr (s s' : HashSet K) (hc : s'.capacity_ = s.capacity_) (fuel : Nat) :
    ∀ (c : Nat) (l : List Nat), HashSet.chainLoop s fuel c = Except.ok l →
      (∀ x ∈ l, s'.delta2_[x]? = s.delta2_[x]?) →
      HashSet.chainLoop s' fuel c = Except.ok l := by
  induction fuel with
  | zero =>
    intro c l h
    simp [HashSet.chainLoop, throw_ok] at h
  | succ fuel ih =>
    intro c l h hl
    rw [chainLoop_ok] at h ⊢
    obtain ⟨f0, hf, h⟩ := h
    obtain rfl : fuel = f0 := by omega
    refine ⟨fuel, rfl, ?_⟩
    rcases h with ⟨hd, rfl⟩ | ⟨d, nx, rest, hd, hd0, hnx, hrest, rfl⟩
    · exact Or.inl ⟨by rw [hl c (List.mem_singleton.2 rfl)]; exact hd, rfl⟩
    · have e := hl c (List.mem_cons_self _ _)
      refine Or.inr ⟨d, nx, rest, by rw [e]; exact hd, hd0,
        (addDelta2_congr s s' c nx hc e).2 hnx, ?_, rfl⟩
      exact ih nx rest hrest (fun x hx => hl x (List.mem_cons_of_mem _ hx))

/-- The walk of `insert` that ends at the bucket `t` has visited the buckets of
`chainLoop`, of which `t` is the last and the only one with `delta2_` 0. -/
theorem chainLoop_of_insertLoop (s : HashSet K) (h : Nat) (k : K) (fuel : Nat) :
    ∀ (c t : Nat), HashSet.insertLoop s h k fuel c = Except.ok (some t) →
      ∃ l, HashSet.chainLoop s fuel c = Except.ok (l ++ [t]) ∧
        ∀ x ∈ l, ∃ d, s.delta2_[x]? = some d ∧ d ≠ 0 := by
  induction fuel with
  | zero =>
    intro c t ht
    simp [HashSet.insertLoop, throw_ok] at ht
  | succ fuel ih =>
    intro c t ht
    unfold HashSet.insertLoop at ht
    simp only [bind_ok, rd_ok] at ht
    obtain ⟨d, hd, ht⟩ := ht
    by_cases hd0 : d = 0
    · subst hd0
      simp only [ne_eq, not_true_eq_false, if_false, pure_ok, Option.some.injEq] at ht
      subst ht
      refine ⟨[], ?_, fun x hx => absurd hx (List.not_mem_nil x)⟩
      rw [chainLoop_ok]
      exact ⟨fuel, rfl, Or.inl ⟨hd, rfl⟩⟩
    · simp only [hd0, ne_eq, not_false_eq_true, if_true, bind_ok] at ht
      obtain ⟨nx, hnx, b1, -, ht⟩ := ht
      cases b1
      · obtain ⟨l, e1, e2⟩ := ih nx t (by simpa using ht)
        refine ⟨c :: l, ?_, ?_⟩
        · rw [chainLoop_ok]
          exact ⟨fuel, rfl, Or.inr ⟨d, nx, l ++ [t], hd, hd0, hnx, e1, rfl⟩⟩
        · intro x hx
          rcases List.mem_cons.1 hx with rfl | hx
          · exact ⟨d, hd, hd0⟩
          · exact e2 x hx
      · simp [pure_ok] at ht

/-- Linking a bucket `n` with `delta2_` 0 behind the last bucket `t` of a walk makes the
walk visit `n` after `t`. -/
theorem chainLoop_snoc (s s' : HashSet K) (t n d : Nat)
    (hc : s'.capacity_ = s.capacity_) (hd2 : s'.delta2_ = s.delta2_.set t d)
    (ht : s.delta2_[t]? = some 0) (hd0 : d ≠ 0)
    (hadd : HashSet.addDelta2 s' t = Except.ok n) (hn : s.delta2_[n]? = some 0)
    (hnt : n ≠ t) (l : List Nat) :
    ∀ (fuel c : Nat), HashSet.chainLoop s fuel c = Except.ok (l ++ [t]) →
      (∀ x ∈ l, ∃ e, s.delta2_[x]? = some e ∧ e ≠ 0) →
      HashSet.chainLoop s' (fuel + 1) c = Except.ok (l ++ [t, n]) := by
  have htl : t < s.delta2_.length := by
    rcases List.getElem?_eq_some.1 ht with ⟨w, -⟩
    exact w
  induction l with
  | nil =>
    intro fuel c h _
    rw [chainLoop_ok] at h
    obtain ⟨f0, rfl, h⟩ := h
    have hct : c = t := by
      rcases h with ⟨-, e⟩ | ⟨_, _, _, -, -, -, -, e⟩
      · simpa using e.symm
      · simp only [List.nil_append, List.cons.injEq] at e
        exact e.1.symm
    subst hct
    rw [chainLoop_ok]
    refine ⟨f0 + 1, rfl, Or.inr ⟨d, n, [n], ?_, hd0, hadd, ?_, rfl⟩⟩
    · rw [hd2]
      exact List.getElem?_set_self htl
    · rw [chainLoop_ok]
      refine ⟨f0, rfl, Or.inl ⟨?_, rfl⟩⟩
      rw [hd2, List.getElem?_set_ne (fun e => hnt e.symm)]
      exact hn
  | cons x l ih =>
    intro fuel c h hl
    rw [chainLoop_ok] at h
    obtain ⟨f0, rfl, h⟩ := h
    rcases h with ⟨-, e⟩ | ⟨e0, nx, rest, hd, hd0', hnx, hrest, e⟩
    · simp at e
    · simp only [List.cons_append, List.cons.injEq] at e
      obtain ⟨rfl, rfl⟩ := e
      have hxt : t ≠ x := by
        intro e'
        subst e'
        rw [ht] at hd
        exact hd0' (Option.some.inj hd).symm
      have e' : s'.delta2_[x]? = s.delta2_[x]? := by
        rw [hd2, List.getElem?_set_ne hxt]
      rw [chainLoop_ok]
      refine ⟨f0 + 1, rfl, Or.inr ⟨e0, nx, l ++ [t, n], by rw [e']; exact hd, hd0',
        (addDelta2_congr s s' x nx hc e').2 hnx, ?_, rfl⟩⟩
      exact ih f0 nx hrest (fun y hy => hl y (List.mem_cons_of_mem _ hy))

/-- With numbers that rise along `delta2_` and stay below `capacity_`, every walk
returns. -/
theorem chainLoop_total (s : HashSet K) (rank : Nat → Nat)
    (hlen : s.delta2_.length = s.capacity_) (hr : HashSet.Ranked s rank) (fuel : Nat) :
    ∀ (c : Nat), c < s.capacity_ → 1 ≤ fuel → s.capacity_ - rank c ≤ fuel →
      ∃ l, HashSet.chainLoop s fuel c = Except.ok l := by
  induction fuel with
  | zero =>
    intro c _ h1 _
    omega
  | succ fuel ih =>
    intro c hc _ h2
    have hcl : c < s.delta2_.length := by rw [hlen]; exact hc
    have hd : s.delta2_[c]? = some s.delta2_[c] := List.getElem?_eq_getElem hcl
    by_cases hd0 : s.delta2_[c] = 0
    · refine ⟨[c], ?_⟩
      rw [chainLoop_ok]
      exact ⟨fuel, rfl, Or.inl ⟨by rw [hd, hd0], rfl⟩⟩
    · obtain ⟨nx, a1, a2, a3, a4⟩ := hr.2 c _ hd hd0
      obtain ⟨l, hl⟩ := ih nx a2 (by omega) (by omega)
      refine ⟨c :: l, ?_⟩
      rw [chainLoop_ok]
      exact ⟨fuel, rfl, Or.inr ⟨_, nx, l, hd, hd0, a1, hl, rfl⟩⟩

/-- What a returning `chain` has done. -/
theorem chain_ok (s : HashSet K) (i : Nat) (l : List Nat) :
    HashSet.chain s i = Except.ok l ↔
      (s.delta1_[i]? = some 0 ∧ l = [i]) ∨
        (∃ d f rest, s.delta1_[i]? = some d ∧ d ≠ 0 ∧
          HashSet.addDelta1 s i = Except.ok f ∧
          HashSet.chainLoop s s.capacity_ f = Except.ok rest ∧ l = i :: rest) := by
  constructor
  · intro h
    unfold HashSet.chain at h
    simp only [bind_ok, rd_ok] at h
    obtain ⟨d, hd, h⟩ := h
    by_cases hd0 : d = 0
    · subst hd0
      simp only [ne_eq, not_true_eq_false, if_false, pure_ok] at h
      exact Or.inl ⟨hd, h.symm⟩
    · simp only [hd0, ne_eq, not_false_eq_true, if_true, bind_ok, pure_ok] at h
      obtain ⟨f, hf, rest, hrest, h⟩ := h
      exact Or.inr ⟨d, f, rest, hd, hd0, hf, hrest, h.symm⟩
  · intro h
    unfold HashSet.chain
    rcases h with ⟨hd, rfl⟩ | ⟨d, f, rest, hd, hd0, hf, hrest, rfl⟩
    · simp only [rd, hd, pure_bind, ne_eq, not_true_eq_false, if_false]
      rfl
    · simp only [rd, hd, pure_bind, ne_eq, hd0, not_false_eq_true, if_true, hf, hrest,
        ok_bind]
      rfl

/-- The chain of a bucket is the same in a set with the same capacity, the same
`delta1_` at the bucket and the same `delta2_` at the other buckets of the chain. -/
theorem chain_congr (s s' : HashSet K) (i : Nat) (w : List Nat)
    (h : HashSet.chain s i = Except.ok (i :: w)) (hc : s'.capacity_ = s.capacity_)
    (h1 : s'.delta1_[i]? = s.delta1_[i]?)
    (h2 : ∀ x ∈ w, s'.delta2_[x]? = s.delta2_[x]?) :
    HashSet.chain s' i = Except.ok (i :: w) := by
  rw [chain_ok] at h ⊢
  rcases h with ⟨hd, e⟩ | ⟨d, f, rest, hd, hd0, hf, hrest, e⟩
  · exact Or.inl ⟨by rw [h1]; exact hd, e⟩
  · simp only [List.cons.injEq, true_and] at e
    subst e
    refine Or.inr ⟨d, f, w, by rw [h1]; exact hd, hd0, (addDelta1_congr s s' i f hc h1).2 hf,
      ?_, rfl⟩
    rw [hc]
    exact chainLoop_congr s s' hc _ f w hrest h2

/-- A delta that leads from a bucket to another bucket is not 0. -/
theorem addDelta1_ne (s : HashSet K) (c n d : Nat) (hd : s.delta1_[c]? = some d)
    (h : HashSet.addDelta1 s c = Except.ok n) (hne : n ≠ c) (hc : c < s.capacity_) :
    d ≠ 0 := by
  rw [addDelta1_ok] at h
  obtain ⟨d', hd', e⟩ := h
  rw [hd] at hd'
  obtain rfl := Option.some.inj hd'
  intro e0
  subst e0
  have : ¬ (c + 0 > s.capacity_ - 1) := by omega
  simp only [this, if_false] at e
  exact hne (by omega)

theorem addDelta2_ne (s : HashSet K) (c n d : Nat) (hd : s.delta2_[c]? = some d)
    (h : HashSet.addDelta2 s c = Except.ok n) (hne : n ≠ c) (hc : c < s.capacity_) :
    d ≠ 0 := by
  rw [addDelta2_ok] at h
  obtain ⟨d', hd', e⟩ := h
  rw [hd] at hd'
  obtain rfl := Option.some.inj hd'
  intro e0
  subst e0
  have : ¬ (c + 0 > s.capacity_ - 1) := by omega
  simp only [this, if_false] at e
  exact hne (by omega)

/-- An `insert` that returns true keeps the chains made of the buckets that hold the keys
of their ideal bucket: the new bucket is put at the end of the chain of the ideal bucket
of the key, unless it is that ideal bucket itself. -/
theorem insert_listed (hH : ∀ k, hashFunc_ k ≠ NullHash) (s s' : HashSet K) (k : K)
    (rank : Nat → Nat) (hwf : s.WF) (hocc : s.size_ = occupied NullHash s.hashes_)
    (hcap : 0 < s.capacity_)
    (hch : HashSet.Chained NullHash s rank) (how : HashSet.Owned hashFunc_ NullHash s rank)
    (hl : HashSet.Listed NullHash s)
    (h : HashSet.insert hashFunc_ NullHash s k = Except.ok (true, s')) :
    HashSet.Listed NullHash s' := by
  obtain ⟨n, hnc, hn, hsz, hc, hh, hk, hdel⟩ :=
    insert_true_inv hashFunc_ NullHash s s' k hwf hcap h
  obtain ⟨hwf', hocc'⟩ := insert_counted hashFunc_ NullHash hH s s' k true h ⟨hwf, hocc⟩
  obtain ⟨rank', hch', how'⟩ :=
    insert_grown hashFunc_ NullHash hH s s' k rank hwf hcap hch how h
  have hr' := ranked_of_grown hashFunc_ NullHash s' rank' hwf' hocc' hch' how'
  obtain ⟨w1, w2, w3, w4⟩ := hwf
  have hi0 : hashFunc_ k % s.capacity_ < s.capacity_ := Nat.mod_lt _ hcap
  have hnl : n < s.hashes_.length := by omega
  have hnew : s'.hashes_[n]? = some (hashFunc_ k) := by
    rw [hh]
    exact List.getElem?_set_self hnl
  have hold : ∀ c, c ≠ n → s'.hashes_[c]? = s.hashes_[c]? := by
    intro c hcn
    rw [hh, List.getElem?_set_ne (fun e => hcn e.symm)]
  have hempty : ∀ (c hv : Nat), s.hashes_[c]? = some hv → hv ≠ NullHash → c ≠ n := by
    intro c hv e1 e2 e
    subst e
    rw [hn] at e1
    exact e2 (Option.some.inj e1).symm
  have hn2 : s.delta2_[n]? = some 0 := (hch.2.2 n hn).2
  -- the chain of `i` is as before
  have keep : ∀ (i : Nat) (w : List Nat),
      (hashFunc_ k % s.capacity_ ≠ i ∨ n = i) →
      HashSet.chain s' i = Except.ok (i :: w) →
      (∀ (c : Nat), c ∈ w ↔
        (c ≠ i ∧ ∃ hv, s.hashes_[c]? = some hv ∧ hv ≠ NullHash ∧ hv % s.capacity_ = i)) →
      ∃ w', HashSet.chain s' i = Except.ok (i :: w') ∧
        ∀ (c : Nat), c ∈ w' ↔
          (c ≠ i ∧ ∃ hv, s'.hashes_[c]? = some hv ∧ hv ≠ NullHash ∧
            hv % s'.capacity_ = i) := by
    intro i w hcase hchain hmem
    refine ⟨w, hchain, ?_⟩
    intro c
    rw [hmem c, hc]
    constructor
    · rintro ⟨e1, hv, e2, e3, e4⟩
      exact ⟨e1, hv, by rw [hold c (hempty c hv e2 e3)]; exact e2, e3, e4⟩
    · rintro ⟨e1, hv, e2, e3, e4⟩
      by_cases hcn : c = n
      · subst hcn
        rw [hnew] at e2
        obtain rfl := Option.some.inj e2
        rcases hcase with e | e
        · exact absurd e4 e
        · exact absurd e e1
      · exact ⟨e1, hv, by rw [← hold c hcn]; exact e2, e3, e4⟩
  -- the chain of the ideal bucket of the key has the new bucket at its end
  have grow : ∀ (w : List Nat),
      n ≠ hashFunc_ k % s.capacity_ →
      HashSet.chain s' (hashFunc_ k % s.capacity_)
        = Except.ok (hashFunc_ k % s.capacity_ :: (w ++ [n])) →
      (∀ (c : Nat), c ∈ w ↔
        (c ≠ hashFunc_ k % s.capacity_ ∧
          ∃ hv, s.hashes_[c]? = some hv ∧ hv ≠ NullHash ∧
            hv % s.capacity_ = hashFunc_ k % s.capacity_)) →
      ∃ w', HashSet.chain s' (hashFunc_ k % s.capacity_)
          = Except.ok (hashFunc_ k % s.capacity_ :: w') ∧
        ∀ (c : Nat), c ∈ w' ↔
          (c ≠ hashFunc_ k % s.capacity_ ∧
            ∃ hv, s'.hashes_[c]? = some hv ∧ hv ≠ NullHash ∧
              hv % s'.capacity_ = hashFunc_ k % s.capacity_) := by
    intro w hni hchain hmem
    refine ⟨w ++ [n], hchain, ?_⟩
    intro c
    rw [List.mem_append, List.mem_singleton, hmem c, hc]
    constructor
    · rintro (⟨e1, hv, e2, e3, e4⟩ | rfl)
      · exact ⟨e1, hv, by rw [hold c (hempty c hv e2 e3)]; exact e2, e3, e4⟩
      · exact ⟨hni, _, hnew, hH k, rfl⟩
    · rintro ⟨e1, hv, e2, e3, e4⟩
      by_cases hcn : c = n
      · exact Or.inr hcn
      · exact Or.inl ⟨e1, hv, by rw [← hold c hcn]; exact e2, e3, e4⟩
  intro i hi
  rw [hc] at hi
  obtain ⟨w, hw, hmem⟩ := hl i hi
  rcases hdel with ⟨e0, e1, e2⟩ | ⟨d, hv, q1, q2, hd, e1, e2, hadd, hlt⟩ |
    ⟨d1, c0, t, d, hv, q1, q2, hd, hd1ne, hc0, hloop, ht0, e2, e1, hadd, hlt⟩
  · -- the key is in its ideal bucket
    refine keep i w ?_ (chain_congr s s' i w hw hc (by rw [e1]) (fun x _ => by rw [e2])) hmem
    by_cases e : hashFunc_ k % s.capacity_ = i
    · exact Or.inr (by rw [e0, e])
    · exact Or.inl e
  · -- the key is behind `delta1_` of its ideal bucket
    have hni : n ≠ hashFunc_ k % s.capacity_ := (hempty _ hv q1 q2).symm
    by_cases e : hashFunc_ k % s.capacity_ = i
    · subst e
      have hw0 : w = [] := by
        rw [chain_ok] at hw
        rcases hw with ⟨-, e'⟩ | ⟨d', _, _, hd', hd0', -⟩
        · simpa using e'.symm
        · rw [hd] at hd'
          exact absurd (Option.some.inj hd').symm hd0'
      subst hw0
      refine grow [] hni ?_ hmem
      rw [chain_ok]
      have hd' : s'.delta1_[hashFunc_ k % s.capacity_]? = some d := by
        rw [e1]
        exact List.getElem?_set_self (by omega)
      refine Or.inr ⟨d, n, [n], hd', ?_, hadd, ?_, rfl⟩
      · exact addDelta1_ne s' _ n d hd' hadd hni (by rw [hc]; exact hi0)
      · rw [chainLoop_ok]
        exact ⟨s.capacity_ - 1, by omega, Or.inl ⟨by rw [e2]; exact hn2, rfl⟩⟩
    · exact keep i w (Or.inl e)
        (chain_congr s s' i w hw hc (by rw [e1, List.getElem?_set_ne e])
          (fun x _ => by rw [e2])) hmem
  · -- the key is behind `delta2_` of the last bucket of the chain
    obtain ⟨l, hl1, hl2⟩ := chainLoop_of_insertLoop s _ k _ c0 t hloop
    obtain ⟨w0, hw0, hmem0⟩ := hl _ hi0
    have hw0e : w0 = l ++ [t] := by
      rw [chain_ok] at hw0
      rcases hw0 with ⟨hd', -⟩ | ⟨d', f', rest, -, -, hf', hrest, e'⟩
      · rw [hd] at hd'
        exact absurd (Option.some.inj hd') hd1ne
      · rw [hc0] at hf'
        obtain rfl := Except.ok.inj hf'
        rw [hl1] at hrest
        obtain rfl := Except.ok.inj hrest
        simpa using e'
    subst hw0e
    obtain ⟨ht1, hvt, ht2, ht3, ht4⟩ :=
      (hmem0 t).1 (List.mem_append.2 (Or.inr (List.mem_singleton.2 rfl)))
    have hnt : n ≠ t := (hempty t hvt ht2 ht3).symm
    have hni : n ≠ hashFunc_ k % s.capacity_ := (hempty _ hv q1 q2).symm
    have htc : t < s.capacity_ := by
      rcases List.getElem?_eq_some.1 ht2 with ⟨w, -⟩
      omega
    have hd' : s'.delta2_[t]? = some d := by
      rw [e2]
      exact List.getElem?_set_self (by omega)
    have hd0 : d ≠ 0 := addDelta2_ne s' t n d hd' hadd hnt (by rw [hc]; exact htc)
    by_cases e : hashFunc_ k % s.capacity_ = i
    · subst e
      have hww : w = l ++ [t] := by
        rw [hw0] at hw
        simpa using (Except.ok.inj hw).symm
      subst hww
      have hc0c : c0 < s.capacity_ := by
        obtain ⟨nx, hvx, a1, -, a3, -⟩ := hch.1 _ d1 hd hd1ne
        rw [hc0] at a1
        obtain rfl := Except.ok.inj a1
        rcases List.getElem?_eq_some.1 a3 with ⟨w, -⟩
        omega
      have hsn := chainLoop_snoc s s' t n d hc e2 ht0 hd0 hadd hn2 hnt l s.capacity_ c0 hl1 hl2
      obtain ⟨l'', hl''⟩ := chainLoop_total s' rank' hwf'.2.1 hr' s'.capacity_ c0
        (by rw [hc]; exact hc0c) (by omega) (by omega)
      have hdet := chainLoop_det s' _ _ c0 _ _ hl'' hsn
      subst hdet
      have hgoal : HashSet.chain s' (hashFunc_ k % s.capacity_)
          = Except.ok (hashFunc_ k % s.capacity_ :: ((l ++ [t]) ++ [n])) := by
        rw [chain_ok]
        refine Or.inr ⟨d1, c0, l ++ [t, n], by rw [e1]; exact hd, hd1ne,
          (addDelta1_congr s s' _ c0 hc (by rw [e1])).2 hc0, hl'', ?_⟩
        simp
      exact grow (l ++ [t]) hni hgoal hmem
    · refine keep i w (Or.inl e) (chain_congr s s' i w hw hc (by rw [e1]) ?_) hmem
      intro x hx
      have hxt : t ≠ x := by
        intro e'
        subst e'
        obtain ⟨-, hvx, x2, -, x4⟩ := (hmem t).1 hx
        rw [ht2] at x2
        obtain rfl := Option.some.inj x2
        exact e (by rw [← ht4, x4])
      rw [e2, List.getElem?_set_ne hxt]

/-- A sequence of `insert` calls keeps the chains made of the buckets that hold the keys of
their ideal bucket. -/
theorem insertAll_listed [Inhabited K] (hH : ∀ k, hashFunc_ k ≠ NullHash) (ks : List K) :
    ∀ (s s' : HashSet K) (rank : Nat → Nat),
      HashSet.calls hashFunc_ NullHash s (ks.map Call.insert) = Except.ok s' →
      s.WF → s.size_ = occupied NullHash s.hashes_ → 0 < s.capacity_ →
      HashSet.Chained NullHash s rank → HashSet.Owned hashFunc_ NullHash s rank →
      HashSet.Listed NullHash s → HashSet.Listed NullHash s' := by
  induction ks with
  | nil =>
    intro s s' rank h _ _ _ _ _ hl
    simp only [List.map_nil, HashSet.calls, pure_ok] at h
    subst h
    exact hl
  | cons k ks ih =>
    intro s s' rank h hwf hocc hcap hch how hl
    simp only [List.map_cons, HashSet.calls, HashSet.call, bind_ok, pure_ok] at h
    obtain ⟨t, ⟨⟨r, t1⟩, hins, rfl⟩, h⟩ := h
    cases r
    · have := (insert_frame_aux hashFunc_ NullHash s t1 k false hins).1 rfl
      subst this
      exact ih _ s' rank h hwf hocc hcap hch how hl
    · obtain ⟨hwf', hocc'⟩ :=
        insert_counted hashFunc_ NullHash hH s t1 k true hins ⟨hwf, hocc⟩
      obtain ⟨rank', hch', how'⟩ :=
        insert_grown hashFunc_ NullHash hH s t1 k rank hwf hcap hch how hins
      have hc' : t1.capacity_ = s.capacity_ :=
        ((insert_frame_aux hashFunc_ NullHash s t1 k true hins).2 rfl).2.2.1
      exact ih t1 s' rank' h hwf' hocc' (by omega) hch' how'
        (insert_listed hashFunc_ NullHash hH s t1 k rank hwf hocc hcap hch how hl hins)

/-- C16 (as amended).  For a hash function that never returns `NullHash` and a set made
from a fresh one by `insert` calls only: for every bucket `i` the chain walk from `i`
(`delta1_[i]` once, then `delta2_` until it is 0) ends, and the buckets it visits after
`i` are exactly the buckets other than `i` that hold a key whose ideal bucket is `i`.
Bucket `i` itself may hold a key of another chain. -/
theorem chain_holds_own_keys [Inhabited K] (hH : ∀ k, hashFunc_ k ≠ NullHash)
    (s : HashSet K) (hs : HashSet.InsertOnly hashFunc_ NullHash s) (i : Nat)
    (hi : i < s.capacity_) :
    ∃ w, HashSet.chain s i = Except.ok (i :: w) ∧
      ∀ (c : Nat), c ∈ w ↔
        (c ≠ i ∧ ∃ hv, s.hashes_[c]? = some hv ∧ hv ≠ NullHash ∧
          hv % s.capacity_ = i) := by
  obtain ⟨capacity, ks, h⟩ := hs
  simp only [HashSet.fromFresh, bind_ok] at h
  obtain ⟨s0, h0, h⟩ := h
  obtain ⟨hwf, hocc⟩ := construct_counted NullHash capacity s0 h0
  obtain ⟨hpos, rfl⟩ := construct_ok NullHash capacity s0 h0
  have hrep : ∀ (c d : Nat), (List.replicate capacity 0)[c]? = some d → d = 0 := by
    intro c d hd
    simp only [List.getElem?_replicate] at hd
    split at hd
    · exact (Option.some.inj hd).symm
    · cases hd
  have hnull : ∀ (c hv : Nat), (List.replicate capacity NullHash)[c]? = some hv →
      hv = NullHash := by
    intro c hv hd
    simp only [List.getElem?_replicate] at hd
    split at hd
    · exact (Option.some.inj hd).symm
    · cases hd
  refine insertAll_listed hashFunc_ NullHash hH ks _ s (fun _ => 0) h hwf hocc hpos
    ⟨?_, ?_, ?_⟩ ⟨?_, ?_, ?_⟩ ?_ i hi
  · intro c d hd hd0
    exact absurd (hrep c d hd) hd0
  · intro c d hd hd0
    exact absurd (hrep c d hd) hd0
  · intro c hc
    have hl : c < capacity := by
      rcases List.getElem?_eq_some.1 hc with ⟨w, -⟩
      simpa using w
    simp [List.getElem?_replicate, hl]
  · intro c hv e1 e2
    exact absurd (hnull c hv e1) e2
  · intro c d hd hd0
    exact absurd (hrep c d hd) hd0
  · intro c hv kv e1 e2 e3
    exact absurd (hnull c hv e1) e2
  · intro j hj
    refine ⟨[], ?_, ?_⟩
    · rw [chain_ok]
      refine Or.inl ⟨?_, rfl⟩
      simp only at hj ⊢
      simp [List.getElem?_replicate, hj]
    · intro c
      constructor
      · intro hx
        exact absurd hx (List.not_mem_nil c)
      · rintro ⟨-, hv, e1, e2, -⟩
        exact absurd (hnull c hv e1) e2

/-- In a set made by `insert` calls only the chains have no holes: every delta that is not
0 leads to an occupied bucket, and an empty bucket has both deltas 0. -/
theorem insertOnly_no_holes [Inhabited K] (hH : ∀ k, hashFunc_ k ≠ NullHash)
    (s : HashSet K) (hs : HashSet.InsertOnly hashFunc_ NullHash s) :
    (∀ (c d : Nat), s.delta1_[c]? = some d → d ≠ 0 →
      ∃ nx hv, HashSet.addDelta1 s c = Except.ok nx ∧ s.hashes_[nx]? = some hv ∧
        hv ≠ NullHash) ∧
    (∀ (c d : Nat), s.delta2_[c]? = some d → d ≠ 0 →
      ∃ nx hv, HashSet.addDelta2 s c = Except.ok nx ∧ s.hashes_[nx]? = some hv ∧
        hv ≠ NullHash) ∧
    (∀ (c : Nat), s.hashes_[c]? = some NullHash →
      s.delta1_[c]? = some 0 ∧ s.delta2_[c]? = some 0) := by
  obtain ⟨-, -, -, rank, hch, -⟩ := insertOnly_inv hashFunc_ NullHash hH s hs
  refine ⟨?_, ?_, hch.2.2⟩
  · intro c d hd hd0
    obtain ⟨nx, hv, a1, -, a3, a4⟩ := hch.1 c d hd hd0
    exact ⟨nx, hv, a1, a3, a4⟩
  · intro c d hd hd0
    obtain ⟨nx, hv, a1, -, -, a4, a5⟩ := hch.2.1 c d hd hd0
    exact ⟨nx, hv, a1, a4, a5⟩

/-- In a set made by `insert` calls only, an `insert` that returns true changes no delta,
or stores a delta between 1 and 255 in a `delta1_` or a `delta2_` that was 0. -/
theorem insertOnly_delta_range [Inhabited K] (hH : ∀ k, hashFunc_ k ≠ NullHash)
    (s s' : HashSet K) (k : K) (hs : HashSet.InsertOnly hashFunc_ NullHash s)
    (h : HashSet.insert hashFunc_ NullHash s k = Except.ok (true, s')) :
    (s'.delta1_ = s.delta1_ ∧ s'.delta2_ = s.delta2_) ∨
    (∃ b d, 1 ≤ d ∧ d ≤ 255 ∧ s.delta1_[b]? = some 0 ∧
      s'.delta1_ = s.delta1_.set b d ∧ s'.delta2_ = s.delta2_) ∨
    (∃ b d, 1 ≤ d ∧ d ≤ 255 ∧ s.delta2_[b]? = some 0 ∧
      s'.delta2_ = s.delta2_.set b d ∧ s'.delta1_ = s.delta1_) := by
  obtain ⟨hwf, hocc, hcap, rank, hch, how⟩ := insertOnly_inv hashFunc_ NullHash hH s hs
  obtain ⟨n, hnc, hn, hsz, hc, hh, hk, hdel⟩ :=
    insert_true_inv hashFunc_ NullHash s s' k hwf hcap h
  have hempty : ∀ (c hv : Nat), s.hashes_[c]? = some hv → hv ≠ NullHash → n ≠ c := by
    intro c hv e1 e2 e
    subst e
    rw [hn] at e1
    exact e2 (Option.some.inj e1).symm
  have hi0 : hashFunc_ k % s.capacity_ < s.capacity_ := Nat.mod_lt _ hcap
  rcases hdel with ⟨-, e1, e2⟩ | ⟨d, hv, q1, q2, hd, e1, e2, hadd, hlt⟩ |
    ⟨d1, c0, t, d, hv, q1, q2, hd, hd1ne, hc0, hloop, ht0, e2, e1, hadd, hlt⟩
  · exact Or.inl ⟨e1, e2⟩
  · have hd' : s'.delta1_[hashFunc_ k % s.capacity_]? = some d := by
      rw [e1]
      exact List.getElem?_set_self (by rw [hwf.1]; exact hi0)
    have := addDelta1_ne s' _ n d hd' hadd (hempty _ hv q1 q2) (by rw [hc]; exact hi0)
    exact Or.inr (Or.inl ⟨_, d, by omega, by omega, hd, e1, e2⟩)
  · obtain ⟨nx, hv1, a1, a2, a3, a4⟩ := hch.1 _ d1 hd hd1ne
    rw [hc0] at a1
    obtain rfl := Except.ok.inj a1
    obtain ⟨-, hv2, g1, g2⟩ :=
      insertLoop_end NullHash s rank hch _ k _ c0 t hloop ⟨a2, hv1, a3, a4⟩
    have htc : t < s.capacity_ := by
      rcases List.getElem?_eq_some.1 g1 with ⟨w, -⟩
      rw [hwf.2.2.1] at w
      exact w
    have hd' : s'.delta2_[t]? = some d := by
      rw [e2]
      exact List.getElem?_set_self (by rw [hwf.2.1]; exact htc)
    have := addDelta2_ne s' t n d hd' hadd (hempty t hv2 g1 g2) (by rw [hc]; exact htc)
    exact Or.inr (Or.inr ⟨t, d, by omega, by omega, ht0, e2, e1⟩)
/-- What a returning `find` has done. -/
theorem find_eq (s : HashSet K) (k : K) (r : Option Nat) :
    HashSet.find hashFunc_ NullHash s k = Except.ok r ↔
      ∃ b f p, HashSet.findBucketIndex hashFunc_ NullHash s k = Except.ok (b, f, p) ∧
        r = if b then some f else none := by
  unfold HashSet.find
  simp only [bind_ok]
  constructor
  · rintro ⟨⟨b, f, p⟩, h1, h2⟩
    refine ⟨b, f, p, h1, ?_⟩
    cases b
    · simp only [Bool.false_eq_true, if_false, pure_ok] at h2
      simp [h2]
    · simp only [if_true, pure_ok] at h2
      simp [h2]
  · rintro ⟨b, f, p, h1, rfl⟩
    refine ⟨(b, f, p), h1, ?_⟩
    cases b <;> rfl

/-- C23: lookup has no false positives.  In every state whose arrays have `capacity_`
elements, whatever keys its empty buckets still hold, and for every key `k` whose hash is
not `NullHash`: when `contains(k)` gives true, `find(k)` gives a pointer; and when
`find(k)` gives the pointer `&keys_[i]`, then `contains(k)` gives true, `i < capacity_`,
`hashes_[i]` is the hash of `k`, so bucket `i` is not empty, and `keys_[i]` is `k`. -/
theorem lookup_no_false_positive (s : HashSet K) (hwf : HashSet.WF s) (k : K)
    (hk : hashFunc_ k ≠ NullHash) :
    (HashSet.contains hashFunc_ NullHash s k = Except.ok true →
      ∃ i, HashSet.find hashFunc_ NullHash s k = Except.ok (some i)) ∧
    (∀ i, HashSet.find hashFunc_ NullHash s k = Except.ok (some i) →
      HashSet.contains hashFunc_ NullHash s k = Except.ok true ∧ i < s.capacity_ ∧
      s.hashes_[i]? = some (hashFunc_ k) ∧ s.hashes_[i]? ≠ some NullHash ∧
      s.keys_[i]? = some k) := by
  constructor
  · intro h
    obtain ⟨f, p, h⟩ := (contains_eq hashFunc_ NullHash s k true).1 h
    exact ⟨f, (find_eq hashFunc_ NullHash s k (some f)).2 ⟨true, f, p, h, rfl⟩⟩
  · intro i h
    obtain ⟨b, f, p, h, e⟩ := (find_eq hashFunc_ NullHash s k (some i)).1 h
    cases b
    · simp at e
    · simp only [if_true, Option.some.injEq] at e
      subst e
      obtain ⟨-, h1, h2⟩ := findBucketIndex_found hashFunc_ NullHash s k i p h
      refine ⟨(contains_eq hashFunc_ NullHash s k true).2 ⟨i, p, h⟩, ?_, h1, ?_, h2⟩
      · rcases List.getElem?_eq_some.1 h1 with ⟨w, -⟩
        rw [hwf.2.2.1] at w
        exact w
      · rw [h1]
        intro e
        exact hk (Option.some.inj e)

theorem inBounds_ok {α : Type} (x : Run K α) (a : α) (h : x = Except.ok a) :
    InBounds x := by
  intro f u e
  rw [h] at e
  cases e

theorem inBounds_bind {α β : Type} (x : Run K α) (g : α → Run K β)
    (hx : InBounds x) (hg : ∀ a, x = Except.ok a → InBounds (g a)) :
    InBounds (x >>= g) := by
  cases x with
  | error e =>
    intro f u h
    rw [error_bind] at h
    cases h
    exact hx f u rfl
  | ok a => exact hg a rfl

theorem inBounds_of_assertOnly {α : Type} (x : Run K α) (h : AssertOnly x) :
    InBounds x := by
  intro f u e c
  have := h f u e
  rw [c] at this
  cases this

theorem inBounds_nonTermination {α : Type} (s : HashSet K) :
    InBounds (throw (Fault.nonTermination, s) : Run K α) := by
  intro f u e c
  simp only [throw_error, Prod.mk.injEq] at e
  rw [c] at e
  cases e.1

/-- The bucket that `addDelta1` gives for a bucket below `capacity_` is below
`capacity_`. -/
theorem addDelta1_inRange (s : HashSet K) (hr : s.InRange) (b : Nat)
    (hb : b < s.capacity_) :
    ∃ n, HashSet.addDelta1 s b = Except.ok n ∧ n < s.capacity_ := by
  obtain ⟨⟨w1, w2, w3, w4⟩, hcap, r1, r2⟩ := hr
  have hbl : b < s.delta1_.length := by rw [w1]; exact hb
  have hd : s.delta1_[b]? = some s.delta1_[b] := List.getElem?_eq_getElem hbl
  have := r1 b _ hd
  refine ⟨_, (addDelta1_ok s b _).2 ⟨_, hd, rfl⟩, ?_⟩
  by_cases c : b + s.delta1_[b] > s.capacity_ - 1
  · simp only [c, if_true]
    omega
  · simp only [c, if_false]
    omega

/-- The bucket that `addDelta2` gives for a bucket below `capacity_` is below
`capacity_`. -/
theorem addDelta2_inRange (s : HashSet K) (hr : s.InRange) (b : Nat)
    (hb : b < s.capacity_) :
    ∃ n, HashSet.addDelta2 s b = Except.ok n ∧ n < s.capacity_ := by
  obtain ⟨⟨w1, w2, w3, w4⟩, hcap, r1, r2⟩ := hr
  have hbl : b < s.delta2_.length := by rw [w2]; exact hb
  have hd : s.delta2_[b]? = some s.delta2_[b] := List.getElem?_eq_getElem hbl
  have := r2 b _ hd
  refine ⟨_, (addDelta2_ok s b _).2 ⟨_, hd, rfl⟩, ?_⟩
  by_cases c : b + s.delta2_[b] > s.capacity_ - 1
  · simp only [c, if_true]
    omega
  · simp only [c, if_false]
    omega

/-- The walk of `insert`, whatever number of hops it makes, visits buckets below
`capacity_` only. -/
theorem insertLoop_inBounds (s : HashSet K) (hr : s.InRange) (h : Nat) (k : K)
    (fuel : Nat) :
    ∀ b, b < s.capacity_ →
      InBounds (HashSet.insertLoop s h k fuel b) ∧
      ∀ t, HashSet.insertLoop s h k fuel b = Except.ok (some t) → t < s.capacity_ := by
  have hwf := hr.1
  induction fuel with
  | zero =>
    intro b _
    refine ⟨inBounds_nonTermination s, ?_⟩
    intro t ht
    simp [HashSet.insertLoop, throw_ok] at ht
  | succ fuel ih =>
    intro b hb
    have hbl : b < s.delta2_.length := by rw [hwf.2.1]; exact hb
    have hd : s.delta2_[b]? = some s.delta2_[b] := List.getElem?_eq_getElem hbl
    unfold HashSet.insertLoop
    simp only [rd, hd, pure_bind]
    by_cases hd0 : s.delta2_[b] = 0
    · simp only [hd0, ne_eq, not_true_eq_false, if_false]
      refine ⟨inBounds_ok _ _ rfl, ?_⟩
      intro t ht
      simp only [pure_ok, Option.some.injEq] at ht
      omega
    · obtain ⟨nx, a1, hnx⟩ := addDelta2_inRange s hr b hb
      obtain ⟨b1, hb1⟩ := bucketFound_total s hwf nx h k hnx
      simp only [hd0, ne_eq, not_false_eq_true, if_true, a1, hb1, ok_bind]
      cases b1
      · simp only [Bool.false_eq_true, if_false]
        exact ih nx hnx
      · simp only [if_true]
        refine ⟨inBounds_ok _ _ rfl, ?_⟩
        intro t ht
        simp [pure_ok] at ht

/-- The walk of `findBucketIndex`, whatever number of hops it makes, visits buckets below
`capacity_` only. -/
theorem findBucketIndexLoop_inBounds (s : HashSet K) (hr : s.InRange) (h : Nat) (k : K)
    (fuel : Nat) :
    ∀ c p, c < s.capacity_ → p < s.capacity_ →
      InBounds (HashSet.findBucketIndexLoop s h k fuel c p) ∧
      ∀ b f q, HashSet.findBucketIndexLoop s h k fuel c p = Except.ok (b, f, q) →
        f < s.capacity_ ∧ q < s.capacity_ := by
  have hwf := hr.1
  induction fuel with
  | zero =>
    intro c p _ _
    refine ⟨inBounds_nonTermination s, ?_⟩
    intro b f q ht
    simp [HashSet.findBucketIndexLoop, throw_ok] at ht
  | succ fuel ih =>
    intro c p hc hp
    have hcl : c < s.delta2_.length := by rw [hwf.2.1]; exact hc
    have hd : s.delta2_[c]? = some s.delta2_[c] := List.getElem?_eq_getElem hcl
    unfold HashSet.findBucketIndexLoop
    simp only [rd, hd, pure_bind]
    by_cases hd0 : s.delta2_[c] = 0
    · simp only [hd0, ne_eq, not_true_eq_false, if_false]
      refine ⟨inBounds_ok _ _ rfl, ?_⟩
      intro b f q ht
      simp only [pure_ok, Prod.mk.injEq] at ht
      omega
    · obtain ⟨nx, a1, hnx⟩ := addDelta2_inRange s hr c hc
      obtain ⟨b1, hb1⟩ := bucketFound_total s hwf nx h k hnx
      simp only [hd0, ne_eq, not_false_eq_true, if_true, a1, hb1, ok_bind]
      cases b1
      · simp only [Bool.false_eq_true, if_false]
        exact ih nx c hnx hc
      · simp only [if_true]
        refine ⟨inBounds_ok _ _ rfl, ?_⟩
        intro b f q ht
        simp only [pure_ok, Prod.mk.injEq] at ht
        omega

/-- The lookup visits buckets below `capacity_` only, and so are the two buckets it
reports. -/
theorem findBucketIndex_inBounds (s : HashSet K) (hr : s.InRange) (k : K) :
    InBounds (HashSet.findBucketIndex hashFunc_ NullHash s k) ∧
    ∀ b f p, HashSet.findBucketIndex hashFunc_ NullHash s k = Except.ok (b, f, p) →
      f < s.capacity_ ∧ p < s.capacity_ := by
  have hwf := hr.1
  have hcap := hr.2.1
  have hi : hashFunc_ k % s.capacity_ < s.capacity_ := Nat.mod_lt _ hcap
  have w := hwf
  obtain ⟨w1, w2, w3, w4⟩ := w
  unfold HashSet.findBucketIndex
  by_cases hz : s.size_ = 0
  · simp only [hz, if_true]
    refine ⟨inBounds_ok _ _ rfl, ?_⟩
    intro b f p ht
    simp only [pure_ok, Prod.mk.injEq] at ht
    omega
  · obtain ⟨b0, hb0⟩ := bucketFoundOrEmpty_total NullHash s hwf _ (hashFunc_ k) k hi
    simp only [hz, if_false, hb0, ok_bind]
    cases b0
    · have hil : hashFunc_ k % s.capacity_ < s.delta1_.length := by rw [w1]; exact hi
      have hd : s.delta1_[hashFunc_ k % s.capacity_]? =
          some s.delta1_[hashFunc_ k % s.capacity_] := List.getElem?_eq_getElem hil
      simp only [if_true, rd, hd, pure_bind]
      by_cases hd0 : s.delta1_[hashFunc_ k % s.capacity_] = 0
      · simp only [hd0, ne_eq, not_true_eq_false, if_false]
        refine ⟨inBounds_ok _ _ rfl, ?_⟩
        intro b f p ht
        simp only [pure_ok, Prod.mk.injEq] at ht
        omega
      · obtain ⟨nx, a1, hnx⟩ := addDelta1_inRange s hr _ hi
        obtain ⟨b1, hb1⟩ := bucketFound_total s hwf nx (hashFunc_ k) k hnx
        simp only [hd0, ne_eq, not_false_eq_true, if_true, a1, hb1, ok_bind]
        cases b1
        · simp only [if_true]
          exact findBucketIndexLoop_inBounds s hr _ k _ nx _ hnx hi
        · simp only [Bool.true_eq_false, if_false]
          refine ⟨inBounds_ok _ _ rfl, ?_⟩
          intro b f p ht
          simp only [pure_ok, Prod.mk.injEq] at ht
          omega
    · have hil : hashFunc_ k % s.capacity_ < s.hashes_.length := by rw [w3]; exact hi
      have hd : s.hashes_[hashFunc_ k % s.capacity_]? =
          some s.hashes_[hashFunc_ k % s.capacity_] := List.getElem?_eq_getElem hil
      simp only [Bool.true_eq_false, if_false, rd, hd, pure_bind]
      by_cases e : s.hashes_[hashFunc_ k % s.capacity_] = NullHash
      · simp only [e, ne_eq, not_true_eq_false, if_false]
        refine ⟨inBounds_ok _ _ rfl, ?_⟩
        intro b f p ht
        simp only [pure_ok, Prod.mk.injEq] at ht
        omega
      · simp only [e, ne_eq, not_false_eq_true, if_true]
        refine ⟨inBounds_ok _ _ rfl, ?_⟩
        intro b f p ht
        simp only [pure_ok, Prod.mk.injEq] at ht
        omega

/-- The call `insert` on a set that counts its occupied buckets reads and writes below
`capacity_` only: the linear search finds a bucket unless every bucket is occupied, and
then `insertKey` stops at `FATAL_ASSERT(size_ < capacity_)` before it uses the index. -/
theorem insert_inBounds (s : HashSet K) (hr : s.InRange)
    (hocc : s.size_ = occupied NullHash s.hashes_) (key : K) :
    InBounds (HashSet.insert hashFunc_ NullHash s key) := by
  have hwf := hr.1
  have hcap := hr.2.1
  have hi : hashFunc_ key % s.capacity_ < s.capacity_ := Nat.mod_lt _ hcap
  have w := hwf
  obtain ⟨w1, w2, w3, w4⟩ := w
  obtain ⟨b0, hb0⟩ := bucketFoundOrEmpty_total NullHash s hwf _ (hashFunc_ key) key hi
  unfold HashSet.insert
  simp only [hb0, ok_bind]
  cases b0
  · have hil : hashFunc_ key % s.capacity_ < s.delta1_.length := by rw [w1]; exact hi
    have hd : s.delta1_[hashFunc_ key % s.capacity_]? =
        some s.delta1_[hashFunc_ key % s.capacity_] := List.getElem?_eq_getElem hil
    simp only [if_true, rd, hd, pure_bind]
    by_cases hd0 : s.delta1_[hashFunc_ key % s.capacity_] = 0
    · simp only [hd0, ne_eq, not_true_eq_false, if_false]
      exact inBounds_of_assertOnly _
        (store_assertOnly NullHash s hwf hocc _ _ key hi s.delta1_ w1
          (fun ds => { s with delta1_ := ds }) (fun ds => ⟨rfl, rfl, rfl, rfl⟩))
    · obtain ⟨nx, a1, hnx⟩ := addDelta1_inRange s hr _ hi
      obtain ⟨b1, hb1⟩ := bucketFound_total s hwf nx (hashFunc_ key) key hnx
      simp only [hd0, ne_eq, not_false_eq_true, if_true, a1, hb1, ok_bind]
      cases b1
      · simp only [if_true]
        obtain ⟨h1, h2⟩ := insertLoop_inBounds s hr (hashFunc_ key) key s.capacity_ nx hnx
        refine inBounds_bind _ _ h1 ?_
        intro r hr2
        cases r with
        | none => exact inBounds_ok _ _ rfl
        | some t =>
          exact inBounds_of_assertOnly _
            (store_assertOnly NullHash s hwf hocc t _ key (h2 t hr2) s.delta2_ w2
              (fun ds => { s with delta2_ := ds }) (fun ds => ⟨rfl, rfl, rfl, rfl⟩))
      · exact inBounds_ok _ _ rfl
  · have hil : hashFunc_ key % s.capacity_ < s.hashes_.length := by rw [w3]; exact hi
    have hd : s.hashes_[hashFunc_ key % s.capacity_]? =
        some s.hashes_[hashFunc_ key % s.capacity_] := List.getElem?_eq_getElem hil
    simp only [Bool.true_eq_false, if_false, rd, hd, pure_bind]
    by_cases e : s.hashes_[hashFunc_ key % s.capacity_] = NullHash
    · simp only [e, if_true]
      refine inBounds_bind _ _ ?_ ?_
      · exact inBounds_of_assertOnly _
          (insertKey_assertOnly NullHash s _ _ key w3 w4 (fun _ => hi))
      · intro s' _
        exact inBounds_ok _ _ rfl
    · simp only [e, if_false]
      exact inBounds_ok _ _ rfl

/-- The calls `contains` and `find` read below `capacity_` only. -/
theorem lookup_inBounds (s : HashSet K) (hr : s.InRange) (key : K) :
    InBounds (HashSet.contains hashFunc_ NullHash s key) ∧
    InBounds (HashSet.find hashFunc_ NullHash s key) := by
  obtain ⟨h1, -⟩ := findBucketIndex_inBounds hashFunc_ NullHash s hr key
  constructor
  · unfold HashSet.contains
    refine inBounds_bind _ _ h1 ?_
    rintro ⟨b, f, p⟩ _
    exact inBounds_ok _ _ rfl
  · unfold HashSet.find
    refine inBounds_bind _ _ h1 ?_
    rintro ⟨b, f, p⟩ _
    cases b
    · exact inBounds_ok _ _ rfl
    · exact inBounds_ok _ _ rfl

/-- The delta that `calcNewDelta` computes between two buckets below `capacity_` is
smaller than `capacity_`. -/
theorem calcNewDelta_lt (s : HashSet K) (t n d : Nat)
    (h : HashSet.calcNewDelta s t n = Except.ok d) (ht : t < s.capacity_)
    (hn : n < s.capacity_) : d < s.capacity_ := by
  rw [calcNewDelta_ok] at h
  obtain ⟨-, rfl⟩ := h
  by_cases c : n ≥ t
  · simp only [c, if_true]
    omega
  · simp only [c, if_false]
    omega

theorem getElem?_set_lt (xs : List Nat) (i v c : Nat) (hv : v < c)
    (h : ∀ (j d : Nat), xs[j]? = some d → d < c) :
    ∀ (j d : Nat), (xs.set i v)[j]? = some d → d < c := by
  intro j d hj
  by_cases e : i = j
  · subst e
    have hl : i < xs.length := by
      rcases List.getElem?_eq_some.1 hj with ⟨w, -⟩
      simpa using w
    rw [List.getElem?_set_self hl] at hj
    cases hj
    exact hv
  · rw [List.getElem?_set_ne e] at hj
    exact h j d hj

/-- An `insert` that returns keeps every delta byte below `capacity_`. -/
theorem insert_inRange (s s' : HashSet K) (k : K) (r : Bool) (hr : s.InRange)
    (h : HashSet.insert hashFunc_ NullHash s k = Except.ok (r, s')) : s'.InRange := by
  have hwf := hr.1
  have hcap := hr.2.1
  obtain ⟨w1, w2, w3, w4⟩ := hwf
  have hi : hashFunc_ k % s.capacity_ < s.capacity_ := Nat.mod_lt _ hcap
  have hlen : ∀ (xs : List Nat) (n : Nat) (v : Nat), xs[n]? = some v → n < xs.length := by
    intro xs n v hv
    rcases List.getElem?_eq_some.1 hv with ⟨hl, -⟩
    exact hl
  rcases insert_ok_inv hashFunc_ NullHash s s' k r h with
    ⟨-, rfl, -⟩ | ⟨-, hA | hB | hC⟩
  · exact hr
  · obtain ⟨hn, hkey⟩ := hA
    rw [insertKey_ok] at hkey
    obtain ⟨-, -, -, rfl⟩ := hkey
    refine ⟨⟨w1, w2, ?_, ?_⟩, hcap, hr.2.2.1, hr.2.2.2⟩
    · simp [w3]
    · simp [w4]
  · obtain ⟨hb, hd, n, d, hcalc, hkey⟩ := hB
    rw [insertKey_ok] at hkey
    obtain ⟨-, hn, -, rfl⟩ := hkey
    simp only at hn
    have hnc : n < s.capacity_ := by
      have := hlen _ _ _ hn
      omega
    have hdc := calcNewDelta_lt s _ n d hcalc hi hnc
    refine ⟨⟨?_, w2, ?_, ?_⟩, hcap, ?_, hr.2.2.2⟩
    · simp [w1]
    · simp [w3]
    · simp [w4]
    · exact getElem?_set_lt s.delta1_ _ d s.capacity_ hdc hr.2.2.1
  · obtain ⟨hb, d1, c0, t, n, d, hd, hd1ne, hc0, hb1, hloop, ht, hcalc, hkey⟩ := hC
    rw [insertKey_ok] at hkey
    obtain ⟨-, hn, -, rfl⟩ := hkey
    simp only at hn
    have hnc : n < s.capacity_ := by
      have := hlen _ _ _ hn
      omega
    have hdc := calcNewDelta_lt s t n d hcalc (by omega) hnc
    refine ⟨⟨w1, ?_, ?_, ?_⟩, hcap, hr.2.2.1, ?_⟩
    · simp [w2]
    · simp [w3]
    · simp [w4]
    · exact getElem?_set_lt s.delta2_ _ d s.capacity_ hdc hr.2.2.2

/-- Two steps one after the other, each inside the arrays and with a result that has a
property the next step relies on. -/
theorem inBounds_seq {α β : Type} (x : Run K α) (g : α → Run K β) (P : α → Prop)
    (Q : β → Prop) (hx : InBounds x ∧ ∀ a, x = Except.ok a → P a)
    (hg : ∀ a, P a → InBounds (g a) ∧ ∀ b, g a = Except.ok b → Q b) :
    InBounds (x >>= g) ∧ ∀ b, (x >>= g) = Except.ok b → Q b := by
  cases x with
  | error e =>
    refine ⟨?_, ?_⟩
    · intro f u h
      rw [error_bind] at h
      cases h
      exact hx.1 f u rfl
    · intro b h
      rw [error_bind] at h
      cases h
  | ok a => exact hg a (hx.2 a rfl)

/-- The inner loop of `remove`, whatever number of hops it makes, visits buckets below
`capacity_` only. -/
theorem removeLastLoop_inBounds (s : HashSet K) (hr : s.InRange) (fuel : Nat) :
    ∀ p c, p < s.capacity_ → c < s.capacity_ →
      InBounds (HashSet.removeLastLoop s fuel p c) ∧
      ∀ r, HashSet.removeLastLoop s fuel p c = Except.ok r →
        r.1 < s.capacity_ ∧ r.2 < s.capacity_ := by
  have hwf := hr.1
  induction fuel with
  | zero =>
    intro p c _ _
    refine ⟨inBounds_nonTermination s, ?_⟩
    intro r ht
    simp [HashSet.removeLastLoop, throw_ok] at ht
  | succ fuel ih =>
    intro p c hp hc
    have hcl : c < s.delta2_.length := by rw [hwf.2.1]; exact hc
    have hd : s.delta2_[c]? = some s.delta2_[c] := List.getElem?_eq_getElem hcl
    unfold HashSet.removeLastLoop
    simp only [rd, hd, pure_bind]
    by_cases hd0 : s.delta2_[c] = 0
    · simp only [hd0, ne_eq, not_true_eq_false, if_false]
      refine ⟨inBounds_ok _ _ rfl, ?_⟩
      intro r ht
      simp only [pure_ok] at ht
      subst ht
      exact ⟨hp, hc⟩
    · obtain ⟨nx, a1, hnx⟩ := addDelta2_inRange s hr c hc
      simp only [hd0, ne_eq, not_false_eq_true, if_true, a1, ok_bind]
      exact ih c nx hc hnx

/-- Clearing a delta keeps every delta byte below `capacity_`. -/
theorem inRange_clear1 (s : HashSet K) (hr : s.InRange) (i : Nat) :
    HashSet.InRange { s with delta1_ := s.delta1_.set i 0 } := by
  obtain ⟨⟨w1, w2, w3, w4⟩, hcap, r1, r2⟩ := hr
  refine ⟨⟨?_, w2, w3, w4⟩, hcap, ?_, r2⟩
  · simp [w1]
  · exact getElem?_set_lt s.delta1_ i 0 s.capacity_ hcap r1

theorem inRange_clear2 (s : HashSet K) (hr : s.InRange) (i : Nat) :
    HashSet.InRange { s with delta2_ := s.delta2_.set i 0 } := by
  obtain ⟨⟨w1, w2, w3, w4⟩, hcap, r1, r2⟩ := hr
  refine ⟨⟨w1, ?_, w3, w4⟩, hcap, r1, ?_⟩
  · simp [w2]
  · exact getElem?_set_lt s.delta2_ i 0 s.capacity_ hcap r2

/-- Moving a key and its hash keeps every delta byte below `capacity_`. -/
theorem inRange_move (s : HashSet K) (hr : s.InRange) (i h : Nat) (k : K) :
    HashSet.InRange { s with keys_ := s.keys_.set i k, hashes_ := s.hashes_.set i h } := by
  obtain ⟨⟨w1, w2, w3, w4⟩, hcap, r1, r2⟩ := hr
  refine ⟨⟨w1, w2, ?_, ?_⟩, hcap, r1, r2⟩
  · simp [w3]
  · simp [w4]

/-- One round of the outer loop of `remove` whose walk from `first` comes back to the
bucket `b` being vacated: `delta2_` of the bucket `sl` before it is cleared, nothing
moves, and the loop goes on at `b`. -/
theorem removeLoop_round3 (s : HashSet K) (b fuel d first e sl : Nat)
    (h1 : s.delta1_[b]? = some d)
    (hfirst : (d ≠ 0 ∧ HashSet.addDelta1 s b = Except.ok first) ∨ (d = 0 ∧ first = b))
    (h2 : s.delta2_[first]? = some e) (he : e ≠ 0)
    (hlast : HashSet.removeLastLoop s s.capacity_ first first = Except.ok (sl, b))
    (hsl : sl < s.delta2_.length) :
    HashSet.removeLoop (fuel + 1) s b =
      HashSet.removeLoop fuel { s with delta2_ := s.delta2_.set sl 0 } b := by
  conv => lhs; unfold HashSet.removeLoop
  rcases hfirst with ⟨hd, hadd⟩ | ⟨hd, rfl⟩
  · simp only [rd, wr, h1, h2, hadd, hsl, hd, he, hlast, pure_bind,
      ok_bind, ne_eq, not_false_eq_true, not_true_eq_false, if_true, if_false]
  · subst hd
    simp only [rd, wr, h1, h2, hsl, he, hlast, pure_bind,
      ok_bind, ne_eq, not_false_eq_true, not_true_eq_false, if_true, if_false,
      decide_True]

/-- One round of the outer loop of `remove` whose walk from `first` stops: the loop stops
with it. -/
theorem removeLoop_round_error (s : HashSet K) (b fuel d first e : Nat)
    (err : Fault × HashSet K) (h1 : s.delta1_[b]? = some d)
    (hfirst : (d ≠ 0 ∧ HashSet.addDelta1 s b = Except.ok first) ∨ (d = 0 ∧ first = b))
    (h2 : s.delta2_[first]? = some e) (he : e ≠ 0)
    (hlast : HashSet.removeLastLoop s s.capacity_ first first = Except.error err) :
    HashSet.removeLoop (fuel + 1) s b = Except.error err := by
  conv => lhs; unfold HashSet.removeLoop
  rcases hfirst with ⟨hd, hadd⟩ | ⟨hd, rfl⟩
  · simp only [rd, wr, h1, h2, hadd, hd, he, hlast, pure_bind,
      ok_bind, error_bind, ne_eq, not_false_eq_true, not_true_eq_false, if_true, if_false]
  · subst hd
    simp only [rd, wr, h1, h2, he, hlast, pure_bind,
      ok_bind, error_bind, ne_eq, not_false_eq_true, not_true_eq_false, if_true, if_false,
      decide_True]

/-- The outer loop of `remove`, whatever number of rounds it makes, reads and writes
below `capacity_` only, and keeps every delta byte below `capacity_`. -/
theorem removeLoop_inBounds (fuel : Nat) :
    ∀ (s : HashSet K) (b : Nat), s.InRange → b < s.capacity_ →
      InBounds (HashSet.removeLoop fuel s b) ∧
      ∀ r, HashSet.removeLoop fuel s b = Except.ok r →
        r.1.InRange ∧ r.2 < r.1.capacity_ ∧ r.1.capacity_ = s.capacity_ := by
  induction fuel with
  | zero =>
    intro s b _ _
    refine ⟨inBounds_nonTermination s, ?_⟩
    intro r ht
    simp [HashSet.removeLoop, throw_ok] at ht
  | succ fuel ih =>
    intro s b hr hb
    have hwf := hr.1
    obtain ⟨w1, w2, w3, w4⟩ := hwf
    have hb1 : b < s.delta1_.length := by omega
    have hb2 : b < s.delta2_.length := by omega
    have hb3 : b < s.hashes_.length := by omega
    have hb4 : b < s.keys_.length := by omega
    have hd1 : s.delta1_[b]? = some s.delta1_[b] := List.getElem?_eq_getElem hb1
    have hd2 : s.delta2_[b]? = some s.delta2_[b] := List.getElem?_eq_getElem hb2
    -- the rest of the loop, from the set `st` and the bucket `nxt` of the next round
    have key : ∀ (st : HashSet K) (nxt : Nat),
        HashSet.removeLoop (fuel + 1) s b = HashSet.removeLoop fuel st nxt →
        st.InRange → nxt < st.capacity_ → st.capacity_ = s.capacity_ →
        InBounds (HashSet.removeLoop (fuel + 1) s b) ∧
        ∀ r, HashSet.removeLoop (fuel + 1) s b = Except.ok r →
          r.1.InRange ∧ r.2 < r.1.capacity_ ∧ r.1.capacity_ = s.capacity_ := by
      intro st nxt e hr' hn hc
      rw [e]
      obtain ⟨g1, g2⟩ := ih st nxt hr' hn
      refine ⟨g1, ?_⟩
      intro r h
      obtain ⟨k1, k2, k3⟩ := g2 r h
      exact ⟨k1, k2, by rw [k3, hc]⟩
    -- a round that walks from `first` to the last bucket of a chain
    have walk : ∀ (first : Nat),
        ((s.delta1_[b] ≠ 0 ∧ HashSet.addDelta1 s b = Except.ok first) ∨
          (s.delta1_[b] = 0 ∧ first = b)) →
        first < s.capacity_ →
        (∃ e, s.delta2_[first]? = some e ∧ e ≠ 0) →
        InBounds (HashSet.removeLoop (fuel + 1) s b) ∧
        ∀ r, HashSet.removeLoop (fuel + 1) s b = Except.ok r →
          r.1.InRange ∧ r.2 < r.1.capacity_ ∧ r.1.capacity_ = s.capacity_ := by
      intro first hfirst hfc ⟨e, he, he0⟩
      obtain ⟨q1, q2⟩ := removeLastLoop_inBounds s hr s.capacity_ first first hfc hfc
      cases hl : HashSet.removeLastLoop s s.capacity_ first first with
      | error err =>
        rw [removeLoop_round_error s b fuel _ first e err hd1 hfirst he he0 hl]
        refine ⟨?_, ?_⟩
        · intro f u h
          cases h
          exact q1 f u hl
        · intro r h
          cases h
      | ok r =>
        obtain ⟨sl, l⟩ := r
        obtain ⟨hsl, hlc⟩ := q2 _ hl
        simp only at hsl hlc
        have hl3 : l < s.hashes_.length := by omega
        have hl4 : l < s.keys_.length := by omega
        by_cases hbl : b = l
        · subst hbl
          have e := removeLoop_round3 s b fuel _ first e sl hd1 hfirst he he0 hl (by omega)
          exact key _ b e (inRange_clear2 s hr sl) hb rfl
        · have e := removeLoop_round2 s b fuel _ first e sl l s.hashes_[l] s.keys_[l] hd1
            hfirst he he0 hl (by omega) hbl (List.getElem?_eq_getElem hl4)
            (List.getElem?_eq_getElem hl3) hb4 hb3
          exact key _ l e (inRange_move _ (inRange_clear2 s hr sl) b _ _) hlc rfl
    by_cases c1 : s.delta1_[b] = 0
    · by_cases c2 : s.delta2_[b] = 0
      · rw [removeLoop_exit s b fuel (by rw [hd1, c1]) (by rw [hd2, c2])]
        refine ⟨inBounds_ok _ _ rfl, ?_⟩
        intro r h
        cases h
        exact ⟨hr, hb, rfl⟩
      · exact walk b (Or.inr ⟨c1, rfl⟩) hb ⟨_, hd2, c2⟩
    · obtain ⟨f, a1, a2⟩ := addDelta1_inRange s hr b hb
      have hf2 : f < s.delta2_.length := by omega
      have hf3 : f < s.hashes_.length := by omega
      have hf4 : f < s.keys_.length := by omega
      by_cases c2 : s.delta2_[f] = 0
      · have hbf : b ≠ f := by
          intro e'
          obtain ⟨d, g1, g2⟩ := (addDelta1_ok s b f).1 a1
          rw [hd1] at g1
          cases g1
          have := hr.2.2.1 b _ hd1
          by_cases c : b + s.delta1_[b] > s.capacity_ - 1
          · simp only [c, if_true] at g2
            omega
          · simp only [c, if_false] at g2
            omega
        have e := removeLoop_round1 s b fuel _ f s.hashes_[f] s.keys_[f] hd1 c1 a1
          (by rw [List.getElem?_eq_getElem hf2, c2]) hbf (List.getElem?_eq_getElem hf4)
          (List.getElem?_eq_getElem hf3) hb4 hb3
        exact key _ f e (inRange_move _ (inRange_clear1 s hr b) b _ _) a2 rfl
      · exact walk f (Or.inl ⟨c1, a1⟩) a2 ⟨_, List.getElem?_eq_getElem hf2, c2⟩

/-- The delta fix of `remove` for a found bucket `f` and the bucket `p` before it: it
clears `delta1_[p]` or `delta2_[p]`, or nothing. -/
theorem removeFix_inRange (s : HashSet K) (hr : s.InRange) (f p : Nat)
    (hp : p < s.capacity_) (last : Bool) :
    ∃ s1, (if last = true then do
        let first ← HashSet.addDelta1 s p
        if first = f then
          let delta1 ← wr s s.delta1_ p 0
          pure { s with delta1_ := delta1 }
        else
          let second ← HashSet.addDelta2 s p
          if second = f then
            let delta2 ← wr s s.delta2_ p 0
            pure { s with delta2_ := delta2 }
          else pure s
      else pure s) = Except.ok s1 ∧ s1.InRange ∧ s1.capacity_ = s.capacity_ := by
  have hwf := hr.1
  obtain ⟨w1, w2, w3, w4⟩ := hwf
  have hp1 : p < s.delta1_.length := by omega
  have hp2 : p < s.delta2_.length := by omega
  cases last
  · exact ⟨s, rfl, hr, rfl⟩
  · obtain ⟨first, a1, -⟩ := addDelta1_inRange s hr p hp
    obtain ⟨second, a2, -⟩ := addDelta2_inRange s hr p hp
    simp only [if_true, a1, a2, ok_bind]
    by_cases c1 : first = f
    · simp only [c1, if_true, wr, hp1, pure_bind]
      exact ⟨_, rfl, inRange_clear1 s hr p, rfl⟩
    · by_cases c2 : second = f
      · simp only [c1, c2, if_true, if_false, wr, hp2, pure_bind]
        exact ⟨_, rfl, inRange_clear2 s hr p, rfl⟩
      · simp only [c1, c2, if_false]
        exact ⟨s, rfl, hr, rfl⟩

/-- The call `remove` reads and writes below `capacity_` only, and when it returns every
delta byte is below `capacity_`. -/
theorem remove_inBounds (s : HashSet K) (hr : s.InRange) (key : K) :
    InBounds (HashSet.remove hashFunc_ NullHash s key) ∧
    ∀ r, HashSet.remove hashFunc_ NullHash s key = Except.ok r → r.2.InRange := by
  have hwf := hr.1
  obtain ⟨w1, w2, w3, w4⟩ := hwf
  unfold HashSet.remove
  refine inBounds_seq _ _ (fun r => r.2.1 < s.capacity_ ∧ r.2.2 < s.capacity_) _
    ⟨(findBucketIndex_inBounds hashFunc_ NullHash s hr key).1, ?_⟩ ?_
  · rintro ⟨b, f, p⟩ h
    exact (findBucketIndex_inBounds hashFunc_ NullHash s hr key).2 b f p h
  · rintro ⟨found, f, p⟩ ⟨hf, hp⟩
    simp only at hf hp
    cases found
    · refine ⟨inBounds_ok _ _ rfl, ?_⟩
      intro r h
      cases h
      exact hr
    · have hf2 : f < s.delta2_.length := by omega
      have hf3 : f < s.hashes_.length := by omega
      have hh : rd s s.hashes_ f = Except.ok s.hashes_[f] := by
        simp only [rd, List.getElem?_eq_getElem hf3]
        rfl
      have hd : rd s s.delta2_ f = Except.ok s.delta2_[f] := by
        simp only [rd, List.getElem?_eq_getElem hf2]
        rfl
      simp only [if_true, hh, hd, ok_bind]
      obtain ⟨lv, hlv⟩ : ∃ lv, (if f ≠ s.hashes_[f] % s.capacity_
          then pure (decide (s.delta2_[f] = 0)) else pure false : Run K Bool)
          = Except.ok lv := by
        by_cases c : f ≠ s.hashes_[f] % s.capacity_
        · exact ⟨_, by rw [if_pos c]; rfl⟩
        · exact ⟨_, by rw [if_neg c]; rfl⟩
      obtain ⟨s1, e1, hr1, hc1⟩ := removeFix_inRange s hr f p hp lv
      simp only [hlv, e1, ok_bind]
      refine inBounds_seq _ _
        (fun r => r.1.InRange ∧ r.2 < r.1.capacity_ ∧ r.1.capacity_ = s1.capacity_) _
        (removeLoop_inBounds _ s1 f hr1 (by omega)) ?_
      rintro ⟨s2, b2⟩ ⟨hr2, hb2, -⟩
      show InBounds (wr s2 s2.hashes_ b2 NullHash >>= _) ∧ _
      have hbl : b2 < s2.hashes_.length := by
        rw [hr2.1.2.2.1]
        exact hb2
      simp only [wr, hbl, if_true, pure_bind]
      refine ⟨inBounds_ok _ _ rfl, ?_⟩
      intro r h
      cases h
      obtain ⟨⟨v1, v2, v3, v4⟩, hcap, r1, r2⟩ := hr2
      refine ⟨⟨v1, v2, ?_, v4⟩, hcap, r1, r2⟩
      simp [v3]

theorem construct_inRange [Inhabited K] (capacity : Nat) (s : HashSet K)
    (h : HashSet.construct NullHash capacity = Except.ok s) :
    s.InRange ∧ s.capacity_ = capacity := by
  have hc := (construct_counted NullHash capacity s h).1
  obtain ⟨hpos, rfl⟩ := construct_ok NullHash capacity s h
  refine ⟨⟨hc, hpos, ?_, ?_⟩, rfl⟩
  · intro i d hd
    simp only [List.getElem?_replicate] at hd
    by_cases c : i < capacity
    · simp only [c, if_true, Option.some.injEq] at hd
      subst hd
      exact hpos
    · simp [c] at hd
  · intro i d hd
    simp only [List.getElem?_replicate] at hd
    by_cases c : i < capacity
    · simp only [c, if_true, Option.some.injEq] at hd
      subst hd
      exact hpos
    · simp [c] at hd

theorem clear_inRange (s : HashSet K) (hr : s.InRange) :
    (HashSet.clear NullHash s).InRange := by
  obtain ⟨hwf, hcap, -, -⟩ := hr
  refine ⟨(clear_counted NullHash s hwf).1, hcap, ?_, ?_⟩
  · intro i d hd
    simp only [HashSet.clear, List.getElem?_replicate] at hd
    by_cases c : i < s.capacity_
    · simp only [c, if_true, Option.some.injEq] at hd
      simp only [HashSet.clear]
      omega
    · simp [c] at hd
  · intro i d hd
    simp only [HashSet.clear, List.getElem?_replicate] at hd
    by_cases c : i < s.capacity_
    · simp only [c, if_true, Option.some.injEq] at hd
      simp only [HashSet.clear]
      omega
    · simp [c] at hd

theorem rehashLoop_inRange (s : HashSet K) (is : List Nat) :
    ∀ (n : Nat) (t t' : HashSet K),
      HashSet.rehashLoop hashFunc_ NullHash s is n t = Except.ok t' →
      t.InRange → t'.InRange := by
  induction is with
  | nil =>
    intro n t t' h ht
    simp only [HashSet.rehashLoop, pure_ok] at h
    subst h
    exact ht
  | cons i is ih =>
    intro n t t' h ht
    unfold HashSet.rehashLoop at h
    simp only [bind_ok, rd_ok] at h
    obtain ⟨hv, -, h⟩ := h
    by_cases e : hv = NullHash
    · simp only [e, ne_eq, not_true_eq_false, if_false] at h
      exact ih n t t' h ht
    · simp only [e, ne_eq, not_false_eq_true, if_true, bind_ok, rd_ok] at h
      obtain ⟨k, -, ⟨r, t1⟩, hins, h⟩ := h
      have h1 := insert_inRange hashFunc_ NullHash t t1 k r ht hins
      by_cases c : n + 1 = s.size_
      · simp only [c, if_true, pure_ok] at h
        subst h
        exact h1
      · simp only [c, if_false] at h
        exact ih (n + 1) t1 t' h h1

/-- Every call that returns keeps every delta byte below `capacity_`; `insert`, `remove`
and `clear` keep `capacity_` too. -/
theorem call_inRange [Inhabited K] (s s' : HashSet K) (c : Call K) (hr : s.InRange)
    (h : HashSet.call hashFunc_ NullHash s c = Except.ok s') :
    s'.InRange ∧ (Call.keepsCapacity c = true → s'.capacity_ = s.capacity_) := by
  cases c with
  | insert key =>
    simp only [HashSet.call, bind_ok, pure_ok] at h
    obtain ⟨⟨r, t⟩, hins, rfl⟩ := h
    refine ⟨insert_inRange hashFunc_ NullHash s t key r hr hins, fun _ => ?_⟩
    have := insert_frame_aux hashFunc_ NullHash s t key r hins
    cases r
    · rw [this.1 rfl]
    · exact (this.2 rfl).2.2.1
  | remove key =>
    simp only [HashSet.call, bind_ok, pure_ok] at h
    obtain ⟨⟨r, t⟩, hrem, rfl⟩ := h
    refine ⟨(remove_inBounds hashFunc_ NullHash s hr key).2 _ hrem, fun _ => ?_⟩
    rcases remove_ok_inv hashFunc_ NullHash s t key r hrem with
      ⟨-, rfl, -⟩ | ⟨-, f, p, -, -, a2, -⟩
    · rfl
    · exact a2
  | clear =>
    simp only [HashSet.call, pure_ok] at h
    subst h
    exact ⟨clear_inRange NullHash s hr, fun _ => rfl⟩
  | rehash count =>
    refine ⟨?_, fun c => by cases c⟩
    simp only [HashSet.call] at h
    unfold HashSet.rehash at h
    by_cases c : s.size_ = 0 ∨ count < s.size_
    · simp only [c, if_true, pure_ok] at h
      subst h
      exact hr
    · simp only [c, if_false, bind_ok] at h
      obtain ⟨t0, h0, h⟩ := h
      exact rehashLoop_inRange hashFunc_ NullHash s _ 0 t0 s' h
        (construct_inRange NullHash count t0 h0).1

/-- Every sequence of calls keeps every delta byte below `capacity_` and `size_` equal to
the number of occupied buckets. -/
theorem calls_inRange [Inhabited K] (hH : ∀ k, hashFunc_ k ≠ NullHash)
    (cs : List (Call K)) :
    ∀ (s s' : HashSet K), HashSet.calls hashFunc_ NullHash s cs = Except.ok s' →
      s.InRange → s.size_ = occupied NullHash s.hashes_ →
      s'.InRange ∧ s'.size_ = occupied NullHash s'.hashes_ ∧
        ((∀ c ∈ cs, Call.keepsCapacity c = true) → s'.capacity_ = s.capacity_) := by
  induction cs with
  | nil =>
    intro s s' h hr hocc
    simp only [HashSet.calls, pure_ok] at h
    subst h
    exact ⟨hr, hocc, fun _ => rfl⟩
  | cons c cs ih =>
    intro s s' h hr hocc
    simp only [HashSet.calls, bind_ok] at h
    obtain ⟨t, ht, h⟩ := h
    obtain ⟨g1, g2⟩ := call_inRange hashFunc_ NullHash s t c hr ht
    have g3 := (call_counted hashFunc_ NullHash hH s t c ⟨hr.1, hocc⟩ ht).2
    obtain ⟨k1, k2, k3⟩ := ih t s' h g1 g3
    refine ⟨k1, k2, ?_⟩
    intro hall
    rw [k3 (fun c' hc' => hall c' (List.mem_cons_of_mem _ hc')),
      g2 (hall c (List.mem_cons_self _ _))]

/-- When the linear search of `insert` finds no bucket and returns an index that is not
below `capacity_`, the set is full, and `insertKey` stops at
`FATAL_ASSERT(size_ < capacity_)`, its first statement. -/
theorem linearSearch_out_of_range (s : HashSet K) (hwf : s.WF)
    (hocc : s.size_ = occupied NullHash s.hashes_) (index h : Nat) (k : K) (n : Nat)
    (hi : index ≤ s.capacity_)
    (hn : HashSet.linearSearch NullHash s index h k = Except.ok n)
    (hout : ¬ n < s.capacity_) :
    s.size_ = s.capacity_ ∧
    ∀ (u : HashSet K), u.size_ = s.size_ → u.capacity_ = s.capacity_ →
      HashSet.insertKey NullHash u n h k = Except.error (Fault.assertSize, u) := by
  obtain ⟨w1, w2, w3, w4⟩ := hwf
  obtain ⟨n', hn', hcase⟩ :=
    linearSearch_total NullHash s ⟨w1, w2, w3, w4⟩ index h k hi
  rw [hn] at hn'
  cases hn'
  have hfull : s.size_ = s.capacity_ := by
    rcases hcase with ⟨g, -⟩ | ⟨-, hall⟩
    · exact absurd g hout
    · have : occupied NullHash s.hashes_ = s.hashes_.length := by
        apply occupied_full
        intro j hj
        obtain ⟨hv, e1, e2, -⟩ :=
          (bucketFoundOrEmpty_false NullHash s j h k).1 (hall j (by omega))
        rw [List.getElem?_eq_getElem hj] at e1
        rw [Option.some.inj e1]
        exact e2
      omega
  refine ⟨hfull, ?_⟩
  intro u h1 h2
  unfold HashSet.insertKey
  have : ¬ u.size_ < u.capacity_ := by omega
  simp only [this, if_false]
  rfl

/-- C24: bucket indices stay in range.  For a hash function that never returns `NullHash`,
in every state `s` that a sequence of `insert`, `remove`, `clear` and `rehash` calls makes
from a freshly constructed set: the capacity is not 0 (and is the one of the constructor
when no call is `rehash`), the four arrays have `capacity_` elements, every delta byte is
smaller than `capacity_`, `addDelta1` and `addDelta2` give a bucket below `capacity_` for
every bucket below `capacity_`, and `insert`, `contains`, `find` and `remove` read and
write allocated elements only, and so do their loops whatever number of hops or rounds
they make from a bucket below `capacity_`.  When the linear search of `insert`, started at
`t + 1`, returns an index that is not below `capacity_`, then `size_ = capacity_` and
`insertKey` stops at `FATAL_ASSERT(size_ < capacity_)` before it uses the index. -/
theorem indices_in_range [Inhabited K] (hH : ∀ k, hashFunc_ k ≠ NullHash)
    (capacity : Nat) (cs : List (Call K)) (s : HashSet K)
    (h : HashSet.fromFresh hashFunc_ NullHash capacity cs = Except.ok s) :
    0 < s.capacity_ ∧
    ((∀ c ∈ cs, Call.keepsCapacity c = true) → s.capacity_ = capacity) ∧
    s.WF ∧
    (∀ (i d : Nat), s.delta1_[i]? = some d → d < s.capacity_) ∧
    (∀ (i d : Nat), s.delta2_[i]? = some d → d < s.capacity_) ∧
    (∀ b, b < s.capacity_ → ∃ n, HashSet.addDelta1 s b = Except.ok n ∧ n < s.capacity_) ∧
    (∀ b, b < s.capacity_ → ∃ n, HashSet.addDelta2 s b = Except.ok n ∧ n < s.capacity_) ∧
    (∀ key, InBounds (HashSet.insert hashFunc_ NullHash s key) ∧
      InBounds (HashSet.contains hashFunc_ NullHash s key) ∧
      InBounds (HashSet.find hashFunc_ NullHash s key) ∧
      InBounds (HashSet.remove hashFunc_ NullHash s key)) ∧
    (∀ (fuel hv : Nat) (k : K) (b p : Nat), b < s.capacity_ → p < s.capacity_ →
      InBounds (HashSet.insertLoop s hv k fuel b) ∧
      InBounds (HashSet.findBucketIndexLoop s hv k fuel b p) ∧
      InBounds (HashSet.removeLastLoop s fuel p b) ∧
      InBounds (HashSet.removeLoop fuel s b)) ∧
    (∀ (t hv : Nat) (k : K) (n : Nat), t < s.capacity_ →
      HashSet.linearSearch NullHash s (t + 1) hv k = Except.ok n → ¬ n < s.capacity_ →
      s.size_ = s.capacity_ ∧
      ∀ (u : HashSet K), u.size_ = s.size_ → u.capacity_ = s.capacity_ →
        HashSet.insertKey NullHash u n hv k = Except.error (Fault.assertSize, u)) := by
  simp only [HashSet.fromFresh, bind_ok] at h
  obtain ⟨s0, h0, h⟩ := h
  obtain ⟨hr0, hc0⟩ := construct_inRange NullHash capacity s0 h0
  obtain ⟨hr, hocc, hcap⟩ := calls_inRange hashFunc_ NullHash hH cs s0 s h hr0
    (construct_counted NullHash capacity s0 h0).2
  refine ⟨hr.2.1, ?_, hr.1, hr.2.2.1, hr.2.2.2, ?_, ?_, ?_, ?_, ?_⟩
  · intro hall
    rw [hcap hall, hc0]
  · exact fun b hb => addDelta1_inRange s hr b hb
  · exact fun b hb => addDelta2_inRange s hr b hb
  · intro key
    exact ⟨insert_inBounds hashFunc_ NullHash s hr hocc key,
      (lookup_inBounds hashFunc_ NullHash s hr key).1,
      (lookup_inBounds hashFunc_ NullHash s hr key).2,
      (remove_inBounds hashFunc_ NullHash s hr key).1⟩
  · intro fuel hv k b p hb hp
    exact ⟨(insertLoop_inBounds s hr hv k fuel b hb).1,
      (findBucketIndexLoop_inBounds s hr hv k fuel b p hb hp).1,
      (removeLastLoop_inBounds s hr fuel p b hp hb).1,
      (removeLoop_inBounds fuel s b hr hb).1⟩
  · intro t hv k n ht hn hout
    exact linearSearch_out_of_range NullHash s hr.1 hocc (t + 1) hv k n (by omega) hn hout

/-- A walk from a bucket whose `delta2_` is 0 stays there. -/
theorem walk_end (s : HashSet K) (a c : Nat) (h0 : s.delta2_[a]? = some 0)
    (h : HashSet.Walk s a c) : c = a := by
  cases h with
  | here => rfl
  | next _ nx _ d hd hd0 _ _ =>
    rw [h0] at hd
    exact absurd (Option.some.inj hd).symm hd0

/-- Along a walk the numbers of the buckets rise. -/
theorem walk_rank (s : HashSet K) (rank : Nat → Nat) (hr : HashSet.Ranked s rank)
    (a c : Nat) (h : HashSet.Walk s a c) :
    rank a ≤ rank c ∧ (a ≠ c → rank a < rank c) ∧ (a < s.capacity_ → c < s.capacity_) := by
  induction h with
  | here a => exact ⟨Nat.le_refl _, fun e => absurd rfl e, fun e => e⟩
  | next a nx c d hd hd0 hadd _ ih =>
    obtain ⟨nx', a1, a2, a3, -⟩ := hr.2 a d hd hd0
    rw [hadd] at a1
    cases a1
    exact ⟨by omega, fun _ => by omega, fun _ => ih.2.2 a2⟩

/-- A walk can be made in every set with the same capacity and the same `delta2_` at the
buckets numbered above `r`, when it starts at such a bucket. -/
theorem walk_above (s s' : HashSet K) (rank : Nat → Nat) (hr : HashSet.Ranked s rank)
    (hc : s'.capacity_ = s.capacity_) (r : Nat)
    (h2 : ∀ c, r < rank c → s'.delta2_[c]? = s.delta2_[c]?)
    (a c : Nat) (h : HashSet.Walk s a c) : r < rank a → HashSet.Walk s' a c := by
  induction h with
  | here a => exact fun _ => HashSet.Walk.here a
  | next a nx c d hd hd0 hadd _ ih =>
    intro ha
    obtain ⟨nx', a1, a2, a3, -⟩ := hr.2 a d hd hd0
    rw [hadd] at a1
    cases a1
    have e := h2 a ha
    exact HashSet.Walk.next a nx c d (by rw [e, hd]) hd0
      ((addDelta2_congr s s' a nx hc (by rw [e])).2 hadd) (ih (by omega))

/-- Clearing links that lead to a bucket `l` whose `delta2_` is 0 keeps every walk that
does not end at `l`. -/
theorem walk_cut (t t' : HashSet K) (hc : t'.capacity_ = t.capacity_) (l : Nat)
    (hl0 : t.delta2_[l]? = some 0)
    (h2 : ∀ x, t'.delta2_[x]? = t.delta2_[x]? ∨ HashSet.addDelta2 t x = Except.ok l)
    (a c : Nat) (h : HashSet.Walk t a c) : c ≠ l → HashSet.Walk t' a c := by
  induction h with
  | here a => exact fun _ => HashSet.Walk.here a
  | next a nx c d hd hd0 hadd hw ih =>
    intro hcl
    rcases h2 a with e | e
    · exact HashSet.Walk.next a nx c d (by rw [e, hd]) hd0
        ((addDelta2_congr t t' a nx hc (by rw [e])).2 hadd) (ih hcl)
    · rw [hadd] at e
      cases e
      exact absurd (walk_end t _ c hl0 hw) hcl

/-- Clearing links that lead to a bucket `l` whose `delta2_` is 0 keeps on its chain every
bucket other than `l`. -/
theorem onChain_cut (t t' : HashSet K) (hc : t'.capacity_ = t.capacity_) (l : Nat)
    (hl0 : t.delta2_[l]? = some 0)
    (h1 : ∀ x, t'.delta1_[x]? = t.delta1_[x]? ∨ HashSet.addDelta1 t x = Except.ok l)
    (h2 : ∀ x, t'.delta2_[x]? = t.delta2_[x]? ∨ HashSet.addDelta2 t x = Except.ok l)
    (i c : Nat) (h : HashSet.OnChain t i c) (hcl : c ≠ l) : HashSet.OnChain t' i c := by
  rcases h with rfl | ⟨d, f, hd, hd0, hadd, hw⟩
  · exact Or.inl rfl
  · rcases h1 i with e | e
    · exact Or.inr ⟨d, f, by rw [e, hd], hd0,
        (addDelta1_congr t t' i f hc (by rw [e])).2 hadd, walk_cut t t' hc l hl0 h2 f c hw hcl⟩
    · rw [hadd] at e
      cases e
      exact absurd (walk_end t _ c hl0 hw) hcl

/-- With numbers that rise along `delta2_` and stay below `capacity_`, the loop of
`findBucketIndex` returns. -/
theorem findBucketIndexLoop_ranked (s : HashSet K) (hwf : s.WF) (rank : Nat → Nat)
    (hr : HashSet.Ranked s rank) (h : Nat) (k : K) (fuel : Nat) :
    ∀ c p, c < s.capacity_ → 1 ≤ fuel → s.capacity_ - rank c ≤ fuel →
      ∃ r, HashSet.findBucketIndexLoop s h k fuel c p = Except.ok r := by
  induction fuel with
  | zero =>
    intro c p _ h1 _
    omega
  | succ fuel ih =>
    intro c p hc _ h2
    have hcl : c < s.delta2_.length := by rw [hwf.2.1]; exact hc
    have hd : s.delta2_[c]? = some s.delta2_[c] := List.getElem?_eq_getElem hcl
    unfold HashSet.findBucketIndexLoop
    simp only [rd, hd, pure_bind]
    by_cases hd0 : s.delta2_[c] = 0
    · simp only [hd0, ne_eq, not_true_eq_false, if_false]
      exact ⟨_, rfl⟩
    · obtain ⟨nx, a1, a2, a3, a4⟩ := hr.2 c _ hd hd0
      obtain ⟨b1, hb1⟩ := bucketFound_total s hwf nx h k a2
      simp only [hd0, ne_eq, not_false_eq_true, if_true, a1, hb1, ok_bind]
      cases b1
      · simp only [Bool.false_eq_true, if_false]
        exact ih nx c a2 (by omega) (by omega)
      · exact ⟨_, rfl⟩

/-- With numbers that rise along the links the lookup returns for every key. -/
theorem findBucketIndex_ranked (s : HashSet K) (hwf : s.WF) (hcap : 0 < s.capacity_)
    (rank : Nat → Nat) (hr : HashSet.Ranked s rank) (k : K) :
    ∃ r, HashSet.findBucketIndex hashFunc_ NullHash s k = Except.ok r := by
  have hi : hashFunc_ k % s.capacity_ < s.capacity_ := Nat.mod_lt _ hcap
  have w := hwf
  obtain ⟨w1, w2, w3, w4⟩ := w
  unfold HashSet.findBucketIndex
  by_cases hz : s.size_ = 0
  · simp only [hz, if_true]
    exact ⟨_, rfl⟩
  · obtain ⟨b0, hb0⟩ := bucketFoundOrEmpty_total NullHash s hwf _ (hashFunc_ k) k hi
    simp only [hz, if_false, hb0, ok_bind]
    cases b0
    · have hil : hashFunc_ k % s.capacity_ < s.delta1_.length := by rw [w1]; exact hi
      have hd : s.delta1_[hashFunc_ k % s.capacity_]? =
          some s.delta1_[hashFunc_ k % s.capacity_] := List.getElem?_eq_getElem hil
      simp only [if_true, rd, hd, pure_bind]
      by_cases hd0 : s.delta1_[hashFunc_ k % s.capacity_] = 0
      · simp only [hd0, ne_eq, not_true_eq_false, if_false]
        exact ⟨_, rfl⟩
      · obtain ⟨nx, a1, a2, a3⟩ := hr.1 _ _ hd hd0
        obtain ⟨b1, hb1⟩ := bucketFound_total s hwf nx (hashFunc_ k) k a2
        simp only [hd0, ne_eq, not_false_eq_true, if_true, a1, hb1, ok_bind]
        cases b1
        · simp only [if_true]
          exact findBucketIndexLoop_ranked s hwf rank hr _ k _ nx _ a2 (by omega) (by omega)
        · exact ⟨_, rfl⟩
    · have hil : hashFunc_ k % s.capacity_ < s.hashes_.length := by rw [w3]; exact hi
      have hd : s.hashes_[hashFunc_ k % s.capacity_]? =
          some s.hashes_[hashFunc_ k % s.capacity_] := List.getElem?_eq_getElem hil
      simp only [Bool.true_eq_false, if_false, rd, hd, pure_bind]
      by_cases e : s.hashes_[hashFunc_ k % s.capacity_] = NullHash
      · simp only [e, ne_eq, not_true_eq_false, if_false]
        exact ⟨_, rfl⟩
      · simp only [e, ne_eq, not_false_eq_true, if_true]
        exact ⟨_, rfl⟩

/-- The loop of `findBucketIndex` finds a key that sits in a bucket `c` on the walk from
the bucket `a` it starts at. -/
theorem findBucketIndexLoop_walk (s : HashSet K) (hwf : s.WF) (rank : Nat → Nat)
    (hr : HashSet.Ranked s rank) (h : Nat) (k : K) (c : Nat)
    (hh : s.hashes_[c]? = some h) (hk : s.keys_[c]? = some k) (fuel : Nat) :
    ∀ a p, HashSet.Walk s a c → a ≠ c → a < s.capacity_ → s.capacity_ - rank a ≤ fuel →
      ∃ f q, HashSet.findBucketIndexLoop s h k fuel a p = Except.ok (true, f, q) := by
  induction fuel with
  | zero =>
    intro a p hw hac ha hf
    cases hw with
    | here => exact absurd rfl hac
    | next _ nx _ d hd hd0 hadd _ =>
      obtain ⟨nx', a1, a2, a3, a4⟩ := hr.2 a d hd hd0
      omega
  | succ fuel ih =>
    intro a p hw hac ha hf
    cases hw with
    | here => exact absurd rfl hac
    | next _ nx _ d hd hd0 hadd hw' =>
      obtain ⟨nx', a1, a2, a3, a4⟩ := hr.2 a d hd hd0
      rw [hadd] at a1
      cases a1
      obtain ⟨b1, hb1⟩ := bucketFound_total s hwf nx h k a2
      unfold HashSet.findBucketIndexLoop
      simp only [rd, hd, pure_bind, hd0, ne_eq, not_false_eq_true, if_true, hadd, hb1, ok_bind]
      cases b1
      · simp only [Bool.false_eq_true, if_false]
        have hnc : nx ≠ c := by
          intro e
          subst e
          have := (bucketFound_false s nx h k).1 hb1
          obtain ⟨hv, e1, e2⟩ := this
          rw [hh] at e1
          obtain ⟨kv, e3, e4⟩ := e2 (Option.some.inj e1).symm
          rw [hk] at e3
          exact e4 (Option.some.inj e3).symm
        exact ih nx a hw' hnc a2 (by omega)
      · exact ⟨_, _, rfl⟩

/-- The lookup finds a key that sits in a bucket `c` on the chain of its ideal bucket,
when that bucket, if it is not `c`, is occupied. -/
theorem findBucketIndex_onChain (s : HashSet K) (hwf : s.WF) (hcap : 0 < s.capacity_)
    (rank : Nat → Nat) (hr : HashSet.Ranked s rank) (k : K) (c : Nat)
    (hz : s.size_ ≠ 0) (hne : hashFunc_ k ≠ NullHash)
    (hh : s.hashes_[c]? = some (hashFunc_ k)) (hk : s.keys_[c]? = some k)
    (hon : HashSet.OnChain s (hashFunc_ k % s.capacity_) c)
    (hocc : c ≠ hashFunc_ k % s.capacity_ →
      ∃ hi, s.hashes_[hashFunc_ k % s.capacity_]? = some hi ∧ hi ≠ NullHash) :
    ∃ f p, HashSet.findBucketIndex hashFunc_ NullHash s k = Except.ok (true, f, p) := by
  have hi : hashFunc_ k % s.capacity_ < s.capacity_ := Nat.mod_lt _ hcap
  by_cases hci : c = hashFunc_ k % s.capacity_
  · subst hci
    exact ⟨_, _, findBucketIndex_ideal hashFunc_ NullHash s k hz hh hk hne⟩
  · obtain ⟨hiv, hi1, hi2⟩ := hocc hci
    rcases hon with e | ⟨d, f, hd, hd0, hadd, hw⟩
    · exact absurd e hci
    · obtain ⟨b0, hb0⟩ := bucketFoundOrEmpty_total NullHash s hwf _ (hashFunc_ k) k hi
      obtain ⟨nx, a1, a2, a3⟩ := hr.1 _ _ hd hd0
      rw [hadd] at a1
      cases a1
      obtain ⟨b1, hb1⟩ := bucketFound_total s hwf f (hashFunc_ k) k a2
      unfold HashSet.findBucketIndex
      simp only [hz, if_false, hb0, ok_bind]
      cases b0
      · simp only [if_true, rd, hd, pure_bind, hd0, ne_eq, not_false_eq_true, hadd, hb1,
          ok_bind]
        cases b1
        · simp only [if_true]
          have hfc : f ≠ c := by
            intro e
            subst e
            obtain ⟨hv, e1, e2⟩ := (bucketFound_false s f _ k).1 hb1
            rw [hh] at e1
            obtain ⟨kv, e3, e4⟩ := e2 (Option.some.inj e1).symm
            rw [hk] at e3
            exact e4 (Option.some.inj e3).symm
          exact findBucketIndexLoop_walk s hwf rank hr _ k c hh hk _ f _ hw hfc a2 (by omega)
        · exact ⟨_, _, rfl⟩
      · simp only [Bool.true_eq_false, if_false, rd, hi1, pure_bind, ne_eq, hi2,
          not_false_eq_true, if_true]
        exact ⟨_, _, rfl⟩

/-- What the loop of `findBucketIndex` has done when it reports a bucket `f`: it has
walked from the bucket it started at to a bucket `p`, and `delta2_[p]` leads to `f`. -/
theorem findBucketIndexLoop_true_inv (s : HashSet K) (h : Nat) (k : K) (fuel : Nat) :
    ∀ c p0 f p, HashSet.findBucketIndexLoop s h k fuel c p0 = Except.ok (true, f, p) →
      HashSet.Walk s c p ∧ ∃ d, s.delta2_[p]? = some d ∧ d ≠ 0 ∧
        HashSet.addDelta2 s p = Except.ok f := by
  induction fuel with
  | zero =>
    intro c p0 f p hf
    simp [HashSet.findBucketIndexLoop, throw_ok] at hf
  | succ fuel ih =>
    intro c p0 f p hf
    unfold HashSet.findBucketIndexLoop at hf
    simp only [bind_ok, rd_ok] at hf
    obtain ⟨d, hd, hf⟩ := hf
    by_cases hd0 : d = 0
    · simp [hd0, pure_ok] at hf
    · simp only [hd0, ne_eq, not_false_eq_true, if_true, bind_ok] at hf
      obtain ⟨n, hn, b1, hb1, hf⟩ := hf
      cases b1
      · obtain ⟨g1, g2⟩ := ih n c f p (by simpa using hf)
        exact ⟨HashSet.Walk.next c n p d hd hd0 hn g1, g2⟩
      · simp only [if_true, pure_ok, Prod.mk.injEq, true_and] at hf
        obtain ⟨rfl, rfl⟩ := hf
        exact ⟨HashSet.Walk.here c, d, hd, hd0, hn⟩

/-- What a successful lookup has done: the key is in its ideal bucket `i`; or in the
bucket `delta1_[i]` leads to; or in a bucket that `delta2_` of a bucket `p` leads to, `p`
being on the walk from the bucket `delta1_[i]` leads to. -/
theorem findBucketIndex_true_inv (s : HashSet K) (k : K) (f p : Nat)
    (h : HashSet.findBucketIndex hashFunc_ NullHash s k = Except.ok (true, f, p)) :
    (f = hashFunc_ k % s.capacity_ ∧ p = hashFunc_ k % s.capacity_) ∨
    (p = hashFunc_ k % s.capacity_ ∧ ∃ d, s.delta1_[p]? = some d ∧ d ≠ 0 ∧
      HashSet.addDelta1 s p = Except.ok f) ∨
    (∃ d f0 d2, s.delta1_[hashFunc_ k % s.capacity_]? = some d ∧ d ≠ 0 ∧
      HashSet.addDelta1 s (hashFunc_ k % s.capacity_) = Except.ok f0 ∧
      HashSet.Walk s f0 p ∧ s.delta2_[p]? = some d2 ∧ d2 ≠ 0 ∧
      HashSet.addDelta2 s p = Except.ok f) := by
  unfold HashSet.findBucketIndex at h
  by_cases hz : s.size_ = 0
  · simp [hz, pure_ok] at h
  · simp only [hz, if_false, bind_ok] at h
    obtain ⟨b, hb, h⟩ := h
    cases b
    · simp only [if_true, bind_ok, rd_ok] at h
      obtain ⟨d, hd, h⟩ := h
      by_cases hd0 : d = 0
      · simp [hd0, pure_ok] at h
      · simp only [hd0, ne_eq, not_false_eq_true, if_true, bind_ok] at h
        obtain ⟨c0, hc0, b1, hb1, h⟩ := h
        cases b1
        · simp only [if_true] at h
          obtain ⟨g1, d2, g2, g3, g4⟩ := findBucketIndexLoop_true_inv s _ k _ _ _ f p h
          exact Or.inr (Or.inr ⟨d, c0, d2, hd, hd0, hc0, g1, g2, g3, g4⟩)
        · simp only [Bool.true_eq_false, if_false, pure_ok, Prod.mk.injEq, true_and] at h
          obtain ⟨rfl, rfl⟩ := h
          exact Or.inr (Or.inl ⟨rfl, d, hd, hd0, hc0⟩)
    · simp only [Bool.true_eq_false, if_false, bind_ok, rd_ok] at h
      obtain ⟨hv, hhv, h⟩ := h
      by_cases e : hv = NullHash
      · simp [e, pure_ok] at h
      · simp only [e, ne_eq, not_false_eq_true, if_true, pure_ok, Prod.mk.injEq,
          true_and] at h
        exact Or.inl ⟨h.1.symm, h.2.symm⟩

/-- What the inner loop of `remove` has done when it returns `(sl, l)`: `l` is the end of
the walk from the bucket `c` it started at, and either `l` is `c`, or `sl` is on that walk
and `delta2_[sl]` leads to `l`. -/
theorem removeLastLoop_walk (s : HashSet K) (fuel : Nat) :
    ∀ (p c sl l : Nat), HashSet.removeLastLoop s fuel p c = Except.ok (sl, l) →
      HashSet.Walk s c l ∧ s.delta2_[l]? = some 0 ∧
      ((l = c ∧ sl = p) ∨
        (∃ d, HashSet.Walk s c sl ∧ s.delta2_[sl]? = some d ∧ d ≠ 0 ∧
          HashSet.addDelta2 s sl = Except.ok l)) := by
  induction fuel with
  | zero =>
    intro p c sl l h
    simp [HashSet.removeLastLoop, throw_ok] at h
  | succ fuel ih =>
    intro p c sl l h
    unfold HashSet.removeLastLoop at h
    simp only [bind_ok, rd_ok] at h
    obtain ⟨d, hd, h⟩ := h
    by_cases hd0 : d = 0
    · subst hd0
      simp only [ne_eq, not_true_eq_false, if_false, pure_ok, Prod.mk.injEq] at h
      obtain ⟨rfl, rfl⟩ := h
      exact ⟨HashSet.Walk.here _, hd, Or.inl ⟨rfl, rfl⟩⟩
    · simp only [hd0, ne_eq, not_false_eq_true, if_true, bind_ok] at h
      obtain ⟨n, hn, h⟩ := h
      obtain ⟨g1, g2, g3⟩ := ih c n sl l h
      refine ⟨HashSet.Walk.next c n l d hd hd0 hn g1, g2, Or.inr ?_⟩
      rcases g3 with ⟨rfl, rfl⟩ | ⟨d', k1, k2, k3, k4⟩
      · exact ⟨d, HashSet.Walk.here _, hd, hd0, hn⟩
      · exact ⟨d', HashSet.Walk.next c n sl d hd hd0 hn k1, k2, k3, k4⟩

/-- Induction over the sets that `insert` calls alone make from a fresh set: a property
of every freshly constructed set that every `insert` that returns true keeps holds for
all of them. -/
theorem insertOnly_induction [Inhabited K] (P : HashSet K → Prop)
    (h0 : ∀ (capacity : Nat) (s : HashSet K),
      HashSet.construct NullHash capacity = Except.ok s → P s)
    (hstep : ∀ (s s' : HashSet K) (k : K), HashSet.InsertOnly hashFunc_ NullHash s → P s →
      HashSet.insert hashFunc_ NullHash s k = Except.ok (true, s') → P s')
    (s : HashSet K) (hs : HashSet.InsertOnly hashFunc_ NullHash s) : P s := by
  obtain ⟨capacity, keys, h⟩ := hs
  induction keys using List.reverseRecOn generalizing s with
  | nil =>
    simp only [HashSet.fromFresh, List.map_nil, HashSet.calls, bind_ok, pure_ok] at h
    obtain ⟨s0, h1, rfl⟩ := h
    exact h0 capacity s0 h1
  | append_singleton xs k ih =>
    simp only [HashSet.fromFresh, List.map_append, List.map_cons, List.map_nil, bind_ok,
      calls_append] at h
    obtain ⟨s0, h1, t, ht, hlast⟩ := h
    simp only [HashSet.calls, HashSet.call, bind_ok, pure_ok] at hlast
    obtain ⟨t1, ⟨⟨r, t2⟩, hins, rfl⟩, rfl⟩ := hlast
    have hft : HashSet.fromFresh hashFunc_ NullHash capacity (xs.map Call.insert)
        = Except.ok t := by
      simp only [HashSet.fromFresh, bind_ok]
      exact ⟨s0, h1, ht⟩
    have hpt := ih t hft
    cases r
    · rw [(insert_frame_aux hashFunc_ NullHash t t2 k false hins).1 rfl]
      exact hpt
    · exact hstep t t2 k ⟨capacity, xs, hft⟩ hpt hins

/-- In a set made by `insert` calls only, the chain of every bucket `i`, without `i`,
consists of the buckets other than `i` that hold a key whose ideal bucket is `i`. -/
theorem insertOnly_listed [Inhabited K] (hH : ∀ k, hashFunc_ k ≠ NullHash)
    (s : HashSet K) (hs : HashSet.InsertOnly hashFunc_ NullHash s) :
    HashSet.Listed NullHash s := by
  obtain ⟨capacity, ks, h⟩ := hs
  simp only [HashSet.fromFresh, bind_ok] at h
  obtain ⟨s0, h0, h⟩ := h
  obtain ⟨hwf, hocc⟩ := construct_counted NullHash capacity s0 h0
  obtain ⟨hpos, rfl⟩ := construct_ok NullHash capacity s0 h0
  have hrep : ∀ (c d : Nat), (List.replicate capacity 0)[c]? = some d → d = 0 := by
    intro c d hd
    simp only [List.getElem?_replicate] at hd
    split at hd
    · exact (Option.some.inj hd).symm
    · cases hd
  have hnull : ∀ (c hv : Nat), (List.replicate capacity NullHash)[c]? = some hv →
      hv = NullHash := by
    intro c hv hd
    simp only [List.getElem?_replicate] at hd
    split at hd
    · exact (Option.some.inj hd).symm
    · cases hd
  refine insertAll_listed hashFunc_ NullHash hH ks _ s (fun _ => 0) h hwf hocc hpos
    ⟨?_, ?_, ?_⟩ ⟨?_, ?_, ?_⟩ ?_
  · intro c d hd hd0
    exact absurd (hrep c d hd) hd0
  · intro c d hd hd0
    exact absurd (hrep c d hd) hd0
  · intro c hc
    have hl : c < capacity := by
      rcases List.getElem?_eq_some.1 hc with ⟨w, -⟩
      simpa using w
    simp [List.getElem?_replicate, hl]
  · intro c hv e1 e2
    exact absurd (hnull c hv e1) e2
  · intro c d hd hd0
    exact absurd (hrep c d hd) hd0
  · intro c hv kv e1 e2 e3
    exact absurd (hnull c hv e1) e2
  · intro j hj
    refine ⟨[], ?_, ?_⟩
    · rw [chain_ok]
      refine Or.inl ⟨?_, rfl⟩
      simp only at hj ⊢
      simp [List.getElem?_replicate, hj]
    · intro c
      constructor
      · intro hx
        exact absurd hx (List.not_mem_nil c)
      · rintro ⟨-, hv, e1, e2, -⟩
        exact absurd (hnull c hv e1) e2

/-- In a set made by `insert` calls only, the lookup finds every key that a bucket holds
with its hash. -/
theorem insertOnly_found [Inhabited K] (hH : ∀ k, hashFunc_ k ≠ NullHash)
    (s : HashSet K) (hs : HashSet.InsertOnly hashFunc_ NullHash s) (c : Nat) (k : K)
    (hh : s.hashes_[c]? = some (hashFunc_ k)) (hk : s.keys_[c]? = some k) :
    ∃ f p, HashSet.findBucketIndex hashFunc_ NullHash s k = Except.ok (true, f, p) := by
  obtain ⟨capacity, ks, h⟩ := hs
  simp only [HashSet.fromFresh, bind_ok] at h
  obtain ⟨s0, h0, h⟩ := h
  obtain ⟨hwf, -⟩ := construct_counted NullHash capacity s0 h0
  obtain ⟨-, rfl⟩ := construct_ok NullHash capacity s0 h0
  have := insertAll_inv hashFunc_ NullHash hH ks [] _ s h
    ⟨hwf, by simp, by simp, by
      intro c k h1 h2
      simp only [List.getElem?_replicate] at h1
      split at h1
      · exact absurd (Option.some.inj h1).symm (hH k)
      · cases h1⟩
  obtain ⟨-, -, hfind, hkeys⟩ := this
  exact hfind k (hkeys c k hh hk)

/-- In a set made by `insert` calls only, no key is held by two buckets. -/
theorem insertOnly_distinct [Inhabited K] (hH : ∀ k, hashFunc_ k ≠ NullHash)
    (s : HashSet K) (hs : HashSet.InsertOnly hashFunc_ NullHash s) :
    ∀ (c c' : Nat) (k : K), s.hashes_[c]? = some (hashFunc_ k) → s.keys_[c]? = some k →
      s.hashes_[c']? = some (hashFunc_ k) → s.keys_[c']? = some k → c = c' := by
  refine insertOnly_induction hashFunc_ NullHash
    (fun s => ∀ (c c' : Nat) (k : K), s.hashes_[c]? = some (hashFunc_ k) →
      s.keys_[c]? = some k → s.hashes_[c']? = some (hashFunc_ k) → s.keys_[c']? = some k →
      c = c') ?_ ?_ s hs
  · intro capacity s0 h0 c c' k h1 _ _ _
    obtain ⟨-, rfl⟩ := construct_ok NullHash capacity s0 h0
    simp only [List.getElem?_replicate] at h1
    split at h1
    · exact absurd (Option.some.inj h1).symm (hH k)
    · cases h1
  · intro s s' k0 hs0 ih hins c c' k h1 h2 h3 h4
    obtain ⟨hwf, -, hcap, -⟩ := insertOnly_inv hashFunc_ NullHash hH s hs0
    obtain ⟨n, hnc, hn, -, -, hh, hk, -⟩ :=
      insert_true_inv hashFunc_ NullHash s s' k0 hwf hcap hins
    obtain ⟨f, p, hnf⟩ := not_found_of_insert_true hashFunc_ NullHash s s' k0 hins
    have hnl : n < s.keys_.length := by rw [hwf.2.2.2]; exact hnc
    -- a bucket other than `n` that holds `k` with the key of `n` is impossible
    have clash : ∀ (a b : Nat), a = n → b ≠ n → s'.keys_[a]? = some k →
        s'.hashes_[b]? = some (hashFunc_ k) → s'.keys_[b]? = some k → False := by
      intro a b ha hb g1 g2 g3
      subst ha
      rw [hk, List.getElem?_set_self hnl] at g1
      obtain rfl := Option.some.inj g1
      rw [hh, List.getElem?_set_ne (fun e => hb e.symm)] at g2
      rw [hk, List.getElem?_set_ne (fun e => hb e.symm)] at g3
      obtain ⟨f', p', hf'⟩ := insertOnly_found hashFunc_ NullHash hH s hs0 b k0 g2 g3
      rw [hnf] at hf'
      cases hf'
    by_cases e1 : c = n
    · by_cases e2 : c' = n
      · rw [e1, e2]
      · exact (clash c c' e1 e2 h2 h3 h4).elim
    · by_cases e2 : c' = n
      · exact (clash c' c e2 e1 h4 h1 h2).elim
      · rw [hh, List.getElem?_set_ne (fun e => e1 e.symm)] at h1
        rw [hk, List.getElem?_set_ne (fun e => e1 e.symm)] at h2
        rw [hh, List.getElem?_set_ne (fun e => e2 e.symm)] at h3
        rw [hk, List.getElem?_set_ne (fun e => e2 e.symm)] at h4
        exact ih c c' k h1 h2 h3 h4

/-- In a set made by `insert` calls only, a bucket whose `delta2_` is not 0 holds a key
whose ideal bucket is another bucket. -/
theorem insertOnly_foreign [Inhabited K] (hH : ∀ k, hashFunc_ k ≠ NullHash)
    (s : HashSet K) (hs : HashSet.InsertOnly hashFunc_ NullHash s) :
    ∀ (c d : Nat), s.delta2_[c]? = some d → d ≠ 0 →
      ∃ hv, s.hashes_[c]? = some hv ∧ hv ≠ NullHash ∧ hv % s.capacity_ ≠ c := by
  refine insertOnly_induction hashFunc_ NullHash
    (fun s => ∀ (c d : Nat), s.delta2_[c]? = some d → d ≠ 0 →
      ∃ hv, s.hashes_[c]? = some hv ∧ hv ≠ NullHash ∧ hv % s.capacity_ ≠ c) ?_ ?_ s hs
  · intro capacity s0 h0 c d h1 hd0
    obtain ⟨-, rfl⟩ := construct_ok NullHash capacity s0 h0
    simp only [List.getElem?_replicate] at h1
    split at h1
    · exact absurd (Option.some.inj h1).symm hd0
    · cases h1
  · intro s s' k hs0 ih hins c d hd hd0
    obtain ⟨hwf, hocc, hcap, rank, hch, how⟩ := insertOnly_inv hashFunc_ NullHash hH s hs0
    have hl := insertOnly_listed hashFunc_ NullHash hH s hs0
    obtain ⟨n, hnc, hn, hsz, hc, hh, hk, hdel⟩ :=
      insert_true_inv hashFunc_ NullHash s s' k hwf hcap hins
    have hi0 : hashFunc_ k % s.capacity_ < s.capacity_ := Nat.mod_lt _ hcap
    have hn2 : s.delta2_[n]? = some 0 := (hch.2.2 n hn).2
    -- a bucket that had a `delta2_` other than 0 keeps its hash
    have old : s.delta2_[c]? = some d →
        ∃ hv, s'.hashes_[c]? = some hv ∧ hv ≠ NullHash ∧ hv % s'.capacity_ ≠ c := by
      intro hd'
      obtain ⟨hv, g1, g2, g3⟩ := ih c d hd' hd0
      have hcn : c ≠ n := by
        intro e
        subst e
        rw [hn2] at hd'
        exact hd0 (Option.some.inj hd').symm
      exact ⟨hv, by rw [hh, List.getElem?_set_ne (fun e => hcn e.symm)]; exact g1, g2,
        by rw [hc]; exact g3⟩
    rcases hdel with ⟨-, -, e2⟩ | ⟨_, _, -, -, -, -, e2, -, -⟩ |
      ⟨d1, c0, t, d', hv, q1, q2, hd1, hd1ne, hc0, hloop, ht0, e2, e1, hadd, hlt⟩
    · exact old (by rw [← e2]; exact hd)
    · exact old (by rw [← e2]; exact hd)
    · by_cases hct : c = t
      · subst hct
        obtain ⟨l, hl1, hl2⟩ := chainLoop_of_insertLoop s _ k _ c0 c hloop
        obtain ⟨w0, hw0, hmem0⟩ := hl _ hi0
        have hw0e : w0 = l ++ [c] := by
          rw [chain_ok] at hw0
          rcases hw0 with ⟨hd', -⟩ | ⟨d'', f', rest, -, -, hf', hrest, e'⟩
          · rw [hd1] at hd'
            exact absurd (Option.some.inj hd') hd1ne
          · rw [hc0] at hf'
            obtain rfl := Except.ok.inj hf'
            rw [hl1] at hrest
            obtain rfl := Except.ok.inj hrest
            simpa using e'
        subst hw0e
        obtain ⟨ht1, hvt, ht2, ht3, ht4⟩ :=
          (hmem0 c).1 (List.mem_append.2 (Or.inr (List.mem_singleton.2 rfl)))
        have hcn : c ≠ n := by
          intro e
          subst e
          rw [hn] at ht2
          exact ht3 (Option.some.inj ht2).symm
        refine ⟨hvt, by rw [hh, List.getElem?_set_ne (fun e => hcn e.symm)]; exact ht2, ht3,
          ?_⟩
        rw [hc, ht4]
        exact fun e => ht1 e.symm
      · exact old (by rw [e2, List.getElem?_set_ne (fun e => hct e.symm)] at hd; exact hd)

/-- The buckets that `chainLoop` lists are the buckets of the walk. -/
theorem chainLoop_walk (s : HashSet K) (fuel : Nat) :
    ∀ (a : Nat) (w : List Nat), HashSet.chainLoop s fuel a = Except.ok w →
      ∀ c, c ∈ w ↔ HashSet.Walk s a c := by
  induction fuel with
  | zero =>
    intro a w h
    simp [HashSet.chainLoop, throw_ok] at h
  | succ fuel ih =>
    intro a w h c
    rw [chainLoop_ok] at h
    obtain ⟨f0, hf0, h⟩ := h
    obtain rfl : f0 = fuel := by omega
    rcases h with ⟨h0, rfl⟩ | ⟨d, nx, rest, hd, hd0, hadd, hrest, rfl⟩
    · constructor
      · intro hc
        rw [List.mem_singleton] at hc
        subst hc
        exact HashSet.Walk.here _
      · intro hw
        rw [walk_end s a c h0 hw]
        exact List.mem_singleton.2 rfl
    · constructor
      · intro hc
        rcases List.mem_cons.1 hc with rfl | hc
        · exact HashSet.Walk.here _
        · exact HashSet.Walk.next a nx c d hd hd0 hadd ((ih nx rest hrest c).1 hc)
      · intro hw
        cases hw with
        | here => exact List.mem_cons_self _ _
        | next _ nx' _ d' hd' hd0' hadd' hw' =>
          rw [hadd] at hadd'
          cases hadd'
          exact List.mem_cons_of_mem _ ((ih nx rest hrest c).2 hw')

/-- In a set whose chains hold the keys of their ideal buckets, a bucket other than `i` is
on the chain of `i` exactly when it holds a key whose ideal bucket is `i`. -/
theorem listed_onChain (s : HashSet K) (hl : HashSet.Listed NullHash s) (i c : Nat)
    (hi : i < s.capacity_) (hci : c ≠ i) :
    HashSet.OnChain s i c ↔
      ∃ hv, s.hashes_[c]? = some hv ∧ hv ≠ NullHash ∧ hv % s.capacity_ = i := by
  obtain ⟨w, hw, hmem⟩ := hl i hi
  rw [chain_ok] at hw
  constructor
  · rintro (e | ⟨d, f, hd, hd0, hadd, hwalk⟩)
    · exact absurd e hci
    · rcases hw with ⟨h0, -⟩ | ⟨d', f', rest, hd', -, hadd', hrest, e⟩
      · rw [hd] at h0
        exact absurd (Option.some.inj h0) hd0
      · rw [hadd] at hadd'
        cases hadd'
        obtain rfl : w = rest := by simpa using e
        exact ((hmem c).1 ((chainLoop_walk s _ f w hrest c).2 hwalk)).2
  · intro h
    have hcw := (hmem c).2 ⟨hci, h⟩
    rcases hw with ⟨-, e⟩ | ⟨d', f', rest, hd', hd0', hadd', hrest, e⟩
    · obtain rfl : w = [] := by simpa using e.symm
      exact absurd hcw (List.not_mem_nil c)
    · obtain rfl : w = rest := by simpa using e
      exact Or.inr ⟨d', f', hd', hd0', hadd', (chainLoop_walk s _ f' w hrest c).1 hcw⟩

/-- One round of the compaction loop of `remove`: the hash and the key of a bucket `l`
numbered above `v`, whose `delta2_` is 0, move to `v`, links that led to `l` are cleared,
and `v` is on the chain of the ideal bucket of the key it gets.  The loop is then about to
vacate `l`. -/
theorem compacting_move (s : HashSet K) (b0 : Nat) (rank : Nat → Nat) (t t' : HashSet K)
    (v l hl : Nat) (kl : K) (hc : HashSet.Compacting NullHash s b0 rank t v)
    (hlc : l < t.capacity_) (hrl : rank v < rank l) (hl0 : t.delta2_[l]? = some 0)
    (hh : t.hashes_[l]? = some hl) (hk : t.keys_[l]? = some kl) (hne : hl ≠ NullHash)
    (hcap : t'.capacity_ = t.capacity_) (hsize : t'.size_ = t.size_)
    (hhash : t'.hashes_ = t.hashes_.set v hl) (hkeys : t'.keys_ = t.keys_.set v kl)
    (hlen1 : t'.delta1_.length = t.delta1_.length)
    (hlen2 : t'.delta2_.length = t.delta2_.length)
    (h1 : ∀ x, t'.delta1_[x]? = t.delta1_[x]? ∨
      (t'.delta1_[x]? = some 0 ∧ HashSet.addDelta1 t x = Except.ok l ∧ rank x < rank l))
    (h2 : ∀ x, t'.delta2_[x]? = t.delta2_[x]? ∨
      (t'.delta2_[x]? = some 0 ∧ HashSet.addDelta2 t x = Except.ok l ∧ rank x < rank l))
    (hhome : HashSet.OnChain t' (hl % t'.capacity_) v ∧
      (v ≠ hl % t'.capacity_ →
        ∃ hi, t'.hashes_[hl % t'.capacity_]? = some hi ∧ hi ≠ NullHash)) :
    HashSet.Compacting NullHash s b0 rank t' l := by
  obtain ⟨w1, w2, w3, w4⟩ := hc.wf
  have hvc := hc.vlt
  have hvl : v ≠ l := by
    intro e
    rw [e] at hrl
    omega
  have hv3 : v < t.hashes_.length := by omega
  have hv4 : v < t.keys_.length := by omega
  have hnewh : t'.hashes_[v]? = some hl := by
    rw [hhash]
    exact List.getElem?_set_self hv3
  have hnewk : t'.keys_[v]? = some kl := by
    rw [hkeys]
    exact List.getElem?_set_self hv4
  have holdh : ∀ c, c ≠ v → t'.hashes_[c]? = t.hashes_[c]? := by
    intro c hcv
    rw [hhash, List.getElem?_set_ne (fun e => hcv e.symm)]
  have holdk : ∀ c, c ≠ v → t'.keys_[c]? = t.keys_[c]? := by
    intro c hcv
    rw [hkeys, List.getElem?_set_ne (fun e => hcv e.symm)]
  have hab := hc.above l hrl
  refine
    { wf := ⟨by omega, by omega, by rw [hhash, List.length_set, hcap]; exact w3,
        by rw [hkeys, List.length_set, hcap]; exact w4⟩
      cap := by rw [hcap, hc.cap]
      size := by rw [hsize, hc.size]
      ranked := ?_
      vlt := by rw [hcap]; exact hlc
      rk := by have := hc.rk; omega
      above := ?_
      d1 := ?_
      full := ⟨hl, by rw [holdh l (fun e => hvl e.symm)]; exact hh, hne⟩
      findable := ?_
      fromOld := ?_
      toNew := ?_ }
  · refine ranked_congr t t' rank hc.ranked hcap ?_ ?_
    · intro c d hd hd0
      rcases h1 c with e | ⟨e, -, -⟩
      · rw [← e]; exact hd
      · rw [e] at hd
        exact absurd (Option.some.inj hd).symm hd0
    · intro c d hd hd0
      rcases h2 c with e | ⟨e, -, -⟩
      · rw [← e]; exact hd
      · rw [e] at hd
        exact absurd (Option.some.inj hd).symm hd0
  · intro c hcr
    have hcv : c ≠ v := by
      intro e
      rw [e] at hcr
      omega
    obtain ⟨g1, g2, g3, g4⟩ := hc.above c (by omega)
    refine ⟨by rw [holdh c hcv, g1], by rw [holdk c hcv, g2], ?_, ?_⟩
    · rcases h1 c with e | ⟨-, -, e⟩
      · rw [e, g3]
      · omega
    · rcases h2 c with e | ⟨-, -, e⟩
      · rw [e, g4]
      · omega
  · rcases h1 l with e | ⟨-, -, e⟩
    · rw [e, hab.2.2.1]
    · omega
  · intro c hv hcl hch hvne
    by_cases hcv : c = v
    · subst hcv
      rw [hnewh] at hch
      obtain rfl := Option.some.inj hch
      exact hhome
    · rw [holdh c hcv] at hch
      obtain ⟨g1, g2⟩ := hc.findable c hv hcv hch hvne
      rw [hcap]
      refine ⟨onChain_cut t t' hcap l hl0 (fun x => (h1 x).imp id (fun e => e.2.1))
        (fun x => (h2 x).imp id (fun e => e.2.1)) _ c g1 hcl, ?_⟩
      intro hci
      obtain ⟨hi, g3, g4⟩ := g2 hci
      by_cases hiv : hv % t.capacity_ = v
      · rw [hiv]
        exact ⟨hl, hnewh, hne⟩
      · exact ⟨hi, by rw [holdh _ hiv]; exact g3, g4⟩
  · intro c hv hcl hch hvne
    by_cases hcv : c = v
    · subst hcv
      rw [hnewh] at hch
      obtain rfl := Option.some.inj hch
      refine ⟨l, ?_, by rw [← hab.1]; exact hh, by rw [hnewk, ← hab.2.1, hk]⟩
      intro e
      have := hc.rk
      rw [e] at hrl
      omega
    · rw [holdh c hcv] at hch
      obtain ⟨c', g1, g2, g3⟩ := hc.fromOld c hv hcv hch hvne
      exact ⟨c', g1, g2, by rw [holdk c hcv]; exact g3⟩
  · intro c' hv hcb hch hvne
    obtain ⟨c, g1, g2, g3⟩ := hc.toNew c' hv hcb hch hvne
    by_cases hcl' : c = l
    · subst hcl'
      rw [hh] at g2
      obtain rfl := Option.some.inj g2
      exact ⟨v, hvl, hnewh, by rw [hnewk, ← g3, hk]⟩
    · exact ⟨c, hcl', by rw [holdh c g1]; exact g2, by rw [holdk c g1]; exact g3⟩

/-- The compaction loop of `remove`, started in a set made by `insert` calls at a bucket
`v` whose `delta2_` is 0 unless its `delta1_` is not 0: it returns, at a bucket with both
deltas 0, and every round moves to the bucket being vacated a key whose ideal bucket it
is. -/
theorem removeLoop_compacting (s : HashSet K) (b0 : Nat) (rank : Nat → Nat)
    (hs2 : ∀ (i c : Nat), i < s.capacity_ → HashSet.OnChain s i c → c ≠ i →
      ∃ hv, s.hashes_[c]? = some hv ∧ hv ≠ NullHash ∧ hv % s.capacity_ = i)
    (fuel : Nat) :
    ∀ (t : HashSet K) (v : Nat), HashSet.Compacting NullHash s b0 rank t v →
      (t.delta1_[v]? = some 0 → t.delta2_[v]? = some 0) →
      occupied 0 t.delta1_ + occupied 0 t.delta2_ < fuel →
      ∃ t2 v2, HashSet.removeLoop fuel t v = Except.ok (t2, v2) ∧
        HashSet.Compacting NullHash s b0 rank t2 v2 ∧
        t2.delta1_[v2]? = some 0 ∧ t2.delta2_[v2]? = some 0 := by
  induction fuel with
  | zero =>
    intro t v _ _ h
    omega
  | succ fuel ih =>
    intro t v hc hz hnz
    obtain ⟨w1, w2, w3, w4⟩ := hc.wf
    have hr := hc.ranked
    have hv := hc.vlt
    have hv1 : v < t.delta1_.length := by omega
    have hv2 : v < t.delta2_.length := by omega
    have hv3 : v < t.hashes_.length := by omega
    have hv4 : v < t.keys_.length := by omega
    have hd1 : t.delta1_[v]? = some t.delta1_[v] := List.getElem?_eq_getElem hv1
    have hcap : 1 ≤ t.capacity_ := by omega
    by_cases c1 : t.delta1_[v] = 0
    · have z1 : t.delta1_[v]? = some 0 := by rw [hd1, c1]
      exact ⟨t, v, removeLoop_exit t v fuel z1 (hz z1), hc, z1, hz z1⟩
    · obtain ⟨f, a1, a2, a3⟩ := hr.1 v _ hd1 c1
      obtain ⟨sl, l, q1, q2, q3, q4⟩ :=
        removeLastLoop_total t rank w2 hr t.capacity_ f f a2 hcap (by omega)
      obtain ⟨k1, -, -⟩ := removeLastLoop_walk t _ f f sl l q1
      obtain ⟨r1, -, -⟩ := walk_rank t rank hr f l k1
      have hrl : rank v < rank l := by omega
      have hl3 : l < t.hashes_.length := by omega
      have hl4 : l < t.keys_.length := by omega
      have hvl : v ≠ l := by
        intro e
        rw [← e] at hrl
        omega
      -- the bucket `l` holds a key whose ideal bucket is `v`
      have hws : HashSet.Walk s f l :=
        walk_above t s rank hr hc.cap.symm (rank v)
          (fun c hcr => (hc.above c hcr).2.2.2.symm) f l k1 a3
      have hds : s.delta1_[v]? = some t.delta1_[v] := by rw [← hc.d1, hd1]
      have hons : HashSet.OnChain s v l :=
        Or.inr ⟨_, f, hds, c1, (addDelta1_congr t s v f hc.cap.symm (by rw [hc.d1])).2 a1, hws⟩
      obtain ⟨hl, g1, g2, g3⟩ := hs2 v l (by rw [← hc.cap]; exact hv) hons
        (fun e => hvl e.symm)
      have hhl : t.hashes_[l]? = some hl := by rw [(hc.above l hrl).1, g1]
      have hkl : t.keys_[l]? = some t.keys_[l] := List.getElem?_eq_getElem hl4
      -- the next round
      have next : ∀ (t' : HashSet K),
          HashSet.removeLoop (fuel + 1) t v = HashSet.removeLoop fuel t' l →
          HashSet.Compacting NullHash s b0 rank t' l →
          t'.delta2_[l]? = some 0 →
          occupied 0 t'.delta1_ + occupied 0 t'.delta2_ < fuel →
          ∃ t2 v2, HashSet.removeLoop (fuel + 1) t v = Except.ok (t2, v2) ∧
            HashSet.Compacting NullHash s b0 rank t2 v2 ∧
            t2.delta1_[v2]? = some 0 ∧ t2.delta2_[v2]? = some 0 := by
        intro t' e hc' hz' hnz'
        obtain ⟨t2, v2, e2, g⟩ := ih t' l hc' (fun _ => hz') hnz'
        exact ⟨t2, v2, by rw [e, e2], g⟩
      have hhome : ∀ (t' : HashSet K), t'.capacity_ = t.capacity_ →
          HashSet.OnChain t' (hl % t'.capacity_) v ∧
          (v ≠ hl % t'.capacity_ →
            ∃ hi, t'.hashes_[hl % t'.capacity_]? = some hi ∧ hi ≠ NullHash) := by
        intro t' e
        rw [e, hc.cap, g3]
        exact ⟨Or.inl rfl, fun e' => absurd rfl e'⟩
      rcases q4 with ⟨z, -, rfl⟩ | ⟨-, p1, p2, p3, dd, p4, p5, p6⟩
      · -- the chain of `v` has one bucket after `v`
        have e := removeLoop_round1 t v fuel _ l hl t.keys_[l] hd1 c1 a1 z hvl hkl hhl hv4 hv3
        refine next _ e ?_ z ?_
        · refine compacting_move NullHash s b0 rank t _ v l hl t.keys_[l] hc a2 hrl z hhl hkl
            g2 rfl rfl rfl rfl (by simp) rfl ?_ (fun x => Or.inl rfl) (hhome _ rfl)
          intro x
          by_cases hx : v = x
          · subst hx
            exact Or.inr ⟨List.getElem?_set_self hv1, a1, hrl⟩
          · exact Or.inl (List.getElem?_set_ne hx)
        · have := occupied_set_null 0 t.delta1_ v _ hd1 c1
          simp only
          omega
      · -- the chain of `v` has more than one bucket after `v`
        obtain ⟨e0, he0, he00⟩ : ∃ e0, t.delta2_[f]? = some e0 ∧ e0 ≠ 0 := by
          obtain ⟨-, -, k3⟩ := removeLastLoop_walk t _ f f sl l q1
          have hf2 : f < t.delta2_.length := by omega
          refine ⟨t.delta2_[f], List.getElem?_eq_getElem hf2, ?_⟩
          intro ez
          have z : t.delta2_[f]? = some 0 := by rw [List.getElem?_eq_getElem hf2, ez]
          rcases k3 with ⟨rfl, -⟩ | ⟨d', k4, -, -, -⟩
          · omega
          · have := walk_end t f sl z k4
            subst this
            rw [z] at p4
            exact p5 (Option.some.inj p4).symm
        obtain ⟨nx, n1, n2, n3, -⟩ := hr.2 sl dd p4 p5
        rw [p6] at n1
        cases n1
        have hsl2 : sl < t.delta2_.length := by omega
        have hsll : sl ≠ l := by
          intro e'
          rw [← e'] at n3
          omega
        have e := removeLoop_round2 t v fuel _ f e0 sl l hl t.keys_[l] hd1 (Or.inl ⟨c1, a1⟩)
          he0 he00 q1 hsl2 hvl hkl hhl hv4 hv3
        refine next _ e ?_ ?_ ?_
        · refine compacting_move NullHash s b0 rank t _ v l hl t.keys_[l] hc q2 hrl q3 hhl hkl
            g2 rfl rfl rfl rfl rfl (by simp) (fun x => Or.inl rfl) ?_ (hhome _ rfl)
          intro x
          by_cases hx : sl = x
          · subst hx
            exact Or.inr ⟨List.getElem?_set_self hsl2, p6, n3⟩
          · exact Or.inl (List.getElem?_set_ne hx)
        · simp only
          rw [List.getElem?_set_ne hsll]
          exact q3
        · have := occupied_set_null 0 t.delta2_ sl dd p4 p5
          simp only
          omega

theorem walk_trans (s : HashSet K) (a b c : Nat) (h1 : HashSet.Walk s a b)
    (h2 : HashSet.Walk s b c) : HashSet.Walk s a c := by
  induction h1 with
  | here a => exact h2
  | next a nx b d hd hd0 hadd _ ih => exact HashSet.Walk.next a nx c d hd hd0 hadd (ih h2)

/-- The walk from a bucket on the chain of `i`, other than `i`, stays on the chain of
`i`. -/
theorem onChain_trans (s : HashSet K) (i a c : Nat) (h1 : HashSet.OnChain s i a)
    (hai : a ≠ i) (h2 : HashSet.Walk s a c) : HashSet.OnChain s i c := by
  rcases h1 with e | ⟨d, f, hd, hd0, hadd, hw⟩
  · exact absurd e hai
  · exact Or.inr ⟨d, f, hd, hd0, hadd, walk_trans s f a c hw h2⟩

/-- A bucket on the chain of `i`, other than `i`, is numbered above `i`, below
`capacity_`, and `delta1_[i]` is not 0. -/
theorem onChain_rank (s : HashSet K) (rank : Nat → Nat) (hr : HashSet.Ranked s rank)
    (i c : Nat) (h : HashSet.OnChain s i c) (hci : c ≠ i) :
    rank i < rank c ∧ c < s.capacity_ ∧ ∃ d, s.delta1_[i]? = some d ∧ d ≠ 0 := by
  rcases h with e | ⟨d, f, hd, hd0, hadd, hw⟩
  · exact absurd e hci
  · obtain ⟨nx, a1, a2, a3⟩ := hr.1 i d hd hd0
    rw [hadd] at a1
    cases a1
    obtain ⟨g1, -, g3⟩ := walk_rank s rank hr f c hw
    exact ⟨by omega, g3 a2, d, hd, hd0⟩

/-- A set made by `insert` calls, when `remove` has found its key in the bucket `b0` and
has changed nothing yet. -/
theorem compacting_start (s : HashSet K) (rank : Nat → Nat) (hwf : s.WF)
    (hr : HashSet.Ranked s rank) (hch : HashSet.Chained NullHash s rank)
    (hl : HashSet.Listed NullHash s) (hcap : 0 < s.capacity_) (b0 hb : Nat)
    (hb0 : s.hashes_[b0]? = some hb) (hbne : hb ≠ NullHash) :
    HashSet.Compacting NullHash s b0 rank s b0 := by
  have hlen : ∀ (c hv : Nat), s.hashes_[c]? = some hv → c < s.capacity_ := by
    intro c hv e
    rcases List.getElem?_eq_some.1 e with ⟨w, -⟩
    rw [hwf.2.2.1] at w
    exact w
  refine
    { wf := hwf
      cap := rfl
      size := rfl
      ranked := hr
      vlt := hlen b0 hb hb0
      rk := Nat.le_refl _
      above := fun c _ => ⟨rfl, rfl, rfl, rfl⟩
      d1 := rfl
      full := ⟨hb, hb0, hbne⟩
      findable := ?_
      fromOld := fun c hv hc h1 _ => ⟨c, hc, h1, rfl⟩
      toNew := fun c hv hc h1 _ => ⟨c, hc, h1, rfl⟩ }
  intro c hv _ hch' hvne
  have hi : hv % s.capacity_ < s.capacity_ := Nat.mod_lt _ hcap
  by_cases hci : c = hv % s.capacity_
  · exact ⟨Or.inl hci, fun e => absurd hci e⟩
  · have hon := (listed_onChain NullHash s hl _ c hi hci).2 ⟨hv, hch', hvne, rfl⟩
    refine ⟨hon, fun _ => ?_⟩
    obtain ⟨-, -, d, hd, hd0⟩ := onChain_rank s rank hr _ c hon hci
    have hil : hv % s.capacity_ < s.hashes_.length := by rw [hwf.2.2.1]; exact hi
    refine ⟨_, List.getElem?_eq_getElem hil, ?_⟩
    intro e
    have := (hch.2.2 (hv % s.capacity_) (by rw [List.getElem?_eq_getElem hil, e])).1
    rw [hd] at this
    exact hd0 (Option.some.inj this)

/-- Clearing links that lead to the bucket `v` about to be vacated, whose `delta2_` is 0,
keeps the state of the compaction. -/
theorem compacting_cut (s : HashSet K) (b0 : Nat) (rank : Nat → Nat) (t t' : HashSet K)
    (v : Nat) (hc : HashSet.Compacting NullHash s b0 rank t v)
    (hv0 : t.delta2_[v]? = some 0)
    (hcap : t'.capacity_ = t.capacity_) (hsize : t'.size_ = t.size_)
    (hhash : t'.hashes_ = t.hashes_) (hkeys : t'.keys_ = t.keys_)
    (hlen1 : t'.delta1_.length = t.delta1_.length)
    (hlen2 : t'.delta2_.length = t.delta2_.length)
    (h1 : ∀ x, t'.delta1_[x]? = t.delta1_[x]? ∨
      (t'.delta1_[x]? = some 0 ∧ HashSet.addDelta1 t x = Except.ok v ∧ rank x < rank v))
    (h2 : ∀ x, t'.delta2_[x]? = t.delta2_[x]? ∨
      (t'.delta2_[x]? = some 0 ∧ HashSet.addDelta2 t x = Except.ok v ∧ rank x < rank v)) :
    HashSet.Compacting NullHash s b0 rank t' v := by
  obtain ⟨w1, w2, w3, w4⟩ := hc.wf
  refine
    { wf := ⟨by omega, by omega, by rw [hhash, hcap]; exact w3, by rw [hkeys, hcap]; exact w4⟩
      cap := by rw [hcap, hc.cap]
      size := by rw [hsize, hc.size]
      ranked := ?_
      vlt := by rw [hcap]; exact hc.vlt
      rk := hc.rk
      above := ?_
      d1 := ?_
      full := by rw [hhash]; exact hc.full
      findable := ?_
      fromOld := by rw [hhash, hkeys]; exact hc.fromOld
      toNew := by rw [hhash, hkeys]; exact hc.toNew }
  · refine ranked_congr t t' rank hc.ranked hcap ?_ ?_
    · intro c d hd hd0
      rcases h1 c with e | ⟨e, -, -⟩
      · rw [← e]; exact hd
      · rw [e] at hd
        exact absurd (Option.some.inj hd).symm hd0
    · intro c d hd hd0
      rcases h2 c with e | ⟨e, -, -⟩
      · rw [← e]; exact hd
      · rw [e] at hd
        exact absurd (Option.some.inj hd).symm hd0
  · intro c hcr
    obtain ⟨g1, g2, g3, g4⟩ := hc.above c hcr
    refine ⟨by rw [hhash, g1], by rw [hkeys, g2], ?_, ?_⟩
    · rcases h1 c with e | ⟨-, -, e⟩
      · rw [e, g3]
      · omega
    · rcases h2 c with e | ⟨-, -, e⟩
      · rw [e, g4]
      · omega
  · rcases h1 v with e | ⟨-, -, e⟩
    · rw [e, hc.d1]
    · omega
  · intro c hv hcv hch hvne
    rw [hhash] at hch
    obtain ⟨g1, g2⟩ := hc.findable c hv hcv hch hvne
    rw [hcap, hhash]
    exact ⟨onChain_cut t t' hcap v hv0 (fun x => (h1 x).imp id (fun e => e.2.1))
      (fun x => (h2 x).imp id (fun e => e.2.1)) _ c g1 hcv, g2⟩

/-- The call `remove` of a key found in the bucket `f`, the bucket before it being `p`:
when the delta fix gives the set `s1` and the compaction loop, started at `f` in `s1`,
exits at the bucket `b2` of the set `s2`, the call returns true and leaves `s2` with
bucket `b2` emptied and `size_` one less. -/
theorem remove_eq (s s1 s2 : HashSet K) (k : K) (f p hv d2 b2 : Nat) (lv : Bool)
    (hf : HashSet.findBucketIndex hashFunc_ NullHash s k = Except.ok (true, f, p))
    (hh : s.hashes_[f]? = some hv) (hd2 : s.delta2_[f]? = some d2)
    (hlv : lv = (decide (f ≠ hv % s.capacity_) && decide (d2 = 0)))
    (hfix : (if lv = true then do
        let first ← HashSet.addDelta1 s p
        if first = f then
          let delta1 ← wr s s.delta1_ p 0
          pure { s with delta1_ := delta1 }
        else
          let second ← HashSet.addDelta2 s p
          if second = f then
            let delta2 ← wr s s.delta2_ p 0
            pure { s with delta2_ := delta2 }
          else pure s
      else pure s) = Except.ok s1)
    (hloop : HashSet.removeLoop (2 * s.capacity_ + 1) s1 f = Except.ok (s2, b2))
    (hb2 : b2 < s2.hashes_.length) :
    HashSet.remove hashFunc_ NullHash s k =
      Except.ok (true, { s2 with hashes_ := s2.hashes_.set b2 NullHash,
                                 size_ := s2.size_ - 1 }) := by
  have hh' : rd s s.hashes_ f = Except.ok hv := by
    simp only [rd, hh]
    rfl
  have hd' : rd s s.delta2_ f = Except.ok d2 := by
    simp only [rd, hd2]
    rfl
  have hlast : (if f ≠ hv % s.capacity_ then pure (decide (d2 = 0)) else pure false :
      Run K Bool) = Except.ok lv := by
    rw [hlv]
    by_cases c : f ≠ hv % s.capacity_
    · rw [if_pos c, decide_eq_true c, Bool.true_and]
      rfl
    · rw [if_neg c, decide_eq_false c, Bool.false_and]
      rfl
  unfold HashSet.remove
  simp only [hf, ok_bind, if_true, hh', hd', hlast, hfix, hloop]
  simp only [wr, hb2, if_true, pure_bind]
  rfl

/-- The end of a `remove` whose compaction loop has exited at the bucket `v2`: once that
bucket is emptied, the key that was removed is not found any more, and every other key
that was found before the call is still found. -/
theorem compacting_done (hH : ∀ k, hashFunc_ k ≠ NullHash) (s : HashSet K) (b0 : Nat)
    (rank : Nat → Nat) (t2 : HashSet K) (v2 : Nat) (k : K)
    (hc : HashSet.Compacting NullHash s b0 rank t2 v2) (hcap : 0 < s.capacity_)
    (hz1 : t2.delta1_[v2]? = some 0) (hz2 : t2.delta2_[v2]? = some 0)
    (hbh : s.hashes_[b0]? = some (hashFunc_ k)) (hbk : s.keys_[b0]? = some k)
    (hdist : ∀ (c c' : Nat) (k : K), s.hashes_[c]? = some (hashFunc_ k) →
      s.keys_[c]? = some k → s.hashes_[c']? = some (hashFunc_ k) → s.keys_[c']? = some k →
      c = c')
    (hocc : s.size_ = occupied NullHash s.hashes_) :
    HashSet.contains hashFunc_ NullHash
      { t2 with hashes_ := t2.hashes_.set v2 NullHash, size_ := t2.size_ - 1 } k
        = Except.ok false ∧
    ∀ k', k' ≠ k → HashSet.contains hashFunc_ NullHash s k' = Except.ok true →
      HashSet.contains hashFunc_ NullHash
        { t2 with hashes_ := t2.hashes_.set v2 NullHash, size_ := t2.size_ - 1 } k'
          = Except.ok true := by
  obtain ⟨w1, w2, w3, w4⟩ := hc.wf
  have hv := hc.vlt
  have hv3 : v2 < t2.hashes_.length := by omega
  have hwf' : HashSet.WF
      { t2 with hashes_ := t2.hashes_.set v2 NullHash, size_ := t2.size_ - 1 } :=
    ⟨w1, w2, by simp only [List.length_set]; exact w3, w4⟩
  have hr' : HashSet.Ranked
      { t2 with hashes_ := t2.hashes_.set v2 NullHash, size_ := t2.size_ - 1 } rank :=
    ranked_congr t2 _ rank hc.ranked rfl (fun c d h _ => h) (fun c d h _ => h)
  have hcap' : 0 < t2.capacity_ := by rw [hc.cap]; exact hcap
  have hold : ∀ c, c ≠ v2 → (t2.hashes_.set v2 NullHash)[c]? = t2.hashes_[c]? :=
    fun c hcv => List.getElem?_set_ne (fun e => hcv e.symm)
  constructor
  · obtain ⟨⟨b, f, q⟩, hres⟩ := findBucketIndex_ranked hashFunc_ NullHash _ hwf' hcap' rank hr' k
    cases b
    · exact (contains_eq hashFunc_ NullHash _ k false).2 ⟨f, q, hres⟩
    · exfalso
      obtain ⟨-, g1, g2⟩ := findBucketIndex_found hashFunc_ NullHash _ k f q hres
      simp only at g1 g2
      have hfv : f ≠ v2 := by
        intro e
        subst e
        rw [List.getElem?_set_self hv3] at g1
        exact hH k (Option.some.inj g1).symm
      rw [hold f hfv] at g1
      obtain ⟨c', e1, e2, e3⟩ := hc.fromOld f _ hfv g1 (hH k)
      rw [g2] at e3
      exact e1 (hdist c' b0 k e2 e3 hbh hbk)
  · intro k' hkk hcont
    obtain ⟨c', p', hf'⟩ := (contains_eq hashFunc_ NullHash s k' true).1 hcont
    obtain ⟨-, g1, g2⟩ := findBucketIndex_found hashFunc_ NullHash s k' c' p' hf'
    have hcb : c' ≠ b0 := by
      intro e
      subst e
      rw [hbk] at g2
      exact hkk (Option.some.inj g2).symm
    obtain ⟨c, e1, e2, e3⟩ := hc.toNew c' _ hcb g1 (hH k')
    rw [g2] at e3
    obtain ⟨f1, f2⟩ := hc.findable c _ e1 e2 (hH k')
    have hsz : t2.size_ - 1 ≠ 0 := by
      have h1 := occupied_set_null NullHash s.hashes_ b0 _ hbh (hH k)
      have h2 := occupied_pos NullHash (s.hashes_.set b0 NullHash) c' _
        (by rw [List.getElem?_set_ne (fun e => hcb e.symm)]; exact g1) (hH k')
      have := hc.size
      omega
    obtain ⟨f, q, hres⟩ := findBucketIndex_onChain hashFunc_ NullHash _ hwf' hcap' rank hr' k' c
      hsz (hH k') (by simp only; rw [hold c e1]; exact e2) e3
      (onChain_cut t2
        { t2 with hashes_ := t2.hashes_.set v2 NullHash, size_ := t2.size_ - 1 }
        rfl v2 hz2 (fun x => Or.inl rfl) (fun x => Or.inl rfl) _ c f1 e1)
      (by
        intro hci
        obtain ⟨hi, g3, g4⟩ := f2 hci
        have hiv : hashFunc_ k' % t2.capacity_ ≠ v2 := by
          intro e
          rcases f1 with e' | ⟨d, _, hd, hd0, -, -⟩
          · exact hci e'
          · rw [e, hz1] at hd
            exact hd0 (Option.some.inj hd).symm
        exact ⟨hi, by simp only; rw [hold _ hiv]; exact g3, g4⟩)
    exact (contains_eq hashFunc_ NullHash _ k' true).2 ⟨f, q, hres⟩

/-- The first round of the compaction loop of `remove` at a bucket `b0` that is on the
chain of another bucket `i`, has `delta1_` 0 and has a `delta2_` that is not 0: the key of
the last bucket `l` of the chain of `i` moves to `b0`. -/
theorem compacting_first (s : HashSet K) (b0 : Nat) (rank : Nat → Nat)
    (hs2 : ∀ (i c : Nat), i < s.capacity_ → HashSet.OnChain s i c → c ≠ i →
      ∃ hv, s.hashes_[c]? = some hv ∧ hv ≠ NullHash ∧ hv % s.capacity_ = i)
    (hc : HashSet.Compacting NullHash s b0 rank s b0) (i : Nat) (hi : i < s.capacity_)
    (hon : HashSet.OnChain s i b0) (hbi : b0 ≠ i) (hd1 : s.delta1_[b0]? = some 0)
    (d2 : Nat) (hd2 : s.delta2_[b0]? = some d2) (hd20 : d2 ≠ 0) (fuel : Nat) :
    ∃ t' l, HashSet.removeLoop (fuel + 1) s b0 = HashSet.removeLoop fuel t' l ∧
      HashSet.Compacting NullHash s b0 rank t' l ∧ t'.delta2_[l]? = some 0 ∧
      occupied 0 t'.delta1_ + occupied 0 t'.delta2_ + 1
        = occupied 0 s.delta1_ + occupied 0 s.delta2_ := by
  obtain ⟨w1, w2, w3, w4⟩ := hc.wf
  have hr := hc.ranked
  have hb := hc.vlt
  have hcap : 1 ≤ s.capacity_ := by omega
  obtain ⟨sl, l, q1, q2, q3, q4⟩ :=
    removeLastLoop_total s rank w2 hr s.capacity_ b0 b0 hb hcap (by omega)
  obtain ⟨k1, -, -⟩ := removeLastLoop_walk s _ b0 b0 sl l q1
  rcases q4 with ⟨z, -, -⟩ | ⟨-, p1, p2, p3, dd, p4, p5, p6⟩
  · rw [hd2] at z
    exact absurd (Option.some.inj z) hd20
  · obtain ⟨nx, n1, n2, n3, -⟩ := hr.2 sl dd p4 p5
    rw [p6] at n1
    cases n1
    have hbl : b0 ≠ l := by
      intro e
      rw [← e] at p3
      omega
    have hsll : sl ≠ l := by
      intro e
      rw [← e] at n3
      omega
    obtain ⟨ri, -, -⟩ := onChain_rank s rank hr i b0 hon hbi
    have hli : l ≠ i := by
      intro e
      rw [e] at p3
      omega
    have honl := onChain_trans s i b0 l hon hbi k1
    obtain ⟨hl, g1, g2, g3⟩ := hs2 i l hi honl hli
    have hl4 : l < s.keys_.length := by omega
    have hkl : s.keys_[l]? = some s.keys_[l] := List.getElem?_eq_getElem hl4
    have e := removeLoop_round2 s b0 fuel 0 b0 d2 sl l hl s.keys_[l] hd1 (Or.inr ⟨rfl, rfl⟩)
      hd2 hd20 q1 (by omega) hbl hkl g1 (by omega) (by omega)
    refine ⟨_, l, e, ?_, ?_, ?_⟩
    · refine compacting_move NullHash s b0 rank s _ b0 l hl s.keys_[l] hc q2 p3 q3 g1 hkl
        g2 rfl rfl rfl rfl rfl (by simp) (fun x => Or.inl rfl) ?_ ?_
      · intro x
        by_cases hx : sl = x
        · subst hx
          exact Or.inr ⟨List.getElem?_set_self (by omega), p6, n3⟩
        · exact Or.inl (List.getElem?_set_ne hx)
      · simp only
        rw [g3]
        refine ⟨onChain_cut s
          { s with delta2_ := s.delta2_.set sl 0, keys_ := s.keys_.set b0 s.keys_[l],
                   hashes_ := s.hashes_.set b0 hl }
          rfl l q3 (fun x => Or.inl rfl) ?_ i b0 hon hbl, fun _ => ?_⟩
        · intro x
          by_cases hx : sl = x
          · subst hx
            exact Or.inr p6
          · exact Or.inl (List.getElem?_set_ne hx)
        · obtain ⟨hiv, f1, f2⟩ := (hc.findable l hl (fun e' => hbl e'.symm) g1 g2).2
            (by rw [g3]; exact hli)
          rw [g3] at f1
          exact ⟨hiv, by rw [List.getElem?_set_ne hbi]; exact f1, f2⟩
    · simp only
      rw [List.getElem?_set_ne hsll]
      exact q3
    · have := occupied_set_null 0 s.delta2_ sl dd p4 p5
      simp only
      omega

/-- C22: a single `remove` on a set made by `insert` calls loses nothing.  For a hash
function that never returns `NullHash`, a set `s` made from a fresh one by `insert` calls
only, and a key `k` that `s` contains: `remove(k)` returns true; afterwards `contains(k)`
gives false, and `contains` gives true for every other key for which it gave true
before. -/
theorem single_remove_keeps_others [Inhabited K] (hH : ∀ k, hashFunc_ k ≠ NullHash)
    (s : HashSet K) (hs : HashSet.InsertOnly hashFunc_ NullHash s) (k : K)
    (hk : HashSet.contains hashFunc_ NullHash s k = Except.ok true) :
    ∃ s', HashSet.remove hashFunc_ NullHash s k = Except.ok (true, s') ∧
      HashSet.contains hashFunc_ NullHash s' k = Except.ok false ∧
      ∀ k', k' ≠ k → HashSet.contains hashFunc_ NullHash s k' = Except.ok true →
        HashSet.contains hashFunc_ NullHash s' k' = Except.ok true := by
  obtain ⟨hwf, hocc, hcap, rank, hch, how⟩ := insertOnly_inv hashFunc_ NullHash hH s hs
  have hr := ranked_of_grown hashFunc_ NullHash s rank hwf hocc hch how
  have hl := insertOnly_listed hashFunc_ NullHash hH s hs
  have hfor := insertOnly_foreign hashFunc_ NullHash hH s hs
  have hdist := insertOnly_distinct hashFunc_ NullHash hH s hs
  obtain ⟨b0, p, hf⟩ := (contains_eq hashFunc_ NullHash s k true).1 hk
  obtain ⟨hz, hbh, hbk⟩ := findBucketIndex_found hashFunc_ NullHash s k b0 p hf
  have hstart := compacting_start NullHash s rank hwf hr hch hl hcap b0 _ hbh (hH k)
  have hb := hstart.vlt
  have hi : hashFunc_ k % s.capacity_ < s.capacity_ := Nat.mod_lt _ hcap
  have hs2 : ∀ (i c : Nat), i < s.capacity_ → HashSet.OnChain s i c → c ≠ i →
      ∃ hv, s.hashes_[c]? = some hv ∧ hv ≠ NullHash ∧ hv % s.capacity_ = i :=
    fun i c hi' hon hci => (listed_onChain NullHash s hl i c hi' hci).1 hon
  obtain ⟨w1, w2, w3, w4⟩ := hwf
  have hb1 : b0 < s.delta1_.length := by omega
  have hb2 : b0 < s.delta2_.length := by omega
  have hd1 : s.delta1_[b0]? = some s.delta1_[b0] := List.getElem?_eq_getElem hb1
  have hd2 : s.delta2_[b0]? = some s.delta2_[b0] := List.getElem?_eq_getElem hb2
  have hnz : occupied 0 s.delta1_ + occupied 0 s.delta2_ < 2 * s.capacity_ + 1 := by
    have h1 := occupied_le 0 s.delta1_
    have h2 := occupied_le 0 s.delta2_
    omega
  -- the end of the call, once the compaction loop has returned
  have finish : ∀ (s1 t2 : HashSet K) (v2 : Nat) (lv : Bool),
      lv = (decide (b0 ≠ hashFunc_ k % s.capacity_) && decide (s.delta2_[b0] = 0)) →
      (if lv = true then do
          let first ← HashSet.addDelta1 s p
          if first = b0 then
            let delta1 ← wr s s.delta1_ p 0
            pure { s with delta1_ := delta1 }
          else
            let second ← HashSet.addDelta2 s p
            if second = b0 then
              let delta2 ← wr s s.delta2_ p 0
              pure { s with delta2_ := delta2 }
            else pure s
        else pure s) = Except.ok s1 →
      HashSet.removeLoop (2 * s.capacity_ + 1) s1 b0 = Except.ok (t2, v2) →
      HashSet.Compacting NullHash s b0 rank t2 v2 →
      t2.delta1_[v2]? = some 0 → t2.delta2_[v2]? = some 0 →
      ∃ s', HashSet.remove hashFunc_ NullHash s k = Except.ok (true, s') ∧
        HashSet.contains hashFunc_ NullHash s' k = Except.ok false ∧
        ∀ k', k' ≠ k → HashSet.contains hashFunc_ NullHash s k' = Except.ok true →
          HashSet.contains hashFunc_ NullHash s' k' = Except.ok true := by
    intro s1 t2 v2 lv hlv hfix hloop hc2 z1 z2
    have hv3 : v2 < t2.hashes_.length := by
      have := hc2.vlt
      rw [hc2.wf.2.2.1]
      exact this
    have e := remove_eq hashFunc_ NullHash s s1 t2 k b0 p _ _ v2 lv hf hbh hd2 hlv hfix hloop hv3
    obtain ⟨g1, g2⟩ := compacting_done hashFunc_ NullHash hH s b0 rank t2 v2 k hc2 hcap z1 z2
      hbh hbk hdist hocc
    exact ⟨_, e, g1, g2⟩
  by_cases hbi : b0 = hashFunc_ k % s.capacity_
  · -- the key is in its ideal bucket
    have z2 : s.delta2_[b0]? = some 0 := by
      by_cases c2 : s.delta2_[b0] = 0
      · rw [hd2, c2]
      · obtain ⟨hv, g1, -, g3⟩ := hfor b0 _ hd2 c2
        rw [hbh] at g1
        obtain rfl := Option.some.inj g1
        exact absurd hbi.symm g3
    obtain ⟨t2, v2, hloop, hc2, z1', z2'⟩ :=
      removeLoop_compacting NullHash s b0 rank hs2 _ s b0 hstart (fun _ => z2) hnz
    refine finish s t2 v2 false ?_ rfl hloop hc2 z1' z2'
    simp [hbi]
  · by_cases c2 : s.delta2_[b0] = 0
    · -- the key is in the last bucket of its chain
      have z2 : s.delta2_[b0]? = some 0 := by rw [hd2, c2]
      have hlv : true = (decide (b0 ≠ hashFunc_ k % s.capacity_) && decide (s.delta2_[b0] = 0)) := by
        simp [hbi, c2]
      -- the end of the call, once the delta fix is known
      have fixed : ∀ (s1 : HashSet K),
          (if true = true then do
              let first ← HashSet.addDelta1 s p
              if first = b0 then
                let delta1 ← wr s s.delta1_ p 0
                pure { s with delta1_ := delta1 }
              else
                let second ← HashSet.addDelta2 s p
                if second = b0 then
                  let delta2 ← wr s s.delta2_ p 0
                  pure { s with delta2_ := delta2 }
                else pure s
            else pure s) = Except.ok s1 →
          HashSet.Compacting NullHash s b0 rank s1 b0 → s1.delta2_[b0]? = some 0 →
          occupied 0 s1.delta1_ + occupied 0 s1.delta2_ < 2 * s.capacity_ + 1 →
          ∃ s', HashSet.remove hashFunc_ NullHash s k = Except.ok (true, s') ∧
            HashSet.contains hashFunc_ NullHash s' k = Except.ok false ∧
            ∀ k', k' ≠ k → HashSet.contains hashFunc_ NullHash s k' = Except.ok true →
              HashSet.contains hashFunc_ NullHash s' k' = Except.ok true := by
        intro s1 hfix hc1 hz1 hm
        obtain ⟨t2, v2, hloop, hc2, z1', z2'⟩ :=
          removeLoop_compacting NullHash s b0 rank hs2 _ s1 b0 hc1 (fun _ => hz1) hm
        exact finish s1 t2 v2 true hlv hfix hloop hc2 z1' z2'
      rcases findBucketIndex_true_inv hashFunc_ NullHash s k b0 p hf with
        ⟨e, -⟩ | ⟨rfl, d, g1, g2, g3⟩ | ⟨d, f0, dp, g1, g2, g3, g4, g5, g6, g7⟩
      · exact absurd e hbi
      · -- the bucket before it is the ideal bucket
        obtain ⟨nx, a1, a2, a3⟩ := hr.1 _ d g1 g2
        rw [g3] at a1
        cases a1
        have hp1 : hashFunc_ k % s.capacity_ < s.delta1_.length := by omega
        refine fixed { s with delta1_ := s.delta1_.set (hashFunc_ k % s.capacity_) 0 } ?_ ?_
          z2 ?_
        · simp only [if_true, g3, ok_bind, wr, hp1, pure_bind]
          rfl
        · refine compacting_cut NullHash s b0 rank s _ b0 hstart z2 rfl rfl rfl rfl (by simp)
            rfl ?_ (fun x => Or.inl rfl)
          intro x
          by_cases hx : hashFunc_ k % s.capacity_ = x
          · subst hx
            exact Or.inr ⟨List.getElem?_set_self hp1, g3, a3⟩
          · exact Or.inl (List.getElem?_set_ne hx)
        · have := occupied_set_null 0 s.delta1_ _ d g1 g2
          simp only
          omega
      · -- the bucket before it is on the chain
        obtain ⟨nx, a1, a2, a3, -⟩ := hr.2 p dp g5 g6
        rw [g7] at a1
        cases a1
        have hp : p < s.capacity_ := by
          rcases List.getElem?_eq_some.1 g5 with ⟨w, -⟩
          omega
        have hp1 : p < s.delta1_.length := by omega
        have hp2 : p < s.delta2_.length := by omega
        have hpb : p ≠ b0 := by
          intro e
          rw [e] at a3
          omega
        have hdp : s.delta1_[p]? = some s.delta1_[p] := List.getElem?_eq_getElem hp1
        obtain ⟨x, hx⟩ : ∃ x, HashSet.addDelta1 s p = Except.ok x :=
          ⟨_, (addDelta1_ok s p _).2 ⟨_, hdp, rfl⟩⟩
        have hxb : x ≠ b0 := by
          intro e
          subst e
          by_cases c : s.delta1_[p] = 0
          · obtain ⟨d', e1, e2⟩ := (addDelta1_ok s p x).1 hx
            rw [hdp] at e1
            obtain rfl := Option.some.inj e1
            rw [c] at e2
            have : ¬ (p + 0 > s.capacity_ - 1) := by omega
            simp only [this, if_false] at e2
            omega
          · have hon : HashSet.OnChain s p x :=
              Or.inr ⟨_, x, hdp, c, hx, HashSet.Walk.here x⟩
            obtain ⟨hv, e1, -, e3⟩ := hs2 p x hp hon (fun e => hpb e.symm)
            rw [hbh] at e1
            obtain rfl := Option.some.inj e1
            obtain ⟨nx', b1, b2, b3⟩ := hr.1 _ d g1 g2
            rw [g3] at b1
            cases b1
            obtain ⟨r1, -, -⟩ := walk_rank s rank hr f0 p g4
            rw [e3] at b3
            omega
        refine fixed { s with delta2_ := s.delta2_.set p 0 } ?_ ?_ ?_ ?_
        · simp only [if_true, hx, g7, ok_bind, hxb, if_false, wr, hp2, pure_bind]
          rfl
        · refine compacting_cut NullHash s b0 rank s _ b0 hstart z2 rfl rfl rfl rfl rfl
            (by simp) (fun x => Or.inl rfl) ?_
          intro y
          by_cases hy : p = y
          · subst hy
            exact Or.inr ⟨List.getElem?_set_self hp2, g7, a3⟩
          · exact Or.inl (List.getElem?_set_ne hy)
        · simp only
          rw [List.getElem?_set_ne hpb]
          exact z2
        · have := occupied_set_null 0 s.delta2_ _ dp g5 g6
          simp only
          omega
    · -- the key is in a bucket of its chain that is not the last one
      have hlv : false = (decide (b0 ≠ hashFunc_ k % s.capacity_) &&
          decide (s.delta2_[b0] = 0)) := by
        simp [c2]
      by_cases c1 : s.delta1_[b0] = 0
      · have hon : HashSet.OnChain s (hashFunc_ k % s.capacity_) b0 :=
          (listed_onChain NullHash s hl _ b0 hi hbi).2 ⟨_, hbh, hH k, rfl⟩
        obtain ⟨t', l, e, hc', hz', hm⟩ :=
          compacting_first NullHash s b0 rank hs2 hstart _ hi hon hbi (by rw [hd1, c1]) _ hd2
            c2 (2 * s.capacity_)
        obtain ⟨t2, v2, hloop, hc2, z1', z2'⟩ :=
          removeLoop_compacting NullHash s b0 rank hs2 (2 * s.capacity_) t' l hc' (fun _ => hz')
            (by omega)
        exact finish s t2 v2 false hlv rfl (by rw [e, hloop]) hc2 z1' z2'
      · obtain ⟨t2, v2, hloop, hc2, z1', z2'⟩ :=
          removeLoop_compacting NullHash s b0 rank hs2 _ s b0 hstart
            (fun z => by rw [hd1] at z; exact absurd (Option.some.inj z) c1) hnz
        exact finish s t2 v2 false hlv rfl hloop hc2 z1' z2'

/-- The call `remove` of a key found in a bucket `b` whose `delta2_` is not 0, so that no
link is cleared before the compaction loop: once the first round of the loop has left the
set `st` and goes on at the bucket `nxt`, the call returns true, and the buckets numbered
below `r0`, a number not above the one of `nxt`, are in the end what they are in `st`. -/
theorem remove_unfixed_after_round (s st : HashSet K) (k : K) (b p hv d2 nxt r0 : Nat)
    (rank : Nat → Nat)
    (hf : HashSet.findBucketIndex hashFunc_ NullHash s k = Except.ok (true, b, p))
    (hh : s.hashes_[b]? = some hv) (hd2 : s.delta2_[b]? = some d2) (hd20 : d2 ≠ 0)
    (e : HashSet.removeLoop (2 * s.capacity_ + 1) s b
      = HashSet.removeLoop (2 * s.capacity_) st nxt)
    (hwf : st.WF) (hr : HashSet.Ranked st rank) (hn : nxt < st.capacity_)
    (hrn : r0 ≤ rank nxt)
    (hnz : occupied 0 st.delta1_ + occupied 0 st.delta2_ < 2 * s.capacity_) :
    ∃ s', HashSet.remove hashFunc_ NullHash s k = Except.ok (true, s') ∧
      ∀ c, rank c < r0 →
        s'.hashes_[c]? = st.hashes_[c]? ∧ s'.keys_[c]? = st.keys_[c]? ∧
        s'.delta1_[c]? = st.delta1_[c]? ∧ s'.delta2_[c]? = st.delta2_[c]? := by
  obtain ⟨s2, b2, e2, g1, g2⟩ :=
    removeLoop_healthy rank r0 (2 * s.capacity_) st nxt hwf hr hn hrn hnz
  have hloop : HashSet.removeLoop (2 * s.capacity_ + 1) s b = Except.ok (s2, b2) := by
    rw [e, e2]
  have hb : b < s.hashes_.length := by
    rcases List.getElem?_eq_some.1 hh with ⟨w, -⟩
    exact w
  obtain ⟨-, -, -, -, -, -, i7, -⟩ := removeLoop_inv NullHash _ s b s2 b2 hloop hb
  have hlv : false = (decide (b ≠ hv % s.capacity_) && decide (d2 = 0)) := by
    simp [hd20]
  refine ⟨_, remove_eq hashFunc_ NullHash s s s2 k b p hv d2 b2 false hf hh hd2 hlv rfl
    hloop i7, ?_⟩
  intro c hc
  obtain ⟨k1, k2, k3, k4⟩ := g2 c hc
  have hcb : b2 ≠ c := by
    intro e'
    subst e'
    omega
  exact ⟨by simp only [List.getElem?_set_ne hcb, k1], k2, k3, k4⟩

/-- How far the defect of the compaction loop of `remove` reaches.  For a hash function
that never returns `NullHash` and a set made from a fresh one by `insert` calls only: let
bucket `b` hold a key and let `delta2_[b]` be not 0.  When `delta1_[b]` is not 0 either,
`remove` of that key returns true and follows `delta1_[b]` instead of the `delta2_` chain
of `b`: with `f` the bucket `delta1_[b]` leads to and `l` the bucket at which the
`delta2_` walk from `f` ends, bucket `b` holds afterwards the hash and the key that were
in `l`, `delta2_[b]` is what it was, and `delta1_[b]` is 0 when `l` is `f` and what it
was otherwise.  Only when `delta1_[b]` is 0 does the code follow `delta2_[b]`: with `l`
the bucket at which the `delta2_` walk from `b` ends and `sl` the bucket before it,
bucket `b` holds afterwards the hash and the key that were in `l`, and `delta2_[b]` is 0
when `sl` is `b` and what it was otherwise. -/
theorem remove_tie_break [Inhabited K] (hH : ∀ k, hashFunc_ k ≠ NullHash)
    (s : HashSet K) (hs : HashSet.InsertOnly hashFunc_ NullHash s) (b d2 : Nat) (key : K)
    (hk : s.keys_[b]? = some key) (hh : s.hashes_[b]? = some (hashFunc_ key))
    (hd2 : s.delta2_[b]? = some d2) (h20 : d2 ≠ 0) :
    (∀ d1, s.delta1_[b]? = some d1 → d1 ≠ 0 →
      ∃ f sl l s', HashSet.addDelta1 s b = Except.ok f ∧
        HashSet.removeLastLoop s s.capacity_ f f = Except.ok (sl, l) ∧
        HashSet.remove hashFunc_ NullHash s key = Except.ok (true, s') ∧
        s'.hashes_[b]? = s.hashes_[l]? ∧ s'.keys_[b]? = s.keys_[l]? ∧
        s'.delta2_[b]? = some d2 ∧
        (l = f → s'.delta1_[b]? = some 0) ∧ (l ≠ f → s'.delta1_[b]? = some d1)) ∧
    (s.delta1_[b]? = some 0 →
      ∃ sl l s', HashSet.removeLastLoop s s.capacity_ b b = Except.ok (sl, l) ∧ l ≠ b ∧
        HashSet.remove hashFunc_ NullHash s key = Except.ok (true, s') ∧
        s'.hashes_[b]? = s.hashes_[l]? ∧ s'.keys_[b]? = s.keys_[l]? ∧
        s'.delta1_[b]? = some 0 ∧
        (sl = b → s'.delta2_[b]? = some 0) ∧ (sl ≠ b → s'.delta2_[b]? = some d2)) := by
  obtain ⟨hwf, hocc, hcap, rank, hch, how⟩ := insertOnly_inv hashFunc_ NullHash hH s hs
  have hr := ranked_of_grown hashFunc_ NullHash s rank hwf hocc hch how
  have hdist := insertOnly_distinct hashFunc_ NullHash hH s hs
  obtain ⟨b', p, hf⟩ := insertOnly_found hashFunc_ NullHash hH s hs b key hh hk
  obtain ⟨-, e1, e2⟩ := findBucketIndex_found hashFunc_ NullHash s key b' p hf
  obtain rfl := hdist b' b key e1 e2 hh hk
  obtain ⟨w1, w2, w3, w4⟩ := hwf
  have hb3 : b' < s.hashes_.length := by
    rcases List.getElem?_eq_some.1 hh with ⟨w, -⟩
    exact w
  have hb : b' < s.capacity_ := by omega
  have hb4 : b' < s.keys_.length := by omega
  have hcap1 : 1 ≤ s.capacity_ := by omega
  have hnz : occupied 0 s.delta1_ + occupied 0 s.delta2_ ≤ 2 * s.capacity_ := by
    have h1 := occupied_le 0 s.delta1_
    have h2 := occupied_le 0 s.delta2_
    omega
  constructor
  · intro d1 hd1 h10
    obtain ⟨f, a1, a2, a3⟩ := hr.1 b' d1 hd1 h10
    have hf2 : f < s.delta2_.length := by omega
    have hbf : b' ≠ f := by
      intro e'
      rw [← e'] at a3
      omega
    obtain ⟨sl, l, q1, q2, q3, q4⟩ :=
      removeLastLoop_total s rank w2 hr s.capacity_ f f a2 hcap1 (by omega)
    have hl3 : l < s.hashes_.length := by omega
    have hl4 : l < s.keys_.length := by omega
    rcases q4 with ⟨z, rfl, rfl⟩ | ⟨⟨e, he, he0⟩, g1, g2, g3, dd, g4, g5, g6⟩
    · -- the chain of `b` has one bucket after `b`
      have er := removeLoop_round1 s b' (2 * s.capacity_) d1 l s.hashes_[l] s.keys_[l] hd1 h10
        a1 z hbf (List.getElem?_eq_getElem hl4) (List.getElem?_eq_getElem hl3) hb4 hb3
      obtain ⟨s', hrem, hfr⟩ := remove_unfixed_after_round hashFunc_ NullHash s _ key b' p _
        d2 l (rank l) rank hf hh hd2 h20 er
        ⟨by simp only [List.length_set, w1], by simp only [w2],
          by simp only [List.length_set, w3], by simp only [List.length_set, w4]⟩
        (ranked_congr s _ rank hr rfl
          (fun c d' h hd' => (getElem?_set_zero s.delta1_ b' c d' h hd').1)
          (fun c d' h _ => h))
        a2 (Nat.le_refl _)
        (by
          have := occupied_set_null 0 s.delta1_ b' d1 hd1 h10
          simp only
          omega)
      obtain ⟨k1, k2, k3, k4⟩ := hfr b' a3
      simp only at k1 k2 k3 k4
      rw [List.getElem?_set_self hb3] at k1
      rw [List.getElem?_set_self hb4] at k2
      rw [List.getElem?_set_self (by omega)] at k3
      exact ⟨l, l, l, s', a1, q1, hrem, by rw [k1, List.getElem?_eq_getElem hl3],
        by rw [k2, List.getElem?_eq_getElem hl4], by rw [k4, hd2], fun _ => k3,
        fun c => absurd rfl c⟩
    · -- the chain of `b` has more than one bucket after `b`
      have hbl : b' ≠ l := by
        intro e'
        subst e'
        omega
      have hlf : l ≠ f := by
        intro e'
        subst e'
        omega
      have hslb : sl ≠ b' := by
        intro e'
        subst e'
        omega
      have er := removeLoop_round2 s b' (2 * s.capacity_) d1 f e sl l s.hashes_[l] s.keys_[l]
        hd1 (Or.inl ⟨h10, a1⟩) he he0 q1 (by omega) hbl (List.getElem?_eq_getElem hl4)
        (List.getElem?_eq_getElem hl3) hb4 hb3
      obtain ⟨s', hrem, hfr⟩ := remove_unfixed_after_round hashFunc_ NullHash s _ key b' p _
        d2 l (rank l) rank hf hh hd2 h20 er
        ⟨by simp only [w1], by simp only [List.length_set, w2],
          by simp only [List.length_set, w3], by simp only [List.length_set, w4]⟩
        (ranked_congr s _ rank hr rfl (fun c d' h _ => h)
          (fun c d' h hd' => (getElem?_set_zero s.delta2_ sl c d' h hd').1))
        q2 (Nat.le_refl _)
        (by
          have := occupied_set_null 0 s.delta2_ sl dd g4 g5
          simp only
          omega)
      obtain ⟨k1, k2, k3, k4⟩ := hfr b' (by omega)
      simp only at k1 k2 k3 k4
      rw [List.getElem?_set_self hb3] at k1
      rw [List.getElem?_set_self hb4] at k2
      rw [List.getElem?_set_ne hslb] at k4
      exact ⟨f, sl, l, s', a1, q1, hrem, by rw [k1, List.getElem?_eq_getElem hl3],
        by rw [k2, List.getElem?_eq_getElem hl4], by rw [k4, hd2], fun c => absurd c hlf,
        fun _ => by rw [k3, hd1]⟩
  · intro hd1
    obtain ⟨sl, l, q1, q2, q3, q4⟩ :=
      removeLastLoop_total s rank w2 hr s.capacity_ b' b' hb hcap1 (by omega)
    have hl3 : l < s.hashes_.length := by omega
    have hl4 : l < s.keys_.length := by omega
    rcases q4 with ⟨z, -, -⟩ | ⟨-, g1, g2, g3, dd, g4, g5, g6⟩
    · rw [hd2] at z
      exact absurd (Option.some.inj z) h20
    · have hbl : b' ≠ l := by
        intro e'
        subst e'
        omega
      have hsl2 : sl < s.delta2_.length := by omega
      have er := removeLoop_round2 s b' (2 * s.capacity_) 0 b' d2 sl l s.hashes_[l] s.keys_[l]
        hd1 (Or.inr ⟨rfl, rfl⟩) hd2 h20 q1 hsl2 hbl (List.getElem?_eq_getElem hl4)
        (List.getElem?_eq_getElem hl3) hb4 hb3
      obtain ⟨s', hrem, hfr⟩ := remove_unfixed_after_round hashFunc_ NullHash s _ key b' p _
        d2 l (rank l) rank hf hh hd2 h20 er
        ⟨by simp only [w1], by simp only [List.length_set, w2],
          by simp only [List.length_set, w3], by simp only [List.length_set, w4]⟩
        (ranked_congr s _ rank hr rfl (fun c d' h _ => h)
          (fun c d' h hd' => (getElem?_set_zero s.delta2_ sl c d' h hd').1))
        q2 (Nat.le_refl _)
        (by
          have := occupied_set_null 0 s.delta2_ sl dd g4 g5
          simp only
          omega)
      obtain ⟨k1, k2, k3, k4⟩ := hfr b' g3
      simp only at k1 k2 k3 k4
      rw [List.getElem?_set_self hb3] at k1
      rw [List.getElem?_set_self hb4] at k2
      refine ⟨sl, l, s', q1, fun c => hbl c.symm, hrem,
        by rw [k1, List.getElem?_eq_getElem hl3], by rw [k2, List.getElem?_eq_getElem hl4],
        by rw [k3, hd1], ?_, ?_⟩
      · intro c
        subst c
        rw [k4, List.getElem?_set_self hsl2]
      · intro c
        rw [k4, List.getElem?_set_ne c, hd2]


end Proofs

section Witnesses

theorem exampleHash_ne_null : ∀ k, exampleHash k ≠ 0 := fun k => Nat.succ_ne_zero k

/-- C1 (defect of the code).  On a fresh set of capacity 4, with a hash function that never
returns `NullHash`, seven calls run without a fault; the last call on the key 1 is an
`insert`, and yet `contains(1)` gives false and `find(1)` the null pointer: the key sits
in bucket 1, its ideal bucket is 2. -/
theorem lost_key_after_remove :
    (∀ k, exampleHash k ≠ 0) ∧
    HashSet.fromFresh exampleHash 0 4 lostKeyCalls = Except.ok lostKeySet ∧
    HashSet.contains exampleHash 0 lostKeySet 1 = Except.ok false ∧
    HashSet.find exampleHash 0 lostKeySet 1 = Except.ok none := by
  refine ⟨exampleHash_ne_null, ?_, ?_, ?_⟩ <;> decide

/-- A sequence of calls that never misuses the set trips the assertion of `insertKey`:
after `misplacedKeyCalls`, `contains(1)` gives false and `insert(1)` stops at
`FATAL_ASSERT(hashes_[index] == NullHash)`, with `delta2_[0]` already written. -/
theorem insert_trips_assertEmpty :
    HashSet.fromFresh exampleHash 0 4 misplacedKeyCalls = Except.ok misplacedKeySet ∧
    HashSet.contains exampleHash 0 misplacedKeySet 1 = Except.ok false ∧
    HashSet.insert exampleHash 0 misplacedKeySet 1 =
      Except.error (Fault.assertEmpty, { misplacedKeySet with delta2_ := [1, 0, 0, 0] }) := by
  refine ⟨?_, ?_, ?_⟩ <;> decide

/-- Witness of C2: the keys 0, 4, 0 inserted into a fresh set of capacity 4. -/
theorem insert_uniqueness_witness :
    HashSet.fromFresh exampleHash 0 4 ([0, 4, 0].map Call.insert) = Except.ok exampleTwo ∧
    exampleTwo.size_ = [0, 4, 0].dedup.length :=
  ⟨by decide,
    ((insert_uniqueness exampleHash 0 exampleHash_ne_null 4 [0, 4, 0]).2 exampleTwo
      (by decide)).1⟩

/-- C3 (defect of the code).  Twelve `insert` and `remove` calls on a fresh set of
capacity 5 store the key 10 twice; `remove(10)` then returns true and takes one off
`size_`, and `contains(10)` still gives true. -/
theorem remove_leaves_second_copy :
    HashSet.fromFresh exampleHash 0 5 twiceTenCalls = Except.ok twiceTenSet ∧
    HashSet.remove exampleHash 0 twiceTenSet 10 = Except.ok (true, onceTenSet) ∧
    onceTenSet.size_ + 1 = twiceTenSet.size_ ∧
    HashSet.contains exampleHash 0 onceTenSet 10 = Except.ok true := by
  refine ⟨?_, ?_, ?_, ?_⟩ <;> decide

/-- Witness of C5: `insert(4)` on the reachable set `exampleOne`. -/
theorem insert_false_iff_contains_witness :
    HashSet.Reachable exampleHash 0 exampleOne ∧
    HashSet.insert exampleHash 0 exampleOne 4 = Except.ok (true, exampleTwo) ∧
    HashSet.contains exampleHash 0 exampleOne 4 = Except.ok false ∧
    HashSet.contains exampleHash 0 exampleTwo 4 = Except.ok true :=
  have hr : HashSet.Reachable exampleHash 0 exampleOne :=
    ⟨4, [Call.insert 0], by decide, by decide⟩
  have h := (insert_false_iff_contains exampleHash 0 exampleHash_ne_null exampleOne 4
    hr).2.2 true exampleTwo (by decide)
  ⟨hr, by decide, h.2.1.1 rfl, h.2.2 rfl⟩

/-- Witness of C6: `insert(4)` on `exampleOne` stores the key in bucket 2. -/
theorem insert_overwrites_nothing_witness :
    HashSet.insert exampleHash 0 exampleOne 4 = Except.ok (true, exampleTwo) ∧
    exampleTwo.size_ = exampleOne.size_ + 1 :=
  ⟨by decide,
    ((insert_overwrites_nothing exampleHash 0 exampleOne exampleTwo 4 true
      (by decide)).2 rfl).1⟩

/-- Witness of C7: the call `insert(4)` on `exampleOne`. -/
theorem size_le_capacity_witness :
    exampleOne.size_ ≤ exampleOne.capacity_ ∧
    HashSet.call exampleHash 0 exampleOne (Call.insert 4) = Except.ok exampleTwo ∧
    exampleTwo.size_ ≤ exampleTwo.capacity_ :=
  ⟨by decide, by decide,
    (size_le_capacity exampleHash 0).2 exampleOne exampleTwo (Call.insert 4)
      (by decide) (by decide)⟩

theorem fillSet_zero :
    HashSet.fromFresh exampleHash 0 257 strandedKeyCalls = Except.ok (fillSet 0) := by
  decide!

theorem fillSet_step (m : Nat) (hm : m < 254) :
    HashSet.insert exampleHash 0 (fillSet m) (m + 2) = Except.ok (true, fillSet (m + 1)) := by
  have hi : exampleHash (m + 2) % (fillSet m).capacity_ = m + 3 := by
    simp only [exampleHash, fillSet]
    omega
  have h1 := insert_empty_ideal exampleHash 0 (fillSet m) (m + 2)
    (by simp only [fillSet]; omega)
    (by
      rw [hi]
      simp only [fillSet]
      rw [List.getElem?_append_right (by simp)]
      simp only [List.length_append, List.length_cons, List.length_nil, List.length_range',
        List.getElem?_replicate]
      have : m + 3 - (0 + 1 + 1 + 1 + m) < 254 - m := by omega
      simp only [this, if_true])
    (by
      rw [hi]
      simp only [fillSet, List.length_append, List.length_cons, List.length_nil,
        List.length_range', List.length_drop, List.length_replicate]
      omega)
  rw [h1, hi]
  have e1 : 254 - m = (253 - m) + 1 := by omega
  have e2 : m < ([1, 514] ++ List.replicate 252 0).length := by
    simp only [List.length_append, List.length_cons, List.length_nil, List.length_replicate]
    omega
  have hh : ([257, 2, 259] ++ List.range' 3 m ++ List.replicate (254 - m) 0).set (m + 3)
      (exampleHash (m + 2)) =
      [257, 2, 259] ++ List.range' 3 (m + 1) ++ List.replicate (254 - (m + 1)) 0 := by
    rw [List.set_append_right _ _ (by simp), e1, List.replicate_succ]
    have : m + 3 - ([257, 2, 259] ++ List.range' 3 m).length = 0 := by simp
    rw [this, List.set_cons_zero, List.range'_concat]
    simp only [exampleHash, List.append_assoc, List.singleton_append, Nat.mul_one]
    have : 254 - (m + 1) = 253 - m := by omega
    rw [this]
    have : 3 + 1 * m = m + 2 + 1 := by omega
    rw [this]
  have hk : ([256, 1, 258] ++ List.range' 2 m ++
        List.drop m ([1, 514] ++ List.replicate 252 0)).set (m + 3) (m + 2) =
      [256, 1, 258] ++ List.range' 2 (m + 1) ++
        List.drop (m + 1) ([1, 514] ++ List.replicate 252 0) := by
    rw [List.set_append_right _ _ (by simp), List.drop_eq_getElem_cons e2]
    have : m + 3 - ([256, 1, 258] ++ List.range' 2 m).length = 0 := by simp
    rw [this, List.set_cons_zero, List.range'_concat]
    simp only [List.append_assoc, List.singleton_append, Nat.mul_one]
    have : 2 + 1 * m = m + 2 := by omega
    rw [this]
  simp only [fillSet] at hh hk ⊢
  rw [hh, hk]
  have : 3 + m + 1 = 3 + (m + 1) := by omega
  rw [this]


theorem fillSet_calls (n : Nat) :
    ∀ m, m + n ≤ 254 →
      HashSet.calls exampleHash 0 (fillSet m) ((List.range' (m + 2) n).map Call.insert)
        = Except.ok (fillSet (m + n)) := by
  induction n with
  | zero =>
    intro m _
    rfl
  | succ n ih =>
    intro m hm
    rw [List.range'_succ, List.map_cons]
    simp only [HashSet.calls, HashSet.call]
    rw [fillSet_step m (by omega)]
    simp only [ok_bind]
    have := ih (m + 1) (by omega)
    have e : m + 1 + n = m + (n + 1) := by omega
    rw [e] at this
    exact this

theorem fillSet_full :
    HashSet.fromFresh exampleHash 0 257 fullSetCalls = Except.ok (fillSet 254) := by
  have h0 := fillSet_zero
  simp only [HashSet.fromFresh, bind_ok] at h0 ⊢
  obtain ⟨s0, hs0, h0⟩ := h0
  refine ⟨s0, hs0, ?_⟩
  rw [fullSetCalls, calls_append]
  exact ⟨fillSet 0, h0, fillSet_calls 254 0 (by omega)⟩

theorem fillSet_hashes (i : Nat) (h3 : 3 ≤ i) (hi : i < 257) :
    (fillSet 254).hashes_[i]? = some i := by
  simp only [fillSet]
  rw [List.getElem?_append_left (by simp; omega), List.getElem?_append_right (by simp; omega)]
  simp only [List.length_cons, List.length_nil]
  rw [List.getElem?_range' 3 1 (by omega)]
  congr 1
  omega

theorem fillSet_search (n : Nat) :
    ∀ i, 3 ≤ i → i + n ≤ 257 →
      HashSet.linearSearchLoop 0 (fillSet 254) (exampleHash 1) 1 n i = Except.ok none := by
  induction n with
  | zero =>
    intro i _ _
    rfl
  | succ n ih =>
    intro i h3 hi
    have hb : HashSet.bucketFoundOrEmpty 0 (fillSet 254) i (exampleHash 1) 1
        = Except.ok false := by
      rw [bucketFoundOrEmpty_false]
      refine ⟨i, fillSet_hashes i h3 (by omega), by omega, fun e => ?_⟩
      simp only [exampleHash] at e
      omega
    unfold HashSet.linearSearchLoop
    simp only [hb, ok_bind, Bool.false_eq_true, if_false]
    exact ih (i + 1) (by omega) (by omega)

/-- C8 (defect of the code).  The 263 `insert` and `remove` calls `fullSetCalls` fill a
fresh set of capacity 257: `size_` is 257.  `contains(1)` gives false in it, and `insert(1)`
does not stop at `FATAL_ASSERT(size_ < capacity_)` but at `FATAL_ASSERT(delta < 256)`. -/
theorem full_insert_stops_at_delta :
    HashSet.fromFresh exampleHash 0 257 fullSetCalls = Except.ok (fillSet 254) ∧
    (fillSet 254).size_ = 257 ∧ (fillSet 254).capacity_ = 257 ∧
    HashSet.contains exampleHash 0 (fillSet 254) 1 = Except.ok false ∧
    HashSet.insert exampleHash 0 (fillSet 254) 1
      = Except.error (Fault.assertDelta, fillSet 254) := by
  refine ⟨fillSet_full, rfl, rfl, by decide!, ?_⟩
  have e0 : HashSet.bucketFoundOrEmpty 0 (fillSet 254)
      (exampleHash 1 % (fillSet 254).capacity_) (exampleHash 1) 1 = Except.ok false := by
    decide!
  have e1 : rd (fillSet 254) (fillSet 254).delta1_ (exampleHash 1 % (fillSet 254).capacity_)
      = Except.ok 0 := by
    decide!
  have e2 : HashSet.linearSearch 0 (fillSet 254)
      (exampleHash 1 % (fillSet 254).capacity_ + 1) (exampleHash 1) 1 = Except.ok 1 := by
    have hi : exampleHash 1 % (fillSet 254).capacity_ + 1 = 3 := by decide
    have hc : (fillSet 254).capacity_ - 3 = 254 := by decide
    have h2 : HashSet.linearSearchLoop 0 (fillSet 254) (exampleHash 1) 1 3 0
        = Except.ok (some 1) := by
      decide!
    unfold HashSet.linearSearch
    rw [hi, hc, fillSet_search 254 3 (by omega) (by omega)]
    simp only [ok_bind, h2]
    rfl
  have e3 : HashSet.calcNewDelta (fillSet 254) (exampleHash 1 % (fillSet 254).capacity_) 1
      = Except.error (Fault.assertDelta, fillSet 254) := by
    rfl
  unfold HashSet.insert
  simp only [e0, e1, e2, e3, ok_bind, error_bind, if_true, ne_eq, not_true_eq_false,
    if_false]


/-- C9 (defect of the code).  Eight `insert` and `remove` calls on a fresh set of
capacity 4 store the key 1 twice (`size_` is 2, and `contains(1)` gives true); `rehash(4)`
makes a set whose `size_` is 1. -/
theorem rehash_changes_size :
    HashSet.fromFresh exampleHash 0 4 (lostKeyCalls ++ [Call.insert 1])
      = Except.ok twiceStoredSet ∧
    twiceStoredSet.size_ = 2 ∧
    HashSet.contains exampleHash 0 twiceStoredSet 1 = Except.ok true ∧
    HashSet.rehash exampleHash 0 twiceStoredSet 4 =
      Except.ok { size_ := 1, capacity_ := 4, delta1_ := [0, 0, 0, 0],
                  delta2_ := [0, 0, 0, 0], hashes_ := [0, 0, 2, 0],
                  keys_ := [0, 0, 1, 0] } := by
  refine ⟨?_, ?_, ?_, ?_⟩ <;> decide

/-- Witness of C10: `rehash(1)` on `exampleTwo`, whose `size_` is 2. -/
theorem rehash_noop_witness :
    (exampleTwo.size_ = 0 ∨ 1 < exampleTwo.size_) ∧
    HashSet.rehash exampleHash 0 exampleTwo 1 = Except.ok exampleTwo :=
  ⟨by decide, rehash_noop exampleHash 0 exampleTwo 1 (by decide)⟩

/-- Witness of C11: `clear` on `exampleTwo`. -/
theorem clear_resets_witness :
    exampleTwo.WF ∧ 0 < exampleTwo.capacity_ ∧
    HashSet.clearLoops 0 exampleTwo = Except.ok (HashSet.clear 0 exampleTwo) ∧
    (∃ f : HashSet Nat, HashSet.construct 0 exampleTwo.capacity_ = Except.ok f) :=
  have hwf : exampleTwo.WF := ⟨rfl, rfl, rfl, rfl⟩
  ⟨hwf, by decide,
    (clear_resets exampleHash 0 exampleTwo).2.2.2.2.2.2.2.2.2 hwf,
    (clear_resets exampleHash 0 exampleTwo).2.2.2.2.2.2.1 (by decide)⟩

/-- Witness of C12: the keys 2, 10 and 18 have the hashes 3, 11 and 19. -/
theorem collision_scenario_witness :
    exampleHash 2 = 3 ∧ exampleHash 10 = 11 ∧ exampleHash 18 = 19 ∧
    HashSet.fromFresh exampleHash 0 8
        [Call.insert 2, Call.insert 2, Call.insert 10, Call.insert 18]
      = Except.ok (collisionThree 0 2 10 18) :=
  ⟨rfl, rfl, rfl,
    (collision_scenario exampleHash 0 2 10 18 rfl rfl rfl (by decide)).2.2.2.2.2⟩

/-- The lookup of a key of ideal bucket 1 that `cycleSet` does not hold goes round the
buckets 2 and 0 whatever number of steps it is given. -/
theorem cycleSet_walk (fuel : Nat) :
    ∀ p, HashSet.findBucketIndexLoop cycleSet 13 12 fuel 2 p
        = Except.error (Fault.nonTermination, cycleSet) ∧
      HashSet.findBucketIndexLoop cycleSet 13 12 fuel 0 p
        = Except.error (Fault.nonTermination, cycleSet) := by
  induction fuel with
  | zero =>
    intro p
    exact ⟨rfl, rfl⟩
  | succ fuel ih =>
    intro p
    constructor
    · have h := (ih 2).2
      unfold HashSet.findBucketIndexLoop
      have e1 : rd cycleSet cycleSet.delta2_ 2 = Except.ok 2 := rfl
      have e2 : HashSet.addDelta2 cycleSet 2 = Except.ok 0 := rfl
      have e3 : HashSet.bucketFound cycleSet 0 13 12 = Except.ok false := rfl
      simp only [e1, e2, e3, ok_bind]
      exact h
    · have h := (ih 0).1
      unfold HashSet.findBucketIndexLoop
      have e1 : rd cycleSet cycleSet.delta2_ 0 = Except.ok 2 := rfl
      have e2 : HashSet.addDelta2 cycleSet 0 = Except.ok 2 := rfl
      have e3 : HashSet.bucketFound cycleSet 2 13 12 = Except.ok false := rfl
      simp only [e1, e2, e3, ok_bind]
      exact h

/-- The inner loop of `remove` goes round the buckets 0 and 2 of `cycleSet` whatever
number of steps it is given. -/
theorem cycleSet_last (fuel : Nat) :
    ∀ p, HashSet.removeLastLoop cycleSet fuel p 0
        = Except.error (Fault.nonTermination, cycleSet) ∧
      HashSet.removeLastLoop cycleSet fuel p 2
        = Except.error (Fault.nonTermination, cycleSet) := by
  induction fuel with
  | zero =>
    intro p
    exact ⟨rfl, rfl⟩
  | succ fuel ih =>
    intro p
    constructor
    · have h := (ih 0).2
      unfold HashSet.removeLastLoop
      have e1 : rd cycleSet cycleSet.delta2_ 0 = Except.ok 2 := rfl
      have e2 : HashSet.addDelta2 cycleSet 0 = Except.ok 2 := rfl
      simp only [e1, e2, ok_bind]
      exact h
    · have h := (ih 2).1
      unfold HashSet.removeLastLoop
      have e1 : rd cycleSet cycleSet.delta2_ 2 = Except.ok 2 := rfl
      have e2 : HashSet.addDelta2 cycleSet 2 = Except.ok 0 := rfl
      simp only [e1, e2, ok_bind]
      exact h

/-- C14 (defect of the code).  Ten `insert` and `remove` calls on a fresh set of capacity
4 run without a fault and leave `delta2_[0]` leading to bucket 2 and `delta2_[2]` leading
back to bucket 0.  The walk of `contains(12)`, which enters the cycle from bucket 1 by
`delta1_[1]`, and the inner loop of `remove(0)` have not ended after any number of steps;
`contains(12)`, `find(12)`, `insert(12)` and `remove(0)` never return. -/
theorem delta2_cycle_after_remove :
    HashSet.fromFresh exampleHash 0 4 cycleCalls = Except.ok cycleSet ∧
    HashSet.addDelta1 cycleSet 1 = Except.ok 2 ∧
    cycleSet.delta2_[2]? = some 2 ∧ HashSet.addDelta2 cycleSet 2 = Except.ok 0 ∧
    cycleSet.delta2_[0]? = some 2 ∧ HashSet.addDelta2 cycleSet 0 = Except.ok 2 ∧
    (∀ fuel p, HashSet.findBucketIndexLoop cycleSet (exampleHash 12) 12 fuel 2 p
      = Except.error (Fault.nonTermination, cycleSet)) ∧
    (∀ fuel p, HashSet.removeLastLoop cycleSet fuel p 0
      = Except.error (Fault.nonTermination, cycleSet)) ∧
    HashSet.contains exampleHash 0 cycleSet 12
      = Except.error (Fault.nonTermination, cycleSet) ∧
    HashSet.find exampleHash 0 cycleSet 12
      = Except.error (Fault.nonTermination, cycleSet) ∧
    HashSet.insert exampleHash 0 cycleSet 12
      = Except.error (Fault.nonTermination, cycleSet) ∧
    HashSet.remove exampleHash 0 cycleSet 0
      = Except.error (Fault.nonTermination, cycleSet) := by
  refine ⟨by decide, by decide, by decide, by decide, by decide, by decide,
    fun fuel p => (cycleSet_walk fuel p).1, fun fuel p => (cycleSet_last fuel p).1,
    by decide, by decide, by decide, by decide⟩

/-- C17 (defect of the code).  Seven `insert` and `remove` calls on a fresh set of
capacity 4 run without a fault and leave `delta1_[1] = 1` leading to bucket 2, which is
empty. -/
theorem chain_hole_after_remove :
    HashSet.fromFresh exampleHash 0 4 holeCalls = Except.ok holeSet ∧
    holeSet.delta1_[1]? = some 1 ∧
    HashSet.addDelta1 holeSet 1 = Except.ok 2 ∧
    holeSet.hashes_[2]? = some 0 := by
  refine ⟨?_, ?_, ?_, ?_⟩ <;> decide

/-- C19 (defect of the code).  Nine `insert` and `remove` calls on a fresh set of capacity
4 run without a fault and leave the chain of bucket 1 ending in the empty bucket 2, the
only empty one.  In `insert(0)` the walk ends at bucket 2, the linear search from bucket 3
comes round to bucket 2, `calcNewDelta(2, 2)` is 0, and `insert` stores this 0 in
`delta2_[2]` and returns true. -/
theorem insert_stores_zero_delta :
    HashSet.fromFresh exampleHash 0 4 zeroDeltaCalls = Except.ok zeroDeltaSet ∧
    HashSet.addDelta1 zeroDeltaSet 1 = Except.ok 2 ∧
    HashSet.insertLoop zeroDeltaSet (exampleHash 0) 0 4 2 = Except.ok (some 2) ∧
    HashSet.linearSearch 0 zeroDeltaSet 3 (exampleHash 0) 0 = Except.ok 2 ∧
    HashSet.calcNewDelta zeroDeltaSet 2 2 = Except.ok 0 ∧
    HashSet.insert exampleHash 0 zeroDeltaSet 0 = Except.ok (true, zeroDeltaAfter) ∧
    zeroDeltaAfter.delta2_[2]? = some 0 ∧ zeroDeltaAfter.keys_[2]? = some 0 := by
  refine ⟨?_, ?_, ?_, ?_, ?_, ?_, ?_, ?_⟩ <;> decide

/-- Witness of C15: the call `insert(4)` on `exampleOne`. -/
theorem size_counts_occupied_witness :
    exampleOne.WF ∧ exampleOne.size_ = occupied 0 exampleOne.hashes_ ∧
    HashSet.call exampleHash 0 exampleOne (Call.insert 4) = Except.ok exampleTwo ∧
    exampleTwo.size_ = occupied 0 exampleTwo.hashes_ :=
  have hwf : exampleOne.WF := ⟨rfl, rfl, rfl, rfl⟩
  ⟨hwf, by decide, by decide,
    ((size_counts_occupied exampleHash 0 exampleHash_ne_null).2 exampleOne exampleTwo
      (Call.insert 4) hwf (by decide) (by decide)).2⟩

/-- Witness of C18: in `exampleTwo`, of capacity 4, the delta 1 stored in `delta1_[1]` is
the forward distance from bucket 1 to bucket 2. -/
theorem delta_round_trip_witness :
    1 < exampleTwo.capacity_ ∧ 2 < exampleTwo.capacity_ ∧
    exampleTwo.delta1_[1]? = some ((2 + exampleTwo.capacity_ - 1) % exampleTwo.capacity_) ∧
    HashSet.calcNewDelta exampleTwo 1 2 = Except.ok 1 ∧
    HashSet.addDelta1 exampleTwo 1 = Except.ok 2 :=
  ⟨by decide, by decide, by decide,
    (delta_round_trip exampleTwo 1 2 (by decide) (by decide)).1,
    (delta_round_trip exampleTwo 1 2 (by decide) (by decide)).2.1 (by decide)⟩

/-- C20 (defect of the code).  The nine calls `misplacedKeyCalls` on a fresh set of
capacity 4 all return and leave the key 1 in bucket 1.  The walk of `insert(1)` ends at
bucket 0, whose `delta2_` is 0, and the linear search from bucket 1 stops at once, at
bucket 1, which holds the key 1.  The call does not return false and does not leave the
deltas alone: it stores 1 in `delta2_[0]` and stops at
`FATAL_ASSERT(hashes_[index] == NullHash)`. -/
theorem duplicate_scan_not_false :
    HashSet.fromFresh exampleHash 0 4 misplacedKeyCalls = Except.ok misplacedKeySet ∧
    HashSet.insertLoop misplacedKeySet (exampleHash 1) 1 4 0 = Except.ok (some 0) ∧
    HashSet.linearSearch 0 misplacedKeySet 1 (exampleHash 1) 1 = Except.ok 1 ∧
    misplacedKeySet.hashes_[1]? = some (exampleHash 1) ∧
    misplacedKeySet.keys_[1]? = some 1 ∧
    misplacedKeySet.delta2_[0]? = some 0 ∧
    HashSet.insert exampleHash 0 misplacedKeySet 1 ≠ Except.ok (false, misplacedKeySet) ∧
    HashSet.insert exampleHash 0 misplacedKeySet 1 =
      Except.error (Fault.assertEmpty, { misplacedKeySet with delta2_ := [1, 0, 0, 0] }) := by
  refine ⟨?_, ?_, ?_, ?_, ?_, ?_, ?_, ?_⟩ <;> decide

/-- The call `insert(1)` on `misplacedKeySet` as an instance of the general form. -/
theorem duplicate_scan_stops_witness :
    misplacedKeySet.hashes_[1]? = some (exampleHash 1) ∧ exampleHash 1 ≠ 0 ∧
    HashSet.linearSearch 0 misplacedKeySet (0 + 1) (exampleHash 1) 1 = Except.ok 1 ∧
    ∃ f u, HashSet.insert exampleHash 0 misplacedKeySet 1 = Except.error (f, u) ∧
      u.size_ = misplacedKeySet.size_ ∧ u.hashes_ = misplacedKeySet.hashes_ ∧
      u.keys_ = misplacedKeySet.keys_ ∧
      ((f = Fault.assertDelta ∧ u = misplacedKeySet) ∨
        ∃ d, HashSet.calcNewDelta misplacedKeySet 0 1 = Except.ok d ∧
          u = { misplacedKeySet with delta2_ := misplacedKeySet.delta2_.set 0 d } ∧
          ((f = Fault.assertSize ∧ misplacedKeySet.capacity_ ≤ misplacedKeySet.size_) ∨
            (f = Fault.assertEmpty ∧ misplacedKeySet.size_ < misplacedKeySet.capacity_))) :=
  ⟨by decide, by decide, by decide,
    (duplicate_scan_stops exampleHash 0 misplacedKeySet 1 1 (by decide) (by decide)).2
      2 0 0 (by decide) (by decide) (by decide) (by decide) (by decide) (by decide)
      (by decide)⟩

/-- Counterexample to C13 as stated.  In the set made by `insert(0)`, `insert(4)`,
`insert(8)` on a fresh set of capacity 4, bucket 1 holds the key 0, whose ideal bucket is
1, and `delta1_[1]` leads to bucket 2, which holds the key 4.  After `remove(0)` bucket 1
holds the key 8, not the key 4, and `delta1_[1]` is still 1. -/
theorem remove_moves_last_key :
    HashSet.fromFresh exampleHash 0 4 [Call.insert 0, Call.insert 4, Call.insert 8]
      = Except.ok chainSet ∧
    chainSet.keys_[1]? = some 0 ∧ exampleHash 0 % chainSet.capacity_ = 1 ∧
    chainSet.delta1_[1]? = some 1 ∧ HashSet.addDelta1 chainSet 1 = Except.ok 2 ∧
    chainSet.keys_[2]? = some 4 ∧
    HashSet.remove exampleHash 0 chainSet 0 = Except.ok (true, chainAfter) ∧
    chainAfter.keys_[1]? = some 8 ∧ chainAfter.keys_[1]? ≠ some 4 ∧
    chainAfter.delta1_[1]? = some 1 ∧ chainAfter.delta1_[1]? ≠ some 0 := by
  refine ⟨?_, ?_, ?_, ?_, ?_, ?_, ?_, ?_, ?_, ?_, ?_⟩ <;> decide

/-- Witness of C13 as amended: `remove(0)` on `exampleTwo`, where bucket 1 holds the key 0
and `delta1_[1]` leads to bucket 2, the last bucket of the chain. -/
theorem remove_ideal_key_witness :
    HashSet.InsertOnly exampleHash 0 exampleTwo ∧
    exampleTwo.keys_[1]? = some 0 ∧ exampleTwo.hashes_[1]? = some 1 ∧
    1 % exampleTwo.capacity_ = 1 ∧ exampleTwo.delta1_[1]? = some 1 ∧
    ∃ f sl l s', HashSet.addDelta1 exampleTwo 1 = Except.ok f ∧
      HashSet.removeLastLoop exampleTwo exampleTwo.capacity_ f f = Except.ok (sl, l) ∧
      HashSet.remove exampleHash 0 exampleTwo 0 = Except.ok (true, s') ∧
      s'.hashes_[1]? = exampleTwo.hashes_[l]? ∧ s'.keys_[1]? = exampleTwo.keys_[l]? ∧
      (exampleTwo.delta2_[f]? = some 0 → l = f ∧ s'.delta1_[1]? = some 0) ∧
      (exampleTwo.delta2_[f]? ≠ some 0 →
        l ≠ f ∧ s'.delta1_[1]? = some 1 ∧
        s'.hashes_[f]? = exampleTwo.hashes_[f]? ∧ s'.keys_[f]? = exampleTwo.keys_[f]?) ∧
      (∀ kf, exampleTwo.keys_[f]? = some kf →
        HashSet.contains exampleHash 0 s' kf = Except.ok true) :=
  have hs : HashSet.InsertOnly exampleHash 0 exampleTwo := ⟨4, [0, 4], by decide⟩
  ⟨hs, by decide, by decide, by decide, by decide,
    remove_ideal_key exampleHash 0 exampleHash_ne_null exampleTwo hs 1 1 1 0
      (by decide) (by decide) (by decide) (by decide) (by decide) (by decide)⟩

/-- Counterexample to C16 as stated.  In the set made by `insert(0)`, `insert(4)`,
`insert(1)` on a fresh set of capacity 4 the key 1 is contained and its ideal bucket is 2.
The walk from bucket 2 visits the buckets 2 and 3, and bucket 2 holds the hash 5 of the
key 4, whose ideal bucket is 1. -/
theorem chain_visits_foreign_key :
    HashSet.fromFresh exampleHash 0 4 [Call.insert 0, Call.insert 4, Call.insert 1]
      = Except.ok foreignSet ∧
    HashSet.contains exampleHash 0 foreignSet 1 = Except.ok true ∧
    exampleHash 1 % foreignSet.capacity_ = 2 ∧
    HashSet.chain foreignSet 2 = Except.ok [2, 3] ∧
    foreignSet.hashes_[2]? = some 5 ∧ foreignSet.keys_[2]? = some 4 ∧
    5 % foreignSet.capacity_ = 1 ∧ 5 % foreignSet.capacity_ ≠ 2 := by
  refine ⟨?_, ?_, ?_, ?_, ?_, ?_, ?_, ?_⟩ <;> decide

/-- Witness of C16 as amended: the chain of bucket 2 of `foreignSet`. -/
theorem chain_holds_own_keys_witness :
    HashSet.InsertOnly exampleHash 0 foreignSet ∧ 2 < foreignSet.capacity_ ∧
    ∃ w, HashSet.chain foreignSet 2 = Except.ok (2 :: w) ∧
      ∀ (c : Nat), c ∈ w ↔
        (c ≠ 2 ∧ ∃ hv, foreignSet.hashes_[c]? = some hv ∧ hv ≠ 0 ∧
          hv % foreignSet.capacity_ = 2) :=
  have hs : HashSet.InsertOnly exampleHash 0 foreignSet := ⟨4, [0, 4, 1], by decide⟩
  ⟨hs, by decide,
    chain_holds_own_keys exampleHash 0 exampleHash_ne_null foreignSet hs 2 (by decide)⟩

/-- C21 (defect of the code).  In the set made by `insert(0)`, `insert(4)`, `insert(1)`,
`insert(8)` on a fresh set of capacity 4, bucket 2 holds the key 4 and both its deltas are
not 0: `delta1_[2]` leads to bucket 3 with the key 1, and the `delta2_` chain that starts
at bucket 2 ends at bucket 0 with the key 8.  The call `remove(4)` vacates bucket 2 and
follows `delta1_[2]` while `delta2_[2]` is not 0: afterwards bucket 2 holds the key 1 of
bucket 3, not the key 8, `delta1_[2]` is 0 and bucket 3 is empty, and `delta2_[2]` and
bucket 0 are what they were.  Bucket 2 is still a link of the chain of bucket 1 and now
holds a key of ideal bucket 2: after `remove(0)` and `remove(8)`, which both return,
the key 1 sits in bucket 1 and `contains(1)` gives false. -/
theorem tie_break_follows_delta1 :
    HashSet.fromFresh exampleHash 0 4
      [Call.insert 0, Call.insert 4, Call.insert 1, Call.insert 8] = Except.ok tieSet ∧
    HashSet.findBucketIndex exampleHash 0 tieSet 4 = Except.ok (true, 2, 1) ∧
    tieSet.delta1_[2]? = some 1 ∧ tieSet.delta2_[2]? = some 2 ∧
    HashSet.addDelta1 tieSet 2 = Except.ok 3 ∧ tieSet.keys_[3]? = some 1 ∧
    HashSet.chainLoop tieSet 4 2 = Except.ok [2, 0] ∧ tieSet.keys_[0]? = some 8 ∧
    HashSet.remove exampleHash 0 tieSet 4 = Except.ok (true, tieAfter) ∧
    tieAfter.keys_[2]? = some 1 ∧ tieAfter.keys_[2]? ≠ some 8 ∧
    tieAfter.hashes_[2]? = some (exampleHash 1) ∧
    tieAfter.delta1_[2]? = some 0 ∧ tieAfter.hashes_[3]? = some 0 ∧
    tieAfter.delta2_[2]? = some 2 ∧ tieAfter.delta2_[2]? ≠ some 0 ∧
    tieAfter.hashes_[0]? = some (exampleHash 8) ∧ tieAfter.keys_[0]? = some 8 ∧
    HashSet.addDelta1 tieAfter 1 = Except.ok 2 ∧
    exampleHash 1 % tieAfter.capacity_ = 2 ∧
    HashSet.contains exampleHash 0 tieAfter 1 = Except.ok true ∧
    HashSet.calls exampleHash 0 tieAfter [Call.remove 0, Call.remove 8]
      = Except.ok lostKeySet ∧
    lostKeySet.keys_[1]? = some 1 ∧ lostKeySet.hashes_[1]? = some (exampleHash 1) ∧
    HashSet.contains exampleHash 0 lostKeySet 1 = Except.ok false := by
  refine ⟨?_, ?_, ?_, ?_, ?_, ?_, ?_, ?_, ?_, ?_, ?_, ?_, ?_, ?_, ?_, ?_, ?_, ?_, ?_, ?_,
    ?_, ?_, ?_, ?_, ?_⟩ <;> decide

/-- The order in which the code follows the deltas, on two sets made by `insert` calls
only: `remove(4)` on `tieSet`, where bucket 2 holds the key 4 and both `delta1_[2]` and
`delta2_[2]` are not 0, and `remove(4)` on `chainSet`, where bucket 2 holds the key 4,
`delta1_[2]` is 0 and `delta2_[2]` is not. -/
theorem remove_tie_break_witness :
    HashSet.InsertOnly exampleHash 0 tieSet ∧
    tieSet.keys_[2]? = some 4 ∧ tieSet.hashes_[2]? = some (exampleHash 4) ∧
    tieSet.delta2_[2]? = some 2 ∧ tieSet.delta1_[2]? = some 1 ∧
    (∀ d1, tieSet.delta1_[2]? = some d1 → d1 ≠ 0 →
      ∃ f sl l s', HashSet.addDelta1 tieSet 2 = Except.ok f ∧
        HashSet.removeLastLoop tieSet tieSet.capacity_ f f = Except.ok (sl, l) ∧
        HashSet.remove exampleHash 0 tieSet 4 = Except.ok (true, s') ∧
        s'.hashes_[2]? = tieSet.hashes_[l]? ∧ s'.keys_[2]? = tieSet.keys_[l]? ∧
        s'.delta2_[2]? = some 2 ∧
        (l = f → s'.delta1_[2]? = some 0) ∧ (l ≠ f → s'.delta1_[2]? = some d1)) ∧
    (tieSet.delta1_[2]? = some 0 →
      ∃ sl l s', HashSet.removeLastLoop tieSet tieSet.capacity_ 2 2 = Except.ok (sl, l) ∧
        l ≠ 2 ∧ HashSet.remove exampleHash 0 tieSet 4 = Except.ok (true, s') ∧
        s'.hashes_[2]? = tieSet.hashes_[l]? ∧ s'.keys_[2]? = tieSet.keys_[l]? ∧
        s'.delta1_[2]? = some 0 ∧
        (sl = 2 → s'.delta2_[2]? = some 0) ∧ (sl ≠ 2 → s'.delta2_[2]? = some 2)) ∧
    HashSet.InsertOnly exampleHash 0 chainSet ∧
    chainSet.keys_[2]? = some 4 ∧ chainSet.hashes_[2]? = some (exampleHash 4) ∧
    chainSet.delta2_[2]? = some 1 ∧ chainSet.delta1_[2]? = some 0 ∧
    (∃ sl l s', HashSet.removeLastLoop chainSet chainSet.capacity_ 2 2 = Except.ok (sl, l) ∧
      l ≠ 2 ∧ HashSet.remove exampleHash 0 chainSet 4 = Except.ok (true, s') ∧
      s'.hashes_[2]? = chainSet.hashes_[l]? ∧ s'.keys_[2]? = chainSet.keys_[l]? ∧
      s'.delta1_[2]? = some 0 ∧
      (sl = 2 → s'.delta2_[2]? = some 0) ∧ (sl ≠ 2 → s'.delta2_[2]? = some 1)) :=
  have hs : HashSet.InsertOnly exampleHash 0 tieSet := ⟨4, [0, 4, 1, 8], by decide⟩
  have hc : HashSet.InsertOnly exampleHash 0 chainSet := ⟨4, [0, 4, 8], by decide⟩
  ⟨hs, by decide, by decide, by decide, by decide,
    (remove_tie_break exampleHash 0 exampleHash_ne_null tieSet hs 2 2 4
      (by decide) (by decide) (by decide) (by decide)).1,
    (remove_tie_break exampleHash 0 exampleHash_ne_null tieSet hs 2 2 4
      (by decide) (by decide) (by decide) (by decide)).2,
    hc, by decide, by decide, by decide, by decide,
    (remove_tie_break exampleHash 0 exampleHash_ne_null chainSet hc 2 1 4
      (by decide) (by decide) (by decide) (by decide)).2 (by decide)⟩

/-- Witness of C22: `remove(4)` on `tieSet`, which holds the keys 0, 4, 1 and 8. -/
theorem single_remove_keeps_others_witness :
    HashSet.InsertOnly exampleHash 0 tieSet ∧
    HashSet.contains exampleHash 0 tieSet 4 = Except.ok true ∧
    ∃ s', HashSet.remove exampleHash 0 tieSet 4 = Except.ok (true, s') ∧
      HashSet.contains exampleHash 0 s' 4 = Except.ok false ∧
      ∀ k', k' ≠ 4 → HashSet.contains exampleHash 0 tieSet k' = Except.ok true →
        HashSet.contains exampleHash 0 s' k' = Except.ok true :=
  have hs : HashSet.InsertOnly exampleHash 0 tieSet := ⟨4, [0, 4, 1, 8], by decide⟩
  ⟨hs, by decide,
    single_remove_keeps_others exampleHash 0 exampleHash_ne_null tieSet hs 4 (by decide)⟩

/-- Witness of C23: the lookup of the key 8 in `holeSet`, whose empty buckets 0, 2 and 3
still hold the keys 8, 1 and 1. -/
theorem lookup_no_false_positive_witness :
    HashSet.WF holeSet ∧ exampleHash 8 ≠ 0 ∧
    HashSet.find exampleHash 0 holeSet 8 = Except.ok (some 1) ∧
    (HashSet.contains exampleHash 0 holeSet 8 = Except.ok true →
      ∃ i, HashSet.find exampleHash 0 holeSet 8 = Except.ok (some i)) ∧
    (∀ i, HashSet.find exampleHash 0 holeSet 8 = Except.ok (some i) →
      HashSet.contains exampleHash 0 holeSet 8 = Except.ok true ∧ i < holeSet.capacity_ ∧
      holeSet.hashes_[i]? = some (exampleHash 8) ∧ holeSet.hashes_[i]? ≠ some 0 ∧
      holeSet.keys_[i]? = some 8) :=
  have hwf : HashSet.WF holeSet := ⟨rfl, rfl, rfl, rfl⟩
  ⟨hwf, by decide, by decide,
    lookup_no_false_positive exampleHash 0 holeSet hwf 8 (by decide)⟩

/-- Witness of C24: the set `cycleSet` that `cycleCalls` make on a fresh set of capacity 4,
in which the walk of a lookup can go round two buckets for ever. -/
theorem indices_in_range_witness :
    (∀ k, exampleHash k ≠ 0) ∧
    HashSet.fromFresh exampleHash 0 4 cycleCalls = Except.ok cycleSet ∧
    HashSet.contains exampleHash 0 cycleSet 12
      = Except.error (Fault.nonTermination, cycleSet) ∧
    0 < cycleSet.capacity_ ∧
    ((∀ c ∈ cycleCalls, Call.keepsCapacity c = true) → cycleSet.capacity_ = 4) ∧
    cycleSet.WF ∧
    (∀ (i d : Nat), cycleSet.delta1_[i]? = some d → d < cycleSet.capacity_) ∧
    (∀ (i d : Nat), cycleSet.delta2_[i]? = some d → d < cycleSet.capacity_) ∧
    (∀ b, b < cycleSet.capacity_ →
      ∃ n, HashSet.addDelta1 cycleSet b = Except.ok n ∧ n < cycleSet.capacity_) ∧
    (∀ b, b < cycleSet.capacity_ →
      ∃ n, HashSet.addDelta2 cycleSet b = Except.ok n ∧ n < cycleSet.capacity_) ∧
    (∀ key, InBounds (HashSet.insert exampleHash 0 cycleSet key) ∧
      InBounds (HashSet.contains exampleHash 0 cycleSet key) ∧
      InBounds (HashSet.find exampleHash 0 cycleSet key) ∧
      InBounds (HashSet.remove exampleHash 0 cycleSet key)) ∧
    (∀ (fuel hv : Nat) (k : Nat) (b p : Nat), b < cycleSet.capacity_ →
      p < cycleSet.capacity_ →
      InBounds (HashSet.insertLoop cycleSet hv k fuel b) ∧
      InBounds (HashSet.findBucketIndexLoop cycleSet hv k fuel b p) ∧
      InBounds (HashSet.removeLastLoop cycleSet fuel p b) ∧
      InBounds (HashSet.removeLoop fuel cycleSet b)) ∧
    (∀ (t hv : Nat) (k : Nat) (n : Nat), t < cycleSet.capacity_ →
      HashSet.linearSearch 0 cycleSet (t + 1) hv k = Except.ok n →
      ¬ n < cycleSet.capacity_ →
      cycleSet.size_ = cycleSet.capacity_ ∧
      ∀ (u : HashSet Nat), u.size_ = cycleSet.size_ → u.capacity_ = cycleSet.capacity_ →
        HashSet.insertKey 0 u n hv k = Except.error (Fault.assertSize, u)) :=
  ⟨exampleHash_ne_null, by decide, by decide,
    indices_in_range exampleHash 0 exampleHash_ne_null 4 cycleCalls cycleSet (by decide)⟩

end Witnesses

end nctl
